import Mathlib

/-!
Verification of the WAVL-tree ordered map (`wavl` package, `src/wavl.ts`).

The source is an imperative pointer-based weak-AVL tree with a shared
sentinel node (`NIL`) standing for every absent child and for the parent
of the root.  We embed the heap shallowly: nodes live in an arena
addressed by natural numbers, index `0` is the sentinel, and every
pointer field is an index.  Each TypeScript statement that writes a
field becomes a functional update of the arena, performed in the
source's order, so aliasing behaves exactly as in the program.

Loops in the source terminate by tree structure; here they take explicit
fuel.  Every wrapper passes `t.alloc` (the arena bound); the
well-formedness lemmas show this fuel is never exhausted on represented
trees.

Keys and values are specialised to `Int` (the spec's property tests use
integer keys).  The comparator is passed explicitly to the functions
that read `tree.compare`; the source stores it in the tree at
construction and never mutates it.
-/

namespace Wavl

/-- Rank parity of a node: `Zero = 0` (even rank), `One = -1` (odd rank,
also the parity of the sentinel, whose rank is `-1`).  Mirrors the
`RankParity` const enum. -/
def RankParity.Zero : Int := 0

/-- Rank parity `One`, the value `-1` (bitwise `~0`). -/
def RankParity.One : Int := -1

/-- A WAVL node: key, value, rank parity, the three links and the
tombstone flag, exactly the fields of class `WAVLNode`. -/
structure Node where
  key : Int
  value : Int
  parity : Int
  parent : Nat
  left : Nat
  right : Nat
  removed : Bool
deriving DecidableEq, Repr

/-- The sentinel node `NIL`: parity `One`, self-linked (the constructor
sets `left`, `right` and `parent` to `this`, and `NIL` is at index 0).
Its key and value are `undefined` in the source; they are never read, we
put `0`. -/
def nilNode : Node :=
  { key := 0, value := 0, parity := RankParity.One
    parent := 0, left := 0, right := 0, removed := false }

/-- A WAVL tree: the arena of nodes (index 0 is `NIL`), the bound of the
allocated region, the root index and the size.  `size` is an `Int`
because the source uses a plain JavaScript number and decrements it
without a floor. -/
structure Tree where
  nodes : Nat → Node
  alloc : Nat
  root : Nat
  size : Int

/-- Read a node from the arena. -/
def getN (t : Tree) (i : Nat) : Node := t.nodes i

/-- Write a node to the arena. -/
def setN (t : Tree) (i : Nat) (n : Node) : Tree :=
  { t with nodes := Function.update t.nodes i n }

/-- `node.left = j` -/
def setLeft (t : Tree) (i j : Nat) : Tree := setN t i { getN t i with left := j }

/-- `node.right = j` -/
def setRight (t : Tree) (i j : Nat) : Tree := setN t i { getN t i with right := j }

/-- `node.parent = j` -/
def setParent (t : Tree) (i j : Nat) : Tree := setN t i { getN t i with parent := j }

/-- `node.parity = p` -/
def setParity (t : Tree) (i : Nat) (p : Int) : Tree := setN t i { getN t i with parity := p }

/-- `node.removed = b` -/
def setRemoved (t : Tree) (i : Nat) (b : Bool) : Tree := setN t i { getN t i with removed := b }

/-- The empty tree: arena holding only `NIL`, next free index 1. -/
def emptyTree : Tree :=
  { nodes := fun _ => nilNode, alloc := 1, root := 0, size := 0 }

/-- The ascending comparator (`ascending` in the source). -/
def ascending (a b : Int) : Int := if a < b then -1 else if b < a then 1 else 0

/-- The descending comparator (`descending` in the source). -/
def descending (a b : Int) : Int := if b < a then -1 else if a < b then 1 else 0

/-- `promote(node)`: flip the rank parity (`node.parity = ~node.parity`;
on the two's-complement values `0` and `-1` bitwise not is `-1 - x`). -/
def promote (t : Tree) (i : Nat) : Tree := setParity t i (-1 - (getN t i).parity)

/-- `demote(node)`: flip the rank parity, same operation as `promote`. -/
def demote (t : Tree) (i : Nat) : Tree := setParity t i (-1 - (getN t i).parity)

/-- Loop of `minimum`: `while (curr !== NIL) { node = curr; curr = curr.left }`. -/
def minimumGo (t : Tree) : Nat → Nat → Nat → Nat
  | 0, node, _ => node
  | fuel + 1, node, curr =>
    if curr = 0 then node else minimumGo t fuel curr (getN t curr).left

/-- `minimum(node)`: the leftmost node of the subtree rooted at `node`
(`node` itself if its left child is `NIL`; `NIL` stays `NIL` because the
sentinel is self-linked). -/
def minimum (t : Tree) (node : Nat) : Nat := minimumGo t t.alloc node (getN t node).left

/-- Loop of `maximum`. -/
def maximumGo (t : Tree) : Nat → Nat → Nat → Nat
  | 0, node, _ => node
  | fuel + 1, node, curr =>
    if curr = 0 then node else maximumGo t fuel curr (getN t curr).right

/-- `maximum(node)`: the rightmost node of the subtree rooted at `node`. -/
def maximum (t : Tree) (node : Nat) : Nat := maximumGo t t.alloc node (getN t node).right

/-- Parent walk of `predecessor`:
`while (parent !== NIL && parent.left === node) { node = parent; parent = parent.parent }`. -/
def predUpGo (t : Tree) : Nat → Nat → Nat → Nat
  | 0, _, parent => parent
  | fuel + 1, node, parent =>
    if parent ≠ 0 ∧ (getN t parent).left = node then
      predUpGo t fuel parent (getN t parent).parent
    else parent

/-- `predecessor(node)`: previous node in order, `NIL` if none. -/
def predecessor (t : Tree) (node : Nat) : Nat :=
  if (getN t node).left ≠ 0 then maximum t (getN t node).left
  else predUpGo t t.alloc node (getN t node).parent

/-- Parent walk of `successor`. -/
def succUpGo (t : Tree) : Nat → Nat → Nat → Nat
  | 0, _, parent => parent
  | fuel + 1, node, parent =>
    if parent ≠ 0 ∧ (getN t parent).right = node then
      succUpGo t fuel parent (getN t parent).parent
    else parent

/-- `successor(node)`: next node in order, `NIL` if none. -/
def successor (t : Tree) (node : Nat) : Nat :=
  if (getN t node).right ≠ 0 then minimum t (getN t node).right
  else succUpGo t t.alloc node (getN t node).parent

/-- `rotateLeft(tree, node, right)`, statement by statement; every field
read happens on the heap produced by the preceding writes, as in the
source. -/
def rotateLeft (t : Tree) (node r : Nat) : Tree :=
  let np := (getN t node).parent
  let t1 :=
    if np = 0 then { t with root := r }
    else if (getN t np).left = node then setLeft t np r
    else setRight t np r
  let t2 := setParent t1 r np
  let t3 := setRight t2 node (getN t2 r).left
  let t4 := if (getN t3 r).left ≠ 0 then setParent t3 (getN t3 r).left node else t3
  let t5 := setLeft t4 r node
  setParent t5 node r

/-- `rotateRight(tree, node, left)`. -/
def rotateRight (t : Tree) (node l : Nat) : Tree :=
  let np := (getN t node).parent
  let t1 :=
    if np = 0 then { t with root := l }
    else if (getN t np).left = node then setLeft t np l
    else setRight t np l
  let t2 := setParent t1 l np
  let t3 := setLeft t2 node (getN t2 l).right
  let t4 := if (getN t3 l).right ≠ 0 then setParent t3 (getN t3 l).right node else t3
  let t5 := setRight t4 l node
  setParent t5 node l

/-- `rotateLeftRight(tree, parent, node, right)`: left rotation on
`node` followed by right rotation on `parent`, done with the fused
pointer writes of the source. -/
def rotateLeftRight (t : Tree) (parent node r : Nat) : Tree :=
  let pp := (getN t parent).parent
  let t1 :=
    if pp = 0 then { t with root := r }
    else if (getN t pp).left = parent then setLeft t pp r
    else setRight t pp r
  let t2 := setParent t1 r pp
  let t3 := setLeft t2 parent (getN t2 r).right
  let t4 := if (getN t3 r).right ≠ 0 then setParent t3 (getN t3 r).right parent else t3
  let t5 := setRight t4 node (getN t4 r).left
  let t6 := if (getN t5 r).left ≠ 0 then setParent t5 (getN t5 r).left node else t5
  let t7 := setLeft t6 r node
  let t8 := setParent t7 node r
  let t9 := setRight t8 r parent
  setParent t9 parent r

/-- `rotateRightLeft(tree, parent, node, left)`. -/
def rotateRightLeft (t : Tree) (parent node l : Nat) : Tree :=
  let pp := (getN t parent).parent
  let t1 :=
    if pp = 0 then { t with root := l }
    else if (getN t pp).left = parent then setLeft t pp l
    else setRight t pp l
  let t2 := setParent t1 l pp
  let t3 := setRight t2 parent (getN t2 l).left
  let t4 := if (getN t3 l).left ≠ 0 then setParent t3 (getN t3 l).left parent else t3
  let t5 := setLeft t4 node (getN t4 l).right
  let t6 := if (getN t5 l).right ≠ 0 then setParent t5 (getN t5 l).right node else t5
  let t7 := setLeft t6 l parent
  let t8 := setParent t7 parent l
  let t9 := setRight t8 l node
  setParent t9 node l

/-- Descent of `search`. -/
def searchGo (cmp : Int → Int → Int) (t : Tree) : Nat → Nat → Int → Nat
  | 0, _, _ => 0
  | fuel + 1, node, key =>
    if node = 0 then 0
    else
      let c := cmp key (getN t node).key
      if c = 0 then node
      else if c < 0 then searchGo cmp t fuel (getN t node).left key
      else searchGo cmp t fuel (getN t node).right key

/-- `search(tree, key)`: the node with the given key, `NIL` if absent. -/
def search (cmp : Int → Int → Int) (t : Tree) (key : Int) : Nat :=
  searchGo cmp t t.alloc t.root key

/-- `replace(node, value)`: swap in a new value, return the old one. -/
def replace (t : Tree) (node : Nat) (value : Int) : Int × Tree :=
  ((getN t node).value, setN t node { getN t node with value := value })

/-- `Branch`: the side at which a new node would attach. -/
inductive Branch where
  | Left
  | Right
deriving DecidableEq, Repr

/-- Loop of `insertFixup`, ascending from the promoted parent. -/
def insertFixupGo : Nat → Tree → Nat → Tree
  | 0, t, _ => t
  | fuel + 1, t, node =>
    if node = 0 then t
    else
      let parent := (getN t node).parent
      if parent = 0 ∨ (getN t parent).parity ≠ (getN t node).parity then t
      else if (getN t parent).left = node then
        if (getN t parent).parity ≠ (getN t (getN t parent).right).parity then
          insertFixupGo fuel (promote t parent) parent
        else
          let child := (getN t node).right
          if (getN t node).parity = (getN t child).parity then
            let t1 := rotateRight t parent node
            demote t1 parent
          else
            let t1 := rotateLeftRight t parent node child
            let t2 := demote t1 parent
            let t3 := demote t2 node
            promote t3 child
      else
        if (getN t parent).parity ≠ (getN t (getN t parent).left).parity then
          insertFixupGo fuel (promote t parent) parent
        else
          let child := (getN t node).left
          if (getN t node).parity = (getN t child).parity then
            let t1 := rotateLeft t parent node
            demote t1 parent
          else
            let t1 := rotateRightLeft t parent node child
            let t2 := demote t1 parent
            let t3 := demote t2 node
            promote t3 child

/-- `insertFixup(tree, parent)`: promote the parent of the freshly
grafted leaf, then walk upward restoring the rank rule. -/
def insertFixup (t : Tree) (parent : Nat) : Tree :=
  insertFixupGo t.alloc (promote t parent) parent

/-- `insertEmpty(tree, parent, branch, key, value)`: graft a fresh leaf
(parity `Zero`) at the given slot, run `insertFixup` when the parent was
previously a leaf, bump the size.  Returns the new node's index. -/
def insertEmpty (t : Tree) (parent : Nat) (branch : Branch) (key value : Int) :
    Tree × Nat :=
  let i := t.alloc
  let n : Node :=
    { key := key, value := value, parity := RankParity.Zero
      parent := parent, left := 0, right := 0, removed := false }
  let t0 : Tree := { t with nodes := Function.update t.nodes i n, alloc := t.alloc + 1 }
  let t1 :=
    if parent = 0 then { t0 with root := i }
    else if branch = Branch.Left then
      let t' := setLeft t0 parent i
      if (getN t' parent).right = 0 then insertFixup t' parent else t'
    else
      let t' := setRight t0 parent i
      if (getN t' parent).left = 0 then insertFixup t' parent else t'
  ({ t1 with size := t1.size + 1 }, i)

/-- Descent of `insert`: find the key, replacing its value on a hit,
grafting a new leaf on a miss. -/
def insertGo (cmp : Int → Int → Int) :
    Nat → Tree → Nat → Nat → Branch → Int → Int → Option Int × Tree
  | 0, t, _, _, _, _, _ => (none, t)
  | fuel + 1, t, node, parent, branch, key, value =>
    if node = 0 then (none, (insertEmpty t parent branch key value).1)
    else
      let c := cmp key (getN t node).key
      if c = 0 then
        let (old, t') := replace t node value
        (some old, t')
      else if c < 0 then
        insertGo cmp fuel t (getN t node).left node Branch.Left key value
      else
        insertGo cmp fuel t (getN t node).right node Branch.Right key value

/-- `insert(tree, key, value)`: returns the old value on a hit,
`undefined` (`none`) after grafting a new node. -/
def insert (cmp : Int → Int → Int) (t : Tree) (key value : Int) : Option Int × Tree :=
  insertGo cmp t.alloc t t.root 0 Branch.Left key value

/-- Loop of `removeFixup`: repair the 3-child deficit walking upward.
`ascend()` is inlined as the recursive call with `(parent.parent, parent)`. -/
def removeFixupGo : Nat → Tree → Nat → Nat → Tree
  | 0, t, _, _ => t
  | fuel + 1, t, parent, node =>
    if parent = 0 ∨ (getN t parent).parity = (getN t node).parity then t
    else if (getN t parent).left = node then
      let sibling := (getN t parent).right
      if (getN t parent).parity = (getN t sibling).parity then
        let t1 := demote t parent
        removeFixupGo fuel t1 (getN t1 parent).parent parent
      else
        let nearNephew := (getN t sibling).left
        let farNephew := (getN t sibling).right
        if (getN t sibling).parity = (getN t farNephew).parity then
          if (getN t sibling).parity = (getN t nearNephew).parity then
            let t1 := demote t sibling
            let t2 := demote t1 parent
            removeFixupGo fuel t2 (getN t2 parent).parent parent
          else
            let t1 := rotateRightLeft t parent sibling nearNephew
            demote t1 sibling
        else
          let t1 := rotateLeft t parent sibling
          let t2 := promote t1 sibling
          if (getN t2 parent).left ≠ 0 ∨ (getN t2 parent).right ≠ 0 then
            demote t2 parent
          else t2
    else
      let sibling := (getN t parent).left
      if (getN t parent).parity = (getN t sibling).parity then
        let t1 := demote t parent
        removeFixupGo fuel t1 (getN t1 parent).parent parent
      else
        let nearNephew := (getN t sibling).right
        let farNephew := (getN t sibling).left
        if (getN t sibling).parity = (getN t farNephew).parity then
          if (getN t sibling).parity = (getN t nearNephew).parity then
            let t1 := demote t sibling
            let t2 := demote t1 parent
            removeFixupGo fuel t2 (getN t2 parent).parent parent
          else
            let t1 := rotateLeftRight t parent sibling nearNephew
            demote t1 sibling
        else
          let t1 := rotateRight t parent sibling
          let t2 := promote t1 sibling
          if (getN t2 parent).left ≠ 0 ∨ (getN t2 parent).right ≠ 0 then
            demote t2 parent
          else t2

/-- `removeFixup(tree, parent, node)`: the special `2,2`-leaf start case
(demote the now-childless parity-`One` parent and ascend), then the
repair loop. -/
def removeFixup (t : Tree) (parent node : Nat) : Tree :=
  if node = 0 ∧ (getN t parent).parity = RankParity.One then
    if (getN t parent).left = node then
      if (getN t parent).right ≠ 0 then t
      else
        let t1 := demote t parent
        removeFixupGo t1.alloc t1 (getN t1 parent).parent parent
    else
      if (getN t parent).left ≠ 0 then t
      else
        let t1 := demote t parent
        removeFixupGo t1.alloc t1 (getN t1 parent).parent parent
  else removeFixupGo t.alloc t parent node

/-- Shared tail of `remove` for a node with at most one non-`NIL`
child: splice the child into the node's slot and fix up. -/
def removeOneChild (t : Tree) (node child : Nat) : Tree :=
  let parent := (getN t node).parent
  let t1 := if child ≠ 0 then setParent t child parent else t
  if parent = 0 then { t1 with root := child }
  else
    let t2 :=
      if (getN t1 parent).left = node then setLeft t1 parent child
      else setRight t1 parent child
    removeFixup t2 parent child

/-- `remove(tree, node)`: tombstone the node, splice it out (two-child
case swaps in the in-order predecessor by position), fix up, and return
the detached node's index. -/
def remove (t : Tree) (node : Nat) : Tree × Nat :=
  let ta : Tree := { t with size := t.size - 1 }
  let tb := setRemoved ta node true
  if (getN tb node).left = 0 then
    (removeOneChild tb node (getN tb node).right, node)
  else if (getN tb node).right = 0 then
    (removeOneChild tb node (getN tb node).left, node)
  else
    let pred := maximum tb (getN tb node).left
    let parent0 := (getN tb pred).parent
    let child := (getN tb pred).left
    let t1 := setParity tb pred (getN tb node).parity
    let t2 := setRight t1 pred (getN t1 node).right
    let t3 := setParent t2 (getN t2 node).right pred
    let pc : Tree × Nat :=
      if parent0 = node then (t3, pred)
      else
        let u1 := setLeft t3 pred (getN t3 node).left
        let u2 := setParent u1 (getN u1 node).left pred
        let u3 := setRight u2 parent0 child
        let u4 := if child ≠ 0 then setParent u3 child parent0 else u3
        (u4, parent0)
    let t4 := pc.1
    let parent := pc.2
    let t5 := setParent t4 pred (getN t4 node).parent
    let t6 :=
      if (getN t5 node).parent = 0 then { t5 with root := pred }
      else if (getN t5 (getN t5 node).parent).left = node then
        setLeft t5 (getN t5 node).parent pred
      else setRight t5 (getN t5 node).parent pred
    (removeFixup t6 parent child, node)

/-- `clear(tree)`: reset root and size; the arena (and in particular
every `removed` flag) is untouched. -/
def clear (t : Tree) : Tree := { t with root := 0, size := 0 }

/-- The four error taxa the map surfaces.  The source throws plain
`Error`s; the constructors here correspond to its four messages:
"The node is removed." (stale cursor), "The key is not greater/less
than the previous/next key." (key order violation), "The start key is
greater than the end key." (invalid range) and "This range is removed."
(consumed range). -/
inductive Err where
  | staleCursor
  | keyOrderViolation
  | invalidRange
  | consumedRange
deriving DecidableEq, Repr

instance {ε α : Type} [DecidableEq ε] [DecidableEq α] : DecidableEq (Except ε α) := by
  intro a b
  cases a with
  | error x =>
    cases b with
    | error y =>
      exact if h : x = y then isTrue (by rw [h])
        else isFalse (fun hc => by cases hc; exact h rfl)
    | ok y => exact isFalse (fun hc => by cases hc)
  | ok x =>
    cases b with
    | error y => exact isFalse (fun hc => by cases hc)
    | ok y =>
      exact if h : x = y then isTrue (by rw [h])
        else isFalse (fun hc => by cases hc; exact h rfl)

/-- `validate(node)`: throw if the node carries the tombstone. -/
def validate (t : Tree) (node : Nat) : Except Err Unit :=
  if (getN t node).removed then .error .staleCursor else .ok ()

/-- `validateKey(tree, prev, key, next)`: the key must be strictly
between its in-order neighbours. -/
def validateKey (cmp : Int → Int → Int) (t : Tree) (prev : Nat) (key : Int)
    (next : Nat) : Except Err Unit :=
  if prev ≠ 0 ∧ cmp (getN t prev).key key ≥ 0 then .error .keyOrderViolation
  else if next ≠ 0 ∧ cmp key (getN t next).key ≥ 0 then .error .keyOrderViolation
  else .ok ()

/-- Descent of `searchEntry`: the node on a hit, otherwise the would-be
parent and the side at which the key would attach. -/
def searchEntryGo (cmp : Int → Int → Int) (t : Tree) :
    Nat → Nat → Nat → Branch → Int → Nat × Nat × Branch
  | 0, node, parent, branch, _ => (node, parent, branch)
  | fuel + 1, node, parent, branch, key =>
    if node = 0 then (node, parent, branch)
    else
      let c := cmp key (getN t node).key
      if c = 0 then (node, parent, branch)
      else if c < 0 then
        searchEntryGo cmp t fuel (getN t node).left node Branch.Left key
      else
        searchEntryGo cmp t fuel (getN t node).right node Branch.Right key

/-- `searchEntry(tree, key)`. -/
def searchEntry (cmp : Int → Int → Int) (t : Tree) (key : Int) :
    Nat × Nat × Branch :=
  searchEntryGo cmp t t.alloc t.root 0 Branch.Left key

/-- The inner state of a cursor: `Occupied(tree, node)` or
`Vacant(tree, node, branch, key)`.  The tree is threaded separately;
the vacant `key` is `none` when the source stores `undefined`. -/
inductive Inner where
  | occupied (node : Nat)
  | vacant (node : Nat) (branch : Branch) (key : Option Int)
deriving DecidableEq, Repr

/-- `isEmpty` of an inner cursor. -/
def Inner.isEmpty : Inner → Bool
  | .occupied _ => false
  | .vacant _ _ _ => true

/-- The node (occupied) or anchor (vacant) the cursor holds; what
`validate` inspects. -/
def Inner.node : Inner → Nat
  | .occupied n => n
  | .vacant n _ _ => n

/-- `key` getter: the node's key when occupied, the stored key hint when
vacant. -/
def Inner.keyGet (t : Tree) : Inner → Option Int
  | .occupied n => some (getN t n).key
  | .vacant _ _ k => k

/-- `value` getter: the node's value when occupied, `undefined` when
vacant. -/
def Inner.valueGet (t : Tree) : Inner → Option Int
  | .occupied n => some (getN t n).value
  | .vacant _ _ _ => none

/-- `entry` getter. -/
def Inner.entryGet (t : Tree) : Inner → Option (Int × Int)
  | .occupied n => some ((getN t n).key, (getN t n).value)
  | .vacant _ _ _ => none

/-- `Occupied.prev` / `Vacant.prev`. -/
def Inner.prev (t : Tree) : Inner → Inner
  | .occupied n =>
    if (getN t n).left ≠ 0 then .occupied (maximum t (getN t n).left)
    else
      let parent := predecessor t n
      if parent = 0 then .vacant n Branch.Left none
      else .occupied parent
  | .vacant n branch key =>
    if n = 0 then .vacant 0 Branch.Left none
    else if branch = Branch.Left then
      let node := predecessor t n
      if node = 0 then .vacant n branch key
      else .occupied node
    else .occupied n

/-- `Occupied.next` / `Vacant.next`. -/
def Inner.next (t : Tree) : Inner → Inner
  | .occupied n =>
    if (getN t n).right ≠ 0 then .occupied (minimum t (getN t n).right)
    else
      let parent := successor t n
      if parent = 0 then .vacant n Branch.Right none
      else .occupied parent
  | .vacant n branch key =>
    if n = 0 then .vacant 0 Branch.Right none
    else if branch = Branch.Right then
      let node := successor t n
      if node = 0 then .vacant n branch key
      else .occupied node
    else .occupied n

/-- `Vacant#insert` (the private helper behind the vacant
`insertBefore`/`insertAfter`): key-order check against the computed
neighbours, then graft at the stored slot. -/
def Inner.vacantInsert (cmp : Int → Int → Int) (t : Tree) (n : Nat)
    (branch : Branch) (key value : Int) : Except Err Inner × Tree :=
  let pn : Nat × Nat :=
    if branch = Branch.Left then (predecessor t n, n)
    else (n, successor t n)
  match validateKey cmp t pn.1 key pn.2 with
  | .error e => (.error e, t)
  | .ok _ =>
    let r := insertEmpty t n branch key value
    (.ok (.occupied r.2), r.1)

/-- `Occupied.insertBefore` / `Vacant.insertBefore`. -/
def Inner.insertBefore (cmp : Int → Int → Int) (t : Tree) :
    Inner → Int → Int → Except Err Inner × Tree
  | .occupied n, key, value =>
    let prev := predecessor t n
    match validateKey cmp t prev key n with
    | .error e => (.error e, t)
    | .ok _ =>
      if (getN t n).left = 0 then
        let r := insertEmpty t n Branch.Left key value
        (.ok (.occupied r.2), r.1)
      else
        let r := insertEmpty t prev Branch.Right key value
        (.ok (.occupied r.2), r.1)
  | .vacant n branch _, key, value => Inner.vacantInsert cmp t n branch key value

/-- `Occupied.insertAfter` / `Vacant.insertAfter`. -/
def Inner.insertAfter (cmp : Int → Int → Int) (t : Tree) :
    Inner → Int → Int → Except Err Inner × Tree
  | .occupied n, key, value =>
    let next := successor t n
    match validateKey cmp t n key next with
    | .error e => (.error e, t)
    | .ok _ =>
      if (getN t n).right = 0 then
        let r := insertEmpty t n Branch.Right key value
        (.ok (.occupied r.2), r.1)
      else
        let r := insertEmpty t next Branch.Left key value
        (.ok (.occupied r.2), r.1)
  | .vacant n branch _, key, value => Inner.vacantInsert cmp t n branch key value

/-- `Occupied.delete` / `Vacant.delete`. -/
def Inner.delete (t : Tree) : Inner → Bool × Tree
  | .occupied n => (true, (remove t n).1)
  | .vacant _ _ _ => (false, t)

/-- `Occupied.remove` / `Vacant.remove`. -/
def Inner.removeEntry (t : Tree) : Inner → Option (Int × Int) × Tree
  | .occupied n =>
    let r := remove t n
    (some ((getN r.1 r.2).key, (getN r.1 r.2).value), r.1)
  | .vacant _ _ _ => (none, t)

/-- A `WAVLMapEntry`: the public cursor object, owning a reassignable
inner cursor. -/
structure MapEntry where
  inner : Inner
deriving DecidableEq, Repr

/-- `WAVLMapEntry#isEmpty`. -/
def MapEntry.isEmpty (e : MapEntry) : Bool := e.inner.isEmpty

/-- `WAVLMapEntry#key`. -/
def MapEntry.keyGet (t : Tree) (e : MapEntry) : Option Int := e.inner.keyGet t

/-- `WAVLMapEntry#value`. -/
def MapEntry.valueGet (t : Tree) (e : MapEntry) : Option Int := e.inner.valueGet t

/-- `WAVLMapEntry#entry`. -/
def MapEntry.entryGet (t : Tree) (e : MapEntry) : Option (Int × Int) := e.inner.entryGet t

/-- `WAVLMapEntry#validate`. -/
def MapEntry.validate (t : Tree) (e : MapEntry) : Except Err Unit :=
  Wavl.validate t e.inner.node

/-- `WAVLMapEntry#prev`: validate, then a new entry at the previous
position. -/
def MapEntry.prev (t : Tree) (e : MapEntry) : Except Err MapEntry :=
  match e.validate t with
  | .error er => .error er
  | .ok _ => .ok ⟨e.inner.prev t⟩

/-- `WAVLMapEntry#next`. -/
def MapEntry.next (t : Tree) (e : MapEntry) : Except Err MapEntry :=
  match e.validate t with
  | .error er => .error er
  | .ok _ => .ok ⟨e.inner.next t⟩

/-- `WAVLMapEntry#insertBefore`: validate, run the inner insertion, and
when this entry was vacant morph it in place onto the new inner cursor.
Returns (result, the possibly-morphed `this`, the tree). -/
def MapEntry.insertBefore (cmp : Int → Int → Int) (t : Tree) (e : MapEntry)
    (key value : Int) : Except Err MapEntry × MapEntry × Tree :=
  match e.validate t with
  | .error er => (.error er, e, t)
  | .ok _ =>
    match e.inner.insertBefore cmp t key value with
    | (.error er, t') => (.error er, e, t')
    | (.ok inner, t') =>
      if e.inner.isEmpty then (.ok ⟨inner⟩, ⟨inner⟩, t')
      else (.ok ⟨inner⟩, e, t')

/-- `WAVLMapEntry#insertAfter`. -/
def MapEntry.insertAfter (cmp : Int → Int → Int) (t : Tree) (e : MapEntry)
    (key value : Int) : Except Err MapEntry × MapEntry × Tree :=
  match e.validate t with
  | .error er => (.error er, e, t)
  | .ok _ =>
    match e.inner.insertAfter cmp t key value with
    | (.error er, t') => (.error er, e, t')
    | (.ok inner, t') =>
      if e.inner.isEmpty then (.ok ⟨inner⟩, ⟨inner⟩, t')
      else (.ok ⟨inner⟩, e, t')

/-- `WAVLMapEntry#delete`. -/
def MapEntry.delete (t : Tree) (e : MapEntry) : Except Err Bool × Tree :=
  match e.validate t with
  | .error er => (.error er, t)
  | .ok _ =>
    let r := e.inner.delete t
    (.ok r.1, r.2)

/-- `WAVLMapEntry#remove`. -/
def MapEntry.removeEntry (t : Tree) (e : MapEntry) :
    Except Err (Option (Int × Int)) × Tree :=
  match e.validate t with
  | .error er => (.error er, t)
  | .ok _ =>
    let r := e.inner.removeEntry t
    (.ok r.1, r.2)

/-- `WAVLMapEntryWithKey#insert(value)`: when vacant, graft at the
stored slot with the stored key and morph `this` into an occupied
cursor; when occupied, replace the value and return the old one.
(The stored key of a keyed vacant cursor is always present; the
`none` fallback is unreachable through the public API, where the
keyed constructor is produced by `entry(key)`.) -/
def MapEntry.keyedInsert (t : Tree) (e : MapEntry) (value : Int) :
    Except Err (Option Int) × MapEntry × Tree :=
  match e.validate t with
  | .error er => (.error er, e, t)
  | .ok _ =>
    match e.inner with
    | .vacant n branch (some k) =>
      let r := insertEmpty t n branch k value
      (.ok none, ⟨.occupied r.2⟩, r.1)
    | .vacant _ _ none => (.ok none, e, t)
    | .occupied n =>
      let r := replace t n value
      (.ok (some r.1), e, r.2)

/-- `entry(tree, key)`: a keyed cursor at the key's node or slot. -/
def entry (cmp : Int → Int → Int) (t : Tree) (key : Int) : MapEntry :=
  let (node, parent, branch) := searchEntry cmp t key
  if node = 0 then ⟨.vacant parent branch (some key)⟩
  else ⟨.occupied node⟩

/-- The classification of a range (`Kind` const enum); every kind other
than `Default` denotes an empty range. -/
inductive Kind where
  | Default
  | Exclusive
  | Before
  | After
  | Removed
deriving DecidableEq, Repr

/-- `isEmpty(kind)`. -/
def kindIsEmpty (k : Kind) : Bool := k ≠ Kind.Default

/-- Lower-bound resolution of `searchRange` (step “resolve `lower`”):
returns `none` for the early `After` exit, otherwise `(lower, prev)`.
`prev` is `undefined` in the source when `start` is absent or found
non-exclusively; it is only ever compared against a non-`NIL` `upper`,
so `0` models it faithfully. -/
def srLower (cmp : Int → Int → Int) (t : Tree) (start : Option Int)
    (exclusive : Bool) : Option (Nat × Nat) :=
  match start with
  | none => some (minimum t t.root, 0)
  | some s =>
    let (node, parent, branch) := searchEntry cmp t s
    if node ≠ 0 then
      if exclusive then some (node, predecessor t node) else some (node, 0)
    else if branch = Branch.Left then
      some (parent, predecessor t parent)
    else
      let lower := successor t parent
      if lower = 0 then none else some (lower, parent)

/-- Upper-bound resolution of `searchRange` (step “resolve `upper`”). -/
def srUpper (cmp : Int → Int → Int) (t : Tree) (stop : Option Int)
    (exclusive : Bool) (lower prev : Nat) : Nat × Nat × Kind :=
  match stop with
  | none => (lower, maximum t t.root, Kind.Default)
  | some e =>
    let (node, parent, branch) := searchEntry cmp t e
    if node ≠ 0 then
      if exclusive then
        if lower = node then (node, node, Kind.Exclusive)
        else (lower, predecessor t node, Kind.Default)
      else (lower, node, Kind.Default)
    else if branch = Branch.Right then
      if prev = parent then (parent, lower, Kind.Exclusive)
      else (lower, parent, Kind.Default)
    else
      let upper := predecessor t parent
      if upper = 0 then (0, 0, Kind.Before)
      else if prev = upper then (upper, lower, Kind.Exclusive)
      else (lower, upper, Kind.Default)

/-- `searchRange(map, tree, start, end, exclusive)`: classify the
interval, raising `InvalidRange` when both keys are given out of
order. -/
def searchRange (cmp : Int → Int → Int) (t : Tree) (start stop : Option Int)
    (exclusive : Bool) : Except Err (Nat × Nat × Kind) :=
  match start, stop with
  | some s, some e =>
    if cmp s e > 0 then .error .invalidRange
    else .ok (searchRangeBody cmp t (some s) (some e) exclusive)
  | s, e => .ok (searchRangeBody cmp t s e exclusive)
where
  /-- Body of `searchRange` after the argument check. -/
  searchRangeBody (cmp : Int → Int → Int) (t : Tree) (start stop : Option Int)
      (exclusive : Bool) : Nat × Nat × Kind :=
    if t.root = 0 then (0, 0, Kind.Before)
    else
      match srLower cmp t start exclusive with
      | none => (0, 0, Kind.After)
      | some (lower, prev) => srUpper cmp t stop exclusive lower prev

/-- A `WAVLMapRange` object: the bounds and the kind (the map and tree
back-references are threaded separately). -/
structure MapRange where
  lower : Nat
  upper : Nat
  kind : Kind
deriving DecidableEq, Repr

/-- `range(map, tree, start, end, exclusive)`. -/
def range (cmp : Int → Int → Int) (t : Tree) (start stop : Option Int)
    (exclusive : Bool) : Except Err MapRange :=
  match searchRange cmp t start stop exclusive with
  | .error e => .error e
  | .ok (lower, upper, kind) => .ok ⟨lower, upper, kind⟩

/-- Read-only walk `lower → upper` by `successor` (the iteration pattern
of `forEachNode` with a non-mutating callback, of `forEach` and of the
`inorder` generator): the visited node indices. -/
def rangeNodesGo (t : Tree) : Nat → Nat → Nat → List Nat
  | 0, _, _ => []
  | fuel + 1, node, upper =>
    if node = 0 then []
    else
      let next := if node = upper then 0 else successor t node
      node :: rangeNodesGo t fuel next upper

/-- `WAVLMapRange#inorder` (also the spine of `keys`/`values`/`entries`
and `forEach`): empty kinds yield nothing; otherwise both bounds are
validated and the slice is walked in order. -/
def MapRange.inorder (t : Tree) (r : MapRange) : Except Err (List Nat) :=
  if kindIsEmpty r.kind then .ok []
  else
    match validate t r.lower with
    | .error e => .error e
    | .ok _ =>
      match validate t r.upper with
      | .error e => .error e
      | .ok _ => .ok (rangeNodesGo t t.alloc r.lower r.upper)

/-- `WAVLMapRange#count`: `forEachNode` with a counting callback (the
`remove` flag stays `false`, so the kind is unchanged). -/
def MapRange.count (t : Tree) (r : MapRange) : Except Err Int :=
  if r.kind = Kind.Removed then .ok 0
  else if kindIsEmpty r.kind then .ok 0
  else
    match validate t r.lower with
    | .error e => .error e
    | .ok _ =>
      match validate t r.upper with
      | .error e => .error e
      | .ok _ => .ok ((rangeNodesGo t t.alloc r.lower r.upper).length : Int)

/-- Destructive walk of `WAVLMapRange#delete`: pre-fetch the next node,
remove the current one, continue; counts the removals. -/
def rangeDeleteGo : Nat → Tree → Nat → Nat → Int → Int × Tree
  | 0, t, _, _, acc => (acc, t)
  | fuel + 1, t, node, upper, acc =>
    if node = 0 then (acc, t)
    else
      let next := if node = upper then 0 else successor t node
      let t' := (remove t node).1
      rangeDeleteGo fuel t' next upper (acc + 1)

/-- `WAVLMapRange#delete`: single consumption — an already-`Removed`
range returns 0 untouched; otherwise the kind becomes `Removed` first
(before the bounds are validated) and the slice is deleted. -/
def MapRange.delete (t : Tree) (r : MapRange) :
    Except Err Int × MapRange × Tree :=
  if r.kind = Kind.Removed then (.ok 0, r, t)
  else
    let r' : MapRange := { r with kind := Kind.Removed }
    if kindIsEmpty r.kind then (.ok 0, r', t)
    else
      match validate t r.lower with
      | .error e => (.error e, r', t)
      | .ok _ =>
        match validate t r.upper with
        | .error e => (.error e, r', t)
        | .ok _ =>
          let d := rangeDeleteGo t.alloc t r.lower r.upper 0
          (.ok d.1, r', d.2)

/-- Destructive walk of `WAVLMapRange#remove`: read the pair, remove,
continue. -/
def rangeRemoveGo : Nat → Tree → Nat → Nat → List (Int × Int) → List (Int × Int) × Tree
  | 0, t, _, _, acc => (acc, t)
  | fuel + 1, t, node, upper, acc =>
    if node = 0 then (acc, t)
    else
      let next := if node = upper then 0 else successor t node
      let pair := ((getN t node).key, (getN t node).value)
      let t' := (remove t node).1
      rangeRemoveGo fuel t' next upper (acc ++ [pair])

/-- `WAVLMapRange#remove`: like `delete`, returning the removed pairs. -/
def MapRange.removeAll (t : Tree) (r : MapRange) :
    Except Err (List (Int × Int)) × MapRange × Tree :=
  if r.kind = Kind.Removed then (.ok [], r, t)
  else
    let r' : MapRange := { r with kind := Kind.Removed }
    if kindIsEmpty r.kind then (.ok [], r', t)
    else
      match validate t r.lower with
      | .error e => (.error e, r', t)
      | .ok _ =>
        match validate t r.upper with
        | .error e => (.error e, r', t)
        | .ok _ =>
          let d := rangeRemoveGo t.alloc t r.lower r.upper []
          (.ok d.1, r', d.2)

/-- `WAVLMapRange#isEmpty`. -/
def MapRange.isEmpty (r : MapRange) : Bool := kindIsEmpty r.kind

/-- `WAVLMapRange#first`: validate the lower bound, then an occupied
cursor on `Default`, a vacant cursor at the adjacent slot on
`Exclusive`, a vacant cursor at the tree minimum/maximum on
`Before`/`After`, and `ConsumedRange` on `Removed`. -/
def MapRange.first (t : Tree) (r : MapRange) : Except Err MapEntry :=
  match validate t r.lower with
  | .error e => .error e
  | .ok _ =>
    match r.kind with
    | .Default => .ok ⟨.occupied r.lower⟩
    | .Exclusive =>
      if (getN t r.lower).right = 0 then
        .ok ⟨.vacant r.lower Branch.Right none⟩
      else
        .ok ⟨.vacant (minimum t (getN t r.lower).right) Branch.Left none⟩
    | .Before => .ok ⟨.vacant (minimum t t.root) Branch.Left none⟩
    | .After => .ok ⟨.vacant (maximum t t.root) Branch.Right none⟩
    | .Removed => .error .consumedRange

/-- `WAVLMapRange#last`. -/
def MapRange.last (t : Tree) (r : MapRange) : Except Err MapEntry :=
  match validate t r.upper with
  | .error e => .error e
  | .ok _ =>
    match r.kind with
    | .Default => .ok ⟨.occupied r.upper⟩
    | .Exclusive =>
      if (getN t r.upper).left = 0 then
        .ok ⟨.vacant r.upper Branch.Left none⟩
      else
        .ok ⟨.vacant (maximum t (getN t r.upper).left) Branch.Right none⟩
    | .Before => .ok ⟨.vacant (minimum t t.root) Branch.Left none⟩
    | .After => .ok ⟨.vacant (maximum t t.root) Branch.Right none⟩
    | .Removed => .error .consumedRange

/-- Walk of `WAVLMap#inorder`: from the tree minimum by `successor`. -/
def inorderGo (t : Tree) : Nat → Nat → List Nat
  | 0, _ => []
  | fuel + 1, node =>
    if node = 0 then [] else node :: inorderGo t fuel (successor t node)

/-- `WAVLMap#inorder`: every node index in key order. -/
def mapInorder (t : Tree) : List Nat := inorderGo t t.alloc (minimum t t.root)

/-- `WAVLMap#entries` (and the iterable protocol / `toJSON`): the
`(key, value)` pairs in order. -/
def mapEntries (t : Tree) : List (Int × Int) :=
  (mapInorder t).map fun i => ((getN t i).key, (getN t i).value)

/-- `WAVLMap#keys`. -/
def mapKeys (t : Tree) : List Int := (mapInorder t).map fun i => (getN t i).key

/-- `WAVLMap#has`. -/
def mapHas (cmp : Int → Int → Int) (t : Tree) (key : Int) : Bool :=
  search cmp t key ≠ 0

/-- `WAVLMap#get`. -/
def mapGet (cmp : Int → Int → Int) (t : Tree) (key : Int) : Option Int :=
  let node := search cmp t key
  if node = 0 then none else some (getN t node).value

/-- `WAVLMap#set` (returns `this`; the new tree here). -/
def mapSet (cmp : Int → Int → Int) (t : Tree) (key value : Int) : Tree :=
  (insert cmp t key value).2

/-- `WAVLMap#insert`. -/
def mapInsert (cmp : Int → Int → Int) (t : Tree) (key value : Int) :
    Option Int × Tree :=
  insert cmp t key value

/-- `WAVLMap#delete`. -/
def mapDelete (cmp : Int → Int → Int) (t : Tree) (key : Int) : Bool × Tree :=
  let node := search cmp t key
  if node = 0 then (false, t) else (true, (remove t node).1)

/-- `WAVLMap#remove`. -/
def mapRemove (cmp : Int → Int → Int) (t : Tree) (key : Int) :
    Option Int × Tree :=
  let node := search cmp t key
  if node = 0 then (none, t)
  else
    let r := remove t node
    (some (getN r.1 r.2).value, r.1)

/-- `WAVLMap#first`: an occupied cursor on the minimum, or a vacant
cursor on the empty tree (`minimum` maps the sentinel to itself). -/
def mapFirst (t : Tree) : MapEntry :=
  let node := minimum t t.root
  if node = 0 then ⟨.vacant 0 Branch.Left none⟩ else ⟨.occupied node⟩

/-- `WAVLMap#last`. -/
def mapLast (t : Tree) : MapEntry :=
  let node := maximum t t.root
  if node = 0 then ⟨.vacant 0 Branch.Right none⟩ else ⟨.occupied node⟩

/-- `WAVLMap#clear`. -/
def mapClear (t : Tree) : Tree := clear t

/-! ## Framing lemmas

The mutating primitives only touch the fields they name; these lemmas
record which node fields each compound operation can change.  They drive
all the cursor-survival claims (a removal never rewrites another node's
key, value or tombstone). -/

@[simp] theorem getN_mk (f : Nat → Node) (a : Nat) (r : Nat) (s : Int) (i : Nat) :
    getN ⟨f, a, r, s⟩ i = f i := rfl

@[simp] theorem nodes_eq_getN (t : Tree) (i : Nat) : t.nodes i = getN t i := rfl

theorem getN_setN_self (t : Tree) (i : Nat) (n : Node) : getN (setN t i n) i = n := by
  simp only [getN, setN]
  exact Function.update_same i n t.nodes

theorem getN_setN_ne (t : Tree) (i j : Nat) (n : Node) (h : j ≠ i) :
    getN (setN t i n) j = getN t j := by
  simp only [getN, setN]
  exact Function.update_noteq h n t.nodes

@[simp] theorem key_setN_mod (t : Tree) (i j : Nat) (n : Node) (hk : n.key = (getN t i).key) :
    (getN (setN t i n) j).key = (getN t j).key := by
  rcases eq_or_ne j i with rfl | h
  · rw [getN_setN_self, hk]
  · rw [getN_setN_ne t i j n h]

@[simp] theorem alloc_setN (t : Tree) (i : Nat) (n : Node) : (setN t i n).alloc = t.alloc := rfl

@[simp] theorem root_setN (t : Tree) (i : Nat) (n : Node) : (setN t i n).root = t.root := rfl

@[simp] theorem size_setN (t : Tree) (i : Nat) (n : Node) : (setN t i n).size = t.size := rfl

/-- Fields of a node after `setLeft` at any index: only `left` at `i`
can differ. -/
@[simp] theorem key_setLeft (t : Tree) (i j k : Nat) :
    (getN (setLeft t i j) k).key = (getN t k).key := by
  rcases eq_or_ne k i with rfl | h
  · rw [setLeft, getN_setN_self]
  · rw [setLeft, getN_setN_ne _ _ _ _ h]

@[simp] theorem value_setLeft (t : Tree) (i j k : Nat) :
    (getN (setLeft t i j) k).value = (getN t k).value := by
  rcases eq_or_ne k i with rfl | h
  · rw [setLeft, getN_setN_self]
  · rw [setLeft, getN_setN_ne _ _ _ _ h]

@[simp] theorem removed_setLeft (t : Tree) (i j k : Nat) :
    (getN (setLeft t i j) k).removed = (getN t k).removed := by
  rcases eq_or_ne k i with rfl | h
  · rw [setLeft, getN_setN_self]
  · rw [setLeft, getN_setN_ne _ _ _ _ h]

@[simp] theorem key_setRight (t : Tree) (i j k : Nat) :
    (getN (setRight t i j) k).key = (getN t k).key := by
  rcases eq_or_ne k i with rfl | h
  · rw [setRight, getN_setN_self]
  · rw [setRight, getN_setN_ne _ _ _ _ h]

@[simp] theorem value_setRight (t : Tree) (i j k : Nat) :
    (getN (setRight t i j) k).value = (getN t k).value := by
  rcases eq_or_ne k i with rfl | h
  · rw [setRight, getN_setN_self]
  · rw [setRight, getN_setN_ne _ _ _ _ h]

@[simp] theorem removed_setRight (t : Tree) (i j k : Nat) :
    (getN (setRight t i j) k).removed = (getN t k).removed := by
  rcases eq_or_ne k i with rfl | h
  · rw [setRight, getN_setN_self]
  · rw [setRight, getN_setN_ne _ _ _ _ h]

@[simp] theorem key_setParent (t : Tree) (i j k : Nat) :
    (getN (setParent t i j) k).key = (getN t k).key := by
  rcases eq_or_ne k i with rfl | h
  · rw [setParent, getN_setN_self]
  · rw [setParent, getN_setN_ne _ _ _ _ h]

@[simp] theorem value_setParent (t : Tree) (i j k : Nat) :
    (getN (setParent t i j) k).value = (getN t k).value := by
  rcases eq_or_ne k i with rfl | h
  · rw [setParent, getN_setN_self]
  · rw [setParent, getN_setN_ne _ _ _ _ h]

@[simp] theorem removed_setParent (t : Tree) (i j k : Nat) :
    (getN (setParent t i j) k).removed = (getN t k).removed := by
  rcases eq_or_ne k i with rfl | h
  · rw [setParent, getN_setN_self]
  · rw [setParent, getN_setN_ne _ _ _ _ h]

@[simp] theorem key_setParity (t : Tree) (i : Nat) (p : Int) (k : Nat) :
    (getN (setParity t i p) k).key = (getN t k).key := by
  rcases eq_or_ne k i with rfl | h
  · rw [setParity, getN_setN_self]
  · rw [setParity, getN_setN_ne _ _ _ _ h]

@[simp] theorem value_setParity (t : Tree) (i : Nat) (p : Int) (k : Nat) :
    (getN (setParity t i p) k).value = (getN t k).value := by
  rcases eq_or_ne k i with rfl | h
  · rw [setParity, getN_setN_self]
  · rw [setParity, getN_setN_ne _ _ _ _ h]

@[simp] theorem removed_setParity (t : Tree) (i : Nat) (p : Int) (k : Nat) :
    (getN (setParity t i p) k).removed = (getN t k).removed := by
  rcases eq_or_ne k i with rfl | h
  · rw [setParity, getN_setN_self]
  · rw [setParity, getN_setN_ne _ _ _ _ h]

@[simp] theorem key_setRemoved (t : Tree) (i : Nat) (b : Bool) (k : Nat) :
    (getN (setRemoved t i b) k).key = (getN t k).key := by
  rcases eq_or_ne k i with rfl | h
  · rw [setRemoved, getN_setN_self]
  · rw [setRemoved, getN_setN_ne _ _ _ _ h]

@[simp] theorem value_setRemoved (t : Tree) (i : Nat) (b : Bool) (k : Nat) :
    (getN (setRemoved t i b) k).value = (getN t k).value := by
  rcases eq_or_ne k i with rfl | h
  · rw [setRemoved, getN_setN_self]
  · rw [setRemoved, getN_setN_ne _ _ _ _ h]

@[simp] theorem key_promote (t : Tree) (i k : Nat) :
    (getN (promote t i) k).key = (getN t k).key := by
  simp [promote]

@[simp] theorem value_promote (t : Tree) (i k : Nat) :
    (getN (promote t i) k).value = (getN t k).value := by
  simp [promote]

@[simp] theorem removed_promote (t : Tree) (i k : Nat) :
    (getN (promote t i) k).removed = (getN t k).removed := by
  simp [promote]

@[simp] theorem key_demote (t : Tree) (i k : Nat) :
    (getN (demote t i) k).key = (getN t k).key := by
  simp [demote]

@[simp] theorem value_demote (t : Tree) (i k : Nat) :
    (getN (demote t i) k).value = (getN t k).value := by
  simp [demote]

@[simp] theorem removed_demote (t : Tree) (i k : Nat) :
    (getN (demote t i) k).removed = (getN t k).removed := by
  simp [demote]

/-- Rotations never change a node's key, value or tombstone. -/
theorem kvr_rotateLeft (t : Tree) (a b k : Nat) :
    (getN (rotateLeft t a b) k).key = (getN t k).key ∧
    (getN (rotateLeft t a b) k).value = (getN t k).value ∧
    (getN (rotateLeft t a b) k).removed = (getN t k).removed := by
  simp only [rotateLeft]
  split_ifs <;> simp

theorem kvr_rotateRight (t : Tree) (a b k : Nat) :
    (getN (rotateRight t a b) k).key = (getN t k).key ∧
    (getN (rotateRight t a b) k).value = (getN t k).value ∧
    (getN (rotateRight t a b) k).removed = (getN t k).removed := by
  simp only [rotateRight]
  split_ifs <;> simp

theorem kvr_rotateLeftRight (t : Tree) (a b c k : Nat) :
    (getN (rotateLeftRight t a b c) k).key = (getN t k).key ∧
    (getN (rotateLeftRight t a b c) k).value = (getN t k).value ∧
    (getN (rotateLeftRight t a b c) k).removed = (getN t k).removed := by
  simp only [rotateLeftRight]
  split_ifs <;> simp

theorem kvr_rotateRightLeft (t : Tree) (a b c k : Nat) :
    (getN (rotateRightLeft t a b c) k).key = (getN t k).key ∧
    (getN (rotateRightLeft t a b c) k).value = (getN t k).value ∧
    (getN (rotateRightLeft t a b c) k).removed = (getN t k).removed := by
  simp only [rotateRightLeft]
  split_ifs <;> simp

/-- The insertion fix-up walk never changes a key, value or tombstone. -/
theorem kvr_insertFixupGo (fuel : Nat) :
    ∀ (t : Tree) (node k : Nat),
    (getN (insertFixupGo fuel t node) k).key = (getN t k).key ∧
    (getN (insertFixupGo fuel t node) k).value = (getN t k).value ∧
    (getN (insertFixupGo fuel t node) k).removed = (getN t k).removed := by
  induction fuel with
  | zero => intro t node k; simp [insertFixupGo]
  | succ f ih =>
    intro t node k
    simp only [insertFixupGo]
    split_ifs
    · exact ⟨rfl, rfl, rfl⟩
    · exact ⟨rfl, rfl, rfl⟩
    · refine ⟨?_, ?_, ?_⟩ <;> simp [(ih _ _ k).1, (ih _ _ k).2.1, (ih _ _ k).2.2]
    · simp [(kvr_rotateRight t _ _ k).1, (kvr_rotateRight t _ _ k).2.1,
        (kvr_rotateRight t _ _ k).2.2]
    · simp [(kvr_rotateLeftRight t _ _ _ k).1, (kvr_rotateLeftRight t _ _ _ k).2.1,
        (kvr_rotateLeftRight t _ _ _ k).2.2]
    · refine ⟨?_, ?_, ?_⟩ <;> simp [(ih _ _ k).1, (ih _ _ k).2.1, (ih _ _ k).2.2]
    · simp [(kvr_rotateLeft t _ _ k).1, (kvr_rotateLeft t _ _ k).2.1,
        (kvr_rotateLeft t _ _ k).2.2]
    · simp [(kvr_rotateRightLeft t _ _ _ k).1, (kvr_rotateRightLeft t _ _ _ k).2.1,
        (kvr_rotateRightLeft t _ _ _ k).2.2]

theorem kvr_insertFixup (t : Tree) (p k : Nat) :
    (getN (insertFixup t p) k).key = (getN t k).key ∧
    (getN (insertFixup t p) k).value = (getN t k).value ∧
    (getN (insertFixup t p) k).removed = (getN t k).removed := by
  simp only [insertFixup]
  simp [(kvr_insertFixupGo _ _ _ k).1, (kvr_insertFixupGo _ _ _ k).2.1,
    (kvr_insertFixupGo _ _ _ k).2.2]

/-- The removal fix-up walk never changes a key, value or tombstone. -/
theorem kvr_removeFixupGo (fuel : Nat) :
    ∀ (t : Tree) (parent node k : Nat),
    (getN (removeFixupGo fuel t parent node) k).key = (getN t k).key ∧
    (getN (removeFixupGo fuel t parent node) k).value = (getN t k).value ∧
    (getN (removeFixupGo fuel t parent node) k).removed = (getN t k).removed := by
  induction fuel with
  | zero => intro t parent node k; simp [removeFixupGo]
  | succ f ih =>
    intro t parent node k
    simp only [removeFixupGo]
    split_ifs
    · exact ⟨rfl, rfl, rfl⟩
    · refine ⟨?_, ?_, ?_⟩ <;> simp [(ih _ _ _ k).1, (ih _ _ _ k).2.1, (ih _ _ _ k).2.2]
    · refine ⟨?_, ?_, ?_⟩ <;> simp [(ih _ _ _ k).1, (ih _ _ _ k).2.1, (ih _ _ _ k).2.2]
    · simp [(kvr_rotateRightLeft t _ _ _ k).1, (kvr_rotateRightLeft t _ _ _ k).2.1,
        (kvr_rotateRightLeft t _ _ _ k).2.2]
    · refine ⟨?_, ?_, ?_⟩ <;>
        simp [(kvr_rotateLeft t _ _ k).1, (kvr_rotateLeft t _ _ k).2.1,
          (kvr_rotateLeft t _ _ k).2.2]
    · refine ⟨?_, ?_, ?_⟩ <;>
        simp [(kvr_rotateLeft t _ _ k).1, (kvr_rotateLeft t _ _ k).2.1,
          (kvr_rotateLeft t _ _ k).2.2]
    · refine ⟨?_, ?_, ?_⟩ <;> simp [(ih _ _ _ k).1, (ih _ _ _ k).2.1, (ih _ _ _ k).2.2]
    · refine ⟨?_, ?_, ?_⟩ <;> simp [(ih _ _ _ k).1, (ih _ _ _ k).2.1, (ih _ _ _ k).2.2]
    · simp [(kvr_rotateLeftRight t _ _ _ k).1, (kvr_rotateLeftRight t _ _ _ k).2.1,
        (kvr_rotateLeftRight t _ _ _ k).2.2]
    · refine ⟨?_, ?_, ?_⟩ <;>
        simp [(kvr_rotateRight t _ _ k).1, (kvr_rotateRight t _ _ k).2.1,
          (kvr_rotateRight t _ _ k).2.2]
    · refine ⟨?_, ?_, ?_⟩ <;>
        simp [(kvr_rotateRight t _ _ k).1, (kvr_rotateRight t _ _ k).2.1,
          (kvr_rotateRight t _ _ k).2.2]

theorem kvr_removeFixup (t : Tree) (p n k : Nat) :
    (getN (removeFixup t p n) k).key = (getN t k).key ∧
    (getN (removeFixup t p n) k).value = (getN t k).value ∧
    (getN (removeFixup t p n) k).removed = (getN t k).removed := by
  simp only [removeFixup]
  split_ifs <;>
    simp [(kvr_removeFixupGo _ _ _ _ k).1, (kvr_removeFixupGo _ _ _ _ k).2.1,
      (kvr_removeFixupGo _ _ _ _ k).2.2]

@[simp] theorem key_rotateLeft (t : Tree) (a b k : Nat) :
    (getN (rotateLeft t a b) k).key = (getN t k).key := (kvr_rotateLeft t a b k).1

@[simp] theorem value_rotateLeft (t : Tree) (a b k : Nat) :
    (getN (rotateLeft t a b) k).value = (getN t k).value := (kvr_rotateLeft t a b k).2.1

@[simp] theorem removed_rotateLeft (t : Tree) (a b k : Nat) :
    (getN (rotateLeft t a b) k).removed = (getN t k).removed := (kvr_rotateLeft t a b k).2.2

@[simp] theorem key_rotateRight (t : Tree) (a b k : Nat) :
    (getN (rotateRight t a b) k).key = (getN t k).key := (kvr_rotateRight t a b k).1

@[simp] theorem value_rotateRight (t : Tree) (a b k : Nat) :
    (getN (rotateRight t a b) k).value = (getN t k).value := (kvr_rotateRight t a b k).2.1

@[simp] theorem removed_rotateRight (t : Tree) (a b k : Nat) :
    (getN (rotateRight t a b) k).removed = (getN t k).removed := (kvr_rotateRight t a b k).2.2

@[simp] theorem key_rotateLeftRight (t : Tree) (a b c k : Nat) :
    (getN (rotateLeftRight t a b c) k).key = (getN t k).key :=
  (kvr_rotateLeftRight t a b c k).1

@[simp] theorem value_rotateLeftRight (t : Tree) (a b c k : Nat) :
    (getN (rotateLeftRight t a b c) k).value = (getN t k).value :=
  (kvr_rotateLeftRight t a b c k).2.1

@[simp] theorem removed_rotateLeftRight (t : Tree) (a b c k : Nat) :
    (getN (rotateLeftRight t a b c) k).removed = (getN t k).removed :=
  (kvr_rotateLeftRight t a b c k).2.2

@[simp] theorem key_rotateRightLeft (t : Tree) (a b c k : Nat) :
    (getN (rotateRightLeft t a b c) k).key = (getN t k).key :=
  (kvr_rotateRightLeft t a b c k).1

@[simp] theorem value_rotateRightLeft (t : Tree) (a b c k : Nat) :
    (getN (rotateRightLeft t a b c) k).value = (getN t k).value :=
  (kvr_rotateRightLeft t a b c k).2.1

@[simp] theorem removed_rotateRightLeft (t : Tree) (a b c k : Nat) :
    (getN (rotateRightLeft t a b c) k).removed = (getN t k).removed :=
  (kvr_rotateRightLeft t a b c k).2.2

@[simp] theorem key_insertFixup (t : Tree) (p k : Nat) :
    (getN (insertFixup t p) k).key = (getN t k).key := (kvr_insertFixup t p k).1

@[simp] theorem value_insertFixup (t : Tree) (p k : Nat) :
    (getN (insertFixup t p) k).value = (getN t k).value := (kvr_insertFixup t p k).2.1

@[simp] theorem removed_insertFixup (t : Tree) (p k : Nat) :
    (getN (insertFixup t p) k).removed = (getN t k).removed := (kvr_insertFixup t p k).2.2

@[simp] theorem key_removeFixup (t : Tree) (p n k : Nat) :
    (getN (removeFixup t p n) k).key = (getN t k).key := (kvr_removeFixup t p n k).1

@[simp] theorem value_removeFixup (t : Tree) (p n k : Nat) :
    (getN (removeFixup t p n) k).value = (getN t k).value := (kvr_removeFixup t p n k).2.1

@[simp] theorem removed_removeFixup (t : Tree) (p n k : Nat) :
    (getN (removeFixup t p n) k).removed = (getN t k).removed := (kvr_removeFixup t p n k).2.2

/-! Size, allocation bound and their preservation. -/

@[simp] theorem size_setLeft (t : Tree) (i j : Nat) : (setLeft t i j).size = t.size := rfl

@[simp] theorem size_setRight (t : Tree) (i j : Nat) : (setRight t i j).size = t.size := rfl

@[simp] theorem size_setParent (t : Tree) (i j : Nat) : (setParent t i j).size = t.size := rfl

@[simp] theorem size_setParity (t : Tree) (i : Nat) (p : Int) :
    (setParity t i p).size = t.size := rfl

@[simp] theorem size_setRemoved (t : Tree) (i : Nat) (b : Bool) :
    (setRemoved t i b).size = t.size := rfl

@[simp] theorem size_promote (t : Tree) (i : Nat) : (promote t i).size = t.size := rfl

@[simp] theorem size_demote (t : Tree) (i : Nat) : (demote t i).size = t.size := rfl

@[simp] theorem alloc_setLeft (t : Tree) (i j : Nat) : (setLeft t i j).alloc = t.alloc := rfl

@[simp] theorem alloc_setRight (t : Tree) (i j : Nat) : (setRight t i j).alloc = t.alloc := rfl

@[simp] theorem alloc_setParent (t : Tree) (i j : Nat) : (setParent t i j).alloc = t.alloc := rfl

@[simp] theorem alloc_setParity (t : Tree) (i : Nat) (p : Int) :
    (setParity t i p).alloc = t.alloc := rfl

@[simp] theorem alloc_setRemoved (t : Tree) (i : Nat) (b : Bool) :
    (setRemoved t i b).alloc = t.alloc := rfl

@[simp] theorem alloc_promote (t : Tree) (i : Nat) : (promote t i).alloc = t.alloc := rfl

@[simp] theorem alloc_demote (t : Tree) (i : Nat) : (demote t i).alloc = t.alloc := rfl

@[simp] theorem size_rotateLeft (t : Tree) (a b : Nat) : (rotateLeft t a b).size = t.size := by
  simp only [rotateLeft]; split_ifs <;> rfl

@[simp] theorem size_rotateRight (t : Tree) (a b : Nat) :
    (rotateRight t a b).size = t.size := by
  simp only [rotateRight]; split_ifs <;> rfl

@[simp] theorem size_rotateLeftRight (t : Tree) (a b c : Nat) :
    (rotateLeftRight t a b c).size = t.size := by
  simp only [rotateLeftRight]; split_ifs <;> rfl

@[simp] theorem size_rotateRightLeft (t : Tree) (a b c : Nat) :
    (rotateRightLeft t a b c).size = t.size := by
  simp only [rotateRightLeft]; split_ifs <;> rfl

@[simp] theorem alloc_rotateLeft (t : Tree) (a b : Nat) :
    (rotateLeft t a b).alloc = t.alloc := by
  simp only [rotateLeft]; split_ifs <;> rfl

@[simp] theorem alloc_rotateRight (t : Tree) (a b : Nat) :
    (rotateRight t a b).alloc = t.alloc := by
  simp only [rotateRight]; split_ifs <;> rfl

@[simp] theorem alloc_rotateLeftRight (t : Tree) (a b c : Nat) :
    (rotateLeftRight t a b c).alloc = t.alloc := by
  simp only [rotateLeftRight]; split_ifs <;> rfl

@[simp] theorem alloc_rotateRightLeft (t : Tree) (a b c : Nat) :
    (rotateRightLeft t a b c).alloc = t.alloc := by
  simp only [rotateRightLeft]; split_ifs <;> rfl

@[simp] theorem size_insertFixupGo (fuel : Nat) :
    ∀ (t : Tree) (node : Nat), (insertFixupGo fuel t node).size = t.size := by
  induction fuel with
  | zero => intro t node; simp [insertFixupGo]
  | succ f ih =>
    intro t node
    simp only [insertFixupGo]
    split_ifs <;> simp [ih]

@[simp] theorem alloc_insertFixupGo (fuel : Nat) :
    ∀ (t : Tree) (node : Nat), (insertFixupGo fuel t node).alloc = t.alloc := by
  induction fuel with
  | zero => intro t node; simp [insertFixupGo]
  | succ f ih =>
    intro t node
    simp only [insertFixupGo]
    split_ifs <;> simp [ih]

@[simp] theorem size_insertFixup (t : Tree) (p : Nat) :
    (insertFixup t p).size = t.size := by
  simp [insertFixup]

@[simp] theorem alloc_insertFixup (t : Tree) (p : Nat) :
    (insertFixup t p).alloc = t.alloc := by
  simp [insertFixup]

@[simp] theorem size_removeFixupGo (fuel : Nat) :
    ∀ (t : Tree) (parent node : Nat), (removeFixupGo fuel t parent node).size = t.size := by
  induction fuel with
  | zero => intro t parent node; simp [removeFixupGo]
  | succ f ih =>
    intro t parent node
    simp only [removeFixupGo]
    split_ifs <;> simp [ih]

@[simp] theorem alloc_removeFixupGo (fuel : Nat) :
    ∀ (t : Tree) (parent node : Nat), (removeFixupGo fuel t parent node).alloc = t.alloc := by
  induction fuel with
  | zero => intro t parent node; simp [removeFixupGo]
  | succ f ih =>
    intro t parent node
    simp only [removeFixupGo]
    split_ifs <;> simp [ih]

@[simp] theorem size_removeFixup (t : Tree) (p n : Nat) :
    (removeFixup t p n).size = t.size := by
  simp only [removeFixup]; split_ifs <;> simp

@[simp] theorem alloc_removeFixup (t : Tree) (p n : Nat) :
    (removeFixup t p n).alloc = t.alloc := by
  simp only [removeFixup]; split_ifs <;> simp

@[simp] theorem size_removeOneChild (t : Tree) (n c : Nat) :
    (removeOneChild t n c).size = t.size := by
  simp only [removeOneChild]; split_ifs <;> simp

@[simp] theorem alloc_removeOneChild (t : Tree) (n c : Nat) :
    (removeOneChild t n c).alloc = t.alloc := by
  simp only [removeOneChild]; split_ifs <;> simp

theorem kvr_removeOneChild (t : Tree) (n c k : Nat) :
    (getN (removeOneChild t n c) k).key = (getN t k).key ∧
    (getN (removeOneChild t n c) k).value = (getN t k).value ∧
    (getN (removeOneChild t n c) k).removed = (getN t k).removed := by
  simp only [removeOneChild]
  split_ifs <;> refine ⟨?_, ?_, ?_⟩ <;> simp

@[simp] theorem key_removeOneChild (t : Tree) (n c k : Nat) :
    (getN (removeOneChild t n c) k).key = (getN t k).key := (kvr_removeOneChild t n c k).1

@[simp] theorem value_removeOneChild (t : Tree) (n c k : Nat) :
    (getN (removeOneChild t n c) k).value = (getN t k).value := (kvr_removeOneChild t n c k).2.1

@[simp] theorem removed_removeOneChild (t : Tree) (n c k : Nat) :
    (getN (removeOneChild t n c) k).removed = (getN t k).removed :=
  (kvr_removeOneChild t n c k).2.2

/-- `remove` returns the removed node's index unchanged. -/
@[simp] theorem snd_remove (t : Tree) (n : Nat) : (remove t n).2 = n := by
  simp only [remove]; split_ifs <;> rfl

/-- `remove` decrements `size` by exactly one (no other write touches
it), whatever the tree looks like. -/
@[simp] theorem size_remove (t : Tree) (n : Nat) : (remove t n).1.size = t.size - 1 := by
  simp only [remove]; split_ifs <;> simp

@[simp] theorem alloc_remove (t : Tree) (n : Nat) : (remove t n).1.alloc = t.alloc := by
  simp only [remove]; split_ifs <;> simp

/-- `remove` never changes any node's key or value, and the only
tombstone it sets is the removed node's own. -/
theorem kv_remove (t : Tree) (n k : Nat) :
    (getN (remove t n).1 k).key = (getN t k).key ∧
    (getN (remove t n).1 k).value = (getN t k).value := by
  simp only [remove]
  split_ifs <;> constructor <;> simp

@[simp] theorem key_remove (t : Tree) (n k : Nat) :
    (getN (remove t n).1 k).key = (getN t k).key := (kv_remove t n k).1

@[simp] theorem value_remove (t : Tree) (n k : Nat) :
    (getN (remove t n).1 k).value = (getN t k).value := (kv_remove t n k).2

theorem removed_remove_ne (t : Tree) (n k : Nat) (h : k ≠ n) :
    (getN (remove t n).1 k).removed = (getN t k).removed := by
  simp only [remove]
  split_ifs <;> simp [setRemoved, getN_setN_ne _ _ _ _ h]

theorem removed_remove_self (t : Tree) (n : Nat) :
    (getN (remove t n).1 n).removed = true := by
  simp only [remove]
  split_ifs <;> simp [setRemoved, getN_setN_self]

/-! `insertEmpty`: fresh node and frame. -/

/-- The new node's index is the previous allocation bound. -/
@[simp] theorem snd_insertEmpty (t : Tree) (p : Nat) (b : Branch) (k v : Int) :
    (insertEmpty t p b k v).2 = t.alloc := by
  simp only [insertEmpty]

@[simp] theorem size_insertEmpty (t : Tree) (p : Nat) (b : Branch) (k v : Int) :
    (insertEmpty t p b k v).1.size = t.size + 1 := by
  simp only [insertEmpty]; split_ifs <;> simp

@[simp] theorem alloc_insertEmpty (t : Tree) (p : Nat) (b : Branch) (k v : Int) :
    (insertEmpty t p b k v).1.alloc = t.alloc + 1 := by
  simp only [insertEmpty]; split_ifs <;> simp

/-- The fresh node carries the inserted key and value and no tombstone
(fix-ups and link writes never touch these fields). -/
theorem insertEmpty_fresh (t : Tree) (p : Nat) (b : Branch) (k v : Int) :
    (getN (insertEmpty t p b k v).1 t.alloc).key = k ∧
    (getN (insertEmpty t p b k v).1 t.alloc).value = v ∧
    (getN (insertEmpty t p b k v).1 t.alloc).removed = false := by
  simp only [insertEmpty]
  split_ifs <;> refine ⟨?_, ?_, ?_⟩ <;>
    simp [Function.update_same]

/-- Frame of `insertEmpty` at previously existing indices. -/
theorem insertEmpty_frame (t : Tree) (p : Nat) (b : Branch) (k v : Int) (j : Nat)
    (h : j ≠ t.alloc) :
    (getN (insertEmpty t p b k v).1 j).key = (getN t j).key ∧
    (getN (insertEmpty t p b k v).1 j).value = (getN t j).value ∧
    (getN (insertEmpty t p b k v).1 j).removed = (getN t j).removed := by
  simp only [insertEmpty]
  split_ifs <;> refine ⟨?_, ?_, ?_⟩ <;>
    simp [Function.update_noteq h]

/-- `getN` ignores the root and size fields, so `clear` reads back
unchanged nodes. -/
@[simp] theorem getN_clear (t : Tree) (i : Nat) : getN (clear t) i = getN t i := rfl

/-- A descent whose cursor is already at the sentinel stays put, for any
fuel (the sentinel is self-linked). -/
theorem minimumGo_nil (t : Tree) (fuel n : Nat) : minimumGo t fuel n 0 = n := by
  cases fuel <;> simp [minimumGo]

theorem maximumGo_nil (t : Tree) (fuel n : Nat) : maximumGo t fuel n 0 = n := by
  cases fuel <;> simp [maximumGo]

/-! ## Claim theorems (part 1) -/

/-- C10: on a map with no entries (`root = NIL`), `first()` and `last()`
raise nothing and return vacant entries anchored at the sentinel with
`isEmpty` true and `key`/`value`/`entry` all `undefined`; `delete()` on
them returns `false` and `remove()` returns `undefined`, leaving the
tree untouched; all because the self-linked sentinel makes `minimum` and
`maximum` map `NIL` to `NIL`. -/
theorem first_last_total_on_empty_map (t : Tree) (h0 : getN t 0 = nilNode)
    (hroot : t.root = 0) :
    mapFirst t = ⟨.vacant 0 Branch.Left none⟩ ∧
    mapLast t = ⟨.vacant 0 Branch.Right none⟩ ∧
    (mapFirst t).isEmpty = true ∧
    (mapLast t).isEmpty = true ∧
    MapEntry.keyGet t (mapFirst t) = none ∧
    MapEntry.valueGet t (mapFirst t) = none ∧
    MapEntry.entryGet t (mapFirst t) = none ∧
    MapEntry.keyGet t (mapLast t) = none ∧
    MapEntry.valueGet t (mapLast t) = none ∧
    MapEntry.entryGet t (mapLast t) = none ∧
    MapEntry.delete t (mapFirst t) = (.ok false, t) ∧
    MapEntry.removeEntry t (mapFirst t) = (.ok none, t) ∧
    MapEntry.delete t (mapLast t) = (.ok false, t) ∧
    MapEntry.removeEntry t (mapLast t) = (.ok none, t) ∧
    minimum t 0 = 0 ∧ maximum t 0 = 0 := by
  have hmin : minimum t 0 = 0 := by
    simp [minimum, h0, nilNode, minimumGo_nil]
  have hmax : maximum t 0 = 0 := by
    simp [maximum, h0, nilNode, maximumGo_nil]
  have hfirst : mapFirst t = ⟨.vacant 0 Branch.Left none⟩ := by
    simp [mapFirst, hroot, hmin]
  have hlast : mapLast t = ⟨.vacant 0 Branch.Right none⟩ := by
    simp [mapLast, hroot, hmax]
  have hval : Wavl.validate t 0 = .ok () := by
    simp [Wavl.validate, h0, nilNode]
  refine ⟨hfirst, hlast, ?_, ?_, ?_, ?_, ?_, ?_, ?_, ?_, ?_, ?_, ?_, ?_, hmin, hmax⟩ <;>
    simp [hfirst, hlast, MapEntry.isEmpty, Inner.isEmpty, MapEntry.keyGet,
      MapEntry.valueGet, MapEntry.entryGet, Inner.keyGet, Inner.valueGet,
      Inner.entryGet, MapEntry.delete, MapEntry.removeEntry, MapEntry.validate,
      Inner.node, hval, Inner.delete, Inner.removeEntry]

/-- Witness for the empty-map `first`/`last` claim, on the canonical
empty tree. -/
theorem first_last_total_on_empty_map_witness :
    getN emptyTree 0 = nilNode ∧ emptyTree.root = 0 ∧
    (mapFirst emptyTree).isEmpty = true :=
  ⟨rfl, rfl, (first_last_total_on_empty_map emptyTree rfl rfl).2.2.1⟩

/-- C8: `clear()` only resets the root to the sentinel and the size to
zero — the arena, with every node's `removed` flag, is untouched — so an
occupied cursor on a node that was live before `clear()` still passes
validation, its `delete()` still returns `true` and still decrements the
size, driving it to `-1` on the now-empty map. -/
theorem clear_keeps_cursors_alive (t : Tree) (i : Nat)
    (hlive : (getN t i).removed = false) :
    (mapClear t).root = 0 ∧
    (mapClear t).size = 0 ∧
    (∀ j, getN (mapClear t) j = getN t j) ∧
    MapEntry.validate (mapClear t) ⟨.occupied i⟩ = .ok () ∧
    (MapEntry.delete (mapClear t) ⟨.occupied i⟩).1 = .ok true ∧
    (MapEntry.delete (mapClear t) ⟨.occupied i⟩).2.size = -1 := by
  have hval : Wavl.validate (mapClear t) i = .ok () := by
    simp [Wavl.validate, mapClear, hlive]
  refine ⟨rfl, rfl, fun j => rfl, ?_, ?_, ?_⟩
  · simpa [MapEntry.validate, Inner.node] using hval
  · simp only [MapEntry.delete, MapEntry.validate, Inner.node, hval, Inner.delete]
  · simp only [MapEntry.delete, MapEntry.validate, Inner.node, hval, Inner.delete]
    simp [mapClear, clear]

/-- A two-entry map `{1, 2}` for concrete scenarios. -/
def twoTree : Tree := mapSet ascending (mapSet ascending emptyTree 1 1) 2 2

/-- Witness for the `clear` claim: a live node of a concrete map. -/
theorem clear_keeps_cursors_alive_witness :
    (getN twoTree 1).removed = false ∧
    (MapEntry.delete (mapClear twoTree) ⟨.occupied 1⟩).1 = .ok true ∧
    (MapEntry.delete (mapClear twoTree) ⟨.occupied 1⟩).2.size = -1 :=
  ⟨by decide, (clear_keeps_cursors_alive twoTree 1 (by decide)).2.2.2.2.1,
    (clear_keeps_cursors_alive twoTree 1 (by decide)).2.2.2.2.2⟩

/-- The map `{2: 20, 3: 30}` of the spec's `range(2,3,true)` design
note. -/
def pairTree : Tree := mapSet ascending (mapSet ascending emptyTree 2 20) 3 30

/-- The same key set built in the opposite insertion order. -/
def pairTreeRev : Tree := mapSet ascending (mapSet ascending emptyTree 3 30) 2 20

/-- C4 counterexample: on the map containing exactly the keys 2 and 3,
`range(2, 3, true)` is classified `Default` — not `Exclusive` — with
`lower = upper =` the node holding key 2 (the half-open interval
`[2, 3)` contains the key 2, so the range is the non-empty singleton),
and `first()` returns an Occupied entry on that node, not a Vacant
slot.  The `Exclusive` collapse is only reachable when the end key is
missing from the map or equals the start key. -/
theorem range_two_three_exclusive_cex :
    mapKeys pairTree = [2, 3] ∧
    range ascending pairTree (some 2) (some 3) true = .ok ⟨1, 1, Kind.Default⟩ ∧
    Kind.Default ≠ Kind.Exclusive ∧
    (getN pairTree 1).key = 2 ∧
    MapRange.first pairTree ⟨1, 1, Kind.Default⟩ = .ok ⟨.occupied 1⟩ ∧
    (MapEntry.isEmpty ⟨.occupied 1⟩) = false := by
  refine ⟨by decide, by decide, by decide, by decide, by decide, by decide⟩

/-- C4 amended: on `{2, 3}` (built in either insertion order),
`range(2, 3, true)` yields kind `Default` with `lower = upper` at the
node of key 2 — the non-empty singleton `{2}` — whose `entries()` is
`[(2, 20)]`, and `first()` returns an Occupied entry with key 2. -/
theorem range_two_three_default_singleton :
    (range ascending pairTree (some 2) (some 3) true = .ok ⟨1, 1, Kind.Default⟩ ∧
      (getN pairTree 1).key = 2 ∧
      (MapRange.inorder pairTree ⟨1, 1, Kind.Default⟩).map
        (List.map fun i => ((getN pairTree i).key, (getN pairTree i).value)) =
        .ok [(2, 20)] ∧
      (MapRange.first pairTree ⟨1, 1, Kind.Default⟩).map
        (MapEntry.keyGet pairTree) = .ok (some 2)) ∧
    (range ascending pairTreeRev (some 2) (some 3) true = .ok ⟨2, 2, Kind.Default⟩ ∧
      (getN pairTreeRev 2).key = 2 ∧
      (MapRange.inorder pairTreeRev ⟨2, 2, Kind.Default⟩).map
        (List.map fun i => ((getN pairTreeRev i).key, (getN pairTreeRev i).value)) =
        .ok [(2, 20)] ∧
      (MapRange.first pairTreeRev ⟨2, 2, Kind.Default⟩).map
        (MapEntry.keyGet pairTreeRev) = .ok (some 2)) := by
  refine ⟨⟨by decide, by decide, by decide, by decide⟩,
    by decide, by decide, by decide, by decide⟩

/-- C7 amended, general part: consuming any not-yet-consumed range by
`delete()` or `remove()` leaves the object with kind `Removed`; from
then on — against any tree state — `delete()` returns 0, `remove()`
returns the empty array, `count()` returns 0, iteration yields nothing,
and `first()`/`last()` raise an error: `ConsumedRange` when the
recorded bound is not tombstoned (the consumed range was empty), and
`StaleCursor` when it is (the usual case after a non-empty range was
deleted, since its own bounds were removed and `first`/`last` validate
the bound before looking at the kind). -/
theorem range_single_consumption (t : Tree) (r : MapRange)
    (h : r.kind ≠ Kind.Removed) :
    (MapRange.delete t r).2.1 = { r with kind := Kind.Removed } ∧
    (MapRange.removeAll t r).2.1 = { r with kind := Kind.Removed } ∧
    (∀ t2, MapRange.delete t2 { r with kind := Kind.Removed } =
      (.ok 0, { r with kind := Kind.Removed }, t2)) ∧
    (∀ t2, MapRange.removeAll t2 { r with kind := Kind.Removed } =
      (.ok [], { r with kind := Kind.Removed }, t2)) ∧
    (∀ t2, MapRange.count t2 { r with kind := Kind.Removed } = .ok 0) ∧
    (∀ t2, MapRange.inorder t2 { r with kind := Kind.Removed } = .ok []) ∧
    (∀ t2, MapRange.first t2 { r with kind := Kind.Removed } =
      .error (if (getN t2 r.lower).removed then Err.staleCursor
        else Err.consumedRange)) ∧
    (∀ t2, MapRange.last t2 { r with kind := Kind.Removed } =
      .error (if (getN t2 r.upper).removed then Err.staleCursor
        else Err.consumedRange)) := by
  refine ⟨?_, ?_, ?_, ?_, ?_, ?_, ?_, ?_⟩
  · simp only [MapRange.delete]
    split_ifs with h1 h2 <;> first | exact absurd h1 h | rfl | skip
    all_goals
      rcases hv : Wavl.validate t r.lower with e | u <;>
        rcases hw : Wavl.validate t r.upper with f | w <;> simp [hv, hw]
  · simp only [MapRange.removeAll]
    split_ifs with h1 h2 <;> first | exact absurd h1 h | rfl | skip
    all_goals
      rcases hv : Wavl.validate t r.lower with e | u <;>
        rcases hw : Wavl.validate t r.upper with f | w <;> simp [hv, hw]
  · intro t2; simp [MapRange.delete]
  · intro t2; simp [MapRange.removeAll]
  · intro t2; simp [MapRange.count, kindIsEmpty]
  · intro t2; simp [MapRange.inorder, kindIsEmpty]
  · intro t2
    rcases hrm : (getN t2 r.lower).removed with hv | hv <;>
      simp [MapRange.first, Wavl.validate, hrm]
  · intro t2
    rcases hrm : (getN t2 r.upper).removed with hv | hv <;>
      simp [MapRange.last, Wavl.validate, hrm]

/-- C7 counterexample: consume the full (non-empty, `Default`) range of
the concrete map `{1, 2}`.  The subsequent `first()` call raises
`StaleCursor` — not `ConsumedRange` as the claim demands — because
`first` validates the recorded lower bound, which the bulk deletion
tombstoned, before it ever looks at the `Removed` kind. -/
theorem range_consumed_first_stale_cex :
    range ascending twoTree none none false = .ok ⟨1, 2, Kind.Default⟩ ∧
    (MapRange.delete twoTree ⟨1, 2, Kind.Default⟩).1 = .ok 2 ∧
    (MapRange.delete twoTree ⟨1, 2, Kind.Default⟩).2.1.kind = Kind.Removed ∧
    MapRange.first (MapRange.delete twoTree ⟨1, 2, Kind.Default⟩).2.2
      (MapRange.delete twoTree ⟨1, 2, Kind.Default⟩).2.1 = .error .staleCursor ∧
    MapRange.last (MapRange.delete twoTree ⟨1, 2, Kind.Default⟩).2.2
      (MapRange.delete twoTree ⟨1, 2, Kind.Default⟩).2.1 = .error .staleCursor ∧
    Err.staleCursor ≠ Err.consumedRange := by
  refine ⟨by decide, by decide, by decide, by decide, by decide, by decide⟩

/-- Witness for the single-consumption theorem: an exclusive (empty)
range of the concrete `{1, 2}` map, where `first`/`last` after
consumption do raise `ConsumedRange`. -/
theorem range_single_consumption_witness :
    (⟨1, 1, Kind.Exclusive⟩ : MapRange).kind ≠ Kind.Removed ∧
    (MapRange.delete twoTree ⟨1, 1, Kind.Exclusive⟩).2.1 =
      { lower := 1, upper := 1, kind := Kind.Removed } ∧
    MapRange.first twoTree { lower := 1, upper := 1, kind := Kind.Removed } =
      .error Err.consumedRange := by
  have h := range_single_consumption twoTree ⟨1, 1, Kind.Exclusive⟩ (by decide)
  refine ⟨by decide, h.1, ?_⟩
  have h7 := h.2.2.2.2.2.2.1 twoTree
  simpa [show (getN twoTree 1).removed = false by decide] using h7

/-- A failing `Vacant#insert` (behind both vacant positional inserts)
leaves the tree exactly as it was: the key-order check precedes the
graft. -/
theorem vacantInsert_error (cmp : Int → Int → Int) (t : Tree) (n : Nat)
    (b : Branch) (k v : Int) (er : Err)
    (h : (Inner.vacantInsert cmp t n b k v).1 = .error er) :
    (Inner.vacantInsert cmp t n b k v).2 = t := by
  simp only [Inner.vacantInsert] at h ⊢
  rcases hk : validateKey cmp t
      (if b = Branch.Left then (predecessor t n, n) else (n, successor t n)).1 k
      (if b = Branch.Left then (predecessor t n, n) else (n, successor t n)).2 with f | u
  · simp [hk]
  · simp [hk] at h

/-- A failing inner `insertBefore` leaves the tree unchanged. -/
theorem inner_insertBefore_error (cmp : Int → Int → Int) (t : Tree) (inn : Inner)
    (k v : Int) (er : Err)
    (h : (Inner.insertBefore cmp t inn k v).1 = .error er) :
    (Inner.insertBefore cmp t inn k v).2 = t := by
  cases inn with
  | occupied n =>
    simp only [Inner.insertBefore] at h ⊢
    rcases hk : validateKey cmp t (predecessor t n) k n with f | u
    · simp [hk]
    · simp only [hk] at h
      split_ifs at h
  | vacant n b key => exact vacantInsert_error cmp t n b k v er h

/-- A failing inner `insertAfter` leaves the tree unchanged. -/
theorem inner_insertAfter_error (cmp : Int → Int → Int) (t : Tree) (inn : Inner)
    (k v : Int) (er : Err)
    (h : (Inner.insertAfter cmp t inn k v).1 = .error er) :
    (Inner.insertAfter cmp t inn k v).2 = t := by
  cases inn with
  | occupied n =>
    simp only [Inner.insertAfter] at h ⊢
    rcases hk : validateKey cmp t n k (successor t n) with f | u
    · simp [hk]
    · simp only [hk] at h
      split_ifs at h
  | vacant n b key => exact vacantInsert_error cmp t n b k v er h

/-- C6: the four error taxa are raised synchronously and leave the tree
untouched.  (1) Every cursor operation on an entry whose node is
tombstoned fails its leading `validate` with `StaleCursor`, returning
the tree — and the entry — exactly as given.  (2) A positional insert
that fails (stale cursor or key-order violation) returns the unchanged
tree and entry: the key check runs before the graft.  (3) `range` with
`start > end` raises `InvalidRange` out of the pure search, touching
nothing.  (4) `first`/`last` on a consumed range whose recorded bound
carries no tombstone raise `ConsumedRange`; both are pure reads. -/
theorem error_atomicity (cmp : Int → Int → Int) (t : Tree) (e : MapEntry)
    (key value : Int) :
    ((getN t e.inner.node).removed = true →
      MapEntry.prev t e = .error .staleCursor ∧
      MapEntry.next t e = .error .staleCursor ∧
      MapEntry.insertBefore cmp t e key value = (.error .staleCursor, e, t) ∧
      MapEntry.insertAfter cmp t e key value = (.error .staleCursor, e, t) ∧
      MapEntry.delete t e = (.error .staleCursor, t) ∧
      MapEntry.removeEntry t e = (.error .staleCursor, t) ∧
      MapEntry.keyedInsert t e value = (.error .staleCursor, e, t)) ∧
    (∀ er, (MapEntry.insertBefore cmp t e key value).1 = .error er →
      (MapEntry.insertBefore cmp t e key value).2 = (e, t)) ∧
    (∀ er, (MapEntry.insertAfter cmp t e key value).1 = .error er →
      (MapEntry.insertAfter cmp t e key value).2 = (e, t)) ∧
    (∀ s ek excl, cmp s ek > 0 →
      range cmp t (some s) (some ek) excl = .error .invalidRange ∧
      searchRange cmp t (some s) (some ek) excl = .error .invalidRange) ∧
    (∀ r : MapRange, r.kind = Kind.Removed →
      ((getN t r.lower).removed = false →
        MapRange.first t r = .error .consumedRange) ∧
      ((getN t r.upper).removed = false →
        MapRange.last t r = .error .consumedRange)) := by
  refine ⟨?_, ?_, ?_, ?_, ?_⟩
  · intro hrem
    have hv : MapEntry.validate t e = .error .staleCursor := by
      simp [MapEntry.validate, Wavl.validate, hrem]
    exact ⟨by simp [MapEntry.prev, hv], by simp [MapEntry.next, hv],
      by simp [MapEntry.insertBefore, hv], by simp [MapEntry.insertAfter, hv],
      by simp [MapEntry.delete, hv], by simp [MapEntry.removeEntry, hv],
      by simp [MapEntry.keyedInsert, hv]⟩
  · intro er h
    simp only [MapEntry.insertBefore] at h ⊢
    rcases hv : MapEntry.validate t e with f | u
    · simp [hv]
    · simp only [hv] at h ⊢
      rcases hi : e.inner.insertBefore cmp t key value with ⟨res, t2⟩
      cases res with
      | error f2 =>
        have ht2 : t2 = t := by
          have := inner_insertBefore_error cmp t e.inner key value f2
            (by rw [hi])
          rw [hi] at this
          exact this
        simp [hi, ht2]
      | ok inn =>
        by_cases hb : e.inner.isEmpty <;> simp [hi, hb] at h
  · intro er h
    simp only [MapEntry.insertAfter] at h ⊢
    rcases hv : MapEntry.validate t e with f | u
    · simp [hv]
    · simp only [hv] at h ⊢
      rcases hi : e.inner.insertAfter cmp t key value with ⟨res, t2⟩
      cases res with
      | error f2 =>
        have ht2 : t2 = t := by
          have := inner_insertAfter_error cmp t e.inner key value f2
            (by rw [hi])
          rw [hi] at this
          exact this
        simp [hi, ht2]
      | ok inn =>
        by_cases hb : e.inner.isEmpty <;> simp [hi, hb] at h
  · intro s ek excl hgt
    constructor <;> simp [range, searchRange, hgt]
  · intro r hk
    constructor <;> intro hlive
    · simp [MapRange.first, Wavl.validate, hlive, hk]
    · simp [MapRange.last, Wavl.validate, hlive, hk]

/-- A tombstoned-node scenario: delete key 2 of `{1, 2}`; index 2 held
key 2 and is now tombstoned. -/
def staleTree : Tree := (mapDelete ascending twoTree 2).2

/-- Witness for the error-atomicity theorem: every family is exercised
on concrete data — a stale cursor after a map delete, an out-of-order
positional insert, `range(2,1)`, and `first` on a consumed empty
range. -/
theorem error_atomicity_witness :
    ((getN staleTree 2).removed = true ∧
      MapEntry.next staleTree ⟨.occupied 2⟩ = .error .staleCursor) ∧
    ((MapEntry.insertBefore ascending twoTree ⟨.occupied 2⟩ 1 9).1 =
        .error .keyOrderViolation ∧
      (MapEntry.insertBefore ascending twoTree ⟨.occupied 2⟩ 1 9).2 =
        (⟨.occupied 2⟩, twoTree)) ∧
    (ascending 2 1 > 0 ∧
      range ascending twoTree (some 2) (some 1) false = .error .invalidRange) ∧
    ((getN twoTree 1).removed = false ∧
      MapRange.first twoTree ⟨1, 1, Kind.Removed⟩ = .error .consumedRange) := by
  refine ⟨⟨by decide, ?_⟩, ⟨by decide, ?_⟩, ⟨by decide, ?_⟩, ⟨by decide, ?_⟩⟩
  · exact ((error_atomicity ascending staleTree ⟨.occupied 2⟩ 0 0).1
      (by decide)).2.1
  · exact (error_atomicity ascending twoTree ⟨.occupied 2⟩ 1 9).2.1
      .keyOrderViolation (by decide)
  · exact (((error_atomicity ascending twoTree ⟨.occupied 2⟩ 1 9).2.2.2.1
      2 1 false) (by decide)).1
  · exact (((error_atomicity ascending twoTree ⟨.occupied 2⟩ 1 9).2.2.2.2
      ⟨1, 1, Kind.Removed⟩ rfl).1) (by decide)

/-- C9: the public entry object morphs on vacant positional inserts.
When `insertBefore` (with key `kb`) or `insertAfter` (with key `ka`)
succeeds on an entry whose inner cursor is vacant, the entry's inner
is reassigned to the freshly created occupied cursor (here: the
returned "same object" `eb`/`ea` equals the result entry), so
`key`/`value`/`entry` reads on it now yield the inserted pair; when
the entry was occupied, its inner is left unchanged and only the
returned entry points at the new node (the fresh arena cell
`t.alloc`). -/
theorem entry_morphing_on_positional_insert (cmp : Int → Int → Int) (t : Tree)
    (e : MapEntry) (kb vb ka va : Int) (rb eb : MapEntry) (tb : Tree)
    (ra ea : MapEntry) (ta : Tree)
    (hb : MapEntry.insertBefore cmp t e kb vb = (.ok rb, eb, tb))
    (ha : MapEntry.insertAfter cmp t e ka va = (.ok ra, ea, ta)) :
    (e.isEmpty = true →
      eb = rb ∧ rb.inner = .occupied t.alloc ∧
      MapEntry.keyGet tb eb = some kb ∧
      MapEntry.valueGet tb eb = some vb ∧
      MapEntry.entryGet tb eb = some (kb, vb) ∧
      ea = ra ∧ ra.inner = .occupied t.alloc ∧
      MapEntry.keyGet ta ea = some ka ∧
      MapEntry.valueGet ta ea = some va ∧
      MapEntry.entryGet ta ea = some (ka, va)) ∧
    (e.isEmpty = false →
      eb = e ∧ rb.inner = .occupied t.alloc ∧
      MapEntry.keyGet tb rb = some kb ∧
      MapEntry.valueGet tb rb = some vb ∧
      ea = e ∧ ra.inner = .occupied t.alloc ∧
      MapEntry.keyGet ta ra = some ka ∧
      MapEntry.valueGet ta ra = some va) := by
  rcases e with ⟨inn⟩
  cases inn with
  | vacant n b k0 =>
    refine ⟨fun _ => ?_, fun hocc => by simp [MapEntry.isEmpty, Inner.isEmpty] at hocc⟩
    simp only [MapEntry.insertBefore, MapEntry.insertAfter] at hb ha
    rcases hv : MapEntry.validate t ⟨.vacant n b k0⟩ with f | u <;>
      simp only [hv] at hb ha
    · simp at hb
    · simp only [Inner.insertBefore, Inner.insertAfter] at hb ha
      simp only [Inner.vacantInsert] at hb ha
      rcases hkb : validateKey cmp t
          (if b = Branch.Left then (predecessor t n, n) else (n, successor t n)).1 kb
          (if b = Branch.Left then (predecessor t n, n) else (n, successor t n)).2
        with f | u2 <;> simp only [hkb] at hb
      · simp at hb
      rcases hka : validateKey cmp t
          (if b = Branch.Left then (predecessor t n, n) else (n, successor t n)).1 ka
          (if b = Branch.Left then (predecessor t n, n) else (n, successor t n)).2
        with f | u3 <;> simp only [hka] at ha
      · simp at ha
      simp only [MapEntry.isEmpty, Inner.isEmpty, if_true] at hb ha
      have hfreshb := insertEmpty_fresh t n b kb vb
      have hfresha := insertEmpty_fresh t n b ka va
      simp only [Prod.mk.injEq] at hb ha
      rcases hb with ⟨hb1, hb2, hb3⟩
      rcases ha with ⟨ha1, ha2, ha3⟩
      cases hb1; cases hb2; cases hb3; cases ha1; cases ha2; cases ha3
      simp [MapEntry.keyGet, MapEntry.valueGet, MapEntry.entryGet,
        Inner.keyGet, Inner.valueGet, Inner.entryGet,
        hfreshb.1, hfreshb.2.1, hfresha.1, hfresha.2.1]
  | occupied n =>
    refine ⟨fun hocc => by simp [MapEntry.isEmpty, Inner.isEmpty] at hocc, fun _ => ?_⟩
    simp only [MapEntry.insertBefore, MapEntry.insertAfter] at hb ha
    rcases hv : MapEntry.validate t ⟨.occupied n⟩ with f | u <;>
      simp only [hv] at hb ha
    · simp at hb
    · simp only [Inner.insertBefore, Inner.insertAfter] at hb ha
      rcases hkb : validateKey cmp t (predecessor t n) kb n with f | u2 <;>
        simp only [hkb] at hb
      · simp at hb
      rcases hka : validateKey cmp t n ka (successor t n) with f | u3 <;>
        simp only [hka] at ha
      · simp at ha
      have hfresh1 := insertEmpty_fresh t n Branch.Left kb vb
      have hfresh2 := insertEmpty_fresh t (predecessor t n) Branch.Right kb vb
      have hfresh3 := insertEmpty_fresh t n Branch.Right ka va
      have hfresh4 := insertEmpty_fresh t (successor t n) Branch.Left ka va
      simp only [Inner.isEmpty, Bool.false_eq_true, if_false] at hb ha
      split_ifs at hb ha <;>
        (simp only [Prod.mk.injEq] at hb ha
         rcases hb with ⟨hb1, hb2, hb3⟩
         rcases ha with ⟨ha1, ha2, ha3⟩
         cases hb1; cases hb2; cases hb3; cases ha1; cases ha2; cases ha3
         simp [MapEntry.keyGet, MapEntry.valueGet, Inner.keyGet, Inner.valueGet,
           hfresh1.1, hfresh1.2.1, hfresh2.1, hfresh2.2.1, hfresh3.1, hfresh3.2.1,
           hfresh4.1, hfresh4.2.1])

/-- The singleton map `{5 ↦ 50}`. -/
def singTree : Tree := mapSet ascending emptyTree 5 50

/-- Witness for the entry-morphing theorem, covering both branches:
the vacant keyed entry for 3 on the map `{1, 2}` morphs onto the
inserted pair, and on the singleton map `{5}` the occupied entry at 5
is left unchanged by `insertBefore 3` and `insertAfter 7` while the
returned entries read back the inserted keys. -/
theorem entry_morphing_witness :
    (entry ascending twoTree 3).isEmpty = true ∧
    MapEntry.keyGet
      (MapEntry.insertBefore ascending twoTree (entry ascending twoTree 3) 3 33).2.2
      (MapEntry.insertBefore ascending twoTree (entry ascending twoTree 3) 3 33).2.1
      = some 3 ∧
    (entry ascending singTree 5).isEmpty = false ∧
    (MapEntry.insertBefore ascending singTree (entry ascending singTree 5) 3 33).2.1
      = entry ascending singTree 5 ∧
    MapEntry.keyGet
      (MapEntry.insertBefore ascending singTree (entry ascending singTree 5) 3 33).2.2
      ⟨.occupied singTree.alloc⟩ = some 3 ∧
    (MapEntry.insertAfter ascending singTree (entry ascending singTree 5) 7 77).2.1
      = entry ascending singTree 5 ∧
    MapEntry.keyGet
      (MapEntry.insertAfter ascending singTree (entry ascending singTree 5) 7 77).2.2
      ⟨.occupied singTree.alloc⟩ = some 7 := by
  have hb0v : (MapEntry.insertBefore ascending twoTree (entry ascending twoTree 3) 3 33).1
      = .ok ⟨.occupied twoTree.alloc⟩ := by decide
  have ha0v : (MapEntry.insertAfter ascending twoTree (entry ascending twoTree 3) 3 33).1
      = .ok ⟨.occupied twoTree.alloc⟩ := by decide
  have hbv : MapEntry.insertBefore ascending twoTree (entry ascending twoTree 3) 3 33
      = (.ok ⟨.occupied twoTree.alloc⟩,
         (MapEntry.insertBefore ascending twoTree (entry ascending twoTree 3) 3 33).2.1,
         (MapEntry.insertBefore ascending twoTree (entry ascending twoTree 3) 3 33).2.2) := by
    rw [← hb0v]
  have hav : MapEntry.insertAfter ascending twoTree (entry ascending twoTree 3) 3 33
      = (.ok ⟨.occupied twoTree.alloc⟩,
         (MapEntry.insertAfter ascending twoTree (entry ascending twoTree 3) 3 33).2.1,
         (MapEntry.insertAfter ascending twoTree (entry ascending twoTree 3) 3 33).2.2) := by
    rw [← ha0v]
  have hV := entry_morphing_on_positional_insert ascending twoTree
    (entry ascending twoTree 3) 3 33 3 33
    ⟨.occupied twoTree.alloc⟩
    (MapEntry.insertBefore ascending twoTree (entry ascending twoTree 3) 3 33).2.1
    (MapEntry.insertBefore ascending twoTree (entry ascending twoTree 3) 3 33).2.2
    ⟨.occupied twoTree.alloc⟩
    (MapEntry.insertAfter ascending twoTree (entry ascending twoTree 3) 3 33).2.1
    (MapEntry.insertAfter ascending twoTree (entry ascending twoTree 3) 3 33).2.2
    hbv hav
  have h1 := hV.1 (by decide)
  have hb0o : (MapEntry.insertBefore ascending singTree (entry ascending singTree 5) 3 33).1
      = .ok ⟨.occupied singTree.alloc⟩ := by decide
  have ha0o : (MapEntry.insertAfter ascending singTree (entry ascending singTree 5) 7 77).1
      = .ok ⟨.occupied singTree.alloc⟩ := by decide
  have hbo : MapEntry.insertBefore ascending singTree (entry ascending singTree 5) 3 33
      = (.ok ⟨.occupied singTree.alloc⟩,
         (MapEntry.insertBefore ascending singTree (entry ascending singTree 5) 3 33).2.1,
         (MapEntry.insertBefore ascending singTree (entry ascending singTree 5) 3 33).2.2) := by
    rw [← hb0o]
  have hao : MapEntry.insertAfter ascending singTree (entry ascending singTree 5) 7 77
      = (.ok ⟨.occupied singTree.alloc⟩,
         (MapEntry.insertAfter ascending singTree (entry ascending singTree 5) 7 77).2.1,
         (MapEntry.insertAfter ascending singTree (entry ascending singTree 5) 7 77).2.2) := by
    rw [← ha0o]
  have hO := entry_morphing_on_positional_insert ascending singTree
    (entry ascending singTree 5) 3 33 7 77
    ⟨.occupied singTree.alloc⟩
    (MapEntry.insertBefore ascending singTree (entry ascending singTree 5) 3 33).2.1
    (MapEntry.insertBefore ascending singTree (entry ascending singTree 5) 3 33).2.2
    ⟨.occupied singTree.alloc⟩
    (MapEntry.insertAfter ascending singTree (entry ascending singTree 5) 7 77).2.1
    (MapEntry.insertAfter ascending singTree (entry ascending singTree 5) 7 77).2.2
    hbo hao
  have h2 := hO.2 (by decide)
  exact ⟨by decide, h1.2.2.1, by decide, h2.1, h2.2.2.1,
    h2.2.2.2.2.1, h2.2.2.2.2.2.2.1⟩

/-! ## Algebraic trees and the representation relation

To reason about whole-tree properties (ordering, WAVL ranks, range
contents) we abstract the pointer heap into an inductive binary tree
that records each node's arena index, key, value and rank parity.
`Rep` says a subtree sits in the heap at a given index with a given
parent pointer; `TreeRep` ties the abstraction to the root. -/

/-- An abstracted (algebraic) view of a heap subtree. -/
inductive ATree where
  | nil
  | node (i : Nat) (key value parity : Int) (l r : ATree)
deriving DecidableEq, Repr

namespace ATree

/-- In-order list of arena indices. -/
def idxs : ATree → List Nat
  | nil => []
  | node i _ _ _ l r => idxs l ++ i :: idxs r

/-- In-order list of keys. -/
def keysOf : ATree → List Int
  | nil => []
  | node _ k _ _ l r => keysOf l ++ k :: keysOf r

/-- In-order list of `(key, value)` pairs. -/
def entriesOf : ATree → List (Int × Int)
  | nil => []
  | node _ k v _ l r => entriesOf l ++ (k, v) :: entriesOf r

/-- The arena index of the subtree root (`0` for the empty tree —
the sentinel). -/
def rootIdx : ATree → Nat
  | nil => 0
  | node i _ _ _ _ _ => i

/-- Number of nodes. -/
def sz : ATree → Nat
  | nil => 0
  | node _ _ _ _ l r => sz l + sz r + 1

/-- The stored rank parity seen from above: `-1` (`RankParity.One`, the
rank of the sentinel) for `nil`. -/
def par : ATree → Int
  | nil => -1
  | node _ _ _ p _ _ => p

@[simp] theorem idxs_nil : idxs nil = [] := rfl

@[simp] theorem idxs_node (i : Nat) (k v p : Int) (l r : ATree) :
    idxs (node i k v p l r) = idxs l ++ i :: idxs r := rfl

@[simp] theorem keysOf_nil : keysOf nil = [] := rfl

@[simp] theorem keysOf_node (i : Nat) (k v p : Int) (l r : ATree) :
    keysOf (node i k v p l r) = keysOf l ++ k :: keysOf r := rfl

@[simp] theorem entriesOf_nil : entriesOf nil = [] := rfl

@[simp] theorem entriesOf_node (i : Nat) (k v p : Int) (l r : ATree) :
    entriesOf (node i k v p l r) = entriesOf l ++ (k, v) :: entriesOf r := rfl

@[simp] theorem sz_nil : sz nil = 0 := rfl

@[simp] theorem sz_node (i : Nat) (k v p : Int) (l r : ATree) :
    sz (node i k v p l r) = sz l + sz r + 1 := rfl

theorem length_idxs (a : ATree) : (idxs a).length = sz a := by
  induction a with
  | nil => simp
  | node i k v p l r ihl ihr => simp [ihl, ihr]; omega

theorem length_keysOf (a : ATree) : (keysOf a).length = sz a := by
  induction a with
  | nil => simp
  | node i k v p l r ihl ihr => simp [ihl, ihr]; omega

theorem rootIdx_mem (a : ATree) (h : a ≠ nil) : rootIdx a ∈ idxs a := by
  cases a with
  | nil => exact absurd rfl h
  | node i k v p l r => simp [rootIdx]

end ATree

/-- `Rep t a i par`: the algebraic subtree `a` is laid out in the heap
of `t` at index `i`, whose parent pointer is `par`.  Every node is
live (no tombstone), non-sentinel, and inside the allocated region. -/
def Rep (t : Tree) : ATree → Nat → Nat → Prop
  | .nil, i, _ => i = 0
  | .node j k v p l r, i, parent =>
    i = j ∧ j ≠ 0 ∧ j < t.alloc ∧
    (getN t j).key = k ∧ (getN t j).value = v ∧ (getN t j).parity = p ∧
    (getN t j).parent = parent ∧ (getN t j).removed = false ∧
    Rep t l (getN t j).left j ∧ Rep t r (getN t j).right j

instance repDecidable (t : Tree) :
    (a : ATree) → (i par : Nat) → Decidable (Rep t a i par)
  | .nil, i, par => by unfold Rep; infer_instance
  | .node j k v p l r, i, par => by
    unfold Rep
    have dl := repDecidable t l (getN t j).left j
    have dr := repDecidable t r (getN t j).right j
    infer_instance

/-- Whole-tree representation: the abstraction sits at the root with
the sentinel (`0`) as parent, all indices are distinct, and arena cell
`0` holds the pristine sentinel. -/
def TreeRep (t : Tree) (a : ATree) : Prop :=
  Rep t a t.root 0 ∧ (ATree.idxs a).Nodup ∧ getN t 0 = nilNode

instance (t : Tree) (a : ATree) : Decidable (TreeRep t a) := by
  unfold TreeRep; infer_instance

/-- Every index recorded in a represented subtree is non-zero and below
the allocation bound. -/
theorem rep_idxs_bound (t : Tree) : ∀ (a : ATree) (i par : Nat),
    Rep t a i par → ∀ j ∈ ATree.idxs a, j ≠ 0 ∧ j < t.alloc := by
  intro a
  induction a with
  | nil => intro i par _ j hj; simp [ATree.idxs] at hj
  | node n k v p l r ihl ihr =>
    intro i par h j hj
    obtain ⟨rfl, hn0, hna, _, _, _, _, _, hl, hr⟩ := h
    simp only [ATree.idxs_node, List.mem_append, List.mem_cons] at hj
    rcases hj with hj | rfl | hj
    · exact ihl _ _ hl j hj
    · exact ⟨hn0, hna⟩
    · exact ihr _ _ hr j hj

/-- A subtree representation pins the root index: `i = rootIdx a`. -/
theorem rep_rootIdx (t : Tree) (a : ATree) (i par : Nat) (h : Rep t a i par) :
    i = ATree.rootIdx a := by
  cases a with
  | nil => exact h
  | node j k v p l r => exact h.1

/-- Representations only read the heap at the subtree's own indices, so
they transport along any heap change that leaves those cells (and the
allocation bound, monotonically) alone. -/
theorem rep_mono (t t' : Tree) : ∀ (a : ATree) (i par : Nat),
    (∀ j ∈ ATree.idxs a, getN t' j = getN t j) → t.alloc ≤ t'.alloc →
    Rep t a i par → Rep t' a i par := by
  intro a
  induction a with
  | nil => intro i par _ _ h; exact h
  | node n k v p l r ihl ihr =>
    intro i par hsame halloc h
    obtain ⟨hin, hn0, hna, hk, hv, hp, hpar, hrem, hl, hr⟩ := h
    subst hin
    have hn : getN t' i = getN t i := hsame i (by simp)
    refine ⟨rfl, hn0, lt_of_lt_of_le hna halloc, ?_, ?_, ?_, ?_, ?_, ?_, ?_⟩ <;>
      rw [hn]
    · exact hk
    · exact hv
    · exact hp
    · exact hpar
    · exact hrem
    · exact ihl _ _ (fun j hj => hsame j (by simp [hj])) halloc hl
    · exact ihr _ _ (fun j hj => hsame j (by simp [hj])) halloc hr

/-- Writing outside a subtree's index set preserves its
representation. -/
theorem rep_setN_out (t : Tree) (a : ATree) (i par w : Nat) (n : Node)
    (hw : w ∉ ATree.idxs a) (h : Rep t a i par) : Rep (setN t w n) a i par := by
  refine rep_mono t (setN t w n) a i par ?_ le_rfl h
  intro j hj
  exact getN_setN_ne t w j n (fun hji => hw (hji ▸ hj))

/-- A represented subtree has fewer nodes than the allocation bound:
its indices are distinct, non-zero and below `alloc`. -/
theorem rep_sz_lt_alloc (t : Tree) (a : ATree) (i par : Nat) (h : Rep t a i par)
    (hnd : (ATree.idxs a).Nodup) (hne : a ≠ .nil) : ATree.sz a < t.alloc := by
  have hsub : ∀ j ∈ ATree.idxs a, j ∈ (Finset.range t.alloc).erase 0 := by
    intro j hj
    have hb := rep_idxs_bound t a i par h j hj
    rw [Finset.mem_erase, Finset.mem_range]
    exact ⟨hb.1, hb.2⟩
  have hcard : (ATree.idxs a).toFinset.card ≤ ((Finset.range t.alloc).erase 0).card := by
    apply Finset.card_le_card
    intro j hj
    exact hsub j (List.mem_toFinset.mp hj)
  rw [List.toFinset_card_of_nodup hnd, ATree.length_idxs] at hcard
  have h0 : 0 < t.alloc := by
    cases a with
    | nil => exact absurd rfl hne
    | node n k v p l r =>
      have := h.2.2.1
      omega
  rw [Finset.card_erase_of_mem (Finset.mem_range.mpr h0), Finset.card_range] at hcard
  omega

/-! ### Navigation: minima, maxima and in-order neighbours -/

/-- The element following the (first occurrence of) `j`, `0` when `j`
is last or absent. -/
def nextAfter (l : List Nat) (j : Nat) : Nat :=
  match l with
  | [] => 0
  | x :: xs => if x = j then xs.head?.getD 0 else nextAfter xs j

theorem nextAfter_not_mem (l : List Nat) (j : Nat) (h : j ∉ l) :
    nextAfter l j = 0 := by
  induction l with
  | nil => rfl
  | cons x xs ih =>
    simp only [List.mem_cons, not_or] at h
    simp [nextAfter, Ne.symm h.1, ih h.2]

theorem nextAfter_append_right (l1 l2 : List Nat) (j : Nat) (h : j ∉ l1) :
    nextAfter (l1 ++ l2) j = nextAfter l2 j := by
  induction l1 with
  | nil => rfl
  | cons x xs ih =>
    simp only [List.mem_cons, not_or] at h
    simp [nextAfter, Ne.symm h.1, ih h.2]

theorem nextAfter_append_left (l1 l2 : List Nat) (j : Nat)
    (hnd : l1.Nodup) (h : j ∈ l1) :
    nextAfter (l1 ++ l2) j =
      if l1.getLast? = some j then l2.head?.getD 0 else nextAfter l1 j := by
  induction l1 with
  | nil => simp at h
  | cons x xs ih =>
    rcases List.nodup_cons.mp hnd with ⟨hx, hxs⟩
    by_cases hxj : x = j
    · subst hxj
      have hj : x ∉ xs := hx
      cases xs with
      | nil => simp [nextAfter]
      | cons y ys =>
        have hlast : (y :: ys).getLast? ≠ some x := by
          intro hc
          exact hj (List.mem_of_mem_getLast? hc)
        rw [List.getLast?_cons_cons]
        simp [nextAfter, hlast]
    · have hj : j ∈ xs := by
        rcases List.mem_cons.mp h with h2 | h2
        · exact absurd h2.symm hxj
        · exact h2
      have hxs_ne : xs ≠ [] := List.ne_nil_of_mem hj
      have hlast : (x :: xs).getLast? = xs.getLast? := by
        cases xs with
        | nil => exact absurd rfl hxs_ne
        | cons y ys => rw [List.getLast?_cons_cons]
      rw [List.cons_append]
      show nextAfter (x :: (xs ++ l2)) j = _
      rw [show nextAfter (x :: (xs ++ l2)) j = nextAfter (xs ++ l2) j by
        simp [nextAfter, hxj]]
      rw [ih hxs hj, hlast]
      by_cases hl : xs.getLast? = some j
      · simp [hl]
      · simp only [hl, if_false]
        simp [nextAfter, hxj]

/-- The rightmost node of a represented subtree has a sentinel right
child. -/
theorem rep_getLast_right (t : Tree) : ∀ (a : ATree) (i par j : Nat),
    Rep t a i par → (ATree.idxs a).getLast? = some j → (getN t j).right = 0 := by
  intro a
  induction a with
  | nil => intro i par j _ hl; simp [ATree.idxs] at hl
  | node n k v p l r ihl ihr =>
    intro i par j h hl
    obtain ⟨hin, hn0, hna, hk, hv, hp, hpar, hrem, hrl, hrr⟩ := h
    subst hin
    rw [ATree.idxs_node, List.getLast?_append_cons] at hl
    cases hrc : r with
    | nil =>
      subst hrc
      simp only [ATree.idxs_nil] at hl
      cases hl
      exact hrr
    | node m mk mv mp ml mr =>
      subst hrc
      have hne : ATree.idxs (ATree.node m mk mv mp ml mr) ≠ [] := by
        simp [ATree.idxs]
      rw [show (i :: ATree.idxs (ATree.node m mk mv mp ml mr)).getLast? =
          (ATree.idxs (ATree.node m mk mv mp ml mr)).getLast? from ?_] at hl
      · exact ihr _ _ j hrr hl
      · cases hx : ATree.idxs (ATree.node m mk mv mp ml mr) with
        | nil => exact absurd hx hne
        | cons y ys => rw [List.getLast?_cons_cons]

/-- The leftmost node of a represented subtree has a sentinel left
child. -/
theorem rep_head_left (t : Tree) : ∀ (a : ATree) (i par j : Nat),
    Rep t a i par → (ATree.idxs a).head? = some j → (getN t j).left = 0 := by
  intro a
  induction a with
  | nil => intro i par j _ hl; simp [ATree.idxs] at hl
  | node n k v p l r ihl ihr =>
    intro i par j h hl
    obtain ⟨hin, hn0, hna, hk, hv, hp, hpar, hrem, hrl, hrr⟩ := h
    subst hin
    cases hlc : l with
    | nil =>
      subst hlc
      simp only [ATree.idxs_node, ATree.idxs_nil, List.nil_append,
        List.head?_cons] at hl
      cases hl
      exact hrl
    | node m mk mv mp ml mr =>
      subst hlc
      have hne : ATree.idxs (ATree.node m mk mv mp ml mr) ≠ [] := by
        simp [ATree.idxs]
      rw [ATree.idxs_node, List.head?_append_of_ne_nil _ hne] at hl
      exact ihl _ _ j hrl hl

/-- Descent spec for `minimumGo`: on a represented non-empty subtree it
lands on the head of the in-order index list. -/
theorem minimumGo_spec (t : Tree) : ∀ (a : ATree) (i par fuel : Nat),
    Rep t a i par → a ≠ .nil → ATree.sz a ≤ fuel →
    minimumGo t fuel i (getN t i).left = (ATree.idxs a).head?.getD 0 := by
  intro a
  induction a with
  | nil => intro i par fuel _ hne _; exact absurd rfl hne
  | node n k v p l r ihl ihr =>
    intro i par fuel h _ hfuel
    obtain ⟨hin, hn0, hna, hk, hv, hp, hpar, hrem, hrl, hrr⟩ := h
    subst hin
    cases hlc : l with
    | nil =>
      subst hlc
      have h0 : (getN t i).left = 0 := hrl
      rw [h0, minimumGo_nil]
      simp
    | node m mk mv mp ml mr =>
      subst hlc
      have hne : ATree.idxs (ATree.node m mk mv mp ml mr) ≠ [] := by
        simp [ATree.idxs]
      have hl0 : (getN t i).left ≠ 0 := by
        rw [rep_rootIdx t _ _ _ hrl]
        exact hrl.2.1
      cases fuel with
      | zero => simp [ATree.sz] at hfuel
      | succ f =>
        rw [minimumGo, if_neg hl0]
        rw [ihl (getN t i).left i f hrl (by simp) (by simp at hfuel ⊢; omega)]
        have hh : (ATree.idxs (ATree.node i k v p (ATree.node m mk mv mp ml mr) r)).head?
            = (ATree.idxs (ATree.node m mk mv mp ml mr)).head? := by
          rw [ATree.idxs_node i k v p (ATree.node m mk mv mp ml mr) r]
          exact List.head?_append_of_ne_nil _ hne
        rw [hh]

/-- Descent spec for `maximumGo`. -/
theorem maximumGo_spec (t : Tree) : ∀ (a : ATree) (i par fuel : Nat),
    Rep t a i par → a ≠ .nil → ATree.sz a ≤ fuel →
    maximumGo t fuel i (getN t i).right = (ATree.idxs a).getLast?.getD 0 := by
  intro a
  induction a with
  | nil => intro i par fuel _ hne _; exact absurd rfl hne
  | node n k v p l r ihl ihr =>
    intro i par fuel h _ hfuel
    obtain ⟨hin, hn0, hna, hk, hv, hp, hpar, hrem, hrl, hrr⟩ := h
    subst hin
    cases hrc : r with
    | nil =>
      subst hrc
      have h0 : (getN t i).right = 0 := hrr
      rw [h0, maximumGo_nil]
      simp [List.getLast?_append]
    | node m mk mv mp ml mr =>
      subst hrc
      have hne : ATree.idxs (ATree.node m mk mv mp ml mr) ≠ [] := by
        simp [ATree.idxs]
      have hr0 : (getN t i).right ≠ 0 := by
        rw [rep_rootIdx t _ _ _ hrr]
        exact hrr.2.1
      cases fuel with
      | zero => simp [ATree.sz] at hfuel
      | succ f =>
        rw [maximumGo, if_neg hr0]
        rw [ihr (getN t i).right i f hrr (by simp) (by simp at hfuel ⊢; omega)]
        have hh : (ATree.idxs (ATree.node i k v p l (ATree.node m mk mv mp ml mr))).getLast?
            = (ATree.idxs (ATree.node m mk mv mp ml mr)).getLast? := by
          rw [ATree.idxs_node i k v p l (ATree.node m mk mv mp ml mr),
            List.getLast?_append_cons]
          cases hx : ATree.idxs (ATree.node m mk mv mp ml mr) with
          | nil => exact absurd hx hne
          | cons y ys => rw [List.getLast?_cons_cons]
        rw [hh]

/-- `minimum` on a represented subtree. -/
theorem minimum_spec (t : Tree) (a : ATree) (i par : Nat) (h : Rep t a i par)
    (hnd : (ATree.idxs a).Nodup) (h0 : getN t 0 = nilNode) :
    minimum t i = (ATree.idxs a).head?.getD 0 := by
  cases a with
  | nil =>
    cases h
    simp [minimum, h0, nilNode, minimumGo_nil]
  | node n k v p l r =>
    exact minimumGo_spec t (ATree.node n k v p l r) i par t.alloc h (by simp)
      (le_of_lt (rep_sz_lt_alloc t _ i par h hnd (by simp)))

/-- `maximum` on a represented subtree. -/
theorem maximum_spec (t : Tree) (a : ATree) (i par : Nat) (h : Rep t a i par)
    (hnd : (ATree.idxs a).Nodup) (h0 : getN t 0 = nilNode) :
    maximum t i = (ATree.idxs a).getLast?.getD 0 := by
  cases a with
  | nil =>
    cases h
    simp [maximum, h0, nilNode, maximumGo_nil]
  | node n k v p l r =>
    exact maximumGo_spec t (ATree.node n k v p l r) i par t.alloc h (by simp)
      (le_of_lt (rep_sz_lt_alloc t _ i par h hnd (by simp)))

/-- Reachability of the `succUpGo` loop: from state `(j, p)` the walk,
taking only steps whose guard holds, reaches state `(j', p')` after `n`
iterations. -/
inductive UpReachR (t : Tree) : Nat → Nat → Nat → Nat → Nat → Prop where
  | refl (j p : Nat) : UpReachR t j p j p 0
  | step (j p j' p' n : Nat) : p ≠ 0 → (getN t p).right = j →
      UpReachR t p (getN t p).parent j' p' n → UpReachR t j p j' p' (n + 1)

/-- Mirror relation for the `predUpGo` loop. -/
inductive UpReachL (t : Tree) : Nat → Nat → Nat → Nat → Nat → Prop where
  | refl (j p : Nat) : UpReachL t j p j p 0
  | step (j p j' p' n : Nat) : p ≠ 0 → (getN t p).left = j →
      UpReachL t p (getN t p).parent j' p' n → UpReachL t j p j' p' (n + 1)

theorem upReachR_trans (t : Tree) {j p j1 p1 j2 p2 n m : Nat}
    (h1 : UpReachR t j p j1 p1 n) (h2 : UpReachR t j1 p1 j2 p2 m) :
    UpReachR t j p j2 p2 (n + m) := by
  induction h1 with
  | refl j p => simpa using h2
  | step j p j' p' n hne hr _ ih =>
    have := UpReachR.step j p j2 p2 (n + m) hne hr (ih h2)
    simpa [Nat.add_right_comm] using this

theorem upReachL_trans (t : Tree) {j p j1 p1 j2 p2 n m : Nat}
    (h1 : UpReachL t j p j1 p1 n) (h2 : UpReachL t j1 p1 j2 p2 m) :
    UpReachL t j p j2 p2 (n + m) := by
  induction h1 with
  | refl j p => simpa using h2
  | step j p j' p' n hne hl _ ih =>
    have := UpReachL.step j p j2 p2 (n + m) hne hl (ih h2)
    simpa [Nat.add_right_comm] using this

/-- Evaluate `succUpGo` along a walk that ends in a halted state: any
fuel at least the number of steps yields the final parent. -/
theorem succUpGo_eval (t : Tree) {j p j' p' n : Nat}
    (h : UpReachR t j p j' p' n)
    (hhalt : ¬(p' ≠ 0 ∧ (getN t p').right = j')) :
    ∀ fuel, n ≤ fuel → succUpGo t fuel j p = p' := by
  induction h with
  | refl j p =>
    intro fuel _
    cases fuel with
    | zero => rfl
    | succ f => rw [succUpGo, if_neg hhalt]
  | step j p j' p' n hne hr _ ih =>
    intro fuel hf
    cases fuel with
    | zero => omega
    | succ f =>
      rw [succUpGo, if_pos ⟨hne, hr⟩]
      exact ih hhalt f (by omega)

theorem predUpGo_eval (t : Tree) {j p j' p' n : Nat}
    (h : UpReachL t j p j' p' n)
    (hhalt : ¬(p' ≠ 0 ∧ (getN t p').left = j')) :
    ∀ fuel, n ≤ fuel → predUpGo t fuel j p = p' := by
  induction h with
  | refl j p =>
    intro fuel _
    cases fuel with
    | zero => rfl
    | succ f => rw [predUpGo, if_neg hhalt]
  | step j p j' p' n hne hl _ ih =>
    intro fuel hf
    cases fuel with
    | zero => omega
    | succ f =>
      rw [predUpGo, if_pos ⟨hne, hl⟩]
      exact ih hhalt f (by omega)

/-- From the rightmost node of a represented subtree the parent walk
climbs the right spine and exits at the subtree root with its outer
parent. -/
theorem upreach_from_last (t : Tree) : ∀ (a : ATree) (i par j : Nat),
    Rep t a i par → (ATree.idxs a).getLast? = some j →
    ∃ n, n ≤ ATree.sz a ∧ UpReachR t j (getN t j).parent i par n := by
  intro a
  induction a with
  | nil => intro i par j _ hl; simp [ATree.idxs] at hl
  | node nn k v p l r ihl ihr =>
    intro i par j h hl
    obtain ⟨hin, hn0, hna, hk, hv, hp, hpar, hrem, hrl, hrr⟩ := h
    subst hin
    rw [ATree.idxs_node, List.getLast?_append_cons] at hl
    cases hrc : r with
    | nil =>
      subst hrc
      simp only [ATree.idxs_nil, List.getLast?_singleton, Option.some.injEq] at hl
      subst hl
      exact ⟨0, by simp, by rw [hpar]; exact UpReachR.refl i par⟩
    | node m mk mv mp ml mr =>
      subst hrc
      have hne : ATree.idxs (ATree.node m mk mv mp ml mr) ≠ [] := by
        simp [ATree.idxs]
      rw [show (i :: ATree.idxs (ATree.node m mk mv mp ml mr)).getLast? =
          (ATree.idxs (ATree.node m mk mv mp ml mr)).getLast? from ?_] at hl
      · obtain ⟨n, hn, hwalk⟩ := ihr _ _ j hrr hl
        refine ⟨n + 1, by simp [ATree.sz] at hn ⊢; omega, ?_⟩
        have hstep : UpReachR t (getN t i).right i i par 1 := by
          have := UpReachR.step (getN t i).right i i par 0 hn0 rfl
            (by rw [hpar]; exact UpReachR.refl i par)
          simpa using this
        simpa using upReachR_trans t hwalk hstep
      · cases hx : ATree.idxs (ATree.node m mk mv mp ml mr) with
        | nil => exact absurd hx hne
        | cons y ys => rw [List.getLast?_cons_cons]

/-- Mirror: from the leftmost node the walk exits at the subtree root. -/
theorem upreach_from_head (t : Tree) : ∀ (a : ATree) (i par j : Nat),
    Rep t a i par → (ATree.idxs a).head? = some j →
    ∃ n, n ≤ ATree.sz a ∧ UpReachL t j (getN t j).parent i par n := by
  intro a
  induction a with
  | nil => intro i par j _ hl; simp [ATree.idxs] at hl
  | node nn k v p l r ihl ihr =>
    intro i par j h hl
    obtain ⟨hin, hn0, hna, hk, hv, hp, hpar, hrem, hrl, hrr⟩ := h
    subst hin
    cases hlc : l with
    | nil =>
      subst hlc
      simp only [ATree.idxs_node, ATree.idxs_nil, List.nil_append,
        List.head?_cons] at hl
      cases hl
      exact ⟨0, by simp, by rw [hpar]; exact UpReachL.refl i par⟩
    | node m mk mv mp ml mr =>
      subst hlc
      have hne : ATree.idxs (ATree.node m mk mv mp ml mr) ≠ [] := by
        simp [ATree.idxs]
      rw [ATree.idxs_node, List.head?_append_of_ne_nil _ hne] at hl
      obtain ⟨n, hn, hwalk⟩ := ihl _ _ j hrl hl
      refine ⟨n + 1, by simp [ATree.sz] at hn ⊢; omega, ?_⟩
      have hstep : UpReachL t (getN t i).left i i par 1 := by
        have := UpReachL.step (getN t i).left i i par 0 hn0 rfl
          (by rw [hpar]; exact UpReachL.refl i par)
        simpa using this
      simpa using upReachL_trans t hwalk hstep

theorem nextAfter_eq_zero_of_getLast (l : List Nat) (j : Nat) (hnd : l.Nodup)
    (h : l.getLast? = some j) : nextAfter l j = 0 := by
  induction l with
  | nil => simp at h
  | cons x xs ih =>
    rcases List.nodup_cons.mp hnd with ⟨hx, hxs⟩
    cases xs with
    | nil =>
      simp only [List.getLast?_singleton, Option.some.injEq] at h
      subst h
      simp [nextAfter]
    | cons y ys =>
      rw [List.getLast?_cons_cons] at h
      have hmem : j ∈ y :: ys := List.mem_of_mem_getLast? h
      have hxj : x ≠ j := fun hc => hx (hc ▸ hmem)
      show (if x = j then (y :: ys).head?.getD 0 else nextAfter (y :: ys) j) = 0
      rw [if_neg hxj]
      exact ih hxs h

theorem nextAfter_mem (l : List Nat) (j : Nat) (hj : j ∈ l)
    (hlast : l.getLast? ≠ some j) : nextAfter l j ∈ l := by
  induction l with
  | nil => simp at hj
  | cons x xs ih =>
    by_cases hxj : x = j
    · subst hxj
      cases xs with
      | nil => simp at hlast
      | cons y ys => simp [nextAfter]
    · have hj2 : j ∈ xs := by
        rcases List.mem_cons.mp hj with h2 | h2
        · exact absurd h2.symm hxj
        · exact h2
      have hxs_ne : xs ≠ [] := List.ne_nil_of_mem hj2
      have hlast2 : xs.getLast? ≠ some j := by
        intro hc
        apply hlast
        cases xs with
        | nil => exact absurd rfl hxs_ne
        | cons y ys => rw [List.getLast?_cons_cons]; exact hc
      have := ih hj2 hlast2
      simp only [nextAfter, if_neg (fun hc : x = j => hxj hc)]
      exact List.mem_cons_of_mem x this

/-- `successor` within a represented subtree: when the in-order next of
`j` lies inside the subtree, the heap walk finds it. -/
theorem successor_spec_sub (t : Tree) : ∀ (a : ATree) (i par : Nat),
    Rep t a i par → (ATree.idxs a).Nodup → ATree.sz a < t.alloc →
    getN t 0 = nilNode →
    ∀ j ∈ ATree.idxs a, nextAfter (ATree.idxs a) j ≠ 0 →
      successor t j = nextAfter (ATree.idxs a) j := by
  intro a
  induction a with
  | nil => intro i par _ _ _ _ j hj; simp [ATree.idxs] at hj
  | node nn k v p l r ihl ihr =>
    intro i par h hnd hsz h0 j hj hne0
    obtain ⟨hin, hn0, hna, hk, hv, hp, hpar, hrem, hrl, hrr⟩ := h
    subst hin
    rw [ATree.idxs_node] at hnd
    have hnd_l : (ATree.idxs l).Nodup := (List.nodup_append.mp hnd).1
    have hnd_cr : (i :: ATree.idxs r).Nodup := (List.nodup_append.mp hnd).2.1
    have hdisj : (ATree.idxs l).Disjoint (i :: ATree.idxs r) :=
      (List.nodup_append.mp hnd).2.2
    have hnd_r : (ATree.idxs r).Nodup := (List.nodup_cons.mp hnd_cr).2
    have hnn_r : i ∉ ATree.idxs r := (List.nodup_cons.mp hnd_cr).1
    rw [ATree.idxs_node] at hj hne0 ⊢
    rcases List.mem_append.mp hj with hjl | hjcr
    · -- j in the left subtree
      have hjnotr : j ∉ i :: ATree.idxs r := fun hc => hdisj hjl hc
      rw [nextAfter_append_left _ _ _ hnd_l hjl] at hne0 ⊢
      by_cases hjlast : (ATree.idxs l).getLast? = some j
      · rw [if_pos hjlast] at hne0 ⊢
        simp only [List.head?_cons, Option.getD_some]
        -- successor climbs out of the left subtree to i
        have hright : (getN t j).right = 0 := rep_getLast_right t l _ _ j hrl hjlast
        rw [successor, if_neg (by simp [hright])]
        obtain ⟨n, hn, hwalk⟩ := upreach_from_last t l _ _ j hrl hjlast
        have hlne : l ≠ .nil := by
          intro hc; subst hc; simp [ATree.idxs] at hjl
        have hhalt : ¬(i ≠ 0 ∧ (getN t i).right = (getN t i).left) := by
          rintro ⟨-, hc⟩
          have hlr : (getN t i).left = ATree.rootIdx l := rep_rootIdx t l _ _ hrl
          have hrr' : (getN t i).right = ATree.rootIdx r := rep_rootIdx t r _ _ hrr
          cases hrc : r with
          | nil =>
            subst hrc
            rw [hrr'] at hc
            have : ATree.rootIdx l ∈ ATree.idxs l := ATree.rootIdx_mem l hlne
            have hb := rep_idxs_bound t l _ _ hrl _ this
            rw [hlr] at hc
            exact hb.1 hc.symm
          | node m2 k2 v2 p2 l2 r2 =>
            subst hrc
            rw [hlr, hrr'] at hc
            have h1 : ATree.rootIdx l ∈ ATree.idxs l := ATree.rootIdx_mem l hlne
            have h2 : ATree.rootIdx (ATree.node m2 k2 v2 p2 l2 r2) ∈
                ATree.idxs (ATree.node m2 k2 v2 p2 l2 r2) :=
              ATree.rootIdx_mem _ (by simp)
            exact hdisj h1 (List.mem_cons_of_mem i (hc ▸ h2))
        have hsz_l : ATree.sz l ≤ ATree.sz (ATree.node i k v p l r) := by
          simp [ATree.sz]; omega
        exact succUpGo_eval t hwalk hhalt t.alloc (by omega)
      · rw [if_neg hjlast] at hne0 ⊢
        exact ihl _ _ hrl hnd_l (by simp [ATree.sz] at hsz ⊢; omega) h0 j hjl hne0
    · rcases List.mem_cons.mp hjcr with rfl | hjr
      · -- j is the subtree root i
        rw [nextAfter_append_right _ _ _ (fun hc => hdisj hc (by simp))] at hne0 ⊢
        simp only [nextAfter, if_pos rfl] at hne0 ⊢
        have hrne : r ≠ .nil := by
          intro hc; subst hc; simp [ATree.idxs] at hne0
        have hrr' : (getN t j).right = ATree.rootIdx r := rep_rootIdx t r _ _ hrr
        have hr0 : (getN t j).right ≠ 0 := by
          rw [hrr']
          have := ATree.rootIdx_mem r hrne
          exact (rep_idxs_bound t r _ _ hrr _ this).1
        rw [successor, if_pos hr0]
        exact minimum_spec t r (getN t j).right j hrr hnd_r h0
      · -- j in the right subtree
        have hjnotl : j ∉ ATree.idxs l := fun hc => hdisj hc (List.mem_cons_of_mem i hjr)
        have hnnj : i ≠ j := fun hc => hnn_r (hc ▸ hjr)
        rw [nextAfter_append_right _ _ _ hjnotl] at hne0 ⊢
        simp only [nextAfter, if_neg hnnj] at hne0 ⊢
        exact ihr _ _ hrr hnd_r (by simp [ATree.sz] at hsz ⊢; omega) h0 j hjr hne0

/-- `successor` on the whole tree steps to the next in-order index
(`0` past the maximum). -/
theorem successor_spec (t : Tree) (a : ATree) (h : TreeRep t a)
    (j : Nat) (hj : j ∈ ATree.idxs a) :
    successor t j = nextAfter (ATree.idxs a) j := by
  obtain ⟨hrep, hnd, h0⟩ := h
  have hane : a ≠ .nil := by
    intro hc; subst hc; simp [ATree.idxs] at hj
  have hsz := rep_sz_lt_alloc t a _ _ hrep hnd hane
  by_cases hlast : (ATree.idxs a).getLast? = some j
  · rw [nextAfter_eq_zero_of_getLast _ _ hnd hlast]
    have hright : (getN t j).right = 0 := rep_getLast_right t a _ _ j hrep hlast
    rw [successor, if_neg (by simp [hright])]
    obtain ⟨n, hn, hwalk⟩ := upreach_from_last t a _ _ j hrep hlast
    exact succUpGo_eval t hwalk (by simp) t.alloc (by omega)
  · have hmem := nextAfter_mem _ _ hj hlast
    have hne : nextAfter (ATree.idxs a) j ≠ 0 :=
      (rep_idxs_bound t a _ _ hrep _ hmem).1
    exact successor_spec_sub t a _ _ hrep hnd hsz h0 j hj hne

theorem idxs_reverse_node (i : Nat) (k v p : Int) (l r : ATree) :
    (ATree.idxs (ATree.node i k v p l r)).reverse =
      (ATree.idxs r).reverse ++ i :: (ATree.idxs l).reverse := by
  simp [ATree.idxs]

/-- `predecessor` within a represented subtree (mirror of
`successor_spec_sub`, phrased on the reversed in-order list). -/
theorem predecessor_spec_sub (t : Tree) : ∀ (a : ATree) (i par : Nat),
    Rep t a i par → (ATree.idxs a).Nodup → ATree.sz a < t.alloc →
    getN t 0 = nilNode →
    ∀ j ∈ ATree.idxs a, nextAfter (ATree.idxs a).reverse j ≠ 0 →
      predecessor t j = nextAfter (ATree.idxs a).reverse j := by
  intro a
  induction a with
  | nil => intro i par _ _ _ _ j hj; simp [ATree.idxs] at hj
  | node nn k v p l r ihl ihr =>
    intro i par h hnd hsz h0 j hj hne0
    obtain ⟨hin, hn0, hna, hk, hv, hp, hpar, hrem, hrl, hrr⟩ := h
    subst hin
    rw [ATree.idxs_node] at hnd
    have hnd_l : (ATree.idxs l).Nodup := (List.nodup_append.mp hnd).1
    have hnd_cr : (i :: ATree.idxs r).Nodup := (List.nodup_append.mp hnd).2.1
    have hdisj : (ATree.idxs l).Disjoint (i :: ATree.idxs r) :=
      (List.nodup_append.mp hnd).2.2
    have hnd_r : (ATree.idxs r).Nodup := (List.nodup_cons.mp hnd_cr).2
    have hi_r : i ∉ ATree.idxs r := (List.nodup_cons.mp hnd_cr).1
    rw [ATree.idxs_node] at hj
    rw [idxs_reverse_node] at hne0 ⊢
    rcases List.mem_append.mp hj with hjl | hjcr
    · -- j in the left subtree: it sits past nn in the reversed list
      have hjnotrr : j ∉ (ATree.idxs r).reverse := by
        rw [List.mem_reverse]
        exact fun hc => hdisj hjl (List.mem_cons_of_mem i hc)
      have hij : i ≠ j := by
        intro hc
        exact hdisj (hc ▸ hjl) (by simp)
      rw [nextAfter_append_right _ _ _ hjnotrr] at hne0 ⊢
      simp only [nextAfter, if_neg hij] at hne0 ⊢
      exact ihl _ _ hrl hnd_l (by simp [ATree.sz] at hsz ⊢; omega) h0 j hjl hne0
    · rcases List.mem_cons.mp hjcr with rfl | hjr
      · -- j = nn: its predecessor is the maximum of the left subtree
        have hjnotrr : j ∉ (ATree.idxs r).reverse := by
          rw [List.mem_reverse]; exact hi_r
        rw [nextAfter_append_right _ _ _ hjnotrr] at hne0 ⊢
        simp only [nextAfter, if_pos rfl] at hne0 ⊢
        have hlne : l ≠ .nil := by
          intro hc; subst hc; simp [ATree.idxs] at hne0
        have hll : (getN t j).left = ATree.rootIdx l := rep_rootIdx t l _ _ hrl
        have hl0 : (getN t j).left ≠ 0 := by
          rw [hll]
          exact (rep_idxs_bound t l _ _ hrl _ (ATree.rootIdx_mem l hlne)).1
        rw [predecessor, if_pos hl0]
        rw [maximum_spec t l (getN t j).left j hrl hnd_l h0]
        rw [List.head?_reverse]
        simp
      · -- j in the right subtree
        have hjrr : j ∈ (ATree.idxs r).reverse := List.mem_reverse.mpr hjr
        have hndrr : ((ATree.idxs r).reverse).Nodup := List.nodup_reverse.mpr hnd_r
        rw [nextAfter_append_left _ _ _ hndrr hjrr] at hne0 ⊢
        by_cases hjfirst : ((ATree.idxs r).reverse).getLast? = some j
        · rw [if_pos hjfirst] at hne0 ⊢
          simp only [List.head?_cons, Option.getD_some]
          have hjhead : (ATree.idxs r).head? = some j := by
            rwa [List.getLast?_reverse] at hjfirst
          have hleft : (getN t j).left = 0 := rep_head_left t r _ _ j hrr hjhead
          rw [predecessor, if_neg (by simp [hleft])]
          obtain ⟨n, hn, hwalk⟩ := upreach_from_head t r _ _ j hrr hjhead
          have hrne : r ≠ .nil := by
            intro hc; subst hc; simp [ATree.idxs] at hjr
          have hhalt : ¬(i ≠ 0 ∧ (getN t i).left = (getN t i).right) := by
            rintro ⟨-, hc⟩
            have hlr : (getN t i).left = ATree.rootIdx l := rep_rootIdx t l _ _ hrl
            have hrr2 : (getN t i).right = ATree.rootIdx r := rep_rootIdx t r _ _ hrr
            cases hlc : l with
            | nil =>
              subst hlc
              rw [hlr] at hc
              have := ATree.rootIdx_mem r hrne
              have hb := rep_idxs_bound t r _ _ hrr _ this
              rw [hrr2] at hc
              exact hb.1 hc.symm
            | node m2 k2 v2 p2 l2 r2 =>
              subst hlc
              rw [hlr, hrr2] at hc
              have h1 : ATree.rootIdx (ATree.node m2 k2 v2 p2 l2 r2) ∈
                  ATree.idxs (ATree.node m2 k2 v2 p2 l2 r2) :=
                ATree.rootIdx_mem _ (by simp)
              have h2 := ATree.rootIdx_mem r hrne
              exact hdisj (hc ▸ h1) (List.mem_cons_of_mem i h2)
          have hsz_r : ATree.sz r ≤ ATree.sz (ATree.node i k v p l r) := by
            simp [ATree.sz]; omega
          refine predUpGo_eval t hwalk ?_ t.alloc (by omega)
          rintro ⟨hi0, hc⟩
          exact hhalt ⟨hi0, by rw [hc, rep_rootIdx t r _ _ hrr]⟩
        · rw [if_neg hjfirst] at hne0 ⊢
          exact ihr _ _ hrr hnd_r (by simp [ATree.sz] at hsz ⊢; omega) h0 j hjr hne0

/-- `predecessor` on the whole tree steps to the previous in-order
index (`0` before the minimum). -/
theorem predecessor_spec (t : Tree) (a : ATree) (h : TreeRep t a)
    (j : Nat) (hj : j ∈ ATree.idxs a) :
    predecessor t j = nextAfter (ATree.idxs a).reverse j := by
  obtain ⟨hrep, hnd, h0⟩ := h
  have hane : a ≠ .nil := by
    intro hc; subst hc; simp [ATree.idxs] at hj
  have hsz := rep_sz_lt_alloc t a _ _ hrep hnd hane
  have hndr : ((ATree.idxs a).reverse).Nodup := List.nodup_reverse.mpr hnd
  by_cases hfirst : ((ATree.idxs a).reverse).getLast? = some j
  · rw [nextAfter_eq_zero_of_getLast _ _ hndr hfirst]
    have hhead : (ATree.idxs a).head? = some j := by
      rwa [List.getLast?_reverse] at hfirst
    have hleft : (getN t j).left = 0 := rep_head_left t a _ _ j hrep hhead
    rw [predecessor, if_neg (by simp [hleft])]
    obtain ⟨n, hn, hwalk⟩ := upreach_from_head t a _ _ j hrep hhead
    exact predUpGo_eval t hwalk (by simp) t.alloc (by omega)
  · have hmem := nextAfter_mem _ _ (List.mem_reverse.mpr hj) hfirst
    have hne : nextAfter (ATree.idxs a).reverse j ≠ 0 :=
      (rep_idxs_bound t a _ _ hrep _ (List.mem_reverse.mp hmem)).1
    exact predecessor_spec_sub t a _ _ hrep hnd hsz h0 j hj hne

/-! ### Ordered trees: comparators, sortedness, search -/

/-- The sign-order laws the map's comparator contract demands ("a pure
total order function returning sign"), in the form the BST proofs
use. -/
structure LawfulCmp (cmp : Int → Int → Int) : Prop where
  flip : ∀ a b, cmp a b < 0 ↔ cmp b a > 0
  trans_lt : ∀ a b c, cmp a b < 0 → cmp b c < 0 → cmp a c < 0
  zero_lt : ∀ a b c, cmp a b = 0 → cmp b c < 0 → cmp a c < 0
  lt_zero : ∀ a b c, cmp a b < 0 → cmp b c = 0 → cmp a c < 0

theorem LawfulCmp.zero_flip {cmp : Int → Int → Int} (h : LawfulCmp cmp)
    {a b : Int} (hz : cmp a b = 0) : cmp b a = 0 := by
  rcases lt_trichotomy (cmp b a) 0 with hlt | hz2 | hgt
  · have := (h.flip b a).mp hlt
    omega
  · exact hz2
  · have := (h.flip a b).mpr hgt
    omega

theorem lawful_ascending : LawfulCmp ascending := by
  refine ⟨?_, ?_, ?_, ?_⟩ <;> intro a b <;>
    simp only [ascending] <;> split_ifs <;> omega

/-- Sortedness of an algebraic tree between optional strict bounds. -/
def SortedB (cmp : Int → Int → Int) : Option Int → Option Int → ATree → Prop
  | _, _, .nil => True
  | lo, hi, .node _ k _ _ l r =>
    (∀ x, lo = some x → cmp x k < 0) ∧ (∀ y, hi = some y → cmp k y < 0) ∧
    SortedB cmp lo (some k) l ∧ SortedB cmp (some k) hi r

/-- Sortedness of the whole tree. -/
def SortedT (cmp : Int → Int → Int) (a : ATree) : Prop := SortedB cmp none none a

instance sortedBDecidable (cmp : Int → Int → Int) :
    (lo hi : Option Int) → (a : ATree) → Decidable (SortedB cmp lo hi a)
  | lo, hi, .nil => by unfold SortedB; infer_instance
  | lo, hi, .node i k v p l r => by
    unfold SortedB
    have dl := sortedBDecidable cmp lo (some k) l
    have dr := sortedBDecidable cmp (some k) hi r
    infer_instance

instance (cmp : Int → Int → Int) (a : ATree) : Decidable (SortedT cmp a) := by
  unfold SortedT; infer_instance

/-- A lower bound can be dropped. -/
theorem sortedB_drop_lo (cmp : Int → Int → Int) :
    ∀ (a : ATree) (lo hi : Option Int), SortedB cmp lo hi a →
      SortedB cmp none hi a := by
  intro a
  induction a with
  | nil => intro _ _ _; trivial
  | node i k v p l r ihl ihr =>
    intro lo hi hs
    simp only [SortedB] at hs ⊢
    obtain ⟨hsl, hsh, hsL, hsR⟩ := hs
    exact ⟨(fun x hx => nomatch hx), hsh, ihl lo (some k) hsL, hsR⟩

/-- An upper bound can be dropped. -/
theorem sortedB_drop_hi (cmp : Int → Int → Int) :
    ∀ (a : ATree) (lo hi : Option Int), SortedB cmp lo hi a →
      SortedB cmp lo none a := by
  intro a
  induction a with
  | nil => intro _ _ _; trivial
  | node i k v p l r ihl ihr =>
    intro lo hi hs
    simp only [SortedB] at hs ⊢
    obtain ⟨hsl, hsh, hsL, hsR⟩ := hs
    exact ⟨hsl, (fun x hx => nomatch hx), hsL, ihr (some k) hi hsR⟩

/-- In-order list of `(index, key, value)` triples. -/
def ATree.inordF : ATree → List (Nat × Int × Int)
  | .nil => []
  | .node i k v _ l r => ATree.inordF l ++ (i, k, v) :: ATree.inordF r

@[simp] theorem inordF_nil : ATree.inordF .nil = [] := rfl

@[simp] theorem inordF_node (i : Nat) (k v p : Int) (l r : ATree) :
    ATree.inordF (.node i k v p l r) =
      ATree.inordF l ++ (i, k, v) :: ATree.inordF r := rfl

theorem map_fst_inordF (a : ATree) :
    (ATree.inordF a).map (fun x => x.1) = ATree.idxs a := by
  induction a with
  | nil => rfl
  | node i k v p l r ihl ihr => simp [ihl, ihr]

theorem map_key_inordF (a : ATree) :
    (ATree.inordF a).map (fun x => x.2.1) = ATree.keysOf a := by
  induction a with
  | nil => rfl
  | node i k v p l r ihl ihr => simp [ihl, ihr]

theorem map_kv_inordF (a : ATree) :
    (ATree.inordF a).map (fun x => x.2) = ATree.entriesOf a := by
  induction a with
  | nil => rfl
  | node i k v p l r ihl ihr => simp [ihl, ihr]

/-- Keys of a bounded-sorted subtree respect the bounds. -/
theorem sortedB_key_bounds (cmp : Int → Int → Int) (hc : LawfulCmp cmp) :
    ∀ (a : ATree) (lo hi : Option Int), SortedB cmp lo hi a →
    ∀ x ∈ ATree.inordF a,
      (∀ b, lo = some b → cmp b x.2.1 < 0) ∧
      (∀ b, hi = some b → cmp x.2.1 b < 0) := by
  intro a
  induction a with
  | nil => intro lo hi _ x hx; simp at hx
  | node i k v p l r ihl ihr =>
    intro lo hi hs x hx
    obtain ⟨hsl, hsh, hsL, hsR⟩ := hs
    simp only [inordF_node, List.mem_append, List.mem_cons] at hx
    rcases hx with hx | rfl | hx
    · have hb := ihl lo (some k) hsL x hx
      refine ⟨hb.1, fun b hbb => ?_⟩
      exact hc.trans_lt x.2.1 k b (hb.2 k rfl) (hsh b hbb)
    · exact ⟨hsl, hsh⟩
    · have hb := ihr (some k) hi hsR x hx
      refine ⟨fun b hbb => ?_, hb.2⟩
      exact hc.trans_lt b k x.2.1 (hsl b hbb) (hb.1 k rfl)

/-- In-order triples of a bounded-sorted tree are pairwise strictly
increasing in key. -/
theorem sortedB_pairwise (cmp : Int → Int → Int) (hc : LawfulCmp cmp) :
    ∀ (a : ATree) (lo hi : Option Int), SortedB cmp lo hi a →
    (ATree.inordF a).Pairwise (fun x y => cmp x.2.1 y.2.1 < 0) := by
  intro a
  induction a with
  | nil => intro _ _ _; simp
  | node i k v p l r ihl ihr =>
    intro lo hi hs
    obtain ⟨hsl, hsh, hsL, hsR⟩ := hs
    rw [inordF_node, List.pairwise_append]
    refine ⟨ihl _ _ hsL, ?_, ?_⟩
    · rw [List.pairwise_cons]
      refine ⟨?_, ihr _ _ hsR⟩
      intro y hy
      exact (sortedB_key_bounds cmp hc r (some k) hi hsR y hy).1 k rfl
    · intro x hx y hy
      have hxk : cmp x.2.1 k < 0 :=
        (sortedB_key_bounds cmp hc l lo (some k) hsL x hx).2 k rfl
      rcases List.mem_cons.mp hy with rfl | hy2
      · exact hxk
      · have hky : cmp k y.2.1 < 0 :=
          (sortedB_key_bounds cmp hc r (some k) hi hsR y hy2).1 k rfl
        exact hc.trans_lt _ _ _ hxk hky

/-- A pairwise-sorted list splits as "below ++ middle ++ above" for a
downward-closed `p1` and an upward-closed `p3` that never overlap. -/
theorem sorted_filter_partition {α : Type} (lt : α → α → Prop)
    [DecidableRel lt] (p1 p3 : α → Bool)
    (hdown : ∀ x y, lt x y → p1 y = true → p1 x = true)
    (hup : ∀ x y, lt x y → p3 x = true → p3 y = true)
    (hdisj : ∀ x, ¬(p1 x = true ∧ p3 x = true)) :
    ∀ (P : List α), P.Pairwise lt →
    P = P.filter p1 ++ P.filter (fun x => !p1 x && !p3 x) ++ P.filter p3 := by
  intro P
  induction P with
  | nil => intro _; rfl
  | cons x xs ih =>
    intro hpw
    rcases List.pairwise_cons.mp hpw with ⟨hx, hxs⟩
    have ihx := ih hxs
    cases h1 : p1 x with
    | true =>
      have h3 : p3 x = false := by
        cases h3 : p3 x with
        | true => exact absurd ⟨h1, h3⟩ (hdisj x)
        | false => rfl
      simp only [List.filter_cons, h1, h3, Bool.not_true, Bool.false_and,
        if_true, if_false]
      conv_lhs => rw [ihx]
      simp
    | false =>
      cases h3 : p3 x with
      | false =>
        have hxs1 : xs.filter p1 = [] := by
          rw [List.filter_eq_nil_iff]
          intro y hy
          intro hc
          have := hdown x y (hx y hy) hc
          rw [h1] at this
          cases this
        simp only [List.filter_cons, h1, h3, Bool.not_false, Bool.true_and,
          if_false, if_true, hxs1]
        conv_lhs => rw [ihx]
        simp [hxs1]
      | true =>
        have hxs1 : xs.filter p1 = [] := by
          rw [List.filter_eq_nil_iff]
          intro y hy hc
          have := hdown x y (hx y hy) hc
          rw [h1] at this
          cases this
        have hxsm : xs.filter (fun x => !p1 x && !p3 x) = [] := by
          rw [List.filter_eq_nil_iff]
          intro y hy hc
          have h3y := hup x y (hx y hy) h3
          simp [h3y] at hc
        have hxs3 : xs.filter p3 = xs := by
          rw [List.filter_eq_self]
          intro y hy
          exact hup x y (hx y hy) h3
        simp only [List.filter_cons, h1, h3, if_false, Bool.not_false,
          Bool.not_true, Bool.and_false, hxs1, hxsm, hxs3]
        simp

/-- `nextAfter` at a split point: the next element is the head of the
right part. -/
theorem nextAfter_split (l1 l2 : List Nat) (x : Nat)
    (hnd : (l1 ++ x :: l2).Nodup) :
    nextAfter (l1 ++ x :: l2) x = l2.head?.getD 0 := by
  have hx1 : x ∉ l1 := by
    intro hc
    have := List.disjoint_of_nodup_append hnd
    exact this hc (by simp)
  rw [nextAfter_append_right _ _ _ hx1]
  simp [nextAfter]

/-- `nextAfter` on the reverse at a split point: the previous element
is the last of the left part. -/
theorem prevOf_split (l1 l2 : List Nat) (x : Nat)
    (hnd : (l1 ++ x :: l2).Nodup) :
    nextAfter (l1 ++ x :: l2).reverse x = l1.getLast?.getD 0 := by
  have hx2 : x ∉ l2 := by
    have := (List.nodup_append.mp hnd).2.1
    exact (List.nodup_cons.mp this).1
  have hrw : (l1 ++ x :: l2).reverse = l2.reverse ++ x :: l1.reverse := by
    simp
  rw [hrw, nextAfter_append_right _ _ _ (by simpa using hx2)]
  simp [nextAfter, List.head?_reverse]

/-- The last element survives filtering by an upward-closed predicate
(on a pairwise-sorted list) as soon as the filter is non-empty. -/
theorem filter_up_closed_getLast {α : Type} (lt : α → α → Prop) (p : α → Bool)
    (hup : ∀ x y, lt x y → p x = true → p y = true) :
    ∀ (L : List α), L.Pairwise lt → L.filter p ≠ [] →
      (L.filter p).getLast? = L.getLast? := by
  intro L
  induction L with
  | nil => intro _ hne; simp at hne
  | cons x xs ih =>
    intro hpw hne
    rcases List.pairwise_cons.mp hpw with ⟨hx, hxs⟩
    by_cases hfxs : xs.filter p = []
    · -- no element of xs passes p; upward closure forces xs = [] when x passes
      have hxsnil : xs = [] ∨ p x = false := by
        cases hp : p x with
        | false => exact Or.inr rfl
        | true =>
          left
          cases hxs2 : xs with
          | nil => rfl
          | cons y ys =>
            exfalso
            have hy : p y = true := hup x y (hx y (by rw [hxs2]; simp)) hp
            have hmem : y ∈ xs.filter p :=
              List.mem_filter.mpr ⟨by rw [hxs2]; simp, hy⟩
            rw [hfxs] at hmem
            simp at hmem
      rcases hxsnil with h1 | h1
      · subst h1
        cases hp : p x with
        | true => simp [List.filter_cons, hp]
        | false => simp [List.filter_cons, hp] at hne
      · rw [List.filter_cons, h1] at hne
        simp only [Bool.false_eq_true, if_false] at hne
        exact absurd hfxs hne
    · have hlast : (xs.filter p).getLast? = xs.getLast? := ih hxs hfxs
      have hxs_ne2 : xs ≠ [] := by
        intro hc
        rw [hc] at hfxs
        simp at hfxs
      cases hp : p x with
      | false =>
        rw [List.filter_cons, hp]
        simp only [Bool.false_eq_true, if_false]
        rw [hlast]
        cases hxs3 : xs with
        | nil => exact absurd hxs3 hxs_ne2
        | cons a as => rw [List.getLast?_cons_cons]
      | true =>
        rw [List.filter_cons, hp]
        simp only [if_true]
        have hfne : xs.filter p ≠ [] := hfxs
        cases hxs4 : xs.filter p with
        | nil => exact absurd hxs4 hfne
        | cons a as =>
          rw [List.getLast?_cons_cons, ← hxs4, hlast]
          cases hxs3 : xs with
          | nil => exact absurd hxs3 hxs_ne2
          | cons b bs => rw [List.getLast?_cons_cons]

/-- Algebraic mirror of the `searchEntry` descent: the node on a hit,
the would-be parent and side on a miss, threading the accumulated
`(parent, branch)` exactly like the loop. -/
def searchSlot (cmp : Int → Int → Int) (s : Int) :
    ATree → Nat → Branch → Nat × Nat × Branch
  | .nil, p0, b0 => (0, p0, b0)
  | .node i k _ _ l r, p0, b0 =>
    if cmp s k = 0 then (i, p0, b0)
    else if cmp s k < 0 then searchSlot cmp s l i Branch.Left
    else searchSlot cmp s r i Branch.Right

/-- Characterization of `searchSlot` on a bounded-sorted subtree: a
key that occurs is found; a missing key yields the sentinel together
with a slot that is either the first strictly-greater element with
branch `Left`, the last strictly-smaller element with branch `Right`,
or — only on the empty subtree — the accumulated slot. -/
theorem searchSlot_char (cmp : Int → Int → Int) (hc : LawfulCmp cmp) (s : Int) :
    ∀ (a : ATree) (lo hi : Option Int), SortedB cmp lo hi a →
    ∀ (p0 : Nat) (b0 : Branch),
    (∀ x ∈ ATree.inordF a, cmp s x.2.1 = 0 → (searchSlot cmp s a p0 b0).1 = x.1) ∧
    ((∀ x ∈ ATree.inordF a, cmp s x.2.1 ≠ 0) →
      (searchSlot cmp s a p0 b0).1 = 0 ∧
      ((a = .nil ∧ searchSlot cmp s a p0 b0 = (0, p0, b0)) ∨
       ((searchSlot cmp s a p0 b0).2.2 = Branch.Left ∧
        (((ATree.inordF a).filter (fun x => decide (cmp s x.2.1 < 0))).head?).map
          (fun x => x.1) = some (searchSlot cmp s a p0 b0).2.1) ∨
       ((searchSlot cmp s a p0 b0).2.2 = Branch.Right ∧
        (((ATree.inordF a).filter (fun x => decide (0 < cmp s x.2.1))).getLast?).map
          (fun x => x.1) = some (searchSlot cmp s a p0 b0).2.1))) := by
  intro a
  induction a with
  | nil =>
    intro lo hi _ p0 b0
    exact ⟨fun x hx => by simp at hx, fun _ => ⟨rfl, .inl ⟨rfl, rfl⟩⟩⟩
  | node i k v p l r ihl ihr =>
    intro lo hi hs p0 b0
    obtain ⟨hsl, hsh, hsL, hsR⟩ := hs
    have hlK : ∀ x ∈ ATree.inordF l, cmp x.2.1 k < 0 := fun x hx =>
      (sortedB_key_bounds cmp hc l lo (some k) hsL x hx).2 k rfl
    have hrK : ∀ x ∈ ATree.inordF r, cmp k x.2.1 < 0 := fun x hx =>
      (sortedB_key_bounds cmp hc r (some k) hi hsR x hx).1 k rfl
    rcases lt_trichotomy (cmp s k) 0 with hcmp | hcmp | hcmp
    · -- descend left
      have hres : searchSlot cmp s (.node i k v p l r) p0 b0 =
          searchSlot cmp s l i Branch.Left := by
        simp only [searchSlot]
        rw [if_neg (by omega), if_pos hcmp]
      have hrGT : ∀ x ∈ ATree.inordF r, cmp s x.2.1 < 0 := fun x hx =>
        hc.trans_lt s k x.2.1 hcmp (hrK x hx)
      rw [hres]
      constructor
      · intro x hx hz
        simp only [inordF_node, List.mem_append, List.mem_cons] at hx
        rcases hx with hx | rfl | hx
        · exact (ihl lo (some k) hsL i Branch.Left).1 x hx hz
        · exfalso; simp at hz; omega
        · exfalso; have := hrGT x hx; omega
      · intro hnone
        have hnoneL : ∀ x ∈ ATree.inordF l, cmp s x.2.1 ≠ 0 := fun x hx =>
          hnone x (by simp [hx])
        obtain ⟨h0, htri⟩ := (ihl lo (some k) hsL i Branch.Left).2 hnoneL
        refine ⟨h0, ?_⟩
        have hkin : (decide (cmp s k < 0)) = true := by simp [hcmp]
        rcases htri with ⟨hlnil, hpass⟩ | ⟨hbr, hhead⟩ | ⟨hbr, hlast⟩
        · subst hlnil
          rw [hpass]
          refine .inr (.inl ⟨rfl, ?_⟩)
          simp [List.filter_cons, hcmp]
        · refine .inr (.inl ⟨hbr, ?_⟩)
          have hne : (ATree.inordF l).filter
              (fun x => decide (cmp s x.2.1 < 0)) ≠ [] := by
            intro hc2
            rw [hc2] at hhead
            simp at hhead
          rw [inordF_node, List.filter_append,
            List.head?_append_of_ne_nil _ hne]
          exact hhead
        · refine .inr (.inr ⟨hbr, ?_⟩)
          have hrEmpty : (ATree.inordF r).filter
              (fun x => decide (0 < cmp s x.2.1)) = [] := by
            rw [List.filter_eq_nil_iff]
            intro y hy
            have := hrGT y hy
            simp
            omega
          have hd : (decide (0 < cmp s k)) = false := by simp; omega
          rw [inordF_node, List.filter_append, List.filter_cons, hd]
          simp only [Bool.false_eq_true, if_false, hrEmpty, List.append_nil]
          exact hlast
    · -- hit
      have hres : searchSlot cmp s (.node i k v p l r) p0 b0 = (i, p0, b0) := by
        simp only [searchSlot]
        rw [if_pos hcmp]
      rw [hres]
      constructor
      · intro x hx hz
        simp only [inordF_node, List.mem_append, List.mem_cons] at hx
        rcases hx with hx | rfl | hx
        · exfalso
          have h1 : cmp k s = 0 := hc.zero_flip hcmp
          have h2 : cmp x.2.1 s < 0 := hc.lt_zero _ _ _ (hlK x hx) h1
          have h3 : cmp s x.2.1 > 0 := (hc.flip _ _).mp h2
          omega
        · rfl
        · exfalso
          have h2 : cmp s x.2.1 < 0 := hc.zero_lt _ _ _ hcmp (hrK x hx)
          omega
      · intro hnone
        exact absurd hcmp (hnone (i, k, v) (by simp))
    · -- descend right
      have hres : searchSlot cmp s (.node i k v p l r) p0 b0 =
          searchSlot cmp s r i Branch.Right := by
        simp only [searchSlot]
        rw [if_neg (by omega), if_neg (by omega)]
      have hlLT : ∀ x ∈ ATree.inordF l, 0 < cmp s x.2.1 := by
        intro x hx
        have h1 : cmp k s < 0 := (hc.flip k s).mpr hcmp
        have h2 : cmp x.2.1 s < 0 := hc.trans_lt _ _ _ (hlK x hx) h1
        exact (hc.flip _ _).mp h2
      rw [hres]
      constructor
      · intro x hx hz
        simp only [inordF_node, List.mem_append, List.mem_cons] at hx
        rcases hx with hx | rfl | hx
        · exfalso; have := hlLT x hx; omega
        · exfalso; simp at hz; omega
        · exact (ihr (some k) hi hsR i Branch.Right).1 x hx hz
      · intro hnone
        have hnoneR : ∀ x ∈ ATree.inordF r, cmp s x.2.1 ≠ 0 := fun x hx =>
          hnone x (by simp [hx])
        obtain ⟨h0, htri⟩ := (ihr (some k) hi hsR i Branch.Right).2 hnoneR
        refine ⟨h0, ?_⟩
        have hlAll : (ATree.inordF l).filter
            (fun x => decide (0 < cmp s x.2.1)) = ATree.inordF l := by
          rw [List.filter_eq_self]
          intro y hy
          simp [hlLT y hy]
        have hlNoLT : (ATree.inordF l).filter
            (fun x => decide (cmp s x.2.1 < 0)) = [] := by
          rw [List.filter_eq_nil_iff]
          intro y hy
          have := hlLT y hy
          simp
          omega
        rcases htri with ⟨hrnil, hpass⟩ | ⟨hbr, hhead⟩ | ⟨hbr, hlast⟩
        · subst hrnil
          rw [hpass]
          refine .inr (.inr ⟨rfl, ?_⟩)
          have hd : (decide (0 < cmp s k)) = true := by simp [hcmp]
          rw [inordF_node, List.filter_append, List.filter_cons, hd]
          simp only [if_true, hlAll, inordF_nil, List.filter_nil]
          rw [List.getLast?_append_cons, List.getLast?_singleton]
          rfl
        · refine .inr (.inl ⟨hbr, ?_⟩)
          have hd : (decide (cmp s k < 0)) = false := by simp; omega
          rw [inordF_node, List.filter_append, List.filter_cons, hd]
          simp only [Bool.false_eq_true, if_false, hlNoLT, List.nil_append]
          exact hhead
        · refine .inr (.inr ⟨hbr, ?_⟩)
          have hne : (ATree.inordF r).filter
              (fun x => decide (0 < cmp s x.2.1)) ≠ [] := by
            intro hc2
            rw [hc2] at hlast
            simp at hlast
          have hd : (decide (0 < cmp s k)) = true := by simp [hcmp]
          rw [inordF_node, List.filter_append, List.filter_cons, hd]
          simp only [if_true]
          rw [List.getLast?_append_cons]
          rw [show ((i, k, v) :: (ATree.inordF r).filter
              (fun x => decide (0 < cmp s x.2.1))).getLast? =
              ((ATree.inordF r).filter
                (fun x => decide (0 < cmp s x.2.1))).getLast? from ?_]
          · exact hlast
          · cases hx : (ATree.inordF r).filter
                (fun x => decide (0 < cmp s x.2.1)) with
            | nil => exact absurd hx hne
            | cons y ys => rw [List.getLast?_cons_cons]

/-- The heap descent `searchEntryGo` computes `searchSlot` on the
abstraction. -/
theorem searchEntryGo_refine (cmp : Int → Int → Int) (t : Tree) :
    ∀ (a : ATree) (i par fuel p0 : Nat) (b0 : Branch) (s : Int),
    Rep t a i par → ATree.sz a ≤ fuel →
    searchEntryGo cmp t fuel i p0 b0 s = searchSlot cmp s a p0 b0 := by
  intro a
  induction a with
  | nil =>
    intro i par fuel p0 b0 s h _
    cases h
    cases fuel <;> simp [searchEntryGo, searchSlot]
  | node n k v p l r ihl ihr =>
    intro i par fuel p0 b0 s h hfuel
    obtain ⟨hin, hn0, hna, hk, hv, hp, hpar, hrem, hrl, hrr⟩ := h
    subst hin
    cases fuel with
    | zero => simp [ATree.sz] at hfuel
    | succ f =>
      rw [searchEntryGo, if_neg hn0, hk]
      simp only [searchSlot]
      rcases lt_trichotomy (cmp s k) 0 with hlt | hz | hgt
      · rw [if_neg (by omega), if_pos hlt, if_neg (by omega), if_pos hlt]
        exact ihl _ _ f i Branch.Left s hrl (by simp [ATree.sz] at hfuel ⊢; omega)
      · rw [if_pos hz, if_pos hz]
      · rw [if_neg (by omega), if_neg (by omega), if_neg (by omega),
          if_neg (by omega)]
        exact ihr _ _ f i Branch.Right s hrr (by simp [ATree.sz] at hfuel ⊢; omega)

/-- `searchEntry` computes `searchSlot` from the root. -/
theorem searchEntry_spec (cmp : Int → Int → Int) (t : Tree) (a : ATree)
    (h : TreeRep t a) (s : Int) :
    searchEntry cmp t s = searchSlot cmp s a 0 Branch.Left := by
  obtain ⟨hrep, hnd, h0⟩ := h
  cases hac : a with
  | nil =>
    subst hac
    exact searchEntryGo_refine cmp t .nil t.root 0 t.alloc 0 Branch.Left s hrep
      (by simp)
  | node n k v p l r =>
    subst hac
    exact searchEntryGo_refine cmp t _ t.root 0 t.alloc 0 Branch.Left s hrep
      (le_of_lt (rep_sz_lt_alloc t _ _ _ hrep hnd (by simp)))

/-! ### Range contents -/

/-- The in-order triple lies at or above the start key. -/
def geKey (cmp : Int → Int → Int) (s : Int) : Nat × Int × Int → Bool :=
  fun x => decide (cmp s x.2.1 ≤ 0)

/-- The in-order triple lies strictly below the start key. -/
def ltKeyS (cmp : Int → Int → Int) (s : Int) : Nat × Int × Int → Bool :=
  fun x => decide (0 < cmp s x.2.1)

/-- The in-order triple lies strictly below the end key. -/
def ltKeyE (cmp : Int → Int → Int) (e : Int) : Nat × Int × Int → Bool :=
  fun x => decide (cmp x.2.1 e < 0)

/-- The in-order triple lies at or below the end key. -/
def leKeyE (cmp : Int → Int → Int) (e : Int) : Nat × Int × Int → Bool :=
  fun x => decide (cmp x.2.1 e ≤ 0)

/-- The in-order triple lies strictly above the end key. -/
def gtKeyE (cmp : Int → Int → Int) (e : Int) : Nat × Int × Int → Bool :=
  fun x => decide (0 < cmp x.2.1 e)

/-- The interval membership test `range(start, end, exclusive)` claims
to realise. -/
def rangePred (cmp : Int → Int → Int) (s e : Int) (excl : Bool) :
    Nat × Int × Int → Bool :=
  fun x => geKey cmp s x && (if excl then ltKeyE cmp e x else leKeyE cmp e x)

/-- Two-way split of the in-order triples around the start key. -/
theorem partitionS (cmp : Int → Int → Int) (hc : LawfulCmp cmp) (a : ATree)
    (hs : SortedT cmp a) (s : Int) :
    ATree.inordF a = (ATree.inordF a).filter (ltKeyS cmp s) ++
      (ATree.inordF a).filter (geKey cmp s) := by
  have hpw := sortedB_pairwise cmp hc a none none hs
  have h := sorted_filter_partition (fun x y => cmp x.2.1 y.2.1 < 0)
      (ltKeyS cmp s) (geKey cmp s)
      (fun x y hlt hy => by
        simp only [ltKeyS, decide_eq_true_eq] at hy ⊢
        have h1 : cmp y.2.1 s < 0 := (hc.flip y.2.1 s).mpr hy
        have h2 : cmp x.2.1 s < 0 := hc.trans_lt _ _ _ hlt h1
        exact (hc.flip x.2.1 s).mp h2)
      (fun x y hlt hx => by
        simp only [geKey, decide_eq_true_eq] at hx ⊢
        rcases lt_or_eq_of_le hx with h1 | h1
        · exact le_of_lt (hc.trans_lt _ _ _ h1 hlt)
        · exact le_of_lt (hc.zero_lt _ _ _ h1 hlt))
      (fun x => by
        simp only [ltKeyS, geKey, decide_eq_true_eq]
        rintro ⟨h1, h2⟩
        omega)
      (ATree.inordF a) hpw
  have hmid : (ATree.inordF a).filter
      (fun x => !(ltKeyS cmp s x) && !(geKey cmp s x)) = [] := by
    rw [List.filter_eq_nil_iff]
    intro x hx
    simp only [ltKeyS, geKey, Bool.and_eq_true, Bool.not_eq_true',
      decide_eq_false_iff_not]
    rintro ⟨h1, h2⟩
    omega
  rw [hmid] at h
  simpa using h

/-- Three-way split of the in-order triples around the end key. -/
theorem partitionE (cmp : Int → Int → Int) (hc : LawfulCmp cmp) (a : ATree)
    (hs : SortedT cmp a) (e : Int) :
    ATree.inordF a = (ATree.inordF a).filter (ltKeyE cmp e) ++
      ((ATree.inordF a).filter (fun x => decide (cmp x.2.1 e = 0)) ++
       (ATree.inordF a).filter (gtKeyE cmp e)) := by
  have hpw := sortedB_pairwise cmp hc a none none hs
  have h := sorted_filter_partition (fun x y => cmp x.2.1 y.2.1 < 0)
      (ltKeyE cmp e) (gtKeyE cmp e)
      (fun x y hlt hy => by
        simp only [ltKeyE, decide_eq_true_eq] at hy ⊢
        exact hc.trans_lt _ _ _ hlt hy)
      (fun x y hlt hx => by
        simp only [gtKeyE, decide_eq_true_eq] at hx ⊢
        have h1 : cmp e x.2.1 < 0 := (hc.flip e x.2.1).mpr hx
        have h2 : cmp e y.2.1 < 0 := hc.trans_lt _ _ _ h1 hlt
        exact (hc.flip e y.2.1).mp h2)
      (fun x => by
        simp only [ltKeyE, gtKeyE, decide_eq_true_eq]
        rintro ⟨h1, h2⟩
        omega)
      (ATree.inordF a) hpw
  have hmid : (ATree.inordF a).filter
      (fun x => !(ltKeyE cmp e x) && !(gtKeyE cmp e x)) =
      (ATree.inordF a).filter (fun x => decide (cmp x.2.1 e = 0)) := by
    refine List.filter_congr (fun x hx => ?_)
    rcases lt_trichotomy (cmp x.2.1 e) 0 with h1 | h1 | h1
    · simp [ltKeyE, gtKeyE, h1, show ¬ cmp x.2.1 e = 0 by omega,
        show ¬ 0 < cmp x.2.1 e by omega]
    · simp [ltKeyE, gtKeyE, h1]
    · simp [ltKeyE, gtKeyE, h1, show ¬ cmp x.2.1 e = 0 by omega,
        show ¬ cmp x.2.1 e < 0 by omega]
  rw [hmid] at h
  rw [← List.append_assoc]
  exact h

/-- The heap holds exactly the abstract key/value at every in-order
triple, with the tombstone clear. -/
theorem rep_inordF_kv (t : Tree) : ∀ (a : ATree) (i par : Nat),
    Rep t a i par → ∀ x ∈ ATree.inordF a,
      (getN t x.1).key = x.2.1 ∧ (getN t x.1).value = x.2.2 ∧
      (getN t x.1).removed = false := by
  intro a
  induction a with
  | nil => intro i par _ x hx; simp at hx
  | node n k v p l r ihl ihr =>
    intro i par h x hx
    obtain ⟨rfl, hn0, hna, hk, hv, hp, hpar, hrm, hl, hr⟩ := h
    simp only [inordF_node, List.mem_append, List.mem_cons] at hx
    rcases hx with hx | rfl | hx
    · exact ihl _ _ hl x hx
    · exact ⟨hk, hv, hrm⟩
    · exact ihr _ _ hr x hx

/-- Membership in the in-order triples puts the index into `idxs`. -/
theorem inordF_mem_idx (a : ATree) (x : Nat × Int × Int)
    (hx : x ∈ ATree.inordF a) : x.1 ∈ ATree.idxs a := by
  rw [← map_fst_inordF]
  exact List.mem_map_of_mem _ hx

/-- The predecessor of the first element at or above the start key is
the last element strictly below it. -/
theorem pred_head_GE (cmp : Int → Int → Int) (hc : LawfulCmp cmp)
    (t : Tree) (a : ATree) (h : TreeRep t a) (hs : SortedT cmp a) (s : Int)
    (y : Nat × Int × Int)
    (hy : (((ATree.inordF a).filter (geKey cmp s))).head? = some y) :
    predecessor t y.1 =
      ((((ATree.inordF a).filter (ltKeyS cmp s)).getLast?).map
        (fun x => x.1)).getD 0 := by
  have hpart := partitionS cmp hc a hs s
  obtain ⟨hrep, hnd, h0⟩ := h
  obtain ⟨GE', hGE'⟩ : ∃ l, (ATree.inordF a).filter (geKey cmp s) = y :: l := by
    cases hGEc : (ATree.inordF a).filter (geKey cmp s) with
    | nil => rw [hGEc] at hy; simp at hy
    | cons z zs =>
      rw [hGEc] at hy
      simp only [List.head?_cons, Option.some.injEq] at hy
      exact ⟨zs, by rw [hy]⟩
  have hyP : y ∈ ATree.inordF a := by
    have : y ∈ (ATree.inordF a).filter (geKey cmp s) := by rw [hGE']; simp
    exact (List.mem_filter.mp this).1
  have hidxs : ATree.idxs a =
      (((ATree.inordF a).filter (ltKeyS cmp s)).map (fun x => x.1)) ++
      y.1 :: (GE'.map (fun x => x.1)) := by
    rw [← map_fst_inordF]
    conv_lhs => rw [hpart]
    rw [hGE', List.map_append, List.map_cons]
  rw [predecessor_spec t a ⟨hrep, hnd, h0⟩ y.1
    (inordF_mem_idx a y hyP), hidxs]
  rw [prevOf_split _ _ _ (by rw [← hidxs]; exact hnd)]
  rw [List.getLast?_map]

/-- Characterization of the lower-bound resolution `srLower` on a sorted
represented tree: `none` exactly when no key reaches `start`; otherwise
the first in-order element at or above `start`, together with a `prev`
that is the last strictly-smaller element (or `0`), except that a
non-exclusive hit records `prev = 0`. -/
theorem srLower_spec (cmp : Int → Int → Int) (hc : LawfulCmp cmp)
    (t : Tree) (a : ATree) (h : TreeRep t a) (hs : SortedT cmp a)
    (s : Int) (excl : Bool) (hane : a ≠ ATree.nil) :
    ((ATree.inordF a).filter (geKey cmp s) = [] →
      srLower cmp t (some s) excl = none) ∧
    (∀ y, ((ATree.inordF a).filter (geKey cmp s)).head? = some y →
      ∃ pr, srLower cmp t (some s) excl = some (y.1, pr) ∧
        ((cmp s y.2.1 = 0 ∧ excl = false ∧ pr = 0) ∨
         pr = ((((ATree.inordF a).filter (ltKeyS cmp s)).getLast?).map
                 (fun x => x.1)).getD 0)) := by
  have hTR : TreeRep t a := h
  obtain ⟨hrep, hnd, h0⟩ := h
  have hpw := sortedB_pairwise cmp hc a none none hs
  have hse := searchEntry_spec cmp t a hTR s
  have hchar := searchSlot_char cmp hc s a none none hs 0 Branch.Left
  have hidx : ∀ x ∈ ATree.inordF a, x.1 ≠ 0 ∧ x.1 < t.alloc := fun x hx =>
    rep_idxs_bound t a _ _ hrep x.1 (inordF_mem_idx a x hx)
  by_cases hhit : ∃ x ∈ ATree.inordF a, cmp s x.2.1 = 0
  · obtain ⟨x0, hx0P, hx0z⟩ := hhit
    have hnode := hchar.1 x0 hx0P hx0z
    have hx0GE : x0 ∈ (ATree.inordF a).filter (geKey cmp s) :=
      List.mem_filter.mpr ⟨hx0P, by simp only [geKey, decide_eq_true_eq]; omega⟩
    have hheadGE : ((ATree.inordF a).filter (geKey cmp s)).head? = some x0 := by
      have hpwGE : ((ATree.inordF a).filter (geKey cmp s)).Pairwise
          (fun x y => cmp x.2.1 y.2.1 < 0) :=
        hpw.sublist (List.filter_sublist (ATree.inordF a))
      cases hGEc : (ATree.inordF a).filter (geKey cmp s) with
      | nil => rw [hGEc] at hx0GE; simp at hx0GE
      | cons z zs =>
        rw [hGEc] at hx0GE hpwGE
        rcases List.mem_cons.mp hx0GE with rfl | hmem
        · rfl
        · exfalso
          have hzlt := (List.pairwise_cons.mp hpwGE).1 x0 hmem
          have hzGE : z ∈ (ATree.inordF a).filter (geKey cmp s) := by
            rw [hGEc]; simp
          have hzk : cmp s z.2.1 ≤ 0 := by
            have := (List.mem_filter.mp hzGE).2
            simp only [geKey, decide_eq_true_eq] at this
            omega
          have h1 : cmp z.2.1 s < 0 :=
            hc.lt_zero _ _ _ hzlt (hc.zero_flip hx0z)
          have h2 := (hc.flip _ _).mp h1
          omega
    rcases htrip : searchSlot cmp s a 0 Branch.Left with ⟨nd, pa, br⟩
    rw [htrip] at hnode
    have hnd0 : nd = x0.1 := hnode
    constructor
    · intro hGE
      rw [hGE] at hheadGE
      simp at hheadGE
    · intro y hy
      rw [hheadGE] at hy
      have hyx0 : y = x0 := by
        simpa using hy.symm
      subst hyx0
      cases hexcl : excl with
      | false =>
        refine ⟨0, ?_, Or.inl ⟨hx0z, rfl, rfl⟩⟩
        simp only [srLower, hse, htrip]
        simp [hnd0, (hidx y hx0P).1]
      | true =>
        refine ⟨predecessor t y.1, ?_, Or.inr ?_⟩
        · simp only [srLower, hse, htrip]
          simp [hnd0, (hidx y hx0P).1]
        · exact pred_head_GE cmp hc t a hTR hs s y hheadGE
  · push_neg at hhit
    have hhit2 : ∀ x ∈ ATree.inordF a, cmp s x.2.1 ≠ 0 := hhit
    obtain ⟨h0r, htri⟩ := hchar.2 hhit2
    have hcongr : (ATree.inordF a).filter (fun x => decide (cmp s x.2.1 < 0)) =
        (ATree.inordF a).filter (geKey cmp s) :=
      List.filter_congr (fun x hx => by
        have := hhit2 x hx
        simp only [geKey]
        exact decide_eq_decide.mpr (by omega))
    rcases htri with ⟨hanil, _⟩ | ⟨hbr, hhead⟩ | ⟨hbr, hlast⟩
    · exact absurd hanil hane
    · -- miss, slot attaches to the left of the first greater element
      rw [hcongr] at hhead
      rcases htrip : searchSlot cmp s a 0 Branch.Left with ⟨nd, pa, br⟩
      rw [htrip] at h0r hbr hhead
      constructor
      · intro hGE
        rw [hGE] at hhead
        simp at hhead
      · intro y hy
        rw [hy] at hhead
        simp at hhead
        refine ⟨predecessor t pa, ?_, Or.inr ?_⟩
        · simp only [srLower, hse, htrip]
          rw [if_neg (by simp; exact h0r), if_pos hbr, ← hhead]
        · rw [← hhead]
          exact pred_head_GE cmp hc t a hTR hs s y hy
    · -- miss, slot attaches to the right of the last smaller element
      have hlts : (ATree.inordF a).filter (fun x => decide (0 < cmp s x.2.1)) =
          (ATree.inordF a).filter (ltKeyS cmp s) := rfl
      rw [hlts] at hlast
      rcases htrip : searchSlot cmp s a 0 Branch.Left with ⟨nd, pa, br⟩
      rw [htrip] at h0r hbr hlast
      cases hLTl : ((ATree.inordF a).filter (ltKeyS cmp s)).getLast? with
      | none => rw [hLTl] at hlast; simp at hlast
      | some w =>
        rw [hLTl] at hlast
        simp at hlast
        obtain ⟨LT', hLT'⟩ := List.getLast?_eq_some_iff.mp hLTl
        have hwP : w ∈ ATree.inordF a := by
          have : w ∈ (ATree.inordF a).filter (ltKeyS cmp s) := by
            rw [hLT']; simp
          exact (List.mem_filter.mp this).1
        have hidxs : ATree.idxs a =
            (LT'.map (fun x => x.1)) ++ w.1 ::
            (((ATree.inordF a).filter (geKey cmp s)).map (fun x => x.1)) := by
          rw [← map_fst_inordF]
          conv_lhs => rw [partitionS cmp hc a hs s]
          rw [hLT', List.map_append, List.map_append, List.map_singleton]
          simp
        have hsucc : successor t pa =
            ((((ATree.inordF a).filter (geKey cmp s)).map
              (fun x => x.1)).head?).getD 0 := by
          rw [← hlast, successor_spec t a hTR w.1 (inordF_mem_idx a w hwP),
            hidxs, nextAfter_split _ _ _ (by rw [← hidxs]; exact hnd)]
        have hbr2 : br = Branch.Right := hbr
        have hbrne : br ≠ Branch.Left := by rw [hbr2]; decide
        constructor
        · intro hGE
          simp only [srLower, hse, htrip]
          rw [if_neg (by simp; exact h0r), if_neg hbrne,
            if_pos (by rw [hsucc, hGE]; simp)]
        · intro y hy
          have hy1 : successor t pa = y.1 := by
            rw [hsucc, List.head?_map, hy]
            simp
          refine ⟨pa, ?_, Or.inr ?_⟩
          · simp only [srLower, hse, htrip]
            rw [if_neg (by simp; exact h0r), if_neg hbrne,
              if_neg (by rw [hy1]; exact (hidx y
                ((List.mem_filter.mp (List.mem_of_mem_head? hy)).1)).1), hy1]
          · rw [← hlast]
            simp

/-- Transitivity of comparator equality. -/
theorem LawfulCmp.zero_zero {cmp : Int → Int → Int} (h : LawfulCmp cmp)
    {a b c : Int} (hab : cmp a b = 0) (hbc : cmp b c = 0) : cmp a c = 0 := by
  rcases lt_trichotomy (cmp a c) 0 with h1 | h1 | h1
  · have h2 := h.lt_zero a c b h1 (h.zero_flip hbc)
    omega
  · exact h1
  · have h2 := (h.flip c a).mpr h1
    have h3 := h.lt_zero c a b h2 hab
    have h4 := (h.flip c b).mp h3
    omega

/-- At most one in-order triple compares equal to a given key. -/
theorem eq_filter_singleton (cmp : Int → Int → Int) (hc : LawfulCmp cmp)
    (P : List (Nat × Int × Int))
    (hpw : P.Pairwise (fun x y => cmp x.2.1 y.2.1 < 0)) (e : Int)
    (z0 : Nat × Int × Int) (hz0 : z0 ∈ P) (hz : cmp z0.2.1 e = 0) :
    P.filter (fun x => decide (cmp x.2.1 e = 0)) = [z0] := by
  have hz0L : z0 ∈ P.filter (fun x => decide (cmp x.2.1 e = 0)) :=
    List.mem_filter.mpr ⟨hz0, by simp [hz]⟩
  have hpwL : (P.filter (fun x => decide (cmp x.2.1 e = 0))).Pairwise
      (fun x y => cmp x.2.1 y.2.1 < 0) :=
    hpw.sublist (List.filter_sublist P)
  cases hLc : P.filter (fun x => decide (cmp x.2.1 e = 0)) with
  | nil => rw [hLc] at hz0L; simp at hz0L
  | cons u us =>
    rw [hLc] at hz0L hpwL
    have hue : cmp u.2.1 e = 0 := by
      have : u ∈ P.filter (fun x => decide (cmp x.2.1 e = 0)) := by
        rw [hLc]; simp
      have := (List.mem_filter.mp this).2
      simpa using this
    have husnil : us = [] := by
      cases husc : us with
      | nil => rfl
      | cons v vs =>
        exfalso
        have hv : v ∈ us := by rw [husc]; simp
        have hlt := (List.pairwise_cons.mp hpwL).1 v hv
        have hve : cmp v.2.1 e = 0 := by
          have : v ∈ P.filter (fun x => decide (cmp x.2.1 e = 0)) := by
            rw [hLc]; exact List.mem_cons_of_mem _ hv
          have := (List.mem_filter.mp this).2
          simpa using this
        have := hc.lt_zero _ _ _ hlt hve
        omega
    subst husnil
    rcases List.mem_cons.mp hz0L with rfl | hmem
    · rfl
    · simp at hmem

/-- Head and last of the two-sided interval filter: the head is the
first element at or above the start key, the last survives from the
upper-side filter alone. -/
theorem range_filter_ends (cmp : Int → Int → Int) (hc : LawfulCmp cmp)
    (P : List (Nat × Int × Int))
    (hpw : P.Pairwise (fun x y => cmp x.2.1 y.2.1 < 0))
    (q : Nat × Int × Int → Bool)
    (hqdown : ∀ x y, cmp x.2.1 y.2.1 < 0 → q y = true → q x = true)
    (s : Int) (y0 : Nat × Int × Int)
    (hy0 : (P.filter (geKey cmp s)).head? = some y0)
    (hF : P.filter (fun x => geKey cmp s x && q x) ≠ []) :
    (P.filter (fun x => geKey cmp s x && q x)).head? = some y0 ∧
    (P.filter (fun x => geKey cmp s x && q x)).getLast? =
      (P.filter q).getLast? := by
  obtain ⟨GE', hGE'⟩ : ∃ l, P.filter (geKey cmp s) = y0 :: l := by
    cases hGEc : P.filter (geKey cmp s) with
    | nil => rw [hGEc] at hy0; simp at hy0
    | cons z zs =>
      rw [hGEc] at hy0
      simp only [List.head?_cons, Option.some.injEq] at hy0
      exact ⟨zs, by rw [hy0]⟩
  have hFGE : P.filter (fun x => geKey cmp s x && q x) =
      (P.filter (geKey cmp s)).filter q := by
    rw [List.filter_filter]
    exact List.filter_congr (fun x _ => by
      cases hq : q x <;> cases hg : geKey cmp s x <;> simp [hq, hg])
  have hqy0 : q y0 = true := by
    obtain ⟨xh, hxh⟩ := List.exists_mem_of_ne_nil _ hF
    rw [hFGE, hGE'] at hxh
    have hxq := (List.mem_filter.mp hxh).2
    have hxGE := (List.mem_filter.mp hxh).1
    have hpwGE : (P.filter (geKey cmp s)).Pairwise
        (fun x y => cmp x.2.1 y.2.1 < 0) :=
      hpw.sublist (List.filter_sublist P)
    rw [hGE'] at hpwGE
    rcases List.mem_cons.mp hxGE with rfl | hmem
    · exact hxq
    · exact hqdown y0 xh ((List.pairwise_cons.mp hpwGE).1 xh hmem) hxq
  constructor
  · rw [hFGE, hGE', List.filter_cons, hqy0]
    simp
  · have hcomp : P.filter (fun x => geKey cmp s x && q x) =
        (P.filter q).filter (geKey cmp s) := by
      rw [List.filter_filter]
    rw [hcomp]
    refine filter_up_closed_getLast (fun x y => cmp x.2.1 y.2.1 < 0)
      (geKey cmp s) ?_ (P.filter q)
      (hpw.sublist (List.filter_sublist P)) ?_
    · intro x y hlt hx
      simp only [geKey, decide_eq_true_eq] at hx ⊢
      rcases lt_or_eq_of_le hx with h1 | h1
      · exact le_of_lt (hc.trans_lt _ _ _ h1 hlt)
      · exact le_of_lt (hc.zero_lt _ _ _ h1 hlt)
    · rw [← hcomp]
      exact hF

/-- `rangePred` with an exclusive bound is the strict upper filter. -/
theorem rangePred_true (cmp : Int → Int → Int) (s e : Int) :
    rangePred cmp s e true =
      fun x => geKey cmp s x && ltKeyE cmp e x := by
  funext x
  simp [rangePred]

/-- `rangePred` with an inclusive bound is the weak upper filter. -/
theorem rangePred_false (cmp : Int → Int → Int) (s e : Int) :
    rangePred cmp s e false =
      fun x => geKey cmp s x && leKeyE cmp e x := by
  funext x
  simp [rangePred]

/-- Shared analysis of the end-key-miss tail of `srUpper`: with the
upper slot resolved to the last element strictly below the end key, the
interval is empty exactly when `prev` coincides with it, and otherwise
the interval runs from the first element at or above the start key up
to that slot. -/
theorem range_tail (cmp : Int → Int → Int) (hc : LawfulCmp cmp)
    (P : List (Nat × Int × Int))
    (hpw : P.Pairwise (fun x y => cmp x.2.1 y.2.1 < 0))
    (hinj : ∀ x ∈ P, ∀ y ∈ P, x.1 = y.1 → x = y)
    (hidx0 : ∀ x ∈ P, x.1 ≠ 0)
    (s e : Int) (excl : Bool) (hse : cmp s e ≤ 0)
    (hnE : ∀ x ∈ P, cmp x.2.1 e ≠ 0)
    (y0 : Nat × Int × Int)
    (hy0 : (P.filter (geKey cmp s)).head? = some y0)
    (pr : Nat)
    (hpr : (cmp s y0.2.1 = 0 ∧ excl = false ∧ pr = 0) ∨
      pr = (((P.filter (ltKeyS cmp s)).getLast?).map (fun x => x.1)).getD 0)
    (w : Nat × Int × Int)
    (hw : (P.filter (ltKeyE cmp e)).getLast? = some w) :
    (P.filter (rangePred cmp s e excl) = [] → pr = w.1) ∧
    (∀ y z, (P.filter (rangePred cmp s e excl)).head? = some y →
      (P.filter (rangePred cmp s e excl)).getLast? = some z →
      pr ≠ w.1 ∧ y = y0 ∧ z = w) := by
  have hqBE : P.filter (fun x =>
      if excl then ltKeyE cmp e x else leKeyE cmp e x) =
      P.filter (ltKeyE cmp e) := by
    cases excl with
    | true => simp
    | false =>
      refine List.filter_congr (fun x hx => ?_)
      have := hnE x hx
      simp only [leKeyE, ltKeyE]
      exact decide_eq_decide.mpr (by omega)
  have hFeq : P.filter (rangePred cmp s e excl) =
      (P.filter (ltKeyE cmp e)).filter (geKey cmp s) := by
    rw [List.filter_filter]
    refine List.filter_congr (fun x hx => ?_)
    have hne := hnE x hx
    cases excl with
    | true => rfl
    | false =>
      show (geKey cmp s x && leKeyE cmp e x) =
        (geKey cmp s x && ltKeyE cmp e x)
      have h7 : leKeyE cmp e x = ltKeyE cmp e x := by
        simp only [leKeyE, ltKeyE]
        exact decide_eq_decide.mpr (by omega)
      rw [h7]
  constructor
  · intro hF
    have hBELT : P.filter (ltKeyE cmp e) = P.filter (ltKeyS cmp s) := by
      have hzero : ∀ u ∈ P.filter (ltKeyE cmp e), geKey cmp s u ≠ true := by
        rw [hFeq] at hF
        exact fun u hu => by
          intro hgu
          have : u ∈ (P.filter (ltKeyE cmp e)).filter (geKey cmp s) :=
            List.mem_filter.mpr ⟨hu, hgu⟩
          rw [hF] at this
          simp at this
      refine List.filter_congr (fun x hx => ?_)
      simp only [ltKeyE, ltKeyS]
      refine decide_eq_decide.mpr ⟨fun h1 => ?_, fun h1 => ?_⟩
      · have hxBE : x ∈ P.filter (ltKeyE cmp e) :=
          List.mem_filter.mpr ⟨hx, by simp [ltKeyE, h1]⟩
        have h4 := hzero x hxBE
        have h5 : ¬ (cmp s x.2.1 ≤ 0) := by
          intro h6
          exact h4 (by simp [geKey, h6])
        omega
      · have h2 : cmp x.2.1 s < 0 := (hc.flip x.2.1 s).mpr h1
        rcases lt_or_eq_of_le hse with h3 | h3
        · exact hc.trans_lt _ _ _ h2 h3
        · exact hc.lt_zero _ _ _ h2 h3
    rcases hpr with ⟨hy0z, hexcl, hpr0⟩ | hpr2
    · exfalso
      have hy0P : y0 ∈ P :=
        (List.mem_filter.mp (List.mem_of_mem_head? hy0)).1
      have hy0s : cmp y0.2.1 s = 0 := hc.zero_flip hy0z
      rcases lt_or_eq_of_le hse with h3 | h3
      · have hy0e : cmp y0.2.1 e < 0 := hc.zero_lt _ _ _ hy0s h3
        have hy0F : y0 ∈ P.filter (rangePred cmp s e excl) := by
          rw [hFeq]
          refine List.mem_filter.mpr ⟨List.mem_filter.mpr ⟨hy0P, ?_⟩, ?_⟩
          · simp [ltKeyE, hy0e]
          · simp [geKey]; omega
        rw [hF] at hy0F
        simp at hy0F
      · exact hnE y0 hy0P (hc.zero_zero hy0s h3)
    · rw [hBELT] at hw
      rw [hpr2, hw]
      simp
  · intro y z hy hz
    have hFne : P.filter (rangePred cmp s e excl) ≠ [] := by
      intro hc2
      rw [hc2] at hy
      simp at hy
    have hends := range_filter_ends cmp hc P hpw
      (fun x => if excl then ltKeyE cmp e x else leKeyE cmp e x)
      (fun x y hlt hqy => by
        cases excl with
        | true =>
          have h1 : ltKeyE cmp e y = true := hqy
          have h2 : cmp y.2.1 e < 0 := by simpa [ltKeyE] using h1
          have h3 : cmp x.2.1 e < 0 := hc.trans_lt _ _ _ hlt h2
          show ltKeyE cmp e x = true
          simp [ltKeyE, h3]
        | false =>
          have h1 : leKeyE cmp e y = true := hqy
          have h2 : cmp y.2.1 e ≤ 0 := by simpa [leKeyE] using h1
          have h3 : cmp x.2.1 e ≤ 0 := by
            rcases lt_or_eq_of_le h2 with h4 | h4
            · exact le_of_lt (hc.trans_lt _ _ _ hlt h4)
            · exact le_of_lt (hc.lt_zero _ _ _ hlt h4)
          show leKeyE cmp e x = true
          simp [leKeyE, h3])
      s y0 hy0
      (by
        intro hc2
        exact hFne (by
          rw [show P.filter (rangePred cmp s e excl) =
            P.filter (fun x => geKey cmp s x &&
              (fun x => if excl then ltKeyE cmp e x else leKeyE cmp e x) x)
            from rfl]
          exact hc2))
    have hhead : (P.filter (rangePred cmp s e excl)).head? = some y0 :=
      hends.1
    have hlastF : (P.filter (rangePred cmp s e excl)).getLast? = some w := by
      have h5 := hends.2
      rw [hqBE] at h5
      rw [show P.filter (rangePred cmp s e excl) =
        P.filter (fun x => geKey cmp s x &&
          (fun x => if excl then ltKeyE cmp e x else leKeyE cmp e x) x)
        from rfl]
      rw [h5]
      exact hw
    have hyy0 : y = y0 := by
      rw [hhead] at hy
      exact (Option.some.inj hy).symm
    have hzw : z = w := by
      rw [hlastF] at hz
      exact (Option.some.inj hz).symm
    refine ⟨?_, hyy0, hzw⟩
    have hwF : w ∈ P.filter (rangePred cmp s e excl) := by
      rw [← hzw]
      exact List.mem_of_mem_getLast? hz
    have hwge : cmp s w.2.1 ≤ 0 := by
      rw [hFeq] at hwF
      have := (List.mem_filter.mp hwF).2
      simp only [geKey, decide_eq_true_eq] at this
      exact this
    have hwP : w ∈ P := by
      rw [hFeq] at hwF
      exact (List.mem_filter.mp (List.mem_filter.mp hwF).1).1
    rcases hpr with ⟨_, _, hpr0⟩ | hpr2
    · rw [hpr0]
      exact fun hc2 => hidx0 w hwP hc2.symm
    · cases hLT : (P.filter (ltKeyS cmp s)).getLast? with
      | none =>
        rw [hLT] at hpr2
        simp at hpr2
        rw [hpr2]
        exact fun hc2 => hidx0 w hwP hc2.symm
      | some u =>
        rw [hLT] at hpr2
        simp at hpr2
        rw [hpr2]
        intro hc2
        have huLT : u ∈ P.filter (ltKeyS cmp s) :=
          List.mem_of_mem_getLast? hLT
        have huP : u ∈ P := (List.mem_filter.mp huLT).1
        have huk : 0 < cmp s u.2.1 := by
          have := (List.mem_filter.mp huLT).2
          simpa [ltKeyS] using this
        have huw : u = w := hinj u huP w hwP hc2
        rw [huw] at huk
        omega

/-- Every member of a pairwise-ordered list is its head or related to
it. -/
theorem head_le_mem {α : Type} (R : α → α → Prop) (L : List α)
    (hpw : L.Pairwise R) (y0 : α) (hy0 : L.head? = some y0)
    (x : α) (hx : x ∈ L) : x = y0 ∨ R y0 x := by
  cases L with
  | nil => simp at hy0
  | cons z zs =>
    simp only [List.head?_cons, Option.some.injEq] at hy0
    subst hy0
    rcases List.mem_cons.mp hx with rfl | hmem
    · exact Or.inl rfl
    · exact Or.inr ((List.pairwise_cons.mp hpw).1 x hmem)

/-- Characterization of the upper-bound resolution `srUpper` with both
keys present, fed with the resolved lower bound: an empty kind when the
interval filter is empty, otherwise `Default` with exactly the filter's
first and last elements as the bounds. -/
theorem srUpper_spec (cmp : Int → Int → Int) (hc : LawfulCmp cmp)
    (t : Tree) (a : ATree) (h : TreeRep t a) (hs : SortedT cmp a)
    (s e : Int) (excl : Bool) (hse : cmp s e ≤ 0)
    (y0 : Nat × Int × Int)
    (hy0 : ((ATree.inordF a).filter (geKey cmp s)).head? = some y0)
    (pr : Nat)
    (hpr : (cmp s y0.2.1 = 0 ∧ excl = false ∧ pr = 0) ∨
      pr = ((((ATree.inordF a).filter (ltKeyS cmp s)).getLast?).map
             (fun x => x.1)).getD 0) :
    ((ATree.inordF a).filter (rangePred cmp s e excl) = [] →
      kindIsEmpty (srUpper cmp t (some e) excl y0.1 pr).2.2 = true) ∧
    (∀ y z, ((ATree.inordF a).filter (rangePred cmp s e excl)).head? = some y →
      ((ATree.inordF a).filter (rangePred cmp s e excl)).getLast? = some z →
      srUpper cmp t (some e) excl y0.1 pr = (y.1, z.1, Kind.Default)) := by
  have hTR : TreeRep t a := h
  obtain ⟨hrep, hnd, h0⟩ := h
  have hpw := sortedB_pairwise cmp hc a none none hs
  have hidx : ∀ x ∈ ATree.inordF a, x.1 ≠ 0 ∧ x.1 < t.alloc := fun x hx =>
    rep_idxs_bound t a _ _ hrep x.1 (inordF_mem_idx a x hx)
  have hnd' : ((ATree.inordF a).map (fun x => x.1)).Nodup := by
    rw [map_fst_inordF]
    exact hnd
  have hinj := List.inj_on_of_nodup_map hnd'
  have hy0P : y0 ∈ ATree.inordF a :=
    (List.mem_filter.mp (List.mem_of_mem_head? hy0)).1
  have hy0ge : cmp s y0.2.1 ≤ 0 := by
    have := (List.mem_filter.mp (List.mem_of_mem_head? hy0)).2
    simpa [geKey] using this
  have hseE := searchEntry_spec cmp t a hTR e
  have hcharE := searchSlot_char cmp hc e a none none hs 0 Branch.Left
  have hpwGE : ((ATree.inordF a).filter (geKey cmp s)).Pairwise
      (fun x y => cmp x.2.1 y.2.1 < 0) :=
    hpw.sublist (List.filter_sublist (ATree.inordF a))
  by_cases hhitE : ∃ x ∈ ATree.inordF a, cmp e x.2.1 = 0
  · -- the end key occurs in the tree
    obtain ⟨z0, hz0P, hz0z⟩ := hhitE
    have hz0e : cmp z0.2.1 e = 0 := hc.zero_flip hz0z
    have hnodeE := hcharE.1 z0 hz0P hz0z
    rcases htripE : searchSlot cmp e a 0 Branch.Left with ⟨ndE, paE, brE⟩
    rw [htripE] at hnodeE
    have hndE : ndE = z0.1 := hnodeE
    have hndE0 : ndE ≠ 0 := by
      rw [hndE]
      exact (hidx z0 hz0P).1
    have hz0ge : cmp s z0.2.1 ≤ 0 := by
      by_contra hgt
      push_neg at hgt
      have h1 : cmp z0.2.1 s < 0 := (hc.flip _ _).mpr (by omega)
      rcases lt_or_eq_of_le hse with h3 | h3
      · have := hc.trans_lt _ _ _ h1 h3
        omega
      · have := hc.lt_zero _ _ _ h1 h3
        omega
    have hz0GE : z0 ∈ (ATree.inordF a).filter (geKey cmp s) :=
      List.mem_filter.mpr ⟨hz0P, by simp [geKey, hz0ge]⟩
    have hEQ := eq_filter_singleton cmp hc (ATree.inordF a) hpw e z0 hz0P hz0e
    have hpartE := partitionE cmp hc a hs e
    rw [hEQ] at hpartE
    cases hexcl : excl with
    | true =>
      rw [rangePred_true]
      by_cases hyz : y0.1 = z0.1
      · -- exclusive hit collapse: the interval is empty
        have hyz2 : y0 = z0 := hinj hy0P hz0P hyz
        have hFnil : (ATree.inordF a).filter
            (fun x => geKey cmp s x && ltKeyE cmp e x) = [] := by
          rw [List.filter_eq_nil_iff]
          intro x hx hx2
          rw [Bool.and_eq_true] at hx2
          have hge : cmp s x.2.1 ≤ 0 := by simpa [geKey] using hx2.1
          have hlt : cmp x.2.1 e < 0 := by simpa [ltKeyE] using hx2.2
          have hxGE : x ∈ (ATree.inordF a).filter (geKey cmp s) :=
            List.mem_filter.mpr ⟨hx, by simp [geKey, hge]⟩
          rcases head_le_mem _ _ hpwGE y0 hy0 x hxGE with rfl | hrel
          · rw [hyz2] at hlt
            omega
          · rw [hyz2] at hrel
            have := hc.zero_lt _ _ _ hz0z hrel
            have := (hc.flip e x.2.1).mp this
            omega
        constructor
        · intro _
          simp only [srUpper, hseE, htripE]
          rw [if_pos hndE0, if_pos trivial, if_pos (by rw [hndE]; exact hyz)]
          rfl
        · intro y z hy hz
          exfalso
          rw [hFnil] at hy
          simp at hy
      · -- non-collapsing exclusive hit: Default up to the predecessor
        have hyz2 : y0 ≠ z0 := fun hcq => hyz (by rw [hcq])
        have hy0lt : cmp y0.2.1 z0.2.1 < 0 := by
          rcases head_le_mem _ _ hpwGE y0 hy0 z0 hz0GE with h1 | h1
          · exact absurd h1.symm hyz2
          · exact h1
        have hy0e : cmp y0.2.1 e < 0 := hc.lt_zero _ _ _ hy0lt hz0e
        have hy0F : y0 ∈ (ATree.inordF a).filter
            (fun x => geKey cmp s x && ltKeyE cmp e x) :=
          List.mem_filter.mpr ⟨hy0P,
            by simp [geKey, ltKeyE, hy0ge, hy0e]⟩
        have hFne : (ATree.inordF a).filter
            (fun x => geKey cmp s x && ltKeyE cmp e x) ≠ [] :=
          List.ne_nil_of_mem hy0F
        have hends := range_filter_ends cmp hc (ATree.inordF a) hpw
          (ltKeyE cmp e)
          (fun u v hlt hv => by
            have h2 : cmp v.2.1 e < 0 := by simpa [ltKeyE] using hv
            have h3 : cmp u.2.1 e < 0 := hc.trans_lt _ _ _ hlt h2
            simp [ltKeyE, h3])
          s y0 hy0 hFne
        constructor
        · intro hF
          exact absurd hF hFne
        · intro y z hy hz
          have hyy0 : y = y0 := by
            rw [hends.1] at hy
            exact (Option.some.inj hy).symm
          have hBEz : ((ATree.inordF a).filter (ltKeyE cmp e)).getLast? =
              some z := by
            rw [← hends.2]
            exact hz
          have hpred : predecessor t ndE = z.1 := by
            have hidxs : ATree.idxs a =
                (((ATree.inordF a).filter (ltKeyE cmp e)).map
                  (fun x => x.1)) ++ z0.1 ::
                (((ATree.inordF a).filter (gtKeyE cmp e)).map
                  (fun x => x.1)) := by
              rw [← map_fst_inordF]
              conv_lhs => rw [hpartE]
              simp
            rw [hndE, predecessor_spec t a hTR z0.1
              (inordF_mem_idx a z0 hz0P), hidxs,
              prevOf_split _ _ _ (by rw [← hidxs]; exact hnd),
              List.getLast?_map, hBEz]
            rfl
          simp only [srUpper, hseE, htripE]
          rw [if_pos hndE0, if_pos trivial,
            if_neg (by rw [hndE]; exact hyz), hpred, hyy0]
    | false =>
      rw [rangePred_false]
      have hz0F : z0 ∈ (ATree.inordF a).filter
          (fun x => geKey cmp s x && leKeyE cmp e x) :=
        List.mem_filter.mpr ⟨hz0P, by
          have h9 : cmp z0.2.1 e ≤ 0 := by omega
          simp [geKey, leKeyE, hz0ge, h9]⟩
      have hFne : (ATree.inordF a).filter
          (fun x => geKey cmp s x && leKeyE cmp e x) ≠ [] :=
        List.ne_nil_of_mem hz0F
      have hends := range_filter_ends cmp hc (ATree.inordF a) hpw
        (leKeyE cmp e)
        (fun u v hlt hv => by
          have h2 : cmp v.2.1 e ≤ 0 := by simpa [leKeyE] using hv
          have h3 : cmp u.2.1 e ≤ 0 := by
            rcases lt_or_eq_of_le h2 with h4 | h4
            · exact le_of_lt (hc.trans_lt _ _ _ hlt h4)
            · exact le_of_lt (hc.lt_zero _ _ _ hlt h4)
          simp [leKeyE, h3])
        s y0 hy0 hFne
      have hLEz : (ATree.inordF a).filter (leKeyE cmp e) =
          ((ATree.inordF a).filter (ltKeyE cmp e)) ++ [z0] := by
        conv_lhs => rw [hpartE]
        rw [List.filter_append, List.filter_append]
        have h1 : ((ATree.inordF a).filter (ltKeyE cmp e)).filter
            (leKeyE cmp e) = (ATree.inordF a).filter (ltKeyE cmp e) := by
          rw [List.filter_eq_self]
          intro u hu
          have := (List.mem_filter.mp hu).2
          simp only [ltKeyE, decide_eq_true_eq] at this
          simp [leKeyE]
          omega
        have h2 : ([z0] : List (Nat × Int × Int)).filter (leKeyE cmp e) =
            [z0] := by
          have h9 : leKeyE cmp e z0 = true := by
            simp [leKeyE]
            omega
          simp [List.filter_cons, h9]
        have h3 : ((ATree.inordF a).filter (gtKeyE cmp e)).filter
            (leKeyE cmp e) = [] := by
          rw [List.filter_eq_nil_iff]
          intro u hu
          have := (List.mem_filter.mp hu).2
          simp only [gtKeyE, decide_eq_true_eq] at this
          simp [leKeyE]
          omega
        rw [h1, h2, h3]
        simp
      constructor
      · intro hF
        exact absurd hF hFne
      · intro y z hy hz
        have hyy0 : y = y0 := by
          rw [hends.1] at hy
          exact (Option.some.inj hy).symm
        have hzz0 : z = z0 := by
          rw [hends.2, hLEz, List.getLast?_concat] at hz
          exact (Option.some.inj hz).symm
        simp only [srUpper, hseE, htripE]
        rw [if_pos hndE0]
        rw [if_neg (by simp), hyy0, hzz0, hndE]
  · -- the end key is absent
    push_neg at hhitE
    have hnE : ∀ x ∈ ATree.inordF a, cmp x.2.1 e ≠ 0 := fun x hx hcq =>
      hhitE x hx (hc.zero_flip hcq)
    obtain ⟨h0E, htriE⟩ := hcharE.2 hhitE
    have hcongrLt : (ATree.inordF a).filter
        (fun x => decide (cmp e x.2.1 < 0)) =
        (ATree.inordF a).filter (gtKeyE cmp e) :=
      List.filter_congr (fun x hx => by
        simp only [gtKeyE]
        exact decide_eq_decide.mpr ⟨fun h1 => (hc.flip e x.2.1).mp h1,
          fun h1 => (hc.flip e x.2.1).mpr h1⟩)
    have hcongrGt : (ATree.inordF a).filter
        (fun x => decide (0 < cmp e x.2.1)) =
        (ATree.inordF a).filter (ltKeyE cmp e) :=
      List.filter_congr (fun x hx => by
        simp only [ltKeyE]
        exact decide_eq_decide.mpr ⟨fun h1 => (hc.flip x.2.1 e).mpr h1,
          fun h1 => (hc.flip x.2.1 e).mp h1⟩)
    have hEQnil : (ATree.inordF a).filter
        (fun x => decide (cmp x.2.1 e = 0)) = [] := by
      rw [List.filter_eq_nil_iff]
      intro x hx
      have := hnE x hx
      simp [this]
    have hpartE := partitionE cmp hc a hs e
    rw [hEQnil] at hpartE
    simp only [List.nil_append] at hpartE
    have hFBE : ∀ x ∈ (ATree.inordF a).filter (rangePred cmp s e excl),
        x ∈ (ATree.inordF a).filter (ltKeyE cmp e) := by
      intro x hx
      have hxP := (List.mem_filter.mp hx).1
      have hxp := (List.mem_filter.mp hx).2
      simp only [rangePred, Bool.and_eq_true] at hxp
      refine List.mem_filter.mpr ⟨hxP, ?_⟩
      cases hexcl : excl with
      | true =>
        rw [hexcl] at hxp
        simpa using hxp.2
      | false =>
        rw [hexcl] at hxp
        have h2 : cmp x.2.1 e ≤ 0 := by
          have := hxp.2
          simpa [leKeyE] using this
        have := hnE x hxP
        simp [ltKeyE]
        omega
    rcases htriE with ⟨hanilE, _⟩ | ⟨hbrE, hheadE⟩ | ⟨hbrE, hlastE⟩
    · exfalso
      rw [hanilE] at hy0P
      simp at hy0P
    · -- slot attaches left of the first element above the end key
      rw [hcongrLt] at hheadE
      rcases htripE : searchSlot cmp e a 0 Branch.Left with ⟨ndE, paE, brE⟩
      rw [htripE] at h0E hbrE hheadE
      cases hAEh : ((ATree.inordF a).filter (gtKeyE cmp e)).head? with
      | none => rw [hAEh] at hheadE; simp at hheadE
      | some u =>
        rw [hAEh] at hheadE
        simp at hheadE
        obtain ⟨AE', hAE'⟩ : ∃ l, (ATree.inordF a).filter (gtKeyE cmp e) =
            u :: l := by
          cases hAEc : (ATree.inordF a).filter (gtKeyE cmp e) with
          | nil => rw [hAEc] at hAEh; simp at hAEh
          | cons b bs =>
            rw [hAEc] at hAEh
            simp only [List.head?_cons, Option.some.injEq] at hAEh
            exact ⟨bs, by rw [hAEh]⟩
        have huP : u ∈ ATree.inordF a := by
          have : u ∈ (ATree.inordF a).filter (gtKeyE cmp e) := by
            rw [hAE']; simp
          exact (List.mem_filter.mp this).1
        have hidxs : ATree.idxs a =
            (((ATree.inordF a).filter (ltKeyE cmp e)).map (fun x => x.1)) ++
            u.1 :: (AE'.map (fun x => x.1)) := by
          rw [← map_fst_inordF]
          conv_lhs => rw [hpartE]
          rw [hAE']
          simp
        have hpredu : predecessor t paE =
            ((((ATree.inordF a).filter (ltKeyE cmp e)).getLast?).map
              (fun x => x.1)).getD 0 := by
          rw [← hheadE, predecessor_spec t a hTR u.1 (inordF_mem_idx a u huP),
            hidxs, prevOf_split _ _ _ (by rw [← hidxs]; exact hnd),
            List.getLast?_map]
        have hbrneE : brE ≠ Branch.Right := by
          have hbrE2 : brE = Branch.Left := hbrE
          rw [hbrE2]
          decide
        by_cases hBE : (ATree.inordF a).filter (ltKeyE cmp e) = []
        · -- nothing below the end key: Before
          have hFnil : (ATree.inordF a).filter (rangePred cmp s e excl) = [] := by
            cases hFc : (ATree.inordF a).filter (rangePred cmp s e excl) with
            | nil => rfl
            | cons b bs =>
              exfalso
              have hb : b ∈ (ATree.inordF a).filter (rangePred cmp s e excl) := by
                rw [hFc]; simp
              have := hFBE b hb
              rw [hBE] at this
              simp at this
          constructor
          · intro _
            have hup0 : predecessor t paE = 0 := by
              rw [hpredu, hBE]
              rfl
            simp only [srUpper, hseE, htripE]
            rw [if_neg (by simp; exact h0E), if_neg hbrneE, hup0, if_pos rfl]
            rfl
          · intro y z hy hz
            exfalso
            rw [hFnil] at hy
            simp at hy
        · -- fall through to the shared tail with the last element below `e`
          obtain ⟨w, hw⟩ : ∃ w,
              ((ATree.inordF a).filter (ltKeyE cmp e)).getLast? = some w := by
            cases hg : ((ATree.inordF a).filter (ltKeyE cmp e)).getLast? with
            | some w => exact ⟨w, rfl⟩
            | none =>
              exfalso
              exact hBE (List.getLast?_eq_none_iff.mp hg)
          have hwP : w ∈ ATree.inordF a :=
            (List.mem_filter.mp (List.mem_of_mem_getLast? hw)).1
          have htail := range_tail cmp hc (ATree.inordF a) hpw
            (fun x hx y2 hy2 hxy => hinj hx hy2 hxy)
            (fun x hx => (hidx x hx).1) s e excl hse hnE y0 hy0 pr hpr w hw
          have hupw : predecessor t paE = w.1 := by
            rw [hpredu, hw]
            rfl
          constructor
          · intro hF
            have hprw := htail.1 hF
            simp only [srUpper, hseE, htripE]
            rw [if_neg (by simp; exact h0E), if_neg hbrneE, hupw,
              if_neg (hidx w hwP).1, if_pos hprw]
            rfl
          · intro y z hy hz
            obtain ⟨hprne, hyy0, hzw⟩ := htail.2 y z hy hz
            simp only [srUpper, hseE, htripE]
            rw [if_neg (by simp; exact h0E), if_neg hbrneE, hupw,
              if_neg (hidx w hwP).1, if_neg hprne, hyy0, hzw]
    · -- slot attaches right of the last element below the end key
      rw [hcongrGt] at hlastE
      rcases htripE : searchSlot cmp e a 0 Branch.Left with ⟨ndE, paE, brE⟩
      rw [htripE] at h0E hbrE hlastE
      cases hBEl : ((ATree.inordF a).filter (ltKeyE cmp e)).getLast? with
      | none => rw [hBEl] at hlastE; simp at hlastE
      | some w =>
        rw [hBEl] at hlastE
        simp at hlastE
        have hwP : w ∈ ATree.inordF a :=
          (List.mem_filter.mp (List.mem_of_mem_getLast? hBEl)).1
        have htail := range_tail cmp hc (ATree.inordF a) hpw
          (fun x hx y2 hy2 hxy => hinj hx hy2 hxy)
          (fun x hx => (hidx x hx).1) s e excl hse hnE y0 hy0 pr hpr w hBEl
        have hbrE2 : brE = Branch.Right := hbrE
        constructor
        · intro hF
          have hprw := htail.1 hF
          simp only [srUpper, hseE, htripE]
          rw [if_neg (by simp; exact h0E), if_pos hbrE2,
            if_pos (by rw [hprw, hlastE])]
          rfl
        · intro y z hy hz
          obtain ⟨hprne, hyy0, hzw⟩ := htail.2 y z hy hz
          simp only [srUpper, hseE, htripE]
          rw [if_neg (by simp; exact h0E), if_pos hbrE2,
            if_neg (by rw [← hlastE]; exact hprne), hyy0, hzw, hlastE]

/-- The full range classification with both keys present: an empty kind
when the interval filter is empty, otherwise `Default` bounded by the
filter's first and last elements. -/
theorem searchRangeBody_spec (cmp : Int → Int → Int) (hc : LawfulCmp cmp)
    (t : Tree) (a : ATree) (h : TreeRep t a) (hs : SortedT cmp a)
    (s e : Int) (excl : Bool) (hse : cmp s e ≤ 0) :
    ((ATree.inordF a).filter (rangePred cmp s e excl) = [] →
      kindIsEmpty
        (searchRange.searchRangeBody cmp t (some s) (some e) excl).2.2
        = true) ∧
    (∀ y z, ((ATree.inordF a).filter (rangePred cmp s e excl)).head? = some y →
      ((ATree.inordF a).filter (rangePred cmp s e excl)).getLast? = some z →
      searchRange.searchRangeBody cmp t (some s) (some e) excl =
        (y.1, z.1, Kind.Default)) := by
  have hTR : TreeRep t a := h
  obtain ⟨hrep, hnd, h0⟩ := h
  by_cases hanil : a = ATree.nil
  · subst hanil
    have hroot : t.root = 0 := hrep
    constructor
    · intro _
      simp only [searchRange.searchRangeBody, if_pos hroot]
      rfl
    · intro y z hy hz
      simp at hy
  · have hroot : t.root ≠ 0 := by
      cases hac : a with
      | nil => exact absurd hac hanil
      | node n k v p l r =>
        rw [hac] at hrep
        have h1 : t.root = n := hrep.1
        have h2 : n ≠ 0 := hrep.2.1
        rw [h1]
        exact h2
    have hlow := srLower_spec cmp hc t a hTR hs s excl hanil
    by_cases hGE : (ATree.inordF a).filter (geKey cmp s) = []
    · have hnone := hlow.1 hGE
      have hFnil : (ATree.inordF a).filter (rangePred cmp s e excl) = [] := by
        rw [List.filter_eq_nil_iff]
        intro x hx hx2
        have hxge : geKey cmp s x = true := by
          simp only [rangePred, Bool.and_eq_true] at hx2
          exact hx2.1
        have hmem : x ∈ (ATree.inordF a).filter (geKey cmp s) :=
          List.mem_filter.mpr ⟨hx, hxge⟩
        rw [hGE] at hmem
        simp at hmem
      constructor
      · intro _
        simp only [searchRange.searchRangeBody, if_neg hroot, hnone]
        rfl
      · intro y z hy hz
        exfalso
        rw [hFnil] at hy
        simp at hy
    · cases hGEh : ((ATree.inordF a).filter (geKey cmp s)).head? with
      | none =>
        exfalso
        exact hGE (List.head?_eq_none_iff.mp hGEh)
      | some y0 =>
        obtain ⟨pr, hsl, hpr⟩ := hlow.2 y0 hGEh
        have hup := srUpper_spec cmp hc t a hTR hs s e excl hse y0 hGEh pr hpr
        have hbody : searchRange.searchRangeBody cmp t (some s) (some e) excl =
            srUpper cmp t (some e) excl y0.1 pr := by
          simp only [searchRange.searchRangeBody, if_neg hroot, hsl]
        rw [hbody]
        exact hup

/-- On zero fuel or from the sentinel, the range walk is empty. -/
theorem rangeNodesGo_zero (t : Tree) (fuel upper : Nat) :
    rangeNodesGo t fuel 0 upper = [] := by
  cases fuel with
  | zero => rfl
  | succ f => rfl

/-- The successor walk from the head of a contiguous in-order segment
down to its last element visits exactly the segment. -/
theorem rangeNodesGo_seg (t : Tree) (a : ATree) (h : TreeRep t a) :
    ∀ (seg pre post : List Nat), ATree.idxs a = pre ++ seg ++ post →
    ∀ y z, seg.head? = some y → seg.getLast? = some z →
    ∀ fuel, seg.length ≤ fuel →
    rangeNodesGo t fuel y z = seg := by
  have hTR : TreeRep t a := h
  obtain ⟨hrep, hnd, h0⟩ := h
  intro seg
  induction seg with
  | nil =>
    intro pre post _ y z hy
    simp at hy
  | cons x rest ih =>
    intro pre post hsplit y z hy hz fuel hfuel
    simp only [List.head?_cons, Option.some.injEq] at hy
    subst hy
    have hsplit2 : ATree.idxs a = pre ++ x :: (rest ++ post) := by
      rw [hsplit]
      simp
    have hxmem : x ∈ ATree.idxs a := by
      rw [hsplit2]
      simp
    have hx0 : x ≠ 0 := (rep_idxs_bound t a _ _ hrep x hxmem).1
    cases fuel with
    | zero => simp at hfuel
    | succ f =>
      cases hrc : rest with
      | nil =>
        subst hrc
        simp only [List.getLast?_singleton, Option.some.injEq] at hz
        subst hz
        simp only [rangeNodesGo]
        rw [if_neg hx0, if_pos trivial, rangeNodesGo_zero]
      | cons r rs =>
        subst hrc
        have hnotmem : x ∉ r :: rs ++ post := by
          rw [hsplit2] at hnd
          have h1 := (List.nodup_append.mp hnd).2.1
          have h2 := (List.nodup_cons.mp h1).1
          intro hcq
          exact h2 (by simpa using hcq)
        have hzr : ((r :: rs) : List Nat).getLast? = some z := by
          rw [List.getLast?_cons_cons] at hz
          cases hrs : rs with
          | nil => subst hrs; simpa using hz
          | cons q qs => rw [hrs] at hz; exact hz
        have hzmem : z ∈ r :: rs := List.mem_of_mem_getLast? hzr
        have hxz : x ≠ z := by
          intro hcq
          exact hnotmem (by
            rw [hcq]
            exact List.mem_append_left _ hzmem)
        have hsucc : successor t x = r := by
          rw [successor_spec t a hTR x hxmem, hsplit2,
            nextAfter_split _ _ _ (by rw [← hsplit2]; exact hnd)]
          rfl
        simp only [rangeNodesGo]
        rw [if_neg hx0, if_neg hxz, hsucc]
        rw [ih (pre ++ [x]) post (by rw [hsplit]; simp) r z rfl hzr f
          (by simp at hfuel ⊢; omega)]

/-- **C3.** Range contents: on every represented sorted map and keys
`s ≤ e` (under the comparator), `range(s, e, exclusive)` succeeds; its
in-order walk read back through the heap yields exactly the in-order
`(key, value)` pairs whose key lies in `[s, e]` (resp. `[s, e)` when
exclusive), in comparator order; `isEmpty` holds iff that set is empty;
and `count()` equals its cardinality. -/
theorem range_contents (cmp : Int → Int → Int) (hc : LawfulCmp cmp)
    (t : Tree) (a : ATree) (h : TreeRep t a) (hs : SortedT cmp a)
    (s e : Int) (excl : Bool) (hse : cmp s e ≤ 0) :
    ∃ r : MapRange, range cmp t (some s) (some e) excl = .ok r ∧
      (MapRange.inorder t r).map
        (fun l => l.map (fun n => ((getN t n).key, (getN t n).value))) =
        .ok (((ATree.inordF a).filter (rangePred cmp s e excl)).map
          (fun u => u.2)) ∧
      (MapRange.isEmpty r = true ↔
        (ATree.inordF a).filter (rangePred cmp s e excl) = []) ∧
      MapRange.count t r =
        .ok (((ATree.inordF a).filter (rangePred cmp s e excl)).length : Int)
    := by
  have hTR : TreeRep t a := h
  obtain ⟨hrep, hnd, h0⟩ := h
  have hspec := searchRangeBody_spec cmp hc t a hTR hs s e excl hse
  have hR : ∀ lo up k,
      searchRange.searchRangeBody cmp t (some s) (some e) excl = (lo, up, k) →
      range cmp t (some s) (some e) excl = .ok ⟨lo, up, k⟩ := by
    intro lo up k hb
    simp only [range, searchRange]
    rw [if_neg (by omega), hb]
  by_cases hFnil : (ATree.inordF a).filter (rangePred cmp s e excl) = []
  · have hk := hspec.1 hFnil
    rcases hb : searchRange.searchRangeBody cmp t (some s) (some e) excl
      with ⟨lo, up, k⟩
    rw [hb] at hk
    have hk2 : kindIsEmpty k = true := hk
    refine ⟨⟨lo, up, k⟩, hR lo up k hb, ?_, ?_, ?_⟩
    · have h1 : MapRange.inorder t ⟨lo, up, k⟩ = .ok [] := by
        simp only [MapRange.inorder]
        rw [if_pos hk2]
      rw [h1, hFnil]
      rfl
    · simp only [MapRange.isEmpty]
      constructor
      · intro _
        exact hFnil
      · intro _
        exact hk2
    · have h1 : MapRange.count t ⟨lo, up, k⟩ = .ok 0 := by
        simp only [MapRange.count]
        by_cases hrem : k = Kind.Removed
        · rw [if_pos hrem]
        · rw [if_neg hrem, if_pos hk2]
      rw [h1, hFnil]
      rfl
  · obtain ⟨x, hy⟩ : ∃ x,
        ((ATree.inordF a).filter (rangePred cmp s e excl)).head? = some x := by
      cases hg : ((ATree.inordF a).filter (rangePred cmp s e excl)).head? with
      | some x => exact ⟨x, rfl⟩
      | none => exact absurd (List.head?_eq_none_iff.mp hg) hFnil
    obtain ⟨z, hz⟩ : ∃ z,
        ((ATree.inordF a).filter (rangePred cmp s e excl)).getLast? = some z := by
      cases hg : ((ATree.inordF a).filter (rangePred cmp s e excl)).getLast? with
      | some z => exact ⟨z, rfl⟩
      | none => exact absurd (List.getLast?_eq_none_iff.mp hg) hFnil
    have hane : a ≠ ATree.nil := by
      intro hcq
      rw [hcq] at hFnil
      simp at hFnil
    have hbody := hspec.2 x z hy hz
    have hkv := rep_inordF_kv t a t.root 0 hrep
    have hxP : x ∈ ATree.inordF a :=
      (List.mem_filter.mp (List.mem_of_mem_head? hy)).1
    have hzP : z ∈ ATree.inordF a :=
      (List.mem_filter.mp (List.mem_of_mem_getLast? hz)).1
    have hvx : validate t x.1 = .ok () := by
      simp [validate, (hkv x hxP).2.2]
    have hvz : validate t z.1 = .ok () := by
      simp [validate, (hkv z hzP).2.2]
    have hpart := sorted_filter_partition (fun u v => cmp u.2.1 v.2.1 < 0)
      (ltKeyS cmp s)
      (fun u => !(if excl then ltKeyE cmp e u else leKeyE cmp e u))
      (fun u v hlt hv => by
        simp only [ltKeyS, decide_eq_true_eq] at hv ⊢
        have h1 : cmp v.2.1 s < 0 := (hc.flip v.2.1 s).mpr hv
        have h2 : cmp u.2.1 s < 0 := hc.trans_lt _ _ _ hlt h1
        exact (hc.flip u.2.1 s).mp h2)
      (fun u v hlt hu => by
        rw [Bool.not_eq_true'] at hu ⊢
        by_contra hvq
        rw [Bool.not_eq_false] at hvq
        have hu2 : (if excl then ltKeyE cmp e u else leKeyE cmp e u) = true := by
          cases excl with
          | true =>
            have h2 : cmp v.2.1 e < 0 := by
              have h3 : ltKeyE cmp e v = true := hvq
              simpa [ltKeyE] using h3
            have h3 : cmp u.2.1 e < 0 := hc.trans_lt _ _ _ hlt h2
            show ltKeyE cmp e u = true
            simp [ltKeyE, h3]
          | false =>
            have h2 : cmp v.2.1 e ≤ 0 := by
              have h3 : leKeyE cmp e v = true := hvq
              simpa [leKeyE] using h3
            have h3 : cmp u.2.1 e ≤ 0 := by
              rcases lt_or_eq_of_le h2 with h4 | h4
              · exact le_of_lt (hc.trans_lt _ _ _ hlt h4)
              · exact le_of_lt (hc.lt_zero _ _ _ hlt h4)
            show leKeyE cmp e u = true
            simp [leKeyE, h3]
        rw [hu] at hu2
        cases hu2)
      (fun u => by
        rintro ⟨h1, h2⟩
        rw [Bool.not_eq_true'] at h2
        have h3 : 0 < cmp s u.2.1 := by simpa [ltKeyS] using h1
        have h4 : cmp u.2.1 s < 0 := (hc.flip u.2.1 s).mpr h3
        have h5 : cmp u.2.1 e < 0 := by
          rcases lt_or_eq_of_le hse with h6 | h6
          · exact hc.trans_lt _ _ _ h4 h6
          · exact hc.lt_zero _ _ _ h4 h6
        have h7 : (if excl then ltKeyE cmp e u else leKeyE cmp e u) = true := by
          cases excl with
          | true =>
            show ltKeyE cmp e u = true
            simp [ltKeyE, h5]
          | false =>
            show leKeyE cmp e u = true
            simp [leKeyE]
            omega
        rw [h2] at h7
        cases h7)
      (ATree.inordF a) (sortedB_pairwise cmp hc a none none hs)
    have hmid : (ATree.inordF a).filter
        (fun u => !(ltKeyS cmp s u) &&
          !(!(if excl then ltKeyE cmp e u else leKeyE cmp e u))) =
        (ATree.inordF a).filter (rangePred cmp s e excl) := by
      refine List.filter_congr (fun u hu => ?_)
      rw [Bool.not_not]
      have h1 : (!(ltKeyS cmp s u)) = geKey cmp s u := by
        rcases lt_or_le 0 (cmp s u.2.1) with h2 | h2
        · simp [ltKeyS, geKey, h2, show ¬ cmp s u.2.1 ≤ 0 by omega]
        · simp [ltKeyS, geKey, h2, show ¬ (0 < cmp s u.2.1) by omega]
      rw [h1]
      rfl
    rw [hmid] at hpart
    have hsplitIdx : ATree.idxs a =
        (((ATree.inordF a).filter (ltKeyS cmp s)).map (fun u => u.1)) ++
        (((ATree.inordF a).filter (rangePred cmp s e excl)).map
          (fun u => u.1)) ++
        (((ATree.inordF a).filter
          (fun u => !(if excl then ltKeyE cmp e u else leKeyE cmp e u))).map
            (fun u => u.1)) := by
      rw [← map_fst_inordF]
      conv_lhs => rw [hpart]
      simp
    have hsz := rep_sz_lt_alloc t a _ _ hrep hnd hane
    have hlen : (((ATree.inordF a).filter (rangePred cmp s e excl)).map
        (fun u => u.1)).length ≤ t.alloc := by
      have h4 : ((ATree.inordF a).filter (rangePred cmp s e excl)).length ≤
          (ATree.inordF a).length :=
        (List.filter_sublist _).length_le
      have h5 : (ATree.inordF a).length = ATree.sz a := by
        rw [← ATree.length_idxs, ← map_fst_inordF, List.length_map]
      simp only [List.length_map]
      omega
    have hwalk : rangeNodesGo t t.alloc x.1 z.1 =
        ((ATree.inordF a).filter (rangePred cmp s e excl)).map
          (fun u => u.1) := by
      refine rangeNodesGo_seg t a hTR _ _ _ hsplitIdx x.1 z.1 ?_ ?_ t.alloc hlen
      · rw [List.head?_map, hy]
        rfl
      · rw [List.getLast?_map, hz]
        rfl
    have hinord : MapRange.inorder t ⟨x.1, z.1, Kind.Default⟩ =
        .ok (((ATree.inordF a).filter (rangePred cmp s e excl)).map
          (fun u => u.1)) := by
      simp only [MapRange.inorder]
      rw [if_neg (show ¬ (kindIsEmpty Kind.Default = true) from by decide),
        hvx, hvz, hwalk]
    refine ⟨⟨x.1, z.1, Kind.Default⟩, hR _ _ _ hbody, ?_, ?_, ?_⟩
    · rw [hinord]
      simp only [Except.map, List.map_map]
      congr 1
      refine List.map_congr_left (fun u hu => ?_)
      have hu2 := hkv u ((List.mem_filter.mp hu).1)
      simp only [Function.comp]
      rw [hu2.1, hu2.2.1]
    · simp only [MapRange.isEmpty]
      constructor
      · intro hq
        cases hq
      · intro hq
        exact absurd hq hFnil
    · have h1 : MapRange.count t ⟨x.1, z.1, Kind.Default⟩ =
          .ok ((rangeNodesGo t t.alloc x.1 z.1).length : Int) := by
        simp only [MapRange.count]
        rw [if_neg (show ¬ (Kind.Default = Kind.Removed) from by decide),
          if_neg (show ¬ (kindIsEmpty Kind.Default = true) from by decide),
          hvx, hvz]
      rw [h1, hwalk]
      simp

/-- The tree `{2 ↦ 20, 3 ↦ 30}` (ascending insertion) as an algebraic
tree: key 2 at arena index 1 with key 3 as its right child. -/
def pairATree : ATree :=
  ATree.node 1 2 20 (-1) ATree.nil (ATree.node 2 3 30 0 ATree.nil ATree.nil)

/-- Witness for `range_contents` at the concrete map `{2 ↦ 20, 3 ↦ 30}`
with the exclusive range `[2, 3)`. -/
theorem range_contents_witness :
    (TreeRep pairTree pairATree ∧ SortedT ascending pairATree ∧
      ascending 2 3 ≤ 0) ∧
    (∃ r : MapRange, range ascending pairTree (some 2) (some 3) true = .ok r ∧
      (MapRange.inorder pairTree r).map
        (fun l => l.map (fun n =>
          ((getN pairTree n).key, (getN pairTree n).value))) =
        .ok (((ATree.inordF pairATree).filter
          (rangePred ascending 2 3 true)).map (fun u => u.2)) ∧
      (MapRange.isEmpty r = true ↔
        (ATree.inordF pairATree).filter (rangePred ascending 2 3 true) = []) ∧
      MapRange.count pairTree r =
        .ok (((ATree.inordF pairATree).filter
          (rangePred ascending 2 3 true)).length : Int)) :=
  ⟨⟨by decide, by decide, by decide⟩,
    range_contents ascending lawful_ascending pairTree pairATree
      ⟨by decide, by decide, by decide⟩ (by decide) 2 3 true (by decide)⟩

/-! ### Zipper contexts: paths from the root to a focused subtree -/

/-- A path context: the chain of ancestors above a focused subtree,
each frame holding the ancestor's payload and its other subtree. -/
inductive Ctx where
  | top
  | left (i : Nat) (k v p : Int) (ctx : Ctx) (r : ATree)
  | right (i : Nat) (k v p : Int) (l : ATree) (ctx : Ctx)
deriving DecidableEq, Repr

/-- Rebuild the whole tree from a context and the focused subtree. -/
def Ctx.plug : Ctx → ATree → ATree
  | .top, a => a
  | .left i k v p ctx r, a => Ctx.plug ctx (.node i k v p a r)
  | .right i k v p l ctx, a => Ctx.plug ctx (.node i k v p l a)

/-- In-order indices strictly before the hole. -/
def Ctx.pre : Ctx → List Nat
  | .top => []
  | .left _ _ _ _ ctx _ => Ctx.pre ctx
  | .right i _ _ _ l ctx => Ctx.pre ctx ++ ATree.idxs l ++ [i]

/-- In-order indices strictly after the hole. -/
def Ctx.post : Ctx → List Nat
  | .top => []
  | .left i _ _ _ ctx r => i :: ATree.idxs r ++ Ctx.post ctx
  | .right _ _ _ _ _ ctx => Ctx.post ctx

/-- In-order `(index, key, value)` triples strictly before the hole. -/
def Ctx.preF : Ctx → List (Nat × Int × Int)
  | .top => []
  | .left _ _ _ _ ctx _ => Ctx.preF ctx
  | .right i k v _ l ctx => Ctx.preF ctx ++ ATree.inordF l ++ [(i, k, v)]

/-- In-order triples strictly after the hole. -/
def Ctx.postF : Ctx → List (Nat × Int × Int)
  | .top => []
  | .left i k v _ ctx r => (i, k, v) :: ATree.inordF r ++ Ctx.postF ctx
  | .right _ _ _ _ _ ctx => Ctx.postF ctx

/-- The in-order index list of a plugged tree splits around the
subtree. -/
theorem plug_idxs : ∀ (ctx : Ctx) (a : ATree),
    ATree.idxs (Ctx.plug ctx a) = Ctx.pre ctx ++ ATree.idxs a ++ Ctx.post ctx := by
  intro ctx
  induction ctx with
  | top => intro a; simp [Ctx.plug, Ctx.pre, Ctx.post]
  | left i k v p ctx r ih =>
    intro a
    simp only [Ctx.plug, Ctx.pre, Ctx.post]
    rw [ih]
    simp
  | right i k v p l ctx ih =>
    intro a
    simp only [Ctx.plug, Ctx.pre, Ctx.post]
    rw [ih]
    simp

/-- The in-order triples of a plugged tree split around the subtree. -/
theorem plug_inordF : ∀ (ctx : Ctx) (a : ATree),
    ATree.inordF (Ctx.plug ctx a) =
      Ctx.preF ctx ++ ATree.inordF a ++ Ctx.postF ctx := by
  intro ctx
  induction ctx with
  | top => intro a; simp [Ctx.plug, Ctx.preF, Ctx.postF]
  | left i k v p ctx r ih =>
    intro a
    simp only [Ctx.plug, Ctx.preF, Ctx.postF]
    rw [ih]
    simp
  | right i k v p l ctx ih =>
    intro a
    simp only [Ctx.plug, Ctx.preF, Ctx.postF]
    rw [ih]
    simp

/-- Heap representation of a context: the ancestor chain above the hole
at index `hole` whose frame head is `hp` (`0` for the top). -/
def RepC (t : Tree) : Ctx → Nat → Nat → Prop
  | .top, hole, hp => hole = t.root ∧ hp = 0
  | .left i k v p ctx r, hole, hp =>
      hp = i ∧ i ≠ 0 ∧ i < t.alloc ∧
      (getN t i).key = k ∧ (getN t i).value = v ∧ (getN t i).parity = p ∧
      (getN t i).removed = false ∧ (getN t i).left = hole ∧
      Rep t r (getN t i).right i ∧ RepC t ctx i (getN t i).parent
  | .right i k v p l ctx, hole, hp =>
      hp = i ∧ i ≠ 0 ∧ i < t.alloc ∧
      (getN t i).key = k ∧ (getN t i).value = v ∧ (getN t i).parity = p ∧
      (getN t i).removed = false ∧ (getN t i).right = hole ∧
      Rep t l (getN t i).left i ∧ RepC t ctx i (getN t i).parent

/-- Plugging a represented subtree into a represented context yields a
representation of the whole tree at the root. -/
theorem repC_plug (t : Tree) : ∀ (ctx : Ctx) (a : ATree) (hole hp : Nat),
    RepC t ctx hole hp → Rep t a hole hp →
    Rep t (Ctx.plug ctx a) t.root 0 := by
  intro ctx
  induction ctx with
  | top =>
    intro a hole hp hcx ha
    obtain ⟨h1, h2⟩ := hcx
    subst h1
    subst h2
    exact ha
  | left i k v p ctx r ih =>
    intro a hole hp hcx ha
    obtain ⟨h1, h2, h3, h4, h5, h6, h7, h8, h9, h10⟩ := hcx
    subst h1
    refine ih _ _ _ h10 ?_
    refine ⟨rfl, h2, h3, h4, h5, h6, rfl, h7, ?_, h9⟩
    rw [h8]
    exact ha
  | right i k v p l ctx ih =>
    intro a hole hp hcx ha
    obtain ⟨h1, h2, h3, h4, h5, h6, h7, h8, h9, h10⟩ := hcx
    subst h1
    refine ih _ _ _ h10 ?_
    refine ⟨rfl, h2, h3, h4, h5, h6, rfl, h7, h9, ?_⟩
    rw [h8]
    exact ha

/-- Locate a node inside a represented subtree: decompose the tree into
a context focused on that node. -/
theorem rep_locate (t : Tree) : ∀ (a : ATree) (i par : Nat), Rep t a i par →
    ∀ n ∈ ATree.idxs a, ∀ (ctx0 : Ctx), RepC t ctx0 i par →
    ∃ ctx k v p l r,
      Ctx.plug ctx0 a = Ctx.plug ctx (ATree.node n k v p l r) ∧
      RepC t ctx n (getN t n).parent ∧
      Rep t (ATree.node n k v p l r) n (getN t n).parent := by
  intro a
  induction a with
  | nil =>
    intro i par _ n hn
    simp [ATree.idxs] at hn
  | node m k v p l r ihl ihr =>
    intro i par h n hn ctx0 hcx
    obtain ⟨rfl, hm0, hma, hk, hv, hp, hpar, hrm, hl, hr⟩ := h
    simp only [ATree.idxs_node, List.mem_append, List.mem_cons] at hn
    rcases hn with hn | rfl | hn
    · have hcx' : RepC t (.left i k v p ctx0 r) (getN t i).left i :=
        ⟨rfl, hm0, hma, hk, hv, hp, hrm, rfl, hr, by rw [hpar]; exact hcx⟩
      obtain ⟨ctx, k', v', p', l', r', he, hc, hrep⟩ :=
        ihl _ _ hl n hn (.left i k v p ctx0 r) hcx'
      exact ⟨ctx, k', v', p', l', r', he, hc, hrep⟩
    · refine ⟨ctx0, k, v, p, l, r, rfl, by rw [hpar]; exact hcx, ?_⟩
      exact ⟨rfl, hm0, hma, hk, hv, hp, rfl, hrm, hl, hr⟩
    · have hcx' : RepC t (.right i k v p l ctx0) (getN t i).right i :=
        ⟨rfl, hm0, hma, hk, hv, hp, hrm, rfl, hl, by rw [hpar]; exact hcx⟩
      obtain ⟨ctx, k', v', p', l', r', he, hc, hrep⟩ :=
        ihr _ _ hr n hn (.right i k v p l ctx0) hcx'
      exact ⟨ctx, k', v', p', l', r', he, hc, hrep⟩

/-- A context representation only reads heap cells listed in its `pre`
and `post` index lists, so it transports along heap changes leaving
those cells, the root and (monotonically) the allocation bound alone. -/
theorem repC_mono (t t' : Tree) : ∀ (ctx : Ctx) (hole hp : Nat),
    (∀ j ∈ Ctx.pre ctx ++ Ctx.post ctx, getN t' j = getN t j) →
    t.alloc ≤ t'.alloc → t.root = t'.root →
    RepC t ctx hole hp → RepC t' ctx hole hp := by
  intro ctx
  induction ctx with
  | top =>
    intro hole hp _ _ hroot h
    obtain ⟨h1, h2⟩ := h
    exact ⟨by rw [h1, hroot], h2⟩
  | left i k v p ctx r ih =>
    intro hole hp hsame halloc hroot h
    obtain ⟨h1, h2, h3, h4, h5, h6, h7, h8, h9, h10⟩ := h
    have hiport : getN t' i = getN t i := by
      refine hsame i ?_
      simp [Ctx.pre, Ctx.post]
    have hrsame : ∀ j ∈ ATree.idxs r, getN t' j = getN t j := by
      intro j hj
      refine hsame j ?_
      simp [Ctx.pre, Ctx.post, hj]
    have hcsame : ∀ j ∈ Ctx.pre ctx ++ Ctx.post ctx, getN t' j = getN t j := by
      intro j hj
      refine hsame j ?_
      simp only [Ctx.pre, Ctx.post, List.mem_append, List.mem_cons] at hj ⊢
      tauto
    refine ⟨h1, h2, lt_of_lt_of_le h3 halloc, by rw [hiport]; exact h4,
      by rw [hiport]; exact h5, by rw [hiport]; exact h6,
      by rw [hiport]; exact h7, by rw [hiport]; exact h8, ?_, ?_⟩
    · rw [hiport]
      exact rep_mono t t' r _ _ hrsame halloc h9
    · rw [hiport]
      exact ih _ _ hcsame halloc hroot h10
  | right i k v p l ctx ih =>
    intro hole hp hsame halloc hroot h
    obtain ⟨h1, h2, h3, h4, h5, h6, h7, h8, h9, h10⟩ := h
    have hiport : getN t' i = getN t i := by
      refine hsame i ?_
      simp [Ctx.pre, Ctx.post]
    have hlsame : ∀ j ∈ ATree.idxs l, getN t' j = getN t j := by
      intro j hj
      refine hsame j ?_
      simp [Ctx.pre, Ctx.post, hj]
    have hcsame : ∀ j ∈ Ctx.pre ctx ++ Ctx.post ctx, getN t' j = getN t j := by
      intro j hj
      refine hsame j ?_
      simp only [Ctx.pre, Ctx.post, List.mem_append, List.mem_cons] at hj ⊢
      tauto
    refine ⟨h1, h2, lt_of_lt_of_le h3 halloc, by rw [hiport]; exact h4,
      by rw [hiport]; exact h5, by rw [hiport]; exact h6,
      by rw [hiport]; exact h7, by rw [hiport]; exact h8, ?_, ?_⟩
    · rw [hiport]
      exact rep_mono t t' l _ _ hlsame halloc h9
    · rw [hiport]
      exact ih _ _ hcsame halloc hroot h10

/-! ### WAVL rank invariant -/

/-- The parity an arena node stores for a given rank (`Zero` for even,
`One = -1` for odd; the sentinel's rank `-1` gives `One`). -/
def parityOf (r : Int) : Int := if r % 2 = 0 then 0 else -1

theorem parityOf_nil : parityOf (-1) = RankParity.One := by decide

/-- Adjacent ranks store different parities. -/
theorem parityOf_succ_ne (r : Int) : parityOf (r + 1) ≠ parityOf r := by
  simp only [parityOf]
  rcases Int.emod_two_eq_zero_or_one r with h | h <;>
    rcases Int.emod_two_eq_zero_or_one (r + 1) with h2 | h2 <;>
    simp [h, h2] <;> omega

/-- Equal parities of ranks at distance at most 2 pin the distance. -/
theorem parityOf_eq_iff (a b : Int) : parityOf a = parityOf b ↔ (a - b) % 2 = 0 := by
  simp only [parityOf]
  rcases Int.emod_two_eq_zero_or_one a with h | h <;>
    rcases Int.emod_two_eq_zero_or_one b with h2 | h2 <;>
    simp [h, h2] <;> omega

/-- The WAVL rank invariant of a subtree carrying a given rank: the
sentinel has rank `-1`, every node stores the parity of its rank, each
child sits 1 or 2 ranks below, and a leaf has rank 0. -/
def WavlR : ATree → Int → Prop
  | .nil, r => r = -1
  | .node _ _ _ p l rt, r =>
      p = parityOf r ∧
      (WavlR l (r - 1) ∨ WavlR l (r - 2)) ∧
      (WavlR rt (r - 1) ∨ WavlR rt (r - 2)) ∧
      (l = .nil → rt = .nil → r = 0)

instance wavlRDecidable : (a : ATree) → (r : Int) → Decidable (WavlR a r)
  | .nil, r => by unfold WavlR; infer_instance
  | .node i k v p l rt, r => by
    unfold WavlR
    have d1 := wavlRDecidable l (r - 1)
    have d2 := wavlRDecidable l (r - 2)
    have d3 := wavlRDecidable rt (r - 1)
    have d4 := wavlRDecidable rt (r - 2)
    infer_instance

/-- A represented subtree's rank is `-1` exactly on the sentinel, and
at least 0 on nodes. -/
theorem wavlR_rank_bounds : ∀ (a : ATree) (r : Int), WavlR a r →
    -1 ≤ r ∧ (a = .nil ↔ r = -1) := by
  intro a
  induction a with
  | nil =>
    intro r h
    rw [show WavlR .nil r = (r = -1) from rfl] at h
    subst h
    simp
  | node i k v p l rt ihl ihr =>
    intro r h
    obtain ⟨hp, hl, hr, hleaf⟩ := h
    have hlb : -1 ≤ r - 1 ∨ -1 ≤ r - 2 := by
      rcases hl with h1 | h1
      · exact Or.inl (ihl _ h1).1
      · exact Or.inr (ihl _ h1).1
    constructor
    · omega
    · constructor
      · intro hc
        cases hc
      · intro hc
        exfalso
        rcases hl with h1 | h1 <;> have := (ihl _ h1).1 <;> omega

/-- The sibling subtree of a context frame is a valid WAVL subtree 1 or
2 ranks below the frame node. -/
def SibOK (s : ATree) (ri : Int) : Prop :=
  ∃ rs, WavlR s rs ∧ (ri - rs = 1 ∨ ri - rs = 2)

/-- Rank-validity of a context around a hole of the given rank: every
frame node stores its rank's parity, sits 1 or 2 ranks above the hole
side and its sibling, respects the leaf rule, and its own context is
valid in turn. -/
def WavlC : Ctx → Int → Prop
  | .top, _ => True
  | .left _ _ _ p ctx sib, rh => ∃ ri, p = parityOf ri ∧
      (ri - rh = 1 ∨ ri - rh = 2) ∧ SibOK sib ri ∧
      (rh = -1 → sib = .nil → ri = 0) ∧ WavlC ctx ri
  | .right _ _ _ p sib ctx, rh => ∃ ri, p = parityOf ri ∧
      (ri - rh = 1 ∨ ri - rh = 2) ∧ SibOK sib ri ∧
      (rh = -1 → sib = .nil → ri = 0) ∧ WavlC ctx ri

/-- Plugging a rank-valid subtree into a rank-valid context yields a
rank-valid tree. -/
theorem wavlC_plug : ∀ (ctx : Ctx) (a : ATree) (rh : Int),
    WavlR a rh → WavlC ctx rh → ∃ R, WavlR (Ctx.plug ctx a) R := by
  intro ctx
  induction ctx with
  | top =>
    intro a rh ha _
    exact ⟨rh, ha⟩
  | left i k v p ctx sib ih =>
    intro a rh ha hcx
    obtain ⟨ri, hp, hd, ⟨rs, hsib, hds⟩, hleaf, hcx'⟩ := hcx
    refine ih (ATree.node i k v p a sib) ri ?_ hcx'
    refine ⟨hp, ?_, ?_, ?_⟩
    · rcases hd with h1 | h1
      · left
        rw [show ri - 1 = rh by omega]
        exact ha
      · right
        rw [show ri - 2 = rh by omega]
        exact ha
    · rcases hds with h1 | h1
      · left
        rw [show ri - 1 = rs by omega]
        exact hsib
      · right
        rw [show ri - 2 = rs by omega]
        exact hsib
    · intro hanil hsnil
      refine hleaf ?_ hsnil
      exact ((wavlR_rank_bounds a rh ha).2).mp hanil
  | right i k v p sib ctx ih =>
    intro a rh ha hcx
    obtain ⟨ri, hp, hd, ⟨rs, hsib, hds⟩, hleaf, hcx'⟩ := hcx
    refine ih (ATree.node i k v p sib a) ri ?_ hcx'
    refine ⟨hp, ?_, ?_, ?_⟩
    · rcases hds with h1 | h1
      · left
        rw [show ri - 1 = rs by omega]
        exact hsib
      · right
        rw [show ri - 2 = rs by omega]
        exact hsib
    · rcases hd with h1 | h1
      · left
        rw [show ri - 1 = rh by omega]
        exact ha
      · right
        rw [show ri - 2 = rh by omega]
        exact ha
    · intro hsnil hanil
      refine hleaf ?_ hsnil
      exact ((wavlR_rank_bounds a rh ha).2).mp hanil

/-- Rank-validity of a context during the insert fixup ascent: like
`WavlC`, but the hole may also sit 0 ranks below its frame (the
violation being repaired); the deeper context is fully valid. -/
def WavlCIns : Ctx → Int → Prop
  | .top, _ => True
  | .left _ _ _ p ctx sib, rh => ∃ ri, p = parityOf ri ∧
      (ri - rh = 0 ∨ ri - rh = 1) ∧ SibOK sib ri ∧ WavlC ctx ri
  | .right _ _ _ p sib ctx, rh => ∃ ri, p = parityOf ri ∧
      (ri - rh = 0 ∨ ri - rh = 1) ∧ SibOK sib ri ∧ WavlC ctx ri

/-- The insert-loop invariant on the focused subtree: a freshly-ranked
node that is either a leaf of rank 0 or has one child 1 below and the
other 2 below. -/
def Ins12 : ATree → Int → Prop
  | .nil, _ => False
  | .node _ _ _ _ l rt, r =>
      (l = .nil ∧ rt = .nil ∧ r = 0) ∨
      (∃ rl rr, WavlR l rl ∧ WavlR rt rr ∧
        ((r - rl = 1 ∧ r - rr = 2) ∨ (r - rl = 2 ∧ r - rr = 1)))

/-- Number of frames of a context. -/
def Ctx.depth : Ctx → Nat
  | .top => 0
  | .left _ _ _ _ ctx _ => Ctx.depth ctx + 1
  | .right _ _ _ _ _ ctx => Ctx.depth ctx + 1

/-- The depth is bounded by the prefix/suffix index count. -/
theorem ctx_depth_le : ∀ (ctx : Ctx),
    Ctx.depth ctx ≤ (Ctx.pre ctx).length + (Ctx.post ctx).length := by
  intro ctx
  induction ctx with
  | top => simp [Ctx.depth, Ctx.pre, Ctx.post]
  | left i k v p ctx r ih =>
    simp only [Ctx.depth, Ctx.pre, Ctx.post, List.length_cons, List.length_append]
    omega
  | right i k v p l ctx ih =>
    simp only [Ctx.depth, Ctx.pre, Ctx.post, List.length_cons, List.length_append]
    omega

/-- Parity update of every node carrying a given arena index. -/
def ATree.pUpd : ATree → Nat → Int → ATree
  | .nil, _, _ => .nil
  | .node i k v p l r, j, q =>
      if i = j then .node i k v q (ATree.pUpd l j q) (ATree.pUpd r j q)
      else .node i k v p (ATree.pUpd l j q) (ATree.pUpd r j q)

/-- `pUpd` leaves the index list unchanged. -/
theorem idxs_pUpd : ∀ (a : ATree) (j : Nat) (q : Int),
    ATree.idxs (ATree.pUpd a j q) = ATree.idxs a := by
  intro a
  induction a with
  | nil => intro j q; rfl
  | node i k v p l r ihl ihr =>
    intro j q
    simp only [ATree.pUpd]
    split_ifs <;> simp [ihl, ihr]

/-- `pUpd` leaves the in-order triples unchanged. -/
theorem inordF_pUpd : ∀ (a : ATree) (j : Nat) (q : Int),
    ATree.inordF (ATree.pUpd a j q) = ATree.inordF a := by
  intro a
  induction a with
  | nil => intro j q; rfl
  | node i k v p l r ihl ihr =>
    intro j q
    simp only [ATree.pUpd]
    split_ifs <;> simp [ihl, ihr]

/-- `pUpd` off the subtree's indices is the identity. -/
theorem pUpd_not_mem : ∀ (a : ATree) (j : Nat) (q : Int),
    j ∉ ATree.idxs a → ATree.pUpd a j q = a := by
  intro a
  induction a with
  | nil => intro j q _; rfl
  | node i k v p l r ihl ihr =>
    intro j q hj
    simp only [ATree.idxs_node, List.mem_append, List.mem_cons] at hj
    push_neg at hj
    simp only [ATree.pUpd]
    rw [if_neg (fun hc => hj.2.1 hc.symm), ihl j q hj.1, ihr j q hj.2.2]

/-- Whole-cell read of `setLeft` at the written index. -/
theorem cell_setLeft_self (t : Tree) (i j : Nat) :
    getN (setLeft t i j) i = { getN t i with left := j } := by
  rw [setLeft, getN_setN_self]

/-- Whole-cell read of `setLeft` elsewhere. -/
theorem cell_setLeft_ne (t : Tree) (i j k : Nat) (h : k ≠ i) :
    getN (setLeft t i j) k = getN t k := by
  rw [setLeft, getN_setN_ne _ _ _ _ h]

/-- Whole-cell read of `setRight` at the written index. -/
theorem cell_setRight_self (t : Tree) (i j : Nat) :
    getN (setRight t i j) i = { getN t i with right := j } := by
  rw [setRight, getN_setN_self]

/-- Whole-cell read of `setRight` elsewhere. -/
theorem cell_setRight_ne (t : Tree) (i j k : Nat) (h : k ≠ i) :
    getN (setRight t i j) k = getN t k := by
  rw [setRight, getN_setN_ne _ _ _ _ h]

/-- Whole-cell read of `setParent` at the written index. -/
theorem cell_setParent_self (t : Tree) (i j : Nat) :
    getN (setParent t i j) i = { getN t i with parent := j } := by
  rw [setParent, getN_setN_self]

/-- Whole-cell read of `setParent` elsewhere. -/
theorem cell_setParent_ne (t : Tree) (i j k : Nat) (h : k ≠ i) :
    getN (setParent t i j) k = getN t k := by
  rw [setParent, getN_setN_ne _ _ _ _ h]

/-- Whole-cell read of `setParity` at the written index. -/
theorem cell_setParity_self (t : Tree) (i : Nat) (q : Int) :
    getN (setParity t i q) i = { getN t i with parity := q } := by
  rw [setParity, getN_setN_self]

/-- Whole-cell read of `setParity` elsewhere. -/
theorem cell_setParity_ne (t : Tree) (i : Nat) (q : Int) (k : Nat) (h : k ≠ i) :
    getN (setParity t i q) k = getN t k := by
  rw [setParity, getN_setN_ne _ _ _ _ h]

/-- Writing a parity is tracked by `pUpd` on the abstraction. -/
theorem rep_setParity (t : Tree) (j : Nat) (q : Int) :
    ∀ (a : ATree) (i par : Nat), Rep t a i par →
    Rep (setParity t j q) (ATree.pUpd a j q) i par := by
  intro a
  induction a with
  | nil => intro i par h; exact h
  | node m k v p l r ihl ihr =>
    intro i par h
    obtain ⟨hi, hm0, hma, hk, hv, hp, hpar, hrm, hl, hr⟩ := h
    by_cases hmj : m = j
    · rw [show ATree.pUpd (ATree.node m k v p l r) j q =
        ATree.node m k v q (ATree.pUpd l j q) (ATree.pUpd r j q) by
          simp [ATree.pUpd, hmj]]
      have hcell : getN (setParity t j q) m = { getN t m with parity := q } := by
        rw [hmj, cell_setParity_self]
      refine ⟨hi, hm0, by simp [setParity, setN]; exact hma,
        by rw [hcell]; exact hk, by rw [hcell]; exact hv,
        by rw [hcell], by rw [hcell]; exact hpar,
        by rw [hcell]; exact hrm, ?_, ?_⟩
      · rw [hcell]
        exact ihl _ _ hl
      · rw [hcell]
        exact ihr _ _ hr
    · rw [show ATree.pUpd (ATree.node m k v p l r) j q =
        ATree.node m k v p (ATree.pUpd l j q) (ATree.pUpd r j q) by
          simp [ATree.pUpd, hmj]]
      have hcell : getN (setParity t j q) m = getN t m :=
        cell_setParity_ne t j q m hmj
      refine ⟨hi, hm0, by simp [setParity, setN]; exact hma,
        by rw [hcell]; exact hk, by rw [hcell]; exact hv,
        by rw [hcell]; exact hp, by rw [hcell]; exact hpar,
        by rw [hcell]; exact hrm, ?_, ?_⟩
      · rw [hcell]
        exact ihl _ _ hl
      · rw [hcell]
        exact ihr _ _ hr

/-- Distinctness consequences of a plugged tree's `Nodup` index list. -/
theorem plug_nodup_parts (ctx : Ctx) (a : ATree)
    (hnd : (ATree.idxs (Ctx.plug ctx a)).Nodup) :
    (ATree.idxs a).Nodup ∧
    (∀ j ∈ ATree.idxs a, j ∉ Ctx.pre ctx ∧ j ∉ Ctx.post ctx) := by
  rw [plug_idxs] at hnd
  rw [List.append_assoc] at hnd
  obtain ⟨hpre, hrest, hdisj⟩ := List.nodup_append.mp hnd
  obtain ⟨hsub, hpost, hdisj2⟩ := List.nodup_append.mp hrest
  refine ⟨hsub, fun j hj => ⟨?_, ?_⟩⟩
  · intro hc
    exact hdisj hc (List.mem_append_left _ hj)
  · intro hc
    exact hdisj2 hj hc

/-- The frame head of a non-top context is a non-zero cell recorded in
its `pre` or `post` list. -/
theorem repC_hp_mem (t : Tree) (ctx : Ctx) (hole hp : Nat)
    (h : RepC t ctx hole hp) :
    (ctx = .top ∧ hp = 0) ∨
    (hp ≠ 0 ∧ (hp ∈ Ctx.pre ctx ∨ hp ∈ Ctx.post ctx)) := by
  cases ctx with
  | top => exact Or.inl ⟨rfl, h.2⟩
  | left i k v p ctx r =>
    obtain ⟨h1, h2, _⟩ := h
    subst h1
    refine Or.inr ⟨h2, Or.inr ?_⟩
    simp [Ctx.post]
  | right i k v p l ctx =>
    obtain ⟨h1, h2, _⟩ := h
    subst h1
    refine Or.inr ⟨h2, Or.inl ?_⟩
    simp [Ctx.pre]

/-- Retarget the hole of a represented context after a heap change that
only rewrites the frame head's hole-side child pointer (and, outside
the context cells, anything at all). -/
theorem repC_retarget (t t' : Tree) : ∀ (ctx : Ctx) (hole hole' hp : Nat),
    RepC t ctx hole hp →
    (∀ j, (j ∈ Ctx.pre ctx ∨ j ∈ Ctx.post ctx) → j ≠ hp → getN t' j = getN t j) →
    (∀ i k v p ctx2 r, ctx = .left i k v p ctx2 r →
      i ∉ ATree.idxs r ∧ i ∉ Ctx.pre ctx2 ∧ i ∉ Ctx.post ctx2) →
    (∀ i k v p l ctx2, ctx = .right i k v p l ctx2 →
      i ∉ ATree.idxs l ∧ i ∉ Ctx.pre ctx2 ∧ i ∉ Ctx.post ctx2) →
    t.alloc ≤ t'.alloc →
    (ctx = .top → t'.root = hole') →
    (ctx ≠ .top → t.root = t'.root) →
    (∀ i k v p ctx2 r, ctx = .left i k v p ctx2 r →
      getN t' i = { getN t i with left := hole' }) →
    (∀ i k v p l ctx2, ctx = .right i k v p l ctx2 →
      getN t' i = { getN t i with right := hole' }) →
    RepC t' ctx hole' hp := by
  intro ctx hole hole' hp h hsame hfreshL hfreshR halloc hrootTop hroot
    hleft hright
  cases ctx with
  | top =>
    obtain ⟨h1, h2⟩ := h
    exact ⟨(hrootTop rfl).symm, h2⟩
  | left i k v p ctx r =>
    obtain ⟨h1, h2, h3, h4, h5, h6, h7, h8, h9, h10⟩ := h
    obtain ⟨hfr, hfpre, hfpost⟩ := hfreshL i k v p ctx r rfl
    have hcell := hleft i k v p ctx r rfl
    have hrsame : ∀ j ∈ ATree.idxs r, getN t' j = getN t j := by
      intro j hj
      refine hsame j (Or.inr ?_) (by rw [h1]; exact fun hc => hfr (hc ▸ hj))
      simp only [Ctx.post, List.mem_cons, List.mem_append]
      tauto
    refine ⟨h1, h2, lt_of_lt_of_le h3 halloc, by rw [hcell]; exact h4,
      by rw [hcell]; exact h5, by rw [hcell]; exact h6,
      by rw [hcell]; exact h7, by rw [hcell], ?_, ?_⟩
    · rw [hcell]
      show Rep t' r (getN t i).right i
      exact rep_mono t t' r _ _ hrsame halloc h9
    · rw [hcell]
      show RepC t' ctx i (getN t i).parent
      refine repC_mono t t' ctx i (getN t i).parent ?_ halloc
        (hroot (by intro hc; cases hc)) h10
      intro j hj
      rw [List.mem_append] at hj
      have hji : j ≠ i := by
        intro hc
        subst hc
        rcases hj with hj | hj
        · exact hfpre hj
        · exact hfpost hj
      refine hsame j ?_ (by rw [h1]; exact hji)
      rcases hj with hj | hj
      · exact Or.inl hj
      · right
        simp only [Ctx.post, List.mem_cons, List.mem_append]
        tauto
  | right i k v p l ctx =>
    obtain ⟨h1, h2, h3, h4, h5, h6, h7, h8, h9, h10⟩ := h
    obtain ⟨hfl, hfpre, hfpost⟩ := hfreshR i k v p l ctx rfl
    have hcell := hright i k v p l ctx rfl
    have hlsame : ∀ j ∈ ATree.idxs l, getN t' j = getN t j := by
      intro j hj
      refine hsame j (Or.inl ?_) (by rw [h1]; exact fun hc => hfl (hc ▸ hj))
      simp only [Ctx.pre, List.mem_append]
      tauto
    refine ⟨h1, h2, lt_of_lt_of_le h3 halloc, by rw [hcell]; exact h4,
      by rw [hcell]; exact h5, by rw [hcell]; exact h6,
      by rw [hcell]; exact h7, by rw [hcell], ?_, ?_⟩
    · rw [hcell]
      show Rep t' l (getN t i).left i
      exact rep_mono t t' l _ _ hlsame halloc h9
    · rw [hcell]
      show RepC t' ctx i (getN t i).parent
      refine repC_mono t t' ctx i (getN t i).parent ?_ halloc
        (hroot (by intro hc; cases hc)) h10
      intro j hj
      rw [List.mem_append] at hj
      have hji : j ≠ i := by
        intro hc
        subst hc
        rcases hj with hj | hj
        · exact hfpre hj
        · exact hfpost hj
      refine hsame j ?_ (by rw [h1]; exact hji)
      rcases hj with hj | hj
      · left
        simp only [Ctx.pre, List.mem_append]
        tauto
      · exact Or.inr hj

/-- Reads ignore the root field. -/
theorem getN_setRoot (t : Tree) (x j : Nat) : getN { t with root := x } j = getN t j := rfl

/-- Cell-level effect of `rotateLeft t p y` (`y` the right child of
`p`): `p` gets `y`'s left subtree and hangs under `y`, `y` takes `p`'s
place under `np`, and no other cell moves. -/
theorem rotateLeft_cells (t : Tree) (p y lb np : Nat)
    (hlb : (getN t y).left = lb) (hnp : (getN t p).parent = np)
    (hp0 : p ≠ 0) (hy0 : y ≠ 0) (hpy : p ≠ y)
    (hplb : p ≠ lb) (hylb : y ≠ lb)
    (hnpp : np ≠ p) (hnpy : np ≠ y) (hnplb : np ≠ 0 → lb ≠ 0 → np ≠ lb) :
    getN (rotateLeft t p y) p = { getN t p with right := lb, parent := y } ∧
    getN (rotateLeft t p y) y = { getN t y with parent := np, left := p } ∧
    (lb ≠ 0 → getN (rotateLeft t p y) lb = { getN t lb with parent := p }) ∧
    (∀ j, j ≠ p → j ≠ y → j ≠ lb → j ≠ np → getN (rotateLeft t p y) j = getN t j) ∧
    getN (rotateLeft t p y) 0 = getN t 0 ∧
    (np = 0 → (rotateLeft t p y).root = y ∧
      (∀ j, j ≠ p → j ≠ y → j ≠ lb → getN (rotateLeft t p y) j = getN t j)) ∧
    (np ≠ 0 → (rotateLeft t p y).root = t.root ∧
      getN (rotateLeft t p y) np =
        (if (getN t np).left = p then { getN t np with left := y }
         else { getN t np with right := y })) := by
  have hrl : rotateLeft t p y =
      (let t1 := if np = 0 then { t with root := y }
        else if (getN t np).left = p then setLeft t np y else setRight t np y
      let t2 := setParent t1 y np
      let t3 := setRight t2 p (getN t2 y).left
      let t4 := if (getN t3 y).left ≠ 0 then setParent t3 (getN t3 y).left p else t3
      let t5 := setLeft t4 y p
      setParent t5 p y) := by
    rw [rotateLeft, hnp]
  rw [hrl]
  dsimp only
  have ht1cells : ∀ j, j ≠ np →
      getN (if np = 0 then { t with root := y }
        else if (getN t np).left = p then setLeft t np y else setRight t np y) j
        = getN t j := by
    intro j hj
    split_ifs with h1 h2
    · exact getN_setRoot t y j
    · exact cell_setLeft_ne _ _ _ _ hj
    · exact cell_setRight_ne _ _ _ _ hj
  set t1 := if np = 0 then { t with root := y }
    else if (getN t np).left = p then setLeft t np y else setRight t np y with ht1
  have ht1y : getN t1 y = getN t y := ht1cells y (Ne.symm hnpy)
  have ht1p : getN t1 p = getN t p := ht1cells p (Ne.symm hnpp)
  set t2 := setParent t1 y np with ht2
  have ht2y : getN t2 y = { getN t y with parent := np } := by
    rw [ht2, cell_setParent_self, ht1y]
  have ht2p : getN t2 p = getN t p := by
    rw [ht2, cell_setParent_ne _ _ _ _ hpy, ht1p]
  have ht2yl : (getN t2 y).left = lb := by
    rw [ht2y]
    exact hlb
  set t3 := setRight t2 p (getN t2 y).left with ht3
  have ht3p : getN t3 p = { getN t p with right := lb } := by
    rw [ht3, cell_setRight_self, ht2p, ht2yl]
  have ht3y : getN t3 y = { getN t y with parent := np } := by
    rw [ht3, cell_setRight_ne _ _ _ _ (Ne.symm hpy), ht2y]
  have ht3yl : (getN t3 y).left = lb := by
    rw [ht3y]
    exact hlb
  set t4 := if (getN t3 y).left ≠ 0 then setParent t3 (getN t3 y).left p else t3
    with ht4
  have ht4p : getN t4 p = { getN t p with right := lb } := by
    rw [ht4]
    split_ifs with h1
    · rw [ht3yl] at h1 ⊢
      rw [cell_setParent_ne _ _ _ _ hplb, ht3p]
    · exact ht3p
  have ht4y : getN t4 y = { getN t y with parent := np } := by
    rw [ht4]
    split_ifs with h1
    · rw [ht3yl] at h1 ⊢
      rw [cell_setParent_ne _ _ _ _ hylb, ht3y]
    · exact ht3y
  set t5 := setLeft t4 y p with ht5
  have ht5p : getN t5 p = { getN t p with right := lb } := by
    rw [ht5, cell_setLeft_ne _ _ _ _ hpy, ht4p]
  have ht5y : getN t5 y = { getN t y with parent := np, left := p } := by
    rw [ht5, cell_setLeft_self, ht4y]
  refine ⟨?_, ?_, ?_, ?_, ?_, ?_, ?_⟩
  · rw [cell_setParent_self, ht5p]
  · rw [cell_setParent_ne _ _ _ _ (Ne.symm hpy), ht5y]
  · intro hlb0
    have hlbnp : lb ≠ np := by
      by_cases hq : np = 0
      · rw [hq]
        exact hlb0
      · exact fun hc => (hnplb hq hlb0) hc.symm
    rw [cell_setParent_ne _ _ _ _ (Ne.symm hplb),
      ht5, cell_setLeft_ne _ _ _ _ (Ne.symm hylb), ht4]
    rw [if_pos (by rw [ht3yl]; exact hlb0), ht3yl, cell_setParent_self,
      ht3, cell_setRight_ne _ _ _ _ (Ne.symm hplb),
      ht2, cell_setParent_ne _ _ _ _ (Ne.symm hylb)]
    rw [ht1cells lb hlbnp]
  · intro j hjp hjy hjlb hjnp
    rw [cell_setParent_ne _ _ _ _ hjp, ht5, cell_setLeft_ne _ _ _ _ hjy, ht4]
    have h4 : getN (if (getN t3 y).left ≠ 0 then setParent t3 (getN t3 y).left p
        else t3) j = getN t3 j := by
      split_ifs with h1
      · rw [ht3yl]
        exact cell_setParent_ne _ _ _ _ hjlb
      · rfl
    rw [h4, ht3, cell_setRight_ne _ _ _ _ hjp, ht2,
      cell_setParent_ne _ _ _ _ hjy]
    exact ht1cells j hjnp
  · rw [cell_setParent_ne _ _ _ _ (Ne.symm hp0), ht5,
      cell_setLeft_ne _ _ _ _ (Ne.symm hy0), ht4]
    have h4 : getN (if (getN t3 y).left ≠ 0 then setParent t3 (getN t3 y).left p
        else t3) 0 = getN t3 0 := by
      split_ifs with h1
      · rw [ht3yl] at h1 ⊢
        exact cell_setParent_ne _ _ _ _ (Ne.symm h1)
      · rfl
    rw [h4, ht3, cell_setRight_ne _ _ _ _ (Ne.symm hp0), ht2,
      cell_setParent_ne _ _ _ _ (Ne.symm hy0), ht1]
    split_ifs with h1 h2
    · rfl
    · exact cell_setLeft_ne _ _ _ _ (fun hc => h1 hc.symm)
    · exact cell_setRight_ne _ _ _ _ (fun hc => h1 hc.symm)
  · intro hnp0
    have h43 : t4.root = t3.root := by
      rw [ht4]
      split_ifs <;> rfl
    constructor
    · show (setParent t5 p y).root = y
      rw [show (setParent t5 p y).root = t4.root from rfl, h43,
        show t3.root = t1.root from rfl, ht1, if_pos hnp0]
    · intro j hjp hjy hjlb
      rw [cell_setParent_ne _ _ _ _ hjp, ht5, cell_setLeft_ne _ _ _ _ hjy, ht4]
      have h4 : getN (if (getN t3 y).left ≠ 0 then setParent t3 (getN t3 y).left p
          else t3) j = getN t3 j := by
        split_ifs with h1
        · rw [ht3yl]
          exact cell_setParent_ne _ _ _ _ hjlb
        · rfl
      rw [h4, ht3, cell_setRight_ne _ _ _ _ hjp, ht2,
        cell_setParent_ne _ _ _ _ hjy, ht1, if_pos hnp0]
      rfl
  · intro hnp0
    have h43 : t4.root = t3.root := by
      rw [ht4]
      split_ifs <;> rfl
    constructor
    · show (setParent t5 p y).root = t.root
      rw [show (setParent t5 p y).root = t4.root from rfl, h43,
        show t3.root = t1.root from rfl, ht1, if_neg hnp0]
      split_ifs <;> rfl
    · rw [cell_setParent_ne _ _ _ _ hnpp, ht5,
        cell_setLeft_ne _ _ _ _ hnpy, ht4]
      have h4 : getN (if (getN t3 y).left ≠ 0 then setParent t3 (getN t3 y).left p
          else t3) np = getN t3 np := by
        split_ifs with h1
        · rw [ht3yl] at h1 ⊢
          exact cell_setParent_ne _ _ _ _ (hnplb hnp0 h1)
        · rfl
      rw [h4, ht3, cell_setRight_ne _ _ _ _ hnpp, ht2,
        cell_setParent_ne _ _ _ _ hnpy, ht1, if_neg hnp0]
      split_ifs with h2
      · rw [cell_setLeft_self]
      · rw [cell_setRight_self]

/-- Cell-level effect of `rotateRight t p y` (`y` the left child of
`p`): `p` gets `y`'s right subtree and hangs under `y`, `y` takes
`p`'s place under `np`, and no other cell moves. -/
theorem rotateRight_cells (t : Tree) (p y lb np : Nat)
    (hlb : (getN t y).right = lb) (hnp : (getN t p).parent = np)
    (hp0 : p ≠ 0) (hy0 : y ≠ 0) (hpy : p ≠ y)
    (hplb : p ≠ lb) (hylb : y ≠ lb)
    (hnpp : np ≠ p) (hnpy : np ≠ y) (hnplb : np ≠ 0 → lb ≠ 0 → np ≠ lb) :
    getN (rotateRight t p y) p = { getN t p with left := lb, parent := y } ∧
    getN (rotateRight t p y) y = { getN t y with parent := np, right := p } ∧
    (lb ≠ 0 → getN (rotateRight t p y) lb = { getN t lb with parent := p }) ∧
    (∀ j, j ≠ p → j ≠ y → j ≠ lb → j ≠ np → getN (rotateRight t p y) j = getN t j) ∧
    getN (rotateRight t p y) 0 = getN t 0 ∧
    (np = 0 → (rotateRight t p y).root = y ∧
      (∀ j, j ≠ p → j ≠ y → j ≠ lb → getN (rotateRight t p y) j = getN t j)) ∧
    (np ≠ 0 → (rotateRight t p y).root = t.root ∧
      getN (rotateRight t p y) np =
        (if (getN t np).left = p then { getN t np with left := y }
         else { getN t np with right := y })) := by
  have hrl : rotateRight t p y =
      (let t1 := if np = 0 then { t with root := y }
        else if (getN t np).left = p then setLeft t np y else setRight t np y
      let t2 := setParent t1 y np
      let t3 := setLeft t2 p (getN t2 y).right
      let t4 := if (getN t3 y).right ≠ 0 then setParent t3 (getN t3 y).right p else t3
      let t5 := setRight t4 y p
      setParent t5 p y) := by
    rw [rotateRight, hnp]
  rw [hrl]
  dsimp only
  have ht1cells : ∀ j, j ≠ np →
      getN (if np = 0 then { t with root := y }
        else if (getN t np).left = p then setLeft t np y else setRight t np y) j
        = getN t j := by
    intro j hj
    split_ifs with h1 h2
    · exact getN_setRoot t y j
    · exact cell_setLeft_ne _ _ _ _ hj
    · exact cell_setRight_ne _ _ _ _ hj
  set t1 := if np = 0 then { t with root := y }
    else if (getN t np).left = p then setLeft t np y else setRight t np y with ht1
  have ht1y : getN t1 y = getN t y := ht1cells y (Ne.symm hnpy)
  have ht1p : getN t1 p = getN t p := ht1cells p (Ne.symm hnpp)
  set t2 := setParent t1 y np with ht2
  have ht2y : getN t2 y = { getN t y with parent := np } := by
    rw [ht2, cell_setParent_self, ht1y]
  have ht2p : getN t2 p = getN t p := by
    rw [ht2, cell_setParent_ne _ _ _ _ hpy, ht1p]
  have ht2yl : (getN t2 y).right = lb := by
    rw [ht2y]
    exact hlb
  set t3 := setLeft t2 p (getN t2 y).right with ht3
  have ht3p : getN t3 p = { getN t p with left := lb } := by
    rw [ht3, cell_setLeft_self, ht2p, ht2yl]
  have ht3y : getN t3 y = { getN t y with parent := np } := by
    rw [ht3, cell_setLeft_ne _ _ _ _ (Ne.symm hpy), ht2y]
  have ht3yl : (getN t3 y).right = lb := by
    rw [ht3y]
    exact hlb
  set t4 := if (getN t3 y).right ≠ 0 then setParent t3 (getN t3 y).right p else t3
    with ht4
  have ht4p : getN t4 p = { getN t p with left := lb } := by
    rw [ht4]
    split_ifs with h1
    · rw [ht3yl] at h1 ⊢
      rw [cell_setParent_ne _ _ _ _ hplb, ht3p]
    · exact ht3p
  have ht4y : getN t4 y = { getN t y with parent := np } := by
    rw [ht4]
    split_ifs with h1
    · rw [ht3yl] at h1 ⊢
      rw [cell_setParent_ne _ _ _ _ hylb, ht3y]
    · exact ht3y
  set t5 := setRight t4 y p with ht5
  have ht5p : getN t5 p = { getN t p with left := lb } := by
    rw [ht5, cell_setRight_ne _ _ _ _ hpy, ht4p]
  have ht5y : getN t5 y = { getN t y with parent := np, right := p } := by
    rw [ht5, cell_setRight_self, ht4y]
  refine ⟨?_, ?_, ?_, ?_, ?_, ?_, ?_⟩
  · rw [cell_setParent_self, ht5p]
  · rw [cell_setParent_ne _ _ _ _ (Ne.symm hpy), ht5y]
  · intro hlb0
    have hlbnp : lb ≠ np := by
      by_cases hq : np = 0
      · rw [hq]
        exact hlb0
      · exact fun hc => (hnplb hq hlb0) hc.symm
    rw [cell_setParent_ne _ _ _ _ (Ne.symm hplb),
      ht5, cell_setRight_ne _ _ _ _ (Ne.symm hylb), ht4]
    rw [if_pos (by rw [ht3yl]; exact hlb0), ht3yl, cell_setParent_self,
      ht3, cell_setLeft_ne _ _ _ _ (Ne.symm hplb),
      ht2, cell_setParent_ne _ _ _ _ (Ne.symm hylb)]
    rw [ht1cells lb hlbnp]
  · intro j hjp hjy hjlb hjnp
    rw [cell_setParent_ne _ _ _ _ hjp, ht5, cell_setRight_ne _ _ _ _ hjy, ht4]
    have h4 : getN (if (getN t3 y).right ≠ 0 then setParent t3 (getN t3 y).right p
        else t3) j = getN t3 j := by
      split_ifs with h1
      · rw [ht3yl]
        exact cell_setParent_ne _ _ _ _ hjlb
      · rfl
    rw [h4, ht3, cell_setLeft_ne _ _ _ _ hjp, ht2,
      cell_setParent_ne _ _ _ _ hjy]
    exact ht1cells j hjnp
  · rw [cell_setParent_ne _ _ _ _ (Ne.symm hp0), ht5,
      cell_setRight_ne _ _ _ _ (Ne.symm hy0), ht4]
    have h4 : getN (if (getN t3 y).right ≠ 0 then setParent t3 (getN t3 y).right p
        else t3) 0 = getN t3 0 := by
      split_ifs with h1
      · rw [ht3yl] at h1 ⊢
        exact cell_setParent_ne _ _ _ _ (Ne.symm h1)
      · rfl
    rw [h4, ht3, cell_setLeft_ne _ _ _ _ (Ne.symm hp0), ht2,
      cell_setParent_ne _ _ _ _ (Ne.symm hy0), ht1]
    split_ifs with h1 h2
    · rfl
    · exact cell_setLeft_ne _ _ _ _ (fun hc => h1 hc.symm)
    · exact cell_setRight_ne _ _ _ _ (fun hc => h1 hc.symm)
  · intro hnp0
    have h43 : t4.root = t3.root := by
      rw [ht4]
      split_ifs <;> rfl
    constructor
    · show (setParent t5 p y).root = y
      rw [show (setParent t5 p y).root = t4.root from rfl, h43,
        show t3.root = t1.root from rfl, ht1, if_pos hnp0]
    · intro j hjp hjy hjlb
      rw [cell_setParent_ne _ _ _ _ hjp, ht5, cell_setRight_ne _ _ _ _ hjy, ht4]
      have h4 : getN (if (getN t3 y).right ≠ 0 then setParent t3 (getN t3 y).right p
          else t3) j = getN t3 j := by
        split_ifs with h1
        · rw [ht3yl]
          exact cell_setParent_ne _ _ _ _ hjlb
        · rfl
      rw [h4, ht3, cell_setLeft_ne _ _ _ _ hjp, ht2,
        cell_setParent_ne _ _ _ _ hjy, ht1, if_pos hnp0]
      rfl
  · intro hnp0
    have h43 : t4.root = t3.root := by
      rw [ht4]
      split_ifs <;> rfl
    constructor
    · show (setParent t5 p y).root = t.root
      rw [show (setParent t5 p y).root = t4.root from rfl, h43,
        show t3.root = t1.root from rfl, ht1, if_neg hnp0]
      split_ifs <;> rfl
    · rw [cell_setParent_ne _ _ _ _ hnpp, ht5,
        cell_setRight_ne _ _ _ _ hnpy, ht4]
      have h4 : getN (if (getN t3 y).right ≠ 0 then setParent t3 (getN t3 y).right p
          else t3) np = getN t3 np := by
        split_ifs with h1
        · rw [ht3yl] at h1 ⊢
          exact cell_setParent_ne _ _ _ _ (hnplb hnp0 h1)
        · rfl
      rw [h4, ht3, cell_setLeft_ne _ _ _ _ hnpp, ht2,
        cell_setParent_ne _ _ _ _ hnpy, ht1, if_neg hnp0]
      split_ifs with h2
      · rw [cell_setLeft_self]
      · rw [cell_setRight_self]

/-- A subtree representation survives a rewrite of its root's parent
pointer. -/
theorem rep_reparent (t t' : Tree) (a : ATree) (i par par' : Nat)
    (h : Rep t a i par) (hnd : (ATree.idxs a).Nodup)
    (hcell : a ≠ .nil → getN t' i = { getN t i with parent := par' })
    (hsame : ∀ j ∈ ATree.idxs a, j ≠ i → getN t' j = getN t j)
    (halloc : t.alloc ≤ t'.alloc) :
    Rep t' a i par' := by
  cases a with
  | nil => exact h
  | node m k v p l r =>
    obtain ⟨hi, hm0, hma, hk, hv, hpp, hpar, hrm, hl, hr⟩ := h
    have hcell2 := hcell (by intro hc; cases hc)
    rw [hi] at hcell2
    simp only [ATree.idxs_node] at hnd
    have hndl : m ∉ ATree.idxs l := fun hc =>
      (List.nodup_append.mp hnd).2.2 hc (by simp)
    have hndr : m ∉ ATree.idxs r :=
      (List.nodup_cons.mp (List.nodup_append.mp hnd).2.1).1
    have hlsame : ∀ j ∈ ATree.idxs l, getN t' j = getN t j := fun j hj =>
      hsame j (by simp [hj]) (by rw [hi]; exact fun hc => hndl (hc ▸ hj))
    have hrsame : ∀ j ∈ ATree.idxs r, getN t' j = getN t j := fun j hj =>
      hsame j (by simp [hj]) (by rw [hi]; exact fun hc => hndr (hc ▸ hj))
    refine ⟨hi, hm0, lt_of_lt_of_le hma halloc, by rw [hcell2]; exact hk,
      by rw [hcell2]; exact hv, by rw [hcell2]; exact hpp,
      by rw [hcell2], by rw [hcell2]; exact hrm, ?_, ?_⟩
    · rw [hcell2]
      show Rep t' l (getN t m).left m
      exact rep_mono t t' l _ _ hlsame halloc hl
    · rw [hcell2]
      show Rep t' r (getN t m).right m
      exact rep_mono t t' r _ _ hrsame halloc hr

/-- The head of a left frame is fresh for its sibling and the deeper
context. -/
theorem plug_head_fresh_left (ctx2 : Ctx) (i : Nat) (k v pI : Int)
    (sub sib : ATree)
    (hnd : (ATree.idxs (Ctx.plug (.left i k v pI ctx2 sib) sub)).Nodup) :
    i ∉ ATree.idxs sib ∧ i ∉ Ctx.pre ctx2 ∧ i ∉ Ctx.post ctx2 := by
  have hnd2 : (ATree.idxs (Ctx.plug ctx2 (ATree.node i k v pI sub sib))).Nodup :=
    hnd
  obtain ⟨hndsub, hout⟩ := plug_nodup_parts ctx2 _ hnd2
  have hmem : i ∈ ATree.idxs (ATree.node i k v pI sub sib) := by simp
  refine ⟨?_, (hout i hmem).1, (hout i hmem).2⟩
  simp only [ATree.idxs_node] at hndsub
  exact (List.nodup_cons.mp (List.nodup_append.mp hndsub).2.1).1

/-- The head of a right frame is fresh for its sibling and the deeper
context. -/
theorem plug_head_fresh_right (ctx2 : Ctx) (i : Nat) (k v pI : Int)
    (sub sib : ATree)
    (hnd : (ATree.idxs (Ctx.plug (.right i k v pI sib ctx2) sub)).Nodup) :
    i ∉ ATree.idxs sib ∧ i ∉ Ctx.pre ctx2 ∧ i ∉ Ctx.post ctx2 := by
  have hnd2 : (ATree.idxs (Ctx.plug ctx2 (ATree.node i k v pI sib sub))).Nodup :=
    hnd
  obtain ⟨hndsub, hout⟩ := plug_nodup_parts ctx2 _ hnd2
  have hmem : i ∈ ATree.idxs (ATree.node i k v pI sib sub) := by simp
  refine ⟨?_, (hout i hmem).1, (hout i hmem).2⟩
  simp only [ATree.idxs_node] at hndsub
  exact fun hc => (List.nodup_append.mp hndsub).2.2 hc (by simp)

/-- `rotateLeft` on a represented focus: the right child rises, the
focus hangs under it and adopts its left subtree; the context is
retargeted to the risen node. -/
theorem rotateLeft_rep (t : Tree) (ctx : Ctx) (hp : Nat)
    (p y : Nat) (kp vp pp ky vy py : Int) (L B C : ATree)
    (hrep : Rep t (ATree.node p kp vp pp L (ATree.node y ky vy py B C)) p hp)
    (hcx : RepC t ctx p hp)
    (hnd : (ATree.idxs (Ctx.plug ctx (ATree.node p kp vp pp L
      (ATree.node y ky vy py B C)))).Nodup)
    (h0 : getN t 0 = nilNode) :
    Rep (rotateLeft t p y)
      (ATree.node y ky vy py (ATree.node p kp vp pp L B) C) y hp ∧
    RepC (rotateLeft t p y) ctx y hp ∧
    getN (rotateLeft t p y) 0 = nilNode := by
  obtain ⟨_, hp0, hpa, hPk, hPv, hPp, hPpar, hPrm, hL, hY⟩ := hrep
  obtain ⟨hpry, hy0, hya, hYk, hYv, hYp, hYpar, hYrm, hB, hC⟩ := hY
  have hlb : (getN t y).left = ATree.rootIdx B := rep_rootIdx t B _ y hB
  obtain ⟨hndsub, hout⟩ := plug_nodup_parts ctx _ hnd
  have hbnd := rep_idxs_bound t (ATree.node p kp vp pp L
    (ATree.node y ky vy py B C)) p hp
    ⟨rfl, hp0, hpa, hPk, hPv, hPp, hPpar, hPrm, hL,
      ⟨hpry, hy0, hya, hYk, hYv, hYp, hYpar, hYrm, hB, hC⟩⟩
  simp only [ATree.idxs_node] at hndsub
  -- shape: idxs L ++ p :: (idxs B ++ y :: idxs C)
  have hdisjL := (List.nodup_append.mp hndsub).2.2
  have hndrest := (List.nodup_append.mp hndsub).2.1
  have hpnot : p ∉ ATree.idxs B ++ y :: ATree.idxs C :=
    (List.nodup_cons.mp hndrest).1
  have hndtail := (List.nodup_cons.mp hndrest).2
  have hynotB : y ∉ ATree.idxs B :=
    fun hc => (List.nodup_append.mp hndtail).2.2 hc (by simp)
  have hpy : p ≠ y := by
    intro hc
    exact hpnot (by rw [hc]; simp)
  have hmemy : y ∈ ATree.idxs L ++ p :: (ATree.idxs B ++ y :: ATree.idxs C) := by
    simp
  have hmemp : p ∈ ATree.idxs L ++ p :: (ATree.idxs B ++ y :: ATree.idxs C) := by
    simp
  have hlbB : ∀ hB2 : B ≠ .nil, ATree.rootIdx B ∈ ATree.idxs B :=
    fun hB2 => ATree.rootIdx_mem B hB2
  have hplb : p ≠ ATree.rootIdx B := by
    cases hBc : B with
    | nil => exact fun hc => hp0 (by simpa [ATree.rootIdx] using hc)
    | node bb kk vv ppq ll rr =>
      intro hc
      refine hpnot ?_
      rw [hc]
      refine List.mem_append_left _ ?_
      rw [← hBc]
      exact hlbB (by rw [hBc]; intro h2; cases h2)
  have hylb : y ≠ ATree.rootIdx B := by
    cases hBc : B with
    | nil => exact fun hc => hy0 (by simpa [ATree.rootIdx] using hc)
    | node bb kk vv ppq ll rr =>
      intro hc
      refine hynotB ?_
      rw [hc, ← hBc]
      exact hlbB (by rw [hBc]; intro h2; cases h2)
  have hlbmem : ATree.rootIdx B ≠ 0 →
      ATree.rootIdx B ∈ ATree.idxs L ++ p :: (ATree.idxs B ++ y :: ATree.idxs C)
      := by
    intro hlb0
    cases hBc : B with
    | nil =>
      exfalso
      rw [hBc] at hlb0
      exact hlb0 rfl
    | node bb kk vv ppq ll rr =>
      refine List.mem_append_right _ (List.mem_cons_of_mem _
        (List.mem_append_left _ ?_))
      rw [← hBc]
      exact hlbB (by rw [hBc]; intro h2; cases h2)
  have hhpfacts := repC_hp_mem t ctx p hp hcx
  have hnpp : hp ≠ p := by
    rcases hhpfacts with ⟨_, h1⟩ | ⟨h1, h2⟩
    · rw [h1]
      exact fun hc => hp0 hc.symm
    · intro hc
      rcases h2 with h2 | h2
      · exact (hout p hmemp).1 (hc ▸ h2)
      · exact (hout p hmemp).2 (hc ▸ h2)
  have hnpy : hp ≠ y := by
    rcases hhpfacts with ⟨_, h1⟩ | ⟨h1, h2⟩
    · rw [h1]
      exact fun hc => hy0 hc.symm
    · intro hc
      rcases h2 with h2 | h2
      · exact (hout y hmemy).1 (hc ▸ h2)
      · exact (hout y hmemy).2 (hc ▸ h2)
  have hnplb : hp ≠ 0 → ATree.rootIdx B ≠ 0 → hp ≠ ATree.rootIdx B := by
    intro hhp0 hlb0 hc
    rcases hhpfacts with ⟨_, h1⟩ | ⟨h1, h2⟩
    · exact hhp0 h1
    · rcases h2 with h2 | h2
      · exact (hout _ (hlbmem hlb0)).1 (hc ▸ h2)
      · exact (hout _ (hlbmem hlb0)).2 (hc ▸ h2)
  obtain ⟨hcP, hcY, hcLB, hcOther, hc0, hcTop, hcDeep⟩ :=
    rotateLeft_cells t p y (ATree.rootIdx B) hp hlb hPpar hp0 hy0 hpy
      hplb hylb hnpp hnpy hnplb
  have halloc : t.alloc ≤ (rotateLeft t p y).alloc := by
    rw [alloc_rotateLeft]
  have hynotC : y ∉ ATree.idxs C :=
    (List.nodup_cons.mp (List.nodup_append.mp hndtail).2.1).1
  have hdisjB := (List.nodup_append.mp hndtail).2.2
  have hndB := (List.nodup_append.mp hndtail).1
  have hjnp : ∀ j, j ∈ ATree.idxs L ++ p :: (ATree.idxs B ++ y :: ATree.idxs C)
      → j ≠ hp := by
    intro j hj hc
    rcases hhpfacts with ⟨_, h1⟩ | ⟨h1, h2⟩
    · have hj0 := (hbnd j hj).1
      rw [h1] at hc
      exact hj0 hc
    · rcases h2 with h2 | h2
      · exact (hout j hj).1 (hc ▸ h2)
      · exact (hout j hj).2 (hc ▸ h2)
  -- cells of the three carried subtrees are untouched
  have hLsame : ∀ j ∈ ATree.idxs L, getN (rotateLeft t p y) j = getN t j := by
    intro j hj
    have hj0 := (hbnd j (by simp [hj])).1
    refine hcOther j ?_ ?_ ?_ (hjnp j (by simp [hj]))
    · intro hc
      exact hdisjL hj (by rw [hc]; simp)
    · intro hc
      exact hdisjL hj (by rw [hc]; simp)
    · intro hc
      cases hBc : B with
      | nil =>
        rw [hBc] at hc
        exact hj0 hc
      | node bb kk vv ppq ll rr =>
        refine hdisjL hj ?_
        rw [hc]
        refine List.mem_cons_of_mem _ (List.mem_append_left _ ?_)
        exact hlbB (by rw [hBc]; intro h2; cases h2)
  have hBsame : ∀ j ∈ ATree.idxs B, j ≠ ATree.rootIdx B →
      getN (rotateLeft t p y) j = getN t j := by
    intro j hj hjlb
    refine hcOther j ?_ ?_ hjlb
      (hjnp j (List.mem_append_right _ (List.mem_cons_of_mem _
        (List.mem_append_left _ hj))))
    · intro hc
      exact hpnot (by rw [← hc]; exact List.mem_append_left _ hj)
    · intro hc
      exact hynotB (hc ▸ hj)
  have hCsame : ∀ j ∈ ATree.idxs C, getN (rotateLeft t p y) j = getN t j := by
    intro j hj
    have hj0 := (hbnd j (by simp [hj])).1
    refine hcOther j ?_ ?_ ?_ (hjnp j (by simp [hj]))
    · intro hc
      exact hpnot (by rw [← hc]
                      exact List.mem_append_right _ (List.mem_cons_of_mem _ hj))
    · intro hc
      exact hynotC (hc ▸ hj)
    · intro hc
      cases hBc : B with
      | nil =>
        rw [hBc] at hc
        exact hj0 hc
      | node bb kk vv ppq ll rr =>
        have hlbm : ATree.rootIdx B ∈ ATree.idxs B :=
          hlbB (by rw [hBc]; intro h2; cases h2)
        exact hdisjB hlbm (by rw [← hc]; simp [hj])
  have hlb0ofB : B ≠ .nil → ATree.rootIdx B ≠ 0 := by
    intro hB2
    exact (rep_idxs_bound t B _ y hB _ (ATree.rootIdx_mem B hB2)).1
  refine ⟨?_, ?_, by rw [hc0, h0]⟩
  · -- the rotated focus
    refine ⟨rfl, hy0, by rw [alloc_rotateLeft]; exact hya,
      by rw [hcY]; exact hYk, by rw [hcY]; exact hYv,
      by rw [hcY]; exact hYp, by rw [hcY], by rw [hcY]; exact hYrm, ?_, ?_⟩
    · -- new left child: the old focus with the transferred subtree
      rw [hcY]
      show Rep (rotateLeft t p y) (ATree.node p kp vp pp L B) p y
      refine ⟨rfl, hp0, by rw [alloc_rotateLeft]; exact hpa,
        by rw [hcP]; exact hPk, by rw [hcP]; exact hPv,
        by rw [hcP]; exact hPp, by rw [hcP], by rw [hcP]; exact hPrm, ?_, ?_⟩
      · rw [hcP]
        show Rep (rotateLeft t p y) L (getN t p).left p
        exact rep_mono t _ L _ _ hLsame halloc hL
      · rw [hcP]
        show Rep (rotateLeft t p y) B (ATree.rootIdx B) p
        refine rep_reparent t _ B (ATree.rootIdx B) y p (hlb ▸ hB) hndB
          (fun hB2 => hcLB (hlb0ofB hB2)) hBsame halloc
    · -- right child keeps its place
      rw [hcY]
      show Rep (rotateLeft t p y) C (getN t y).right y
      exact rep_mono t _ C _ _ hCsame halloc hC
  · -- the retargeted context
    refine repC_retarget t _ ctx p y hp hcx ?_ ?_ ?_ halloc ?_ ?_ ?_ ?_
    · intro j hj hjhp
      by_cases hj0 : j = 0
      · rw [hj0]
        exact hc0
      · refine hcOther j ?_ ?_ ?_ hjhp
        · intro hc
          rcases hj with hj | hj
          · exact (hout p hmemp).1 (hc ▸ hj)
          · exact (hout p hmemp).2 (hc ▸ hj)
        · intro hc
          rcases hj with hj | hj
          · exact (hout y hmemy).1 (hc ▸ hj)
          · exact (hout y hmemy).2 (hc ▸ hj)
        · intro hc
          have hlbne : ATree.rootIdx B ≠ 0 := by
            rw [← hc]
            exact hj0
          rcases hj with hj | hj
          · exact (hout _ (hlbmem hlbne)).1 (hc ▸ hj)
          · exact (hout _ (hlbmem hlbne)).2 (hc ▸ hj)
    · intro i2 k2 v2 p2 ctx2 r2 hceq
      subst hceq
      exact plug_head_fresh_left ctx2 i2 k2 v2 p2 _ r2 hnd
    · intro i2 k2 v2 p2 l2 ctx2 hceq
      subst hceq
      exact plug_head_fresh_right ctx2 i2 k2 v2 p2 _ l2 hnd
    · intro hceq
      subst hceq
      obtain ⟨_, hhp0⟩ := hcx
      exact (hcTop hhp0).1
    · intro hne
      rcases hhpfacts with ⟨hceq, _⟩ | ⟨h1, _⟩
      · exact absurd hceq hne
      · exact ((hcDeep h1).1).symm
    · intro i2 k2 v2 p2 ctx2 r2 hceq
      subst hceq
      obtain ⟨h1, h2, h3, h4, h5, h6, h7, h8, h9, h10⟩ := hcx
      have hcell := (hcDeep (by rw [h1]; exact h2)).2
      rw [← h1]
      rw [hcell, if_pos (by rw [h1]; exact h8)]
    · intro i2 k2 v2 p2 l2 ctx2 hceq
      subst hceq
      obtain ⟨h1, h2, h3, h4, h5, h6, h7, h8, h9, h10⟩ := hcx
      have hcell := (hcDeep (by rw [h1]; exact h2)).2
      have hlne : (getN t i2).left ≠ p := by
        have hroot2 := rep_rootIdx t l2 _ i2 h9
        intro hc
        cases hl2c : l2 with
        | nil =>
          rw [hl2c] at hroot2
          rw [hroot2] at hc
          exact hp0 hc.symm
        | node bb kk vv ppq ll rr =>
          have hmem2 : (getN t i2).left ∈ ATree.idxs l2 := by
            rw [hroot2]
            exact ATree.rootIdx_mem l2 (by rw [hl2c]; intro h2q; cases h2q)
          refine (hout p hmemp).1 ?_
          rw [← hc]
          simp only [Ctx.pre, List.mem_append]
          exact Or.inl (Or.inr hmem2)
      rw [← h1]
      rw [hcell, if_neg (by rw [h1]; exact hlne)]

/-- `rotateRight` on a represented focus: the left child rises, the
focus hangs under it and adopts its right subtree; the context is
retargeted to the risen node. -/
theorem rotateRight_rep (t : Tree) (ctx : Ctx) (hp : Nat)
    (p y : Nat) (kp vp pp ky vy py : Int) (A B C : ATree)
    (hrep : Rep t (ATree.node p kp vp pp (ATree.node y ky vy py A B) C) p hp)
    (hcx : RepC t ctx p hp)
    (hnd : (ATree.idxs (Ctx.plug ctx (ATree.node p kp vp pp
      (ATree.node y ky vy py A B) C))).Nodup)
    (h0 : getN t 0 = nilNode) :
    Rep (rotateRight t p y)
      (ATree.node y ky vy py A (ATree.node p kp vp pp B C)) y hp ∧
    RepC (rotateRight t p y) ctx y hp ∧
    getN (rotateRight t p y) 0 = nilNode := by
  obtain ⟨_, hp0, hpa, hPk, hPv, hPp, hPpar, hPrm, hY, hC⟩ := hrep
  obtain ⟨hply, hy0, hya, hYk, hYv, hYp, hYpar, hYrm, hA, hB⟩ := hY
  have hlb : (getN t y).right = ATree.rootIdx B := rep_rootIdx t B _ y hB
  obtain ⟨hndsub, hout⟩ := plug_nodup_parts ctx _ hnd
  have hbnd := rep_idxs_bound t (ATree.node p kp vp pp
    (ATree.node y ky vy py A B) C) p hp
    ⟨rfl, hp0, hpa, hPk, hPv, hPp, hPpar, hPrm,
      ⟨hply, hy0, hya, hYk, hYv, hYp, hYpar, hYrm, hA, hB⟩, hC⟩
  simp only [ATree.idxs_node] at hndsub
  -- shape: (idxs A ++ y :: idxs B) ++ p :: idxs C
  have hndhead := (List.nodup_append.mp hndsub).1
  have hndrest := (List.nodup_append.mp hndsub).2.1
  have hdisjH := (List.nodup_append.mp hndsub).2.2
  have hpnotC : p ∉ ATree.idxs C := (List.nodup_cons.mp hndrest).1
  have hndhd2 := (List.nodup_append.mp hndhead).2.1
  have hdisjA := (List.nodup_append.mp hndhead).2.2
  have hynotB : y ∉ ATree.idxs B := (List.nodup_cons.mp hndhd2).1
  have hndB := (List.nodup_cons.mp hndhd2).2
  have hynotA : y ∉ ATree.idxs A := fun hc => hdisjA hc (by simp)
  have hpnotHead : p ∉ ATree.idxs A ++ y :: ATree.idxs B :=
    fun hc => hdisjH hc (by simp)
  have hynotC : y ∉ ATree.idxs C :=
    fun hc => hdisjH (by simp) (List.mem_cons_of_mem _ hc)
  have hpy : p ≠ y := by
    intro hc
    exact hpnotHead (by rw [hc]; simp)
  have hmemy : y ∈ (ATree.idxs A ++ y :: ATree.idxs B) ++ p :: ATree.idxs C := by
    simp
  have hmemp : p ∈ (ATree.idxs A ++ y :: ATree.idxs B) ++ p :: ATree.idxs C := by
    simp
  have hlbB : ∀ hB2 : B ≠ .nil, ATree.rootIdx B ∈ ATree.idxs B :=
    fun hB2 => ATree.rootIdx_mem B hB2
  have hplb : p ≠ ATree.rootIdx B := by
    cases hBc : B with
    | nil => exact fun hc => hp0 (by simpa [ATree.rootIdx] using hc)
    | node bb kk vv ppq ll rr =>
      intro hc
      refine hpnotHead ?_
      rw [hc]
      refine List.mem_append_right _ (List.mem_cons_of_mem _ ?_)
      rw [← hBc]
      exact hlbB (by rw [hBc]; intro h2; cases h2)
  have hylb : y ≠ ATree.rootIdx B := by
    cases hBc : B with
    | nil => exact fun hc => hy0 (by simpa [ATree.rootIdx] using hc)
    | node bb kk vv ppq ll rr =>
      intro hc
      refine hynotB ?_
      rw [hc, ← hBc]
      exact hlbB (by rw [hBc]; intro h2; cases h2)
  have hlbmem : ATree.rootIdx B ≠ 0 →
      ATree.rootIdx B ∈ (ATree.idxs A ++ y :: ATree.idxs B) ++ p :: ATree.idxs C
      := by
    intro hlb0
    cases hBc : B with
    | nil =>
      exfalso
      rw [hBc] at hlb0
      exact hlb0 rfl
    | node bb kk vv ppq ll rr =>
      refine List.mem_append_left _ (List.mem_append_right _
        (List.mem_cons_of_mem _ ?_))
      rw [← hBc]
      exact hlbB (by rw [hBc]; intro h2; cases h2)
  have hhpfacts := repC_hp_mem t ctx p hp hcx
  have hnpp : hp ≠ p := by
    rcases hhpfacts with ⟨_, h1⟩ | ⟨h1, h2⟩
    · rw [h1]
      exact fun hc => hp0 hc.symm
    · intro hc
      rcases h2 with h2 | h2
      · exact (hout p hmemp).1 (hc ▸ h2)
      · exact (hout p hmemp).2 (hc ▸ h2)
  have hnpy : hp ≠ y := by
    rcases hhpfacts with ⟨_, h1⟩ | ⟨h1, h2⟩
    · rw [h1]
      exact fun hc => hy0 hc.symm
    · intro hc
      rcases h2 with h2 | h2
      · exact (hout y hmemy).1 (hc ▸ h2)
      · exact (hout y hmemy).2 (hc ▸ h2)
  have hnplb : hp ≠ 0 → ATree.rootIdx B ≠ 0 → hp ≠ ATree.rootIdx B := by
    intro hhp0 hlb0 hc
    rcases hhpfacts with ⟨_, h1⟩ | ⟨h1, h2⟩
    · exact hhp0 h1
    · rcases h2 with h2 | h2
      · exact (hout _ (hlbmem hlb0)).1 (hc ▸ h2)
      · exact (hout _ (hlbmem hlb0)).2 (hc ▸ h2)
  obtain ⟨hcP, hcY, hcLB, hcOther, hc0, hcTop, hcDeep⟩ :=
    rotateRight_cells t p y (ATree.rootIdx B) hp hlb hPpar hp0 hy0 hpy
      hplb hylb hnpp hnpy hnplb
  have halloc : t.alloc ≤ (rotateRight t p y).alloc := by
    rw [alloc_rotateRight]
  have hjnp : ∀ j,
      j ∈ (ATree.idxs A ++ y :: ATree.idxs B) ++ p :: ATree.idxs C
      → j ≠ hp := by
    intro j hj hc
    rcases hhpfacts with ⟨_, h1⟩ | ⟨h1, h2⟩
    · have hj0 := (hbnd j hj).1
      rw [h1] at hc
      exact hj0 hc
    · rcases h2 with h2 | h2
      · exact (hout j hj).1 (hc ▸ h2)
      · exact (hout j hj).2 (hc ▸ h2)
  -- cells of the three carried subtrees are untouched
  have hAsame : ∀ j ∈ ATree.idxs A, getN (rotateRight t p y) j = getN t j := by
    intro j hj
    have hj0 := (hbnd j (by simp [hj])).1
    refine hcOther j ?_ ?_ ?_ (hjnp j (by simp [hj]))
    · intro hc
      exact hpnotHead (by rw [← hc]; exact List.mem_append_left _ hj)
    · intro hc
      exact hynotA (hc ▸ hj)
    · intro hc
      cases hBc : B with
      | nil =>
        rw [hBc] at hc
        exact hj0 hc
      | node bb kk vv ppq ll rr =>
        refine hdisjA hj (List.mem_cons_of_mem _ ?_)
        rw [hc]
        exact hlbB (by rw [hBc]; intro h2; cases h2)
  have hBsame : ∀ j ∈ ATree.idxs B, j ≠ ATree.rootIdx B →
      getN (rotateRight t p y) j = getN t j := by
    intro j hj hjlb
    refine hcOther j ?_ ?_ hjlb
      (hjnp j (List.mem_append_left _ (List.mem_append_right _
        (List.mem_cons_of_mem _ hj))))
    · intro hc
      exact hpnotHead (by rw [← hc]
                          exact List.mem_append_right _
                            (List.mem_cons_of_mem _ hj))
    · intro hc
      exact hynotB (hc ▸ hj)
  have hCsame : ∀ j ∈ ATree.idxs C, getN (rotateRight t p y) j = getN t j := by
    intro j hj
    have hj0 := (hbnd j (by simp [hj])).1
    refine hcOther j ?_ ?_ ?_ (hjnp j (by simp [hj]))
    · intro hc
      exact hpnotC (hc ▸ hj)
    · intro hc
      exact hynotC (hc ▸ hj)
    · intro hc
      cases hBc : B with
      | nil =>
        rw [hBc] at hc
        exact hj0 hc
      | node bb kk vv ppq ll rr =>
        have hlbm : ATree.rootIdx B ∈ ATree.idxs B :=
          hlbB (by rw [hBc]; intro h2; cases h2)
        refine hdisjH (List.mem_append_right _
          (List.mem_cons_of_mem _ hlbm)) ?_
        rw [← hc]
        exact List.mem_cons_of_mem _ hj
  have hlb0ofB : B ≠ .nil → ATree.rootIdx B ≠ 0 := by
    intro hB2
    exact (rep_idxs_bound t B _ y hB _ (ATree.rootIdx_mem B hB2)).1
  refine ⟨?_, ?_, by rw [hc0, h0]⟩
  · -- the rotated focus
    refine ⟨rfl, hy0, by rw [alloc_rotateRight]; exact hya,
      by rw [hcY]; exact hYk, by rw [hcY]; exact hYv,
      by rw [hcY]; exact hYp, by rw [hcY], by rw [hcY]; exact hYrm, ?_, ?_⟩
    · -- left child keeps its place
      rw [hcY]
      show Rep (rotateRight t p y) A (getN t y).left y
      exact rep_mono t _ A _ _ hAsame halloc hA
    · -- new right child: the old focus with the transferred subtree
      rw [hcY]
      show Rep (rotateRight t p y) (ATree.node p kp vp pp B C) p y
      refine ⟨rfl, hp0, by rw [alloc_rotateRight]; exact hpa,
        by rw [hcP]; exact hPk, by rw [hcP]; exact hPv,
        by rw [hcP]; exact hPp, by rw [hcP], by rw [hcP]; exact hPrm, ?_, ?_⟩
      · rw [hcP]
        show Rep (rotateRight t p y) B (ATree.rootIdx B) p
        refine rep_reparent t _ B (ATree.rootIdx B) y p (hlb ▸ hB) hndB
          (fun hB2 => hcLB (hlb0ofB hB2)) hBsame halloc
      · rw [hcP]
        show Rep (rotateRight t p y) C (getN t p).right p
        exact rep_mono t _ C _ _ hCsame halloc hC
  · -- the retargeted context
    refine repC_retarget t _ ctx p y hp hcx ?_ ?_ ?_ halloc ?_ ?_ ?_ ?_
    · intro j hj hjhp
      by_cases hj0 : j = 0
      · rw [hj0]
        exact hc0
      · refine hcOther j ?_ ?_ ?_ hjhp
        · intro hc
          rcases hj with hj | hj
          · exact (hout p hmemp).1 (hc ▸ hj)
          · exact (hout p hmemp).2 (hc ▸ hj)
        · intro hc
          rcases hj with hj | hj
          · exact (hout y hmemy).1 (hc ▸ hj)
          · exact (hout y hmemy).2 (hc ▸ hj)
        · intro hc
          have hlbne : ATree.rootIdx B ≠ 0 := by
            rw [← hc]
            exact hj0
          rcases hj with hj | hj
          · exact (hout _ (hlbmem hlbne)).1 (hc ▸ hj)
          · exact (hout _ (hlbmem hlbne)).2 (hc ▸ hj)
    · intro i2 k2 v2 p2 ctx2 r2 hceq
      subst hceq
      exact plug_head_fresh_left ctx2 i2 k2 v2 p2 _ r2 hnd
    · intro i2 k2 v2 p2 l2 ctx2 hceq
      subst hceq
      exact plug_head_fresh_right ctx2 i2 k2 v2 p2 _ l2 hnd
    · intro hceq
      subst hceq
      obtain ⟨_, hhp0⟩ := hcx
      exact (hcTop hhp0).1
    · intro hne
      rcases hhpfacts with ⟨hceq, _⟩ | ⟨h1, _⟩
      · exact absurd hceq hne
      · exact ((hcDeep h1).1).symm
    · intro i2 k2 v2 p2 ctx2 r2 hceq
      subst hceq
      obtain ⟨h1, h2, h3, h4, h5, h6, h7, h8, h9, h10⟩ := hcx
      have hcell := (hcDeep (by rw [h1]; exact h2)).2
      rw [← h1]
      rw [hcell, if_pos (by rw [h1]; exact h8)]
    · intro i2 k2 v2 p2 l2 ctx2 hceq
      subst hceq
      obtain ⟨h1, h2, h3, h4, h5, h6, h7, h8, h9, h10⟩ := hcx
      have hcell := (hcDeep (by rw [h1]; exact h2)).2
      have hlne : (getN t i2).left ≠ p := by
        have hroot2 := rep_rootIdx t l2 _ i2 h9
        intro hc
        cases hl2c : l2 with
        | nil =>
          rw [hl2c] at hroot2
          rw [hroot2] at hc
          exact hp0 hc.symm
        | node bb kk vv ppq ll rr =>
          have hmem2 : (getN t i2).left ∈ ATree.idxs l2 := by
            rw [hroot2]
            exact ATree.rootIdx_mem l2 (by rw [hl2c]; intro h2q; cases h2q)
          refine (hout p hmemp).1 ?_
          rw [← hc]
          simp only [Ctx.pre, List.mem_append]
          exact Or.inl (Or.inr hmem2)
      rw [← h1]
      rw [hcell, if_neg (by rw [h1]; exact hlne)]

/-- Cell-level effect of `rotateLeftRight t p x c` (`x` the left child
of `p`, `c` the right child of `x`): `c` rises above both, `x` adopts
`c`'s left subtree, `p` adopts `c`'s right subtree, and no other cell
moves. -/
theorem rotateLeftRight_cells (t : Tree) (p x c lb rb pp : Nat)
    (hrb : (getN t c).right = rb) (hlb : (getN t c).left = lb)
    (hpp : (getN t p).parent = pp)
    (hp0 : p ≠ 0) (hx0 : x ≠ 0) (hc0 : c ≠ 0)
    (hpx : p ≠ x) (hpc : p ≠ c) (hxc : x ≠ c)
    (hplb : p ≠ lb) (hxlb : x ≠ lb) (hclb : c ≠ lb)
    (hprb : p ≠ rb) (hxrb : x ≠ rb) (hcrb : c ≠ rb)
    (hlbrb : lb ≠ 0 → rb ≠ 0 → lb ≠ rb)
    (hppp : pp ≠ p) (hppx : pp ≠ x) (hppc : pp ≠ c)
    (hpplb : pp ≠ 0 → lb ≠ 0 → pp ≠ lb)
    (hpprb : pp ≠ 0 → rb ≠ 0 → pp ≠ rb) :
    getN (rotateLeftRight t p x c) p = { getN t p with left := rb, parent := c } ∧
    getN (rotateLeftRight t p x c) x = { getN t x with right := lb, parent := c } ∧
    getN (rotateLeftRight t p x c) c =
      { getN t c with parent := pp, left := x, right := p } ∧
    (lb ≠ 0 → getN (rotateLeftRight t p x c) lb = { getN t lb with parent := x }) ∧
    (rb ≠ 0 → getN (rotateLeftRight t p x c) rb = { getN t rb with parent := p }) ∧
    (∀ j, j ≠ p → j ≠ x → j ≠ c → j ≠ lb → j ≠ rb → j ≠ pp →
      getN (rotateLeftRight t p x c) j = getN t j) ∧
    getN (rotateLeftRight t p x c) 0 = getN t 0 ∧
    (pp = 0 → (rotateLeftRight t p x c).root = c ∧
      (∀ j, j ≠ p → j ≠ x → j ≠ c → j ≠ lb → j ≠ rb →
        getN (rotateLeftRight t p x c) j = getN t j)) ∧
    (pp ≠ 0 → (rotateLeftRight t p x c).root = t.root ∧
      getN (rotateLeftRight t p x c) pp =
        (if (getN t pp).left = p then { getN t pp with left := c }
         else { getN t pp with right := c })) := by
  have hrl : rotateLeftRight t p x c =
      (let t1 := if pp = 0 then { t with root := c }
        else if (getN t pp).left = p then setLeft t pp c else setRight t pp c
      let t2 := setParent t1 c pp
      let t3 := setLeft t2 p (getN t2 c).right
      let t4 := if (getN t3 c).right ≠ 0 then setParent t3 (getN t3 c).right p else t3
      let t5 := setRight t4 x (getN t4 c).left
      let t6 := if (getN t5 c).left ≠ 0 then setParent t5 (getN t5 c).left x else t5
      let t7 := setLeft t6 c x
      let t8 := setParent t7 x c
      let t9 := setRight t8 c p
      setParent t9 p c) := by
    rw [rotateLeftRight, hpp]
  rw [hrl]
  dsimp only
  have ht1cells : ∀ j, j ≠ pp →
      getN (if pp = 0 then { t with root := c }
        else if (getN t pp).left = p then setLeft t pp c else setRight t pp c) j
        = getN t j := by
    intro j hj
    split_ifs with h1 h2
    · exact getN_setRoot t c j
    · exact cell_setLeft_ne _ _ _ _ hj
    · exact cell_setRight_ne _ _ _ _ hj
  set t1 := if pp = 0 then { t with root := c }
    else if (getN t pp).left = p then setLeft t pp c else setRight t pp c with ht1
  have ht1p : getN t1 p = getN t p := ht1cells p (Ne.symm hppp)
  have ht1x : getN t1 x = getN t x := ht1cells x (Ne.symm hppx)
  have ht1c : getN t1 c = getN t c := ht1cells c (Ne.symm hppc)
  set t2 := setParent t1 c pp with ht2
  have ht2c : getN t2 c = { getN t c with parent := pp } := by
    rw [ht2, cell_setParent_self, ht1c]
  have ht2p : getN t2 p = getN t p := by
    rw [ht2, cell_setParent_ne _ _ _ _ hpc, ht1p]
  have ht2x : getN t2 x = getN t x := by
    rw [ht2, cell_setParent_ne _ _ _ _ hxc, ht1x]
  have ht2cr : (getN t2 c).right = rb := by
    rw [ht2c]
    exact hrb
  set t3 := setLeft t2 p (getN t2 c).right with ht3
  have ht3p : getN t3 p = { getN t p with left := rb } := by
    rw [ht3, cell_setLeft_self, ht2p, ht2cr]
  have ht3c : getN t3 c = { getN t c with parent := pp } := by
    rw [ht3, cell_setLeft_ne _ _ _ _ (Ne.symm hpc), ht2c]
  have ht3x : getN t3 x = getN t x := by
    rw [ht3, cell_setLeft_ne _ _ _ _ (Ne.symm hpx), ht2x]
  have ht3cr : (getN t3 c).right = rb := by
    rw [ht3c]
    exact hrb
  set t4 := if (getN t3 c).right ≠ 0 then setParent t3 (getN t3 c).right p else t3
    with ht4
  have ht4p : getN t4 p = { getN t p with left := rb } := by
    rw [ht4]
    split_ifs with h1
    · rw [ht3cr] at h1 ⊢
      rw [cell_setParent_ne _ _ _ _ hprb, ht3p]
    · exact ht3p
  have ht4c : getN t4 c = { getN t c with parent := pp } := by
    rw [ht4]
    split_ifs with h1
    · rw [ht3cr] at h1 ⊢
      rw [cell_setParent_ne _ _ _ _ hcrb, ht3c]
    · exact ht3c
  have ht4x : getN t4 x = getN t x := by
    rw [ht4]
    split_ifs with h1
    · rw [ht3cr] at h1 ⊢
      rw [cell_setParent_ne _ _ _ _ hxrb, ht3x]
    · exact ht3x
  have ht4cl : (getN t4 c).left = lb := by
    rw [ht4c]
    exact hlb
  set t5 := setRight t4 x (getN t4 c).left with ht5
  have ht5x : getN t5 x = { getN t x with right := lb } := by
    rw [ht5, cell_setRight_self, ht4x, ht4cl]
  have ht5p : getN t5 p = { getN t p with left := rb } := by
    rw [ht5, cell_setRight_ne _ _ _ _ hpx, ht4p]
  have ht5c : getN t5 c = { getN t c with parent := pp } := by
    rw [ht5, cell_setRight_ne _ _ _ _ (Ne.symm hxc), ht4c]
  have ht5cl : (getN t5 c).left = lb := by
    rw [ht5c]
    exact hlb
  set t6 := if (getN t5 c).left ≠ 0 then setParent t5 (getN t5 c).left x else t5
    with ht6
  have ht6p : getN t6 p = { getN t p with left := rb } := by
    rw [ht6]
    split_ifs with h1
    · rw [ht5cl] at h1 ⊢
      rw [cell_setParent_ne _ _ _ _ hplb, ht5p]
    · exact ht5p
  have ht6x : getN t6 x = { getN t x with right := lb } := by
    rw [ht6]
    split_ifs with h1
    · rw [ht5cl] at h1 ⊢
      rw [cell_setParent_ne _ _ _ _ hxlb, ht5x]
    · exact ht5x
  have ht6c : getN t6 c = { getN t c with parent := pp } := by
    rw [ht6]
    split_ifs with h1
    · rw [ht5cl] at h1 ⊢
      rw [cell_setParent_ne _ _ _ _ hclb, ht5c]
    · exact ht5c
  set t7 := setLeft t6 c x with ht7
  have ht7c : getN t7 c = { getN t c with parent := pp, left := x } := by
    rw [ht7, cell_setLeft_self, ht6c]
  have ht7p : getN t7 p = { getN t p with left := rb } := by
    rw [ht7, cell_setLeft_ne _ _ _ _ hpc, ht6p]
  have ht7x : getN t7 x = { getN t x with right := lb } := by
    rw [ht7, cell_setLeft_ne _ _ _ _ hxc, ht6x]
  set t8 := setParent t7 x c with ht8
  have ht8x : getN t8 x = { getN t x with right := lb, parent := c } := by
    rw [ht8, cell_setParent_self, ht7x]
  have ht8p : getN t8 p = { getN t p with left := rb } := by
    rw [ht8, cell_setParent_ne _ _ _ _ hpx, ht7p]
  have ht8c : getN t8 c = { getN t c with parent := pp, left := x } := by
    rw [ht8, cell_setParent_ne _ _ _ _ (Ne.symm hxc), ht7c]
  set t9 := setRight t8 c p with ht9
  have ht9c : getN t9 c = { getN t c with parent := pp, left := x, right := p } := by
    rw [ht9, cell_setRight_self, ht8c]
  have ht9p : getN t9 p = { getN t p with left := rb } := by
    rw [ht9, cell_setRight_ne _ _ _ _ hpc, ht8p]
  have ht9x : getN t9 x = { getN t x with right := lb, parent := c } := by
    rw [ht9, cell_setRight_ne _ _ _ _ hxc, ht8x]
  refine ⟨?_, ?_, ?_, ?_, ?_, ?_, ?_, ?_, ?_⟩
  · rw [cell_setParent_self, ht9p]
  · rw [cell_setParent_ne _ _ _ _ (Ne.symm hpx), ht9x]
  · rw [cell_setParent_ne _ _ _ _ (Ne.symm hpc), ht9c]
  · intro hlb0
    have hlbpp : lb ≠ pp := by
      by_cases hq : pp = 0
      · rw [hq]
        exact hlb0
      · exact fun hc2 => (hpplb hq hlb0) hc2.symm
    rw [cell_setParent_ne _ _ _ _ (Ne.symm hplb),
      ht9, cell_setRight_ne _ _ _ _ (Ne.symm hclb),
      ht8, cell_setParent_ne _ _ _ _ (Ne.symm hxlb),
      ht7, cell_setLeft_ne _ _ _ _ (Ne.symm hclb), ht6]
    rw [if_pos (by rw [ht5cl]; exact hlb0), ht5cl, cell_setParent_self,
      ht5, cell_setRight_ne _ _ _ _ (Ne.symm hxlb), ht4]
    have h4 : getN (if (getN t3 c).right ≠ 0 then setParent t3 (getN t3 c).right p
        else t3) lb = getN t3 lb := by
      split_ifs with h1
      · rw [ht3cr] at h1 ⊢
        exact cell_setParent_ne _ _ _ _ (hlbrb hlb0 h1)
      · rfl
    rw [h4, ht3, cell_setLeft_ne _ _ _ _ (Ne.symm hplb),
      ht2, cell_setParent_ne _ _ _ _ (Ne.symm hclb)]
    rw [ht1cells lb hlbpp]
  · intro hrb0
    have hrbpp : rb ≠ pp := by
      by_cases hq : pp = 0
      · rw [hq]
        exact hrb0
      · exact fun hc2 => (hpprb hq hrb0) hc2.symm
    rw [cell_setParent_ne _ _ _ _ (Ne.symm hprb),
      ht9, cell_setRight_ne _ _ _ _ (Ne.symm hcrb),
      ht8, cell_setParent_ne _ _ _ _ (Ne.symm hxrb),
      ht7, cell_setLeft_ne _ _ _ _ (Ne.symm hcrb), ht6]
    have h6 : getN (if (getN t5 c).left ≠ 0 then setParent t5 (getN t5 c).left x
        else t5) rb = getN t5 rb := by
      split_ifs with h1
      · rw [ht5cl] at h1 ⊢
        exact cell_setParent_ne _ _ _ _ (Ne.symm (hlbrb h1 hrb0))
      · rfl
    rw [h6, ht5, cell_setRight_ne _ _ _ _ (Ne.symm hxrb), ht4]
    rw [if_pos (by rw [ht3cr]; exact hrb0), ht3cr, cell_setParent_self,
      ht3, cell_setLeft_ne _ _ _ _ (Ne.symm hprb),
      ht2, cell_setParent_ne _ _ _ _ (Ne.symm hcrb)]
    rw [ht1cells rb hrbpp]
  · intro j hjp hjx hjc hjlb hjrb hjpp
    rw [cell_setParent_ne _ _ _ _ hjp, ht9, cell_setRight_ne _ _ _ _ hjc,
      ht8, cell_setParent_ne _ _ _ _ hjx,
      ht7, cell_setLeft_ne _ _ _ _ hjc, ht6]
    have h6 : getN (if (getN t5 c).left ≠ 0 then setParent t5 (getN t5 c).left x
        else t5) j = getN t5 j := by
      split_ifs with h1
      · rw [ht5cl]
        exact cell_setParent_ne _ _ _ _ hjlb
      · rfl
    rw [h6, ht5, cell_setRight_ne _ _ _ _ hjx, ht4]
    have h4 : getN (if (getN t3 c).right ≠ 0 then setParent t3 (getN t3 c).right p
        else t3) j = getN t3 j := by
      split_ifs with h1
      · rw [ht3cr]
        exact cell_setParent_ne _ _ _ _ hjrb
      · rfl
    rw [h4, ht3, cell_setLeft_ne _ _ _ _ hjp, ht2,
      cell_setParent_ne _ _ _ _ hjc]
    exact ht1cells j hjpp
  · rw [cell_setParent_ne _ _ _ _ (Ne.symm hp0), ht9,
      cell_setRight_ne _ _ _ _ (Ne.symm hc0), ht8,
      cell_setParent_ne _ _ _ _ (Ne.symm hx0), ht7,
      cell_setLeft_ne _ _ _ _ (Ne.symm hc0), ht6]
    have h6 : getN (if (getN t5 c).left ≠ 0 then setParent t5 (getN t5 c).left x
        else t5) 0 = getN t5 0 := by
      split_ifs with h1
      · rw [ht5cl] at h1 ⊢
        exact cell_setParent_ne _ _ _ _ (Ne.symm h1)
      · rfl
    rw [h6, ht5, cell_setRight_ne _ _ _ _ (Ne.symm hx0), ht4]
    have h4 : getN (if (getN t3 c).right ≠ 0 then setParent t3 (getN t3 c).right p
        else t3) 0 = getN t3 0 := by
      split_ifs with h1
      · rw [ht3cr] at h1 ⊢
        exact cell_setParent_ne _ _ _ _ (Ne.symm h1)
      · rfl
    rw [h4, ht3, cell_setLeft_ne _ _ _ _ (Ne.symm hp0), ht2,
      cell_setParent_ne _ _ _ _ (Ne.symm hc0), ht1]
    split_ifs with h1 h2
    · rfl
    · exact cell_setLeft_ne _ _ _ _ (fun hc2 => h1 hc2.symm)
    · exact cell_setRight_ne _ _ _ _ (fun hc2 => h1 hc2.symm)
  · intro hpp0
    have h97 : t9.root = t7.root := by
      rw [ht9, ht8]
      rfl
    have h75 : t7.root = t5.root := by
      rw [ht7, ht6]
      split_ifs <;> rfl
    have h53 : t5.root = t3.root := by
      rw [ht5, ht4]
      split_ifs <;> rfl
    constructor
    · show (setParent t9 p c).root = c
      rw [show (setParent t9 p c).root = t9.root from rfl, h97, h75, h53,
        show t3.root = t1.root from rfl, ht1, if_pos hpp0]
    · intro j hjp hjx hjc hjlb hjrb
      rw [cell_setParent_ne _ _ _ _ hjp, ht9, cell_setRight_ne _ _ _ _ hjc,
        ht8, cell_setParent_ne _ _ _ _ hjx,
        ht7, cell_setLeft_ne _ _ _ _ hjc, ht6]
      have h6 : getN (if (getN t5 c).left ≠ 0 then setParent t5 (getN t5 c).left x
          else t5) j = getN t5 j := by
        split_ifs with h1
        · rw [ht5cl]
          exact cell_setParent_ne _ _ _ _ hjlb
        · rfl
      rw [h6, ht5, cell_setRight_ne _ _ _ _ hjx, ht4]
      have h4 : getN (if (getN t3 c).right ≠ 0 then setParent t3 (getN t3 c).right p
          else t3) j = getN t3 j := by
        split_ifs with h1
        · rw [ht3cr]
          exact cell_setParent_ne _ _ _ _ hjrb
        · rfl
      rw [h4, ht3, cell_setLeft_ne _ _ _ _ hjp, ht2,
        cell_setParent_ne _ _ _ _ hjc, ht1, if_pos hpp0]
      rfl
  · intro hpp0
    have h97 : t9.root = t7.root := by
      rw [ht9, ht8]
      rfl
    have h75 : t7.root = t5.root := by
      rw [ht7, ht6]
      split_ifs <;> rfl
    have h53 : t5.root = t3.root := by
      rw [ht5, ht4]
      split_ifs <;> rfl
    constructor
    · show (setParent t9 p c).root = t.root
      rw [show (setParent t9 p c).root = t9.root from rfl, h97, h75, h53,
        show t3.root = t1.root from rfl, ht1, if_neg hpp0]
      split_ifs <;> rfl
    · rw [cell_setParent_ne _ _ _ _ hppp, ht9,
        cell_setRight_ne _ _ _ _ hppc, ht8,
        cell_setParent_ne _ _ _ _ hppx, ht7,
        cell_setLeft_ne _ _ _ _ hppc, ht6]
      have h6 : getN (if (getN t5 c).left ≠ 0 then setParent t5 (getN t5 c).left x
          else t5) pp = getN t5 pp := by
        split_ifs with h1
        · rw [ht5cl] at h1 ⊢
          exact cell_setParent_ne _ _ _ _ (hpplb hpp0 h1)
        · rfl
      rw [h6, ht5, cell_setRight_ne _ _ _ _ hppx, ht4]
      have h4 : getN (if (getN t3 c).right ≠ 0 then setParent t3 (getN t3 c).right p
          else t3) pp = getN t3 pp := by
        split_ifs with h1
        · rw [ht3cr] at h1 ⊢
          exact cell_setParent_ne _ _ _ _ (hpprb hpp0 h1)
        · rfl
      rw [h4, ht3, cell_setLeft_ne _ _ _ _ hppp, ht2,
        cell_setParent_ne _ _ _ _ hppc, ht1, if_neg hpp0]
      split_ifs with h2
      · rw [cell_setLeft_self]
      · rw [cell_setRight_self]

/-- `rotateLeftRight` on a represented focus: the right child `c` of
the focus's left child `x` rises above both; `x` adopts `c`'s left
subtree, the focus adopts `c`'s right subtree, and the context is
retargeted to `c`. -/
theorem rotateLeftRight_rep (t : Tree) (ctx : Ctx) (hp : Nat)
    (p x c : Nat) (kp vp pp2 kx vx px kc vc pc : Int) (A B D S : ATree)
    (hrep : Rep t (ATree.node p kp vp pp2
      (ATree.node x kx vx px A (ATree.node c kc vc pc B D)) S) p hp)
    (hcx : RepC t ctx p hp)
    (hnd : (ATree.idxs (Ctx.plug ctx (ATree.node p kp vp pp2
      (ATree.node x kx vx px A (ATree.node c kc vc pc B D)) S))).Nodup)
    (h0 : getN t 0 = nilNode) :
    Rep (rotateLeftRight t p x c)
      (ATree.node c kc vc pc (ATree.node x kx vx px A B)
        (ATree.node p kp vp pp2 D S)) c hp ∧
    RepC (rotateLeftRight t p x c) ctx c hp ∧
    getN (rotateLeftRight t p x c) 0 = nilNode := by
  obtain ⟨_, hp0, hpa, hPk, hPv, hPp, hPpar, hPrm, hX, hS⟩ := hrep
  obtain ⟨hplx, hx0, hxa, hXk, hXv, hXp, hXpar, hXrm, hA, hcC⟩ := hX
  obtain ⟨hxrc, hc0ne, hca, hCk, hCv, hCp, hCpar, hCrm, hB, hD⟩ := hcC
  have hlbE : (getN t c).left = ATree.rootIdx B := rep_rootIdx t B _ c hB
  have hrbE : (getN t c).right = ATree.rootIdx D := rep_rootIdx t D _ c hD
  obtain ⟨hndsub, hout⟩ := plug_nodup_parts ctx _ hnd
  have hbnd := rep_idxs_bound t (ATree.node p kp vp pp2
    (ATree.node x kx vx px A (ATree.node c kc vc pc B D)) S) p hp
    ⟨rfl, hp0, hpa, hPk, hPv, hPp, hPpar, hPrm,
      ⟨hplx, hx0, hxa, hXk, hXv, hXp, hXpar, hXrm, hA,
        ⟨hxrc, hc0ne, hca, hCk, hCv, hCp, hCpar, hCrm, hB, hD⟩⟩, hS⟩
  simp only [ATree.idxs_node] at hndsub
  -- shape: (idxs A ++ x :: (idxs B ++ c :: idxs D)) ++ p :: idxs S
  have hndhead := (List.nodup_append.mp hndsub).1
  have hndrest := (List.nodup_append.mp hndsub).2.1
  have hdisjH := (List.nodup_append.mp hndsub).2.2
  have hpnotS : p ∉ ATree.idxs S := (List.nodup_cons.mp hndrest).1
  have hndxtail := (List.nodup_append.mp hndhead).2.1
  have hdisjA := (List.nodup_append.mp hndhead).2.2
  have hxnotBCD : x ∉ ATree.idxs B ++ c :: ATree.idxs D :=
    (List.nodup_cons.mp hndxtail).1
  have hndBCD := (List.nodup_cons.mp hndxtail).2
  have hndB := (List.nodup_append.mp hndBCD).1
  have hndcD := (List.nodup_append.mp hndBCD).2.1
  have hdisjB := (List.nodup_append.mp hndBCD).2.2
  have hcnotD : c ∉ ATree.idxs D := (List.nodup_cons.mp hndcD).1
  have hndD := (List.nodup_cons.mp hndcD).2
  have hpnotHead : p ∉ ATree.idxs A ++ x :: (ATree.idxs B ++ c :: ATree.idxs D)
      := fun hcq => hdisjH hcq (by simp)
  have hlbmemB : ATree.rootIdx B ≠ 0 → ATree.rootIdx B ∈ ATree.idxs B := by
    intro hq
    cases hBc : B with
    | nil =>
      exfalso
      rw [hBc] at hq
      exact hq rfl
    | node bb kk vv ppq ll rr =>
      exact ATree.rootIdx_mem _ (by intro h2; cases h2)
  have hrbmemD : ATree.rootIdx D ≠ 0 → ATree.rootIdx D ∈ ATree.idxs D := by
    intro hq
    cases hDc : D with
    | nil =>
      exfalso
      rw [hDc] at hq
      exact hq rfl
    | node bb kk vv ppq ll rr =>
      exact ATree.rootIdx_mem _ (by intro h2; cases h2)
  have hpx : p ≠ x := fun hcq => hpnotHead (by rw [hcq]; simp)
  have hpc : p ≠ c := fun hcq => hpnotHead (by rw [hcq]; simp)
  have hxc : x ≠ c := fun hcq => hxnotBCD (by rw [hcq]; simp)
  have hplb : p ≠ ATree.rootIdx B := by
    by_cases hq : ATree.rootIdx B = 0
    · rw [hq]
      exact hp0
    · intro hcq
      refine hpnotHead ?_
      rw [hcq]
      exact List.mem_append_right _ (List.mem_cons_of_mem _
        (List.mem_append_left _ (hlbmemB hq)))
  have hxlb : x ≠ ATree.rootIdx B := by
    by_cases hq : ATree.rootIdx B = 0
    · rw [hq]
      exact hx0
    · intro hcq
      refine hxnotBCD ?_
      rw [hcq]
      exact List.mem_append_left _ (hlbmemB hq)
  have hclb : c ≠ ATree.rootIdx B := by
    by_cases hq : ATree.rootIdx B = 0
    · rw [hq]
      exact hc0ne
    · intro hcq
      exact hdisjB (hlbmemB hq) (by rw [← hcq]; simp)
  have hprb : p ≠ ATree.rootIdx D := by
    by_cases hq : ATree.rootIdx D = 0
    · rw [hq]
      exact hp0
    · intro hcq
      refine hpnotHead ?_
      rw [hcq]
      exact List.mem_append_right _ (List.mem_cons_of_mem _
        (List.mem_append_right _ (List.mem_cons_of_mem _ (hrbmemD hq))))
  have hxrb : x ≠ ATree.rootIdx D := by
    by_cases hq : ATree.rootIdx D = 0
    · rw [hq]
      exact hx0
    · intro hcq
      refine hxnotBCD ?_
      rw [hcq]
      exact List.mem_append_right _ (List.mem_cons_of_mem _ (hrbmemD hq))
  have hcrb : c ≠ ATree.rootIdx D := by
    by_cases hq : ATree.rootIdx D = 0
    · rw [hq]
      exact hc0ne
    · intro hcq
      refine hcnotD ?_
      rw [hcq]
      exact hrbmemD hq
  have hlbrb : ATree.rootIdx B ≠ 0 → ATree.rootIdx D ≠ 0 →
      ATree.rootIdx B ≠ ATree.rootIdx D := by
    intro h1 h2 hcq
    exact hdisjB (hlbmemB h1)
      (by rw [hcq]; exact List.mem_cons_of_mem _ (hrbmemD h2))
  have hmemp : p ∈ (ATree.idxs A ++ x :: (ATree.idxs B ++ c :: ATree.idxs D))
      ++ p :: ATree.idxs S := by simp
  have hmemx : x ∈ (ATree.idxs A ++ x :: (ATree.idxs B ++ c :: ATree.idxs D))
      ++ p :: ATree.idxs S := by simp
  have hmemc : c ∈ (ATree.idxs A ++ x :: (ATree.idxs B ++ c :: ATree.idxs D))
      ++ p :: ATree.idxs S := by simp
  have hlbmemL : ATree.rootIdx B ≠ 0 → ATree.rootIdx B ∈
      (ATree.idxs A ++ x :: (ATree.idxs B ++ c :: ATree.idxs D))
      ++ p :: ATree.idxs S := by
    intro hq
    exact List.mem_append_left _ (List.mem_append_right _
      (List.mem_cons_of_mem _ (List.mem_append_left _ (hlbmemB hq))))
  have hrbmemL : ATree.rootIdx D ≠ 0 → ATree.rootIdx D ∈
      (ATree.idxs A ++ x :: (ATree.idxs B ++ c :: ATree.idxs D))
      ++ p :: ATree.idxs S := by
    intro hq
    exact List.mem_append_left _ (List.mem_append_right _
      (List.mem_cons_of_mem _ (List.mem_append_right _
        (List.mem_cons_of_mem _ (hrbmemD hq)))))
  have hhpfacts := repC_hp_mem t ctx p hp hcx
  have hnpp : hp ≠ p := by
    rcases hhpfacts with ⟨_, h1⟩ | ⟨h1, h2⟩
    · rw [h1]
      exact fun hcq => hp0 hcq.symm
    · intro hcq
      rcases h2 with h2 | h2
      · exact (hout p hmemp).1 (hcq ▸ h2)
      · exact (hout p hmemp).2 (hcq ▸ h2)
  have hnpx : hp ≠ x := by
    rcases hhpfacts with ⟨_, h1⟩ | ⟨h1, h2⟩
    · rw [h1]
      exact fun hcq => hx0 hcq.symm
    · intro hcq
      rcases h2 with h2 | h2
      · exact (hout x hmemx).1 (hcq ▸ h2)
      · exact (hout x hmemx).2 (hcq ▸ h2)
  have hnpc : hp ≠ c := by
    rcases hhpfacts with ⟨_, h1⟩ | ⟨h1, h2⟩
    · rw [h1]
      exact fun hcq => hc0ne hcq.symm
    · intro hcq
      rcases h2 with h2 | h2
      · exact (hout c hmemc).1 (hcq ▸ h2)
      · exact (hout c hmemc).2 (hcq ▸ h2)
  have hnplb : hp ≠ 0 → ATree.rootIdx B ≠ 0 → hp ≠ ATree.rootIdx B := by
    intro hhp0 hlb0 hcq
    rcases hhpfacts with ⟨_, h1⟩ | ⟨h1, h2⟩
    · exact hhp0 h1
    · rcases h2 with h2 | h2
      · exact (hout _ (hlbmemL hlb0)).1 (hcq ▸ h2)
      · exact (hout _ (hlbmemL hlb0)).2 (hcq ▸ h2)
  have hnprb : hp ≠ 0 → ATree.rootIdx D ≠ 0 → hp ≠ ATree.rootIdx D := by
    intro hhp0 hrb0 hcq
    rcases hhpfacts with ⟨_, h1⟩ | ⟨h1, h2⟩
    · exact hhp0 h1
    · rcases h2 with h2 | h2
      · exact (hout _ (hrbmemL hrb0)).1 (hcq ▸ h2)
      · exact (hout _ (hrbmemL hrb0)).2 (hcq ▸ h2)
  obtain ⟨hcP, hcX2, hcC2, hcLB, hcRB, hcOther, hc00, hcTop, hcDeep⟩ :=
    rotateLeftRight_cells t p x c (ATree.rootIdx B) (ATree.rootIdx D) hp
      hrbE hlbE hPpar hp0 hx0 hc0ne hpx hpc hxc hplb hxlb hclb
      hprb hxrb hcrb hlbrb hnpp hnpx hnpc hnplb hnprb
  have halloc : t.alloc ≤ (rotateLeftRight t p x c).alloc := by
    rw [alloc_rotateLeftRight]
  have hjnp : ∀ j,
      j ∈ (ATree.idxs A ++ x :: (ATree.idxs B ++ c :: ATree.idxs D))
        ++ p :: ATree.idxs S → j ≠ hp := by
    intro j hj hcq
    rcases hhpfacts with ⟨_, h1⟩ | ⟨h1, h2⟩
    · have hj0 := (hbnd j hj).1
      rw [h1] at hcq
      exact hj0 hcq
    · rcases h2 with h2 | h2
      · exact (hout j hj).1 (hcq ▸ h2)
      · exact (hout j hj).2 (hcq ▸ h2)
  -- cells of the four carried subtrees are untouched
  have hAsame : ∀ j ∈ ATree.idxs A,
      getN (rotateLeftRight t p x c) j = getN t j := by
    intro j hj
    have hj0 := (hbnd j (by simp [hj])).1
    refine hcOther j ?_ ?_ ?_ ?_ ?_ (hjnp j (by simp [hj]))
    · intro hcq
      exact hpnotHead (by rw [← hcq]; exact List.mem_append_left _ hj)
    · intro hcq
      exact hdisjA hj (by rw [hcq]; simp)
    · intro hcq
      exact hdisjA hj (by rw [hcq]; simp)
    · intro hcq
      have hq : ATree.rootIdx B ≠ 0 := by
        rw [← hcq]
        exact hj0
      refine hdisjA hj ?_
      rw [hcq]
      exact List.mem_cons_of_mem _ (List.mem_append_left _ (hlbmemB hq))
    · intro hcq
      have hq : ATree.rootIdx D ≠ 0 := by
        rw [← hcq]
        exact hj0
      refine hdisjA hj ?_
      rw [hcq]
      exact List.mem_cons_of_mem _ (List.mem_append_right _
        (List.mem_cons_of_mem _ (hrbmemD hq)))
  have hBsame : ∀ j ∈ ATree.idxs B, j ≠ ATree.rootIdx B →
      getN (rotateLeftRight t p x c) j = getN t j := by
    intro j hj hjlb
    have hj0 := (hbnd j (by simp [hj])).1
    refine hcOther j ?_ ?_ ?_ hjlb ?_ (hjnp j (by simp [hj]))
    · intro hcq
      refine hpnotHead ?_
      rw [← hcq]
      exact List.mem_append_right _ (List.mem_cons_of_mem _
        (List.mem_append_left _ hj))
    · intro hcq
      exact hxnotBCD (by rw [← hcq]; exact List.mem_append_left _ hj)
    · intro hcq
      exact hdisjB hj (by rw [hcq]; simp)
    · intro hcq
      have hq : ATree.rootIdx D ≠ 0 := by
        rw [← hcq]
        exact hj0
      refine hdisjB hj ?_
      rw [hcq]
      exact List.mem_cons_of_mem _ (hrbmemD hq)
  have hDsame : ∀ j ∈ ATree.idxs D, j ≠ ATree.rootIdx D →
      getN (rotateLeftRight t p x c) j = getN t j := by
    intro j hj hjrb
    have hj0 := (hbnd j (by simp [hj])).1
    refine hcOther j ?_ ?_ ?_ ?_ hjrb (hjnp j (by simp [hj]))
    · intro hcq
      refine hpnotHead ?_
      rw [← hcq]
      exact List.mem_append_right _ (List.mem_cons_of_mem _
        (List.mem_append_right _ (List.mem_cons_of_mem _ hj)))
    · intro hcq
      refine hxnotBCD ?_
      rw [← hcq]
      exact List.mem_append_right _ (List.mem_cons_of_mem _ hj)
    · intro hcq
      exact hcnotD (hcq ▸ hj)
    · intro hcq
      have hq : ATree.rootIdx B ≠ 0 := by
        rw [← hcq]
        exact hj0
      refine hdisjB (hlbmemB hq) ?_
      rw [← hcq]
      exact List.mem_cons_of_mem _ hj
  have hSsame : ∀ j ∈ ATree.idxs S,
      getN (rotateLeftRight t p x c) j = getN t j := by
    intro j hj
    have hj0 := (hbnd j (by simp [hj])).1
    refine hcOther j ?_ ?_ ?_ ?_ ?_ (hjnp j (by simp [hj]))
    · intro hcq
      exact hpnotS (hcq ▸ hj)
    · intro hcq
      exact hdisjH (by simp) (List.mem_cons_of_mem _ (hcq ▸ hj))
    · intro hcq
      exact hdisjH (by simp) (List.mem_cons_of_mem _ (hcq ▸ hj))
    · intro hcq
      have hq : ATree.rootIdx B ≠ 0 := by
        rw [← hcq]
        exact hj0
      exact hdisjH (List.mem_append_right _ (List.mem_cons_of_mem _
        (List.mem_append_left _ (hlbmemB hq))))
        (List.mem_cons_of_mem _ (hcq ▸ hj))
    · intro hcq
      have hq : ATree.rootIdx D ≠ 0 := by
        rw [← hcq]
        exact hj0
      exact hdisjH (List.mem_append_right _ (List.mem_cons_of_mem _
        (List.mem_append_right _ (List.mem_cons_of_mem _ (hrbmemD hq)))))
        (List.mem_cons_of_mem _ (hcq ▸ hj))
  have hlb0ofB : B ≠ .nil → ATree.rootIdx B ≠ 0 := by
    intro hB2
    exact (rep_idxs_bound t B _ c hB _ (ATree.rootIdx_mem B hB2)).1
  have hrb0ofD : D ≠ .nil → ATree.rootIdx D ≠ 0 := by
    intro hD2
    exact (rep_idxs_bound t D _ c hD _ (ATree.rootIdx_mem D hD2)).1
  refine ⟨?_, ?_, by rw [hc00, h0]⟩
  · -- the rotated focus, now rooted at `c`
    refine ⟨rfl, hc0ne, by rw [alloc_rotateLeftRight]; exact hca,
      by rw [hcC2]; exact hCk, by rw [hcC2]; exact hCv,
      by rw [hcC2]; exact hCp, by rw [hcC2], by rw [hcC2]; exact hCrm, ?_, ?_⟩
    · -- left: the old inner node `x` with the transferred subtree `B`
      rw [hcC2]
      show Rep (rotateLeftRight t p x c) (ATree.node x kx vx px A B) x c
      refine ⟨rfl, hx0, by rw [alloc_rotateLeftRight]; exact hxa,
        by rw [hcX2]; exact hXk, by rw [hcX2]; exact hXv,
        by rw [hcX2]; exact hXp, by rw [hcX2], by rw [hcX2]; exact hXrm, ?_, ?_⟩
      · rw [hcX2]
        show Rep (rotateLeftRight t p x c) A (getN t x).left x
        exact rep_mono t _ A _ _ hAsame halloc hA
      · rw [hcX2]
        show Rep (rotateLeftRight t p x c) B (ATree.rootIdx B) x
        refine rep_reparent t _ B (ATree.rootIdx B) c x (hlbE ▸ hB) hndB
          (fun hB2 => hcLB (hlb0ofB hB2)) hBsame halloc
    · -- right: the old focus `p` with the transferred subtree `D`
      rw [hcC2]
      show Rep (rotateLeftRight t p x c) (ATree.node p kp vp pp2 D S) p c
      refine ⟨rfl, hp0, by rw [alloc_rotateLeftRight]; exact hpa,
        by rw [hcP]; exact hPk, by rw [hcP]; exact hPv,
        by rw [hcP]; exact hPp, by rw [hcP], by rw [hcP]; exact hPrm, ?_, ?_⟩
      · rw [hcP]
        show Rep (rotateLeftRight t p x c) D (ATree.rootIdx D) p
        refine rep_reparent t _ D (ATree.rootIdx D) c p (hrbE ▸ hD) hndD
          (fun hD2 => hcRB (hrb0ofD hD2)) hDsame halloc
      · rw [hcP]
        show Rep (rotateLeftRight t p x c) S (getN t p).right p
        exact rep_mono t _ S _ _ hSsame halloc hS
  · -- the retargeted context
    refine repC_retarget t _ ctx p c hp hcx ?_ ?_ ?_ halloc ?_ ?_ ?_ ?_
    · intro j hj hjhp
      by_cases hj0 : j = 0
      · rw [hj0]
        exact hc00
      · refine hcOther j ?_ ?_ ?_ ?_ ?_ hjhp
        · intro hcq
          rcases hj with hj | hj
          · exact (hout p hmemp).1 (hcq ▸ hj)
          · exact (hout p hmemp).2 (hcq ▸ hj)
        · intro hcq
          rcases hj with hj | hj
          · exact (hout x hmemx).1 (hcq ▸ hj)
          · exact (hout x hmemx).2 (hcq ▸ hj)
        · intro hcq
          rcases hj with hj | hj
          · exact (hout c hmemc).1 (hcq ▸ hj)
          · exact (hout c hmemc).2 (hcq ▸ hj)
        · intro hcq
          have hlbne : ATree.rootIdx B ≠ 0 := by
            rw [← hcq]
            exact hj0
          rcases hj with hj | hj
          · exact (hout _ (hlbmemL hlbne)).1 (hcq ▸ hj)
          · exact (hout _ (hlbmemL hlbne)).2 (hcq ▸ hj)
        · intro hcq
          have hrbne : ATree.rootIdx D ≠ 0 := by
            rw [← hcq]
            exact hj0
          rcases hj with hj | hj
          · exact (hout _ (hrbmemL hrbne)).1 (hcq ▸ hj)
          · exact (hout _ (hrbmemL hrbne)).2 (hcq ▸ hj)
    · intro i2 k2 v2 p2 ctx2 r2 hceq
      subst hceq
      exact plug_head_fresh_left ctx2 i2 k2 v2 p2 _ r2 hnd
    · intro i2 k2 v2 p2 l2 ctx2 hceq
      subst hceq
      exact plug_head_fresh_right ctx2 i2 k2 v2 p2 _ l2 hnd
    · intro hceq
      subst hceq
      obtain ⟨_, hhp0⟩ := hcx
      exact (hcTop hhp0).1
    · intro hne
      rcases hhpfacts with ⟨hceq, _⟩ | ⟨h1, _⟩
      · exact absurd hceq hne
      · exact ((hcDeep h1).1).symm
    · intro i2 k2 v2 p2 ctx2 r2 hceq
      subst hceq
      obtain ⟨h1, h2, h3, h4, h5, h6, h7, h8, h9, h10⟩ := hcx
      have hcell := (hcDeep (by rw [h1]; exact h2)).2
      rw [← h1]
      rw [hcell, if_pos (by rw [h1]; exact h8)]
    · intro i2 k2 v2 p2 l2 ctx2 hceq
      subst hceq
      obtain ⟨h1, h2, h3, h4, h5, h6, h7, h8, h9, h10⟩ := hcx
      have hcell := (hcDeep (by rw [h1]; exact h2)).2
      have hlne : (getN t i2).left ≠ p := by
        have hroot2 := rep_rootIdx t l2 _ i2 h9
        intro hcq
        cases hl2c : l2 with
        | nil =>
          rw [hl2c] at hroot2
          rw [hroot2] at hcq
          exact hp0 hcq.symm
        | node bb kk vv ppq ll rr =>
          have hmem2 : (getN t i2).left ∈ ATree.idxs l2 := by
            rw [hroot2]
            exact ATree.rootIdx_mem l2 (by rw [hl2c]; intro h2q; cases h2q)
          refine (hout p hmemp).1 ?_
          rw [← hcq]
          simp only [Ctx.pre, List.mem_append]
          exact Or.inl (Or.inr hmem2)
      rw [← h1]
      rw [hcell, if_neg (by rw [h1]; exact hlne)]

/-- Cell-level effect of `rotateRightLeft t p x c` (`x` the right child
of `p`, `c` the left child of `x`): `c` rises above both, `p` adopts
`c`'s left subtree, `x` adopts `c`'s right subtree, and no other cell
moves. -/
theorem rotateRightLeft_cells (t : Tree) (p x c lb rb pp : Nat)
    (hrb : (getN t c).right = rb) (hlb : (getN t c).left = lb)
    (hpp : (getN t p).parent = pp)
    (hp0 : p ≠ 0) (hx0 : x ≠ 0) (hc0 : c ≠ 0)
    (hpx : p ≠ x) (hpc : p ≠ c) (hxc : x ≠ c)
    (hplb : p ≠ lb) (hxlb : x ≠ lb) (hclb : c ≠ lb)
    (hprb : p ≠ rb) (hxrb : x ≠ rb) (hcrb : c ≠ rb)
    (hlbrb : lb ≠ 0 → rb ≠ 0 → lb ≠ rb)
    (hppp : pp ≠ p) (hppx : pp ≠ x) (hppc : pp ≠ c)
    (hpplb : pp ≠ 0 → lb ≠ 0 → pp ≠ lb)
    (hpprb : pp ≠ 0 → rb ≠ 0 → pp ≠ rb) :
    getN (rotateRightLeft t p x c) p = { getN t p with right := lb, parent := c } ∧
    getN (rotateRightLeft t p x c) x = { getN t x with left := rb, parent := c } ∧
    getN (rotateRightLeft t p x c) c =
      { getN t c with parent := pp, left := p, right := x } ∧
    (lb ≠ 0 → getN (rotateRightLeft t p x c) lb = { getN t lb with parent := p }) ∧
    (rb ≠ 0 → getN (rotateRightLeft t p x c) rb = { getN t rb with parent := x }) ∧
    (∀ j, j ≠ p → j ≠ x → j ≠ c → j ≠ lb → j ≠ rb → j ≠ pp →
      getN (rotateRightLeft t p x c) j = getN t j) ∧
    getN (rotateRightLeft t p x c) 0 = getN t 0 ∧
    (pp = 0 → (rotateRightLeft t p x c).root = c ∧
      (∀ j, j ≠ p → j ≠ x → j ≠ c → j ≠ lb → j ≠ rb →
        getN (rotateRightLeft t p x c) j = getN t j)) ∧
    (pp ≠ 0 → (rotateRightLeft t p x c).root = t.root ∧
      getN (rotateRightLeft t p x c) pp =
        (if (getN t pp).left = p then { getN t pp with left := c }
         else { getN t pp with right := c })) := by
  have hrl : rotateRightLeft t p x c =
      (let t1 := if pp = 0 then { t with root := c }
        else if (getN t pp).left = p then setLeft t pp c else setRight t pp c
      let t2 := setParent t1 c pp
      let t3 := setRight t2 p (getN t2 c).left
      let t4 := if (getN t3 c).left ≠ 0 then setParent t3 (getN t3 c).left p else t3
      let t5 := setLeft t4 x (getN t4 c).right
      let t6 := if (getN t5 c).right ≠ 0 then setParent t5 (getN t5 c).right x else t5
      let t7 := setLeft t6 c p
      let t8 := setParent t7 p c
      let t9 := setRight t8 c x
      setParent t9 x c) := by
    rw [rotateRightLeft, hpp]
  rw [hrl]
  dsimp only
  have ht1cells : ∀ j, j ≠ pp →
      getN (if pp = 0 then { t with root := c }
        else if (getN t pp).left = p then setLeft t pp c else setRight t pp c) j
        = getN t j := by
    intro j hj
    split_ifs with h1 h2
    · exact getN_setRoot t c j
    · exact cell_setLeft_ne _ _ _ _ hj
    · exact cell_setRight_ne _ _ _ _ hj
  set t1 := if pp = 0 then { t with root := c }
    else if (getN t pp).left = p then setLeft t pp c else setRight t pp c with ht1
  have ht1p : getN t1 p = getN t p := ht1cells p (Ne.symm hppp)
  have ht1x : getN t1 x = getN t x := ht1cells x (Ne.symm hppx)
  have ht1c : getN t1 c = getN t c := ht1cells c (Ne.symm hppc)
  set t2 := setParent t1 c pp with ht2
  have ht2c : getN t2 c = { getN t c with parent := pp } := by
    rw [ht2, cell_setParent_self, ht1c]
  have ht2p : getN t2 p = getN t p := by
    rw [ht2, cell_setParent_ne _ _ _ _ hpc, ht1p]
  have ht2x : getN t2 x = getN t x := by
    rw [ht2, cell_setParent_ne _ _ _ _ hxc, ht1x]
  have ht2cl : (getN t2 c).left = lb := by
    rw [ht2c]
    exact hlb
  set t3 := setRight t2 p (getN t2 c).left with ht3
  have ht3p : getN t3 p = { getN t p with right := lb } := by
    rw [ht3, cell_setRight_self, ht2p, ht2cl]
  have ht3c : getN t3 c = { getN t c with parent := pp } := by
    rw [ht3, cell_setRight_ne _ _ _ _ (Ne.symm hpc), ht2c]
  have ht3x : getN t3 x = getN t x := by
    rw [ht3, cell_setRight_ne _ _ _ _ (Ne.symm hpx), ht2x]
  have ht3cl : (getN t3 c).left = lb := by
    rw [ht3c]
    exact hlb
  set t4 := if (getN t3 c).left ≠ 0 then setParent t3 (getN t3 c).left p else t3
    with ht4
  have ht4p : getN t4 p = { getN t p with right := lb } := by
    rw [ht4]
    split_ifs with h1
    · rw [ht3cl] at h1 ⊢
      rw [cell_setParent_ne _ _ _ _ hplb, ht3p]
    · exact ht3p
  have ht4c : getN t4 c = { getN t c with parent := pp } := by
    rw [ht4]
    split_ifs with h1
    · rw [ht3cl] at h1 ⊢
      rw [cell_setParent_ne _ _ _ _ hclb, ht3c]
    · exact ht3c
  have ht4x : getN t4 x = getN t x := by
    rw [ht4]
    split_ifs with h1
    · rw [ht3cl] at h1 ⊢
      rw [cell_setParent_ne _ _ _ _ hxlb, ht3x]
    · exact ht3x
  have ht4cr : (getN t4 c).right = rb := by
    rw [ht4c]
    exact hrb
  set t5 := setLeft t4 x (getN t4 c).right with ht5
  have ht5x : getN t5 x = { getN t x with left := rb } := by
    rw [ht5, cell_setLeft_self, ht4x, ht4cr]
  have ht5p : getN t5 p = { getN t p with right := lb } := by
    rw [ht5, cell_setLeft_ne _ _ _ _ hpx, ht4p]
  have ht5c : getN t5 c = { getN t c with parent := pp } := by
    rw [ht5, cell_setLeft_ne _ _ _ _ (Ne.symm hxc), ht4c]
  have ht5cr : (getN t5 c).right = rb := by
    rw [ht5c]
    exact hrb
  set t6 := if (getN t5 c).right ≠ 0 then setParent t5 (getN t5 c).right x else t5
    with ht6
  have ht6p : getN t6 p = { getN t p with right := lb } := by
    rw [ht6]
    split_ifs with h1
    · rw [ht5cr] at h1 ⊢
      rw [cell_setParent_ne _ _ _ _ hprb, ht5p]
    · exact ht5p
  have ht6x : getN t6 x = { getN t x with left := rb } := by
    rw [ht6]
    split_ifs with h1
    · rw [ht5cr] at h1 ⊢
      rw [cell_setParent_ne _ _ _ _ hxrb, ht5x]
    · exact ht5x
  have ht6c : getN t6 c = { getN t c with parent := pp } := by
    rw [ht6]
    split_ifs with h1
    · rw [ht5cr] at h1 ⊢
      rw [cell_setParent_ne _ _ _ _ hcrb, ht5c]
    · exact ht5c
  set t7 := setLeft t6 c p with ht7
  have ht7c : getN t7 c = { getN t c with parent := pp, left := p } := by
    rw [ht7, cell_setLeft_self, ht6c]
  have ht7p : getN t7 p = { getN t p with right := lb } := by
    rw [ht7, cell_setLeft_ne _ _ _ _ hpc, ht6p]
  have ht7x : getN t7 x = { getN t x with left := rb } := by
    rw [ht7, cell_setLeft_ne _ _ _ _ hxc, ht6x]
  set t8 := setParent t7 p c with ht8
  have ht8p : getN t8 p = { getN t p with right := lb, parent := c } := by
    rw [ht8, cell_setParent_self, ht7p]
  have ht8x : getN t8 x = { getN t x with left := rb } := by
    rw [ht8, cell_setParent_ne _ _ _ _ (Ne.symm hpx), ht7x]
  have ht8c : getN t8 c = { getN t c with parent := pp, left := p } := by
    rw [ht8, cell_setParent_ne _ _ _ _ (Ne.symm hpc), ht7c]
  set t9 := setRight t8 c x with ht9
  have ht9c : getN t9 c = { getN t c with parent := pp, left := p, right := x } := by
    rw [ht9, cell_setRight_self, ht8c]
  have ht9p : getN t9 p = { getN t p with right := lb, parent := c } := by
    rw [ht9, cell_setRight_ne _ _ _ _ hpc, ht8p]
  have ht9x : getN t9 x = { getN t x with left := rb } := by
    rw [ht9, cell_setRight_ne _ _ _ _ hxc, ht8x]
  refine ⟨?_, ?_, ?_, ?_, ?_, ?_, ?_, ?_, ?_⟩
  · rw [cell_setParent_ne _ _ _ _ hpx, ht9p]
  · rw [cell_setParent_self, ht9x]
  · rw [cell_setParent_ne _ _ _ _ (Ne.symm hxc), ht9c]
  · intro hlb0
    have hlbpp : lb ≠ pp := by
      by_cases hq : pp = 0
      · rw [hq]
        exact hlb0
      · exact fun hc2 => (hpplb hq hlb0) hc2.symm
    rw [cell_setParent_ne _ _ _ _ (Ne.symm hxlb),
      ht9, cell_setRight_ne _ _ _ _ (Ne.symm hclb),
      ht8, cell_setParent_ne _ _ _ _ (Ne.symm hplb),
      ht7, cell_setLeft_ne _ _ _ _ (Ne.symm hclb), ht6]
    have h6 : getN (if (getN t5 c).right ≠ 0 then setParent t5 (getN t5 c).right x
        else t5) lb = getN t5 lb := by
      split_ifs with h1
      · rw [ht5cr] at h1 ⊢
        exact cell_setParent_ne _ _ _ _ (hlbrb hlb0 h1)
      · rfl
    rw [h6, ht5, cell_setLeft_ne _ _ _ _ (Ne.symm hxlb), ht4]
    rw [if_pos (by rw [ht3cl]; exact hlb0), ht3cl, cell_setParent_self,
      ht3, cell_setRight_ne _ _ _ _ (Ne.symm hplb),
      ht2, cell_setParent_ne _ _ _ _ (Ne.symm hclb)]
    rw [ht1cells lb hlbpp]
  · intro hrb0
    have hrbpp : rb ≠ pp := by
      by_cases hq : pp = 0
      · rw [hq]
        exact hrb0
      · exact fun hc2 => (hpprb hq hrb0) hc2.symm
    rw [cell_setParent_ne _ _ _ _ (Ne.symm hxrb),
      ht9, cell_setRight_ne _ _ _ _ (Ne.symm hcrb),
      ht8, cell_setParent_ne _ _ _ _ (Ne.symm hprb),
      ht7, cell_setLeft_ne _ _ _ _ (Ne.symm hcrb), ht6]
    rw [if_pos (by rw [ht5cr]; exact hrb0), ht5cr, cell_setParent_self,
      ht5, cell_setLeft_ne _ _ _ _ (Ne.symm hxrb), ht4]
    have h4 : getN (if (getN t3 c).left ≠ 0 then setParent t3 (getN t3 c).left p
        else t3) rb = getN t3 rb := by
      split_ifs with h1
      · rw [ht3cl] at h1 ⊢
        exact cell_setParent_ne _ _ _ _ (Ne.symm (hlbrb h1 hrb0))
      · rfl
    rw [h4, ht3, cell_setRight_ne _ _ _ _ (Ne.symm hprb),
      ht2, cell_setParent_ne _ _ _ _ (Ne.symm hcrb)]
    rw [ht1cells rb hrbpp]
  · intro j hjp hjx hjc hjlb hjrb hjpp
    rw [cell_setParent_ne _ _ _ _ hjx, ht9, cell_setRight_ne _ _ _ _ hjc,
      ht8, cell_setParent_ne _ _ _ _ hjp,
      ht7, cell_setLeft_ne _ _ _ _ hjc, ht6]
    have h6 : getN (if (getN t5 c).right ≠ 0 then setParent t5 (getN t5 c).right x
        else t5) j = getN t5 j := by
      split_ifs with h1
      · rw [ht5cr]
        exact cell_setParent_ne _ _ _ _ hjrb
      · rfl
    rw [h6, ht5, cell_setLeft_ne _ _ _ _ hjx, ht4]
    have h4 : getN (if (getN t3 c).left ≠ 0 then setParent t3 (getN t3 c).left p
        else t3) j = getN t3 j := by
      split_ifs with h1
      · rw [ht3cl]
        exact cell_setParent_ne _ _ _ _ hjlb
      · rfl
    rw [h4, ht3, cell_setRight_ne _ _ _ _ hjp, ht2,
      cell_setParent_ne _ _ _ _ hjc]
    exact ht1cells j hjpp
  · rw [cell_setParent_ne _ _ _ _ (Ne.symm hx0), ht9,
      cell_setRight_ne _ _ _ _ (Ne.symm hc0), ht8,
      cell_setParent_ne _ _ _ _ (Ne.symm hp0), ht7,
      cell_setLeft_ne _ _ _ _ (Ne.symm hc0), ht6]
    have h6 : getN (if (getN t5 c).right ≠ 0 then setParent t5 (getN t5 c).right x
        else t5) 0 = getN t5 0 := by
      split_ifs with h1
      · rw [ht5cr] at h1 ⊢
        exact cell_setParent_ne _ _ _ _ (Ne.symm h1)
      · rfl
    rw [h6, ht5, cell_setLeft_ne _ _ _ _ (Ne.symm hx0), ht4]
    have h4 : getN (if (getN t3 c).left ≠ 0 then setParent t3 (getN t3 c).left p
        else t3) 0 = getN t3 0 := by
      split_ifs with h1
      · rw [ht3cl] at h1 ⊢
        exact cell_setParent_ne _ _ _ _ (Ne.symm h1)
      · rfl
    rw [h4, ht3, cell_setRight_ne _ _ _ _ (Ne.symm hp0), ht2,
      cell_setParent_ne _ _ _ _ (Ne.symm hc0), ht1]
    split_ifs with h1 h2
    · rfl
    · exact cell_setLeft_ne _ _ _ _ (fun hc2 => h1 hc2.symm)
    · exact cell_setRight_ne _ _ _ _ (fun hc2 => h1 hc2.symm)
  · intro hpp0
    have h97 : t9.root = t7.root := by
      rw [ht9, ht8]
      rfl
    have h75 : t7.root = t5.root := by
      rw [ht7, ht6]
      split_ifs <;> rfl
    have h53 : t5.root = t3.root := by
      rw [ht5, ht4]
      split_ifs <;> rfl
    constructor
    · show (setParent t9 x c).root = c
      rw [show (setParent t9 x c).root = t9.root from rfl, h97, h75, h53,
        show t3.root = t1.root from rfl, ht1, if_pos hpp0]
    · intro j hjp hjx hjc hjlb hjrb
      rw [cell_setParent_ne _ _ _ _ hjx, ht9, cell_setRight_ne _ _ _ _ hjc,
        ht8, cell_setParent_ne _ _ _ _ hjp,
        ht7, cell_setLeft_ne _ _ _ _ hjc, ht6]
      have h6 : getN (if (getN t5 c).right ≠ 0 then setParent t5 (getN t5 c).right x
          else t5) j = getN t5 j := by
        split_ifs with h1
        · rw [ht5cr]
          exact cell_setParent_ne _ _ _ _ hjrb
        · rfl
      rw [h6, ht5, cell_setLeft_ne _ _ _ _ hjx, ht4]
      have h4 : getN (if (getN t3 c).left ≠ 0 then setParent t3 (getN t3 c).left p
          else t3) j = getN t3 j := by
        split_ifs with h1
        · rw [ht3cl]
          exact cell_setParent_ne _ _ _ _ hjlb
        · rfl
      rw [h4, ht3, cell_setRight_ne _ _ _ _ hjp, ht2,
        cell_setParent_ne _ _ _ _ hjc, ht1, if_pos hpp0]
      rfl
  · intro hpp0
    have h97 : t9.root = t7.root := by
      rw [ht9, ht8]
      rfl
    have h75 : t7.root = t5.root := by
      rw [ht7, ht6]
      split_ifs <;> rfl
    have h53 : t5.root = t3.root := by
      rw [ht5, ht4]
      split_ifs <;> rfl
    constructor
    · show (setParent t9 x c).root = t.root
      rw [show (setParent t9 x c).root = t9.root from rfl, h97, h75, h53,
        show t3.root = t1.root from rfl, ht1, if_neg hpp0]
      split_ifs <;> rfl
    · rw [cell_setParent_ne _ _ _ _ hppx, ht9,
        cell_setRight_ne _ _ _ _ hppc, ht8,
        cell_setParent_ne _ _ _ _ hppp, ht7,
        cell_setLeft_ne _ _ _ _ hppc, ht6]
      have h6 : getN (if (getN t5 c).right ≠ 0 then setParent t5 (getN t5 c).right x
          else t5) pp = getN t5 pp := by
        split_ifs with h1
        · rw [ht5cr] at h1 ⊢
          exact cell_setParent_ne _ _ _ _ (hpprb hpp0 h1)
        · rfl
      rw [h6, ht5, cell_setLeft_ne _ _ _ _ hppx, ht4]
      have h4 : getN (if (getN t3 c).left ≠ 0 then setParent t3 (getN t3 c).left p
          else t3) pp = getN t3 pp := by
        split_ifs with h1
        · rw [ht3cl] at h1 ⊢
          exact cell_setParent_ne _ _ _ _ (hpplb hpp0 h1)
        · rfl
      rw [h4, ht3, cell_setRight_ne _ _ _ _ hppp, ht2,
        cell_setParent_ne _ _ _ _ hppc, ht1, if_neg hpp0]
      split_ifs with h2
      · rw [cell_setLeft_self]
      · rw [cell_setRight_self]

/-- `rotateRightLeft` on a represented focus: the left child `c` of
the focus's right child `x` rises above both; the focus adopts `c`'s
left subtree, `x` adopts `c`'s right subtree, and the context is
retargeted to `c`. -/
theorem rotateRightLeft_rep (t : Tree) (ctx : Ctx) (hp : Nat)
    (p x c : Nat) (kp vp pp2 kx vx px kc vc pc : Int) (S B D A : ATree)
    (hrep : Rep t (ATree.node p kp vp pp2 S
      (ATree.node x kx vx px (ATree.node c kc vc pc B D) A)) p hp)
    (hcx : RepC t ctx p hp)
    (hnd : (ATree.idxs (Ctx.plug ctx (ATree.node p kp vp pp2 S
      (ATree.node x kx vx px (ATree.node c kc vc pc B D) A)))).Nodup)
    (h0 : getN t 0 = nilNode) :
    Rep (rotateRightLeft t p x c)
      (ATree.node c kc vc pc (ATree.node p kp vp pp2 S B)
        (ATree.node x kx vx px D A)) c hp ∧
    RepC (rotateRightLeft t p x c) ctx c hp ∧
    getN (rotateRightLeft t p x c) 0 = nilNode := by
  obtain ⟨_, hp0, hpa, hPk, hPv, hPp, hPpar, hPrm, hS, hX⟩ := hrep
  obtain ⟨hprx, hx0, hxa, hXk, hXv, hXp, hXpar, hXrm, hcC, hA⟩ := hX
  obtain ⟨hxlc, hc0ne, hca, hCk, hCv, hCp, hCpar, hCrm, hB, hD⟩ := hcC
  have hlbE : (getN t c).left = ATree.rootIdx B := rep_rootIdx t B _ c hB
  have hrbE : (getN t c).right = ATree.rootIdx D := rep_rootIdx t D _ c hD
  obtain ⟨hndsub, hout⟩ := plug_nodup_parts ctx _ hnd
  have hbnd := rep_idxs_bound t (ATree.node p kp vp pp2 S
    (ATree.node x kx vx px (ATree.node c kc vc pc B D) A)) p hp
    ⟨rfl, hp0, hpa, hPk, hPv, hPp, hPpar, hPrm, hS,
      ⟨hprx, hx0, hxa, hXk, hXv, hXp, hXpar, hXrm,
        ⟨hxlc, hc0ne, hca, hCk, hCv, hCp, hCpar, hCrm, hB, hD⟩, hA⟩⟩
  simp only [ATree.idxs_node] at hndsub
  -- shape: idxs S ++ p :: ((idxs B ++ c :: idxs D) ++ x :: idxs A)
  have hndrest := (List.nodup_append.mp hndsub).2.1
  have hdisjS := (List.nodup_append.mp hndsub).2.2
  have hpnotT : p ∉ (ATree.idxs B ++ c :: ATree.idxs D) ++ x :: ATree.idxs A :=
    (List.nodup_cons.mp hndrest).1
  have hndT := (List.nodup_cons.mp hndrest).2
  have hndBCD := (List.nodup_append.mp hndT).1
  have hndxA := (List.nodup_append.mp hndT).2.1
  have hdisjBCD := (List.nodup_append.mp hndT).2.2
  have hndB := (List.nodup_append.mp hndBCD).1
  have hndcD := (List.nodup_append.mp hndBCD).2.1
  have hdisjB := (List.nodup_append.mp hndBCD).2.2
  have hcnotD : c ∉ ATree.idxs D := (List.nodup_cons.mp hndcD).1
  have hndD := (List.nodup_cons.mp hndcD).2
  have hxnotA : x ∉ ATree.idxs A := (List.nodup_cons.mp hndxA).1
  have hlbmemB : ATree.rootIdx B ≠ 0 → ATree.rootIdx B ∈ ATree.idxs B := by
    intro hq
    cases hBc : B with
    | nil =>
      exfalso
      rw [hBc] at hq
      exact hq rfl
    | node bb kk vv ppq ll rr =>
      exact ATree.rootIdx_mem _ (by intro h2; cases h2)
  have hrbmemD : ATree.rootIdx D ≠ 0 → ATree.rootIdx D ∈ ATree.idxs D := by
    intro hq
    cases hDc : D with
    | nil =>
      exfalso
      rw [hDc] at hq
      exact hq rfl
    | node bb kk vv ppq ll rr =>
      exact ATree.rootIdx_mem _ (by intro h2; cases h2)
  have hpx : p ≠ x := fun hcq => hpnotT (by rw [hcq]; simp)
  have hpc : p ≠ c := fun hcq => hpnotT (by rw [hcq]; simp)
  have hcmemBCD : c ∈ ATree.idxs B ++ c :: ATree.idxs D := by simp
  have hxc : x ≠ c := by
    intro hcq
    exact hdisjBCD hcmemBCD (by rw [← hcq]; simp)
  have hplb : p ≠ ATree.rootIdx B := by
    by_cases hq : ATree.rootIdx B = 0
    · rw [hq]
      exact hp0
    · intro hcq
      refine hpnotT ?_
      rw [hcq]
      exact List.mem_append_left _ (List.mem_append_left _ (hlbmemB hq))
  have hxlb : x ≠ ATree.rootIdx B := by
    by_cases hq : ATree.rootIdx B = 0
    · rw [hq]
      exact hx0
    · intro hcq
      exact hdisjBCD (List.mem_append_left _ (hlbmemB hq))
        (by rw [← hcq]; simp)
  have hclb : c ≠ ATree.rootIdx B := by
    by_cases hq : ATree.rootIdx B = 0
    · rw [hq]
      exact hc0ne
    · intro hcq
      exact hdisjB (hlbmemB hq) (by rw [← hcq]; simp)
  have hprb : p ≠ ATree.rootIdx D := by
    by_cases hq : ATree.rootIdx D = 0
    · rw [hq]
      exact hp0
    · intro hcq
      refine hpnotT ?_
      rw [hcq]
      exact List.mem_append_left _ (List.mem_append_right _
        (List.mem_cons_of_mem _ (hrbmemD hq)))
  have hxrb : x ≠ ATree.rootIdx D := by
    by_cases hq : ATree.rootIdx D = 0
    · rw [hq]
      exact hx0
    · intro hcq
      exact hdisjBCD (List.mem_append_right _
        (List.mem_cons_of_mem _ (hrbmemD hq))) (by rw [← hcq]; simp)
  have hcrb : c ≠ ATree.rootIdx D := by
    by_cases hq : ATree.rootIdx D = 0
    · rw [hq]
      exact hc0ne
    · intro hcq
      refine hcnotD ?_
      rw [hcq]
      exact hrbmemD hq
  have hlbrb : ATree.rootIdx B ≠ 0 → ATree.rootIdx D ≠ 0 →
      ATree.rootIdx B ≠ ATree.rootIdx D := by
    intro h1 h2 hcq
    exact hdisjB (hlbmemB h1)
      (by rw [hcq]; exact List.mem_cons_of_mem _ (hrbmemD h2))
  have hmemp : p ∈ ATree.idxs S ++
      p :: ((ATree.idxs B ++ c :: ATree.idxs D) ++ x :: ATree.idxs A) := by simp
  have hmemx : x ∈ ATree.idxs S ++
      p :: ((ATree.idxs B ++ c :: ATree.idxs D) ++ x :: ATree.idxs A) := by simp
  have hmemc : c ∈ ATree.idxs S ++
      p :: ((ATree.idxs B ++ c :: ATree.idxs D) ++ x :: ATree.idxs A) := by simp
  have hlbmemL : ATree.rootIdx B ≠ 0 → ATree.rootIdx B ∈ ATree.idxs S ++
      p :: ((ATree.idxs B ++ c :: ATree.idxs D) ++ x :: ATree.idxs A) := by
    intro hq
    exact List.mem_append_right _ (List.mem_cons_of_mem _
      (List.mem_append_left _ (List.mem_append_left _ (hlbmemB hq))))
  have hrbmemL : ATree.rootIdx D ≠ 0 → ATree.rootIdx D ∈ ATree.idxs S ++
      p :: ((ATree.idxs B ++ c :: ATree.idxs D) ++ x :: ATree.idxs A) := by
    intro hq
    exact List.mem_append_right _ (List.mem_cons_of_mem _
      (List.mem_append_left _ (List.mem_append_right _
        (List.mem_cons_of_mem _ (hrbmemD hq)))))
  have hhpfacts := repC_hp_mem t ctx p hp hcx
  have hnpp : hp ≠ p := by
    rcases hhpfacts with ⟨_, h1⟩ | ⟨h1, h2⟩
    · rw [h1]
      exact fun hcq => hp0 hcq.symm
    · intro hcq
      rcases h2 with h2 | h2
      · exact (hout p hmemp).1 (hcq ▸ h2)
      · exact (hout p hmemp).2 (hcq ▸ h2)
  have hnpx : hp ≠ x := by
    rcases hhpfacts with ⟨_, h1⟩ | ⟨h1, h2⟩
    · rw [h1]
      exact fun hcq => hx0 hcq.symm
    · intro hcq
      rcases h2 with h2 | h2
      · exact (hout x hmemx).1 (hcq ▸ h2)
      · exact (hout x hmemx).2 (hcq ▸ h2)
  have hnpc : hp ≠ c := by
    rcases hhpfacts with ⟨_, h1⟩ | ⟨h1, h2⟩
    · rw [h1]
      exact fun hcq => hc0ne hcq.symm
    · intro hcq
      rcases h2 with h2 | h2
      · exact (hout c hmemc).1 (hcq ▸ h2)
      · exact (hout c hmemc).2 (hcq ▸ h2)
  have hnplb : hp ≠ 0 → ATree.rootIdx B ≠ 0 → hp ≠ ATree.rootIdx B := by
    intro hhp0 hlb0 hcq
    rcases hhpfacts with ⟨_, h1⟩ | ⟨h1, h2⟩
    · exact hhp0 h1
    · rcases h2 with h2 | h2
      · exact (hout _ (hlbmemL hlb0)).1 (hcq ▸ h2)
      · exact (hout _ (hlbmemL hlb0)).2 (hcq ▸ h2)
  have hnprb : hp ≠ 0 → ATree.rootIdx D ≠ 0 → hp ≠ ATree.rootIdx D := by
    intro hhp0 hrb0 hcq
    rcases hhpfacts with ⟨_, h1⟩ | ⟨h1, h2⟩
    · exact hhp0 h1
    · rcases h2 with h2 | h2
      · exact (hout _ (hrbmemL hrb0)).1 (hcq ▸ h2)
      · exact (hout _ (hrbmemL hrb0)).2 (hcq ▸ h2)
  obtain ⟨hcP, hcX2, hcC2, hcLB, hcRB, hcOther, hc00, hcTop, hcDeep⟩ :=
    rotateRightLeft_cells t p x c (ATree.rootIdx B) (ATree.rootIdx D) hp
      hrbE hlbE hPpar hp0 hx0 hc0ne hpx hpc hxc hplb hxlb hclb
      hprb hxrb hcrb hlbrb hnpp hnpx hnpc hnplb hnprb
  have halloc : t.alloc ≤ (rotateRightLeft t p x c).alloc := by
    rw [alloc_rotateRightLeft]
  have hjnp : ∀ j, j ∈ ATree.idxs S ++
      p :: ((ATree.idxs B ++ c :: ATree.idxs D) ++ x :: ATree.idxs A) →
      j ≠ hp := by
    intro j hj hcq
    rcases hhpfacts with ⟨_, h1⟩ | ⟨h1, h2⟩
    · have hj0 := (hbnd j hj).1
      rw [h1] at hcq
      exact hj0 hcq
    · rcases h2 with h2 | h2
      · exact (hout j hj).1 (hcq ▸ h2)
      · exact (hout j hj).2 (hcq ▸ h2)
  -- cells of the four carried subtrees are untouched
  have hSsame : ∀ j ∈ ATree.idxs S,
      getN (rotateRightLeft t p x c) j = getN t j := by
    intro j hj
    have hj0 := (hbnd j (by simp [hj])).1
    refine hcOther j ?_ ?_ ?_ ?_ ?_ (hjnp j (by simp [hj]))
    · intro hcq
      exact hdisjS hj (by rw [hcq]; simp)
    · intro hcq
      exact hdisjS hj (by rw [hcq]; simp)
    · intro hcq
      exact hdisjS hj (by rw [hcq]; simp)
    · intro hcq
      have hq : ATree.rootIdx B ≠ 0 := by
        rw [← hcq]
        exact hj0
      refine hdisjS hj ?_
      rw [hcq]
      exact List.mem_cons_of_mem _ (List.mem_append_left _
        (List.mem_append_left _ (hlbmemB hq)))
    · intro hcq
      have hq : ATree.rootIdx D ≠ 0 := by
        rw [← hcq]
        exact hj0
      refine hdisjS hj ?_
      rw [hcq]
      exact List.mem_cons_of_mem _ (List.mem_append_left _
        (List.mem_append_right _ (List.mem_cons_of_mem _ (hrbmemD hq))))
  have hBsame : ∀ j ∈ ATree.idxs B, j ≠ ATree.rootIdx B →
      getN (rotateRightLeft t p x c) j = getN t j := by
    intro j hj hjlb
    have hj0 := (hbnd j (by simp [hj])).1
    refine hcOther j ?_ ?_ ?_ hjlb ?_ (hjnp j (by simp [hj]))
    · intro hcq
      refine hpnotT ?_
      rw [← hcq]
      exact List.mem_append_left _ (List.mem_append_left _ hj)
    · intro hcq
      exact hdisjBCD (List.mem_append_left _ hj) (by rw [hcq]; simp)
    · intro hcq
      exact hdisjB hj (by rw [hcq]; simp)
    · intro hcq
      have hq : ATree.rootIdx D ≠ 0 := by
        rw [← hcq]
        exact hj0
      refine hdisjB hj ?_
      rw [hcq]
      exact List.mem_cons_of_mem _ (hrbmemD hq)
  have hDsame : ∀ j ∈ ATree.idxs D, j ≠ ATree.rootIdx D →
      getN (rotateRightLeft t p x c) j = getN t j := by
    intro j hj hjrb
    have hj0 := (hbnd j (by simp [hj])).1
    refine hcOther j ?_ ?_ ?_ ?_ hjrb (hjnp j (by simp [hj]))
    · intro hcq
      refine hpnotT ?_
      rw [← hcq]
      exact List.mem_append_left _ (List.mem_append_right _
        (List.mem_cons_of_mem _ hj))
    · intro hcq
      exact hdisjBCD (List.mem_append_right _ (List.mem_cons_of_mem _ hj))
        (by rw [hcq]; simp)
    · intro hcq
      exact hcnotD (hcq ▸ hj)
    · intro hcq
      have hq : ATree.rootIdx B ≠ 0 := by
        rw [← hcq]
        exact hj0
      refine hdisjB (hlbmemB hq) ?_
      rw [← hcq]
      exact List.mem_cons_of_mem _ hj
  have hAsame : ∀ j ∈ ATree.idxs A,
      getN (rotateRightLeft t p x c) j = getN t j := by
    intro j hj
    have hj0 := (hbnd j (by simp [hj])).1
    refine hcOther j ?_ ?_ ?_ ?_ ?_ (hjnp j (by simp [hj]))
    · intro hcq
      refine hpnotT ?_
      rw [← hcq]
      exact List.mem_append_right _ (List.mem_cons_of_mem _ hj)
    · intro hcq
      exact hxnotA (hcq ▸ hj)
    · intro hcq
      exact hdisjBCD hcmemBCD (List.mem_cons_of_mem _ (hcq ▸ hj))
    · intro hcq
      have hq : ATree.rootIdx B ≠ 0 := by
        rw [← hcq]
        exact hj0
      exact hdisjBCD (List.mem_append_left _ (hlbmemB hq))
        (List.mem_cons_of_mem _ (hcq ▸ hj))
    · intro hcq
      have hq : ATree.rootIdx D ≠ 0 := by
        rw [← hcq]
        exact hj0
      exact hdisjBCD (List.mem_append_right _
        (List.mem_cons_of_mem _ (hrbmemD hq)))
        (List.mem_cons_of_mem _ (hcq ▸ hj))
  have hlb0ofB : B ≠ .nil → ATree.rootIdx B ≠ 0 := by
    intro hB2
    exact (rep_idxs_bound t B _ c hB _ (ATree.rootIdx_mem B hB2)).1
  have hrb0ofD : D ≠ .nil → ATree.rootIdx D ≠ 0 := by
    intro hD2
    exact (rep_idxs_bound t D _ c hD _ (ATree.rootIdx_mem D hD2)).1
  refine ⟨?_, ?_, by rw [hc00, h0]⟩
  · -- the rotated focus, now rooted at `c`
    refine ⟨rfl, hc0ne, by rw [alloc_rotateRightLeft]; exact hca,
      by rw [hcC2]; exact hCk, by rw [hcC2]; exact hCv,
      by rw [hcC2]; exact hCp, by rw [hcC2], by rw [hcC2]; exact hCrm, ?_, ?_⟩
    · -- left: the old focus `p` with the transferred subtree `B`
      rw [hcC2]
      show Rep (rotateRightLeft t p x c) (ATree.node p kp vp pp2 S B) p c
      refine ⟨rfl, hp0, by rw [alloc_rotateRightLeft]; exact hpa,
        by rw [hcP]; exact hPk, by rw [hcP]; exact hPv,
        by rw [hcP]; exact hPp, by rw [hcP], by rw [hcP]; exact hPrm, ?_, ?_⟩
      · rw [hcP]
        show Rep (rotateRightLeft t p x c) S (getN t p).left p
        exact rep_mono t _ S _ _ hSsame halloc hS
      · rw [hcP]
        show Rep (rotateRightLeft t p x c) B (ATree.rootIdx B) p
        refine rep_reparent t _ B (ATree.rootIdx B) c p (hlbE ▸ hB) hndB
          (fun hB2 => hcLB (hlb0ofB hB2)) hBsame halloc
    · -- right: the old inner node `x` with the transferred subtree `D`
      rw [hcC2]
      show Rep (rotateRightLeft t p x c) (ATree.node x kx vx px D A) x c
      refine ⟨rfl, hx0, by rw [alloc_rotateRightLeft]; exact hxa,
        by rw [hcX2]; exact hXk, by rw [hcX2]; exact hXv,
        by rw [hcX2]; exact hXp, by rw [hcX2], by rw [hcX2]; exact hXrm, ?_, ?_⟩
      · rw [hcX2]
        show Rep (rotateRightLeft t p x c) D (ATree.rootIdx D) x
        refine rep_reparent t _ D (ATree.rootIdx D) c x (hrbE ▸ hD) hndD
          (fun hD2 => hcRB (hrb0ofD hD2)) hDsame halloc
      · rw [hcX2]
        show Rep (rotateRightLeft t p x c) A (getN t x).right x
        exact rep_mono t _ A _ _ hAsame halloc hA
  · -- the retargeted context
    refine repC_retarget t _ ctx p c hp hcx ?_ ?_ ?_ halloc ?_ ?_ ?_ ?_
    · intro j hj hjhp
      by_cases hj0 : j = 0
      · rw [hj0]
        exact hc00
      · refine hcOther j ?_ ?_ ?_ ?_ ?_ hjhp
        · intro hcq
          rcases hj with hj | hj
          · exact (hout p hmemp).1 (hcq ▸ hj)
          · exact (hout p hmemp).2 (hcq ▸ hj)
        · intro hcq
          rcases hj with hj | hj
          · exact (hout x hmemx).1 (hcq ▸ hj)
          · exact (hout x hmemx).2 (hcq ▸ hj)
        · intro hcq
          rcases hj with hj | hj
          · exact (hout c hmemc).1 (hcq ▸ hj)
          · exact (hout c hmemc).2 (hcq ▸ hj)
        · intro hcq
          have hlbne : ATree.rootIdx B ≠ 0 := by
            rw [← hcq]
            exact hj0
          rcases hj with hj | hj
          · exact (hout _ (hlbmemL hlbne)).1 (hcq ▸ hj)
          · exact (hout _ (hlbmemL hlbne)).2 (hcq ▸ hj)
        · intro hcq
          have hrbne : ATree.rootIdx D ≠ 0 := by
            rw [← hcq]
            exact hj0
          rcases hj with hj | hj
          · exact (hout _ (hrbmemL hrbne)).1 (hcq ▸ hj)
          · exact (hout _ (hrbmemL hrbne)).2 (hcq ▸ hj)
    · intro i2 k2 v2 p2 ctx2 r2 hceq
      subst hceq
      exact plug_head_fresh_left ctx2 i2 k2 v2 p2 _ r2 hnd
    · intro i2 k2 v2 p2 l2 ctx2 hceq
      subst hceq
      exact plug_head_fresh_right ctx2 i2 k2 v2 p2 _ l2 hnd
    · intro hceq
      subst hceq
      obtain ⟨_, hhp0⟩ := hcx
      exact (hcTop hhp0).1
    · intro hne
      rcases hhpfacts with ⟨hceq, _⟩ | ⟨h1, _⟩
      · exact absurd hceq hne
      · exact ((hcDeep h1).1).symm
    · intro i2 k2 v2 p2 ctx2 r2 hceq
      subst hceq
      obtain ⟨h1, h2, h3, h4, h5, h6, h7, h8, h9, h10⟩ := hcx
      have hcell := (hcDeep (by rw [h1]; exact h2)).2
      rw [← h1]
      rw [hcell, if_pos (by rw [h1]; exact h8)]
    · intro i2 k2 v2 p2 l2 ctx2 hceq
      subst hceq
      obtain ⟨h1, h2, h3, h4, h5, h6, h7, h8, h9, h10⟩ := hcx
      have hcell := (hcDeep (by rw [h1]; exact h2)).2
      have hlne : (getN t i2).left ≠ p := by
        have hroot2 := rep_rootIdx t l2 _ i2 h9
        intro hcq
        cases hl2c : l2 with
        | nil =>
          rw [hl2c] at hroot2
          rw [hroot2] at hcq
          exact hp0 hcq.symm
        | node bb kk vv ppq ll rr =>
          have hmem2 : (getN t i2).left ∈ ATree.idxs l2 := by
            rw [hroot2]
            exact ATree.rootIdx_mem l2 (by rw [hl2c]; intro h2q; cases h2q)
          refine (hout p hmemp).1 ?_
          rw [← hcq]
          simp only [Ctx.pre, List.mem_append]
          exact Or.inl (Or.inr hmem2)
      rw [← h1]
      rw [hcell, if_neg (by rw [h1]; exact hlne)]

/-- The promote/demote parity flip realises a rank step. -/
theorem parityOf_flip (r : Int) : -1 - parityOf r = parityOf (r + 1) := by
  simp only [parityOf]
  rcases Int.emod_two_eq_zero_or_one r with h | h <;>
    rcases Int.emod_two_eq_zero_or_one (r + 1) with h2 | h2 <;>
    simp [h, h2] <;> omega

/-- Ranks two apart store the same parity. -/
theorem parityOf_two (r : Int) : parityOf (r + 1) = parityOf (r - 1) := by
  rw [parityOf_eq_iff]
  omega

/-- A represented WAVL subtree's root cell stores the parity of its
rank (the sentinel included). -/
theorem rep_parityOf (t : Tree) (s : ATree) (j par : Nat) (rs : Int)
    (hrep : Rep t s j par) (hw : WavlR s rs) (h0 : getN t 0 = nilNode) :
    (getN t j).parity = parityOf rs := by
  cases s with
  | nil =>
    have hj : j = 0 := hrep
    have hr : rs = -1 := hw
    rw [hj, h0, hr]
    rfl
  | node i k v p l r =>
    obtain ⟨h1, _, _, _, _, hp, _, _, _, _⟩ := hrep
    obtain ⟨hpar, _, _, _⟩ := hw
    rw [h1, hp, hpar]

/-- Refocusing on the head of a `left` frame: the frame node becomes
the focus with the old focus as its left child. -/
theorem repC_focus_left (t : Tree) (i : Nat) (k v pI : Int) (ctx2 : Ctx)
    (sib : ATree) (node hp : Nat) (sub : ATree)
    (hcx : RepC t (.left i k v pI ctx2 sib) node hp)
    (hrep : Rep t sub node hp) :
    hp = i ∧
    Rep t (ATree.node i k v pI sub sib) i (getN t i).parent ∧
    RepC t ctx2 i (getN t i).parent := by
  obtain ⟨h1, h2, h3, h4, h5, h6, h7, h8, h9, h10⟩ := hcx
  subst h1
  refine ⟨rfl, ⟨rfl, h2, h3, h4, h5, h6, rfl, h7, ?_, h9⟩, h10⟩
  rw [h8]
  exact hrep

/-- Refocusing on the head of a `right` frame. -/
theorem repC_focus_right (t : Tree) (i : Nat) (k v pI : Int) (sib : ATree)
    (ctx2 : Ctx) (node hp : Nat) (sub : ATree)
    (hcx : RepC t (.right i k v pI sib ctx2) node hp)
    (hrep : Rep t sub node hp) :
    hp = i ∧
    Rep t (ATree.node i k v pI sib sub) i (getN t i).parent ∧
    RepC t ctx2 i (getN t i).parent := by
  obtain ⟨h1, h2, h3, h4, h5, h6, h7, h8, h9, h10⟩ := hcx
  subst h1
  refine ⟨rfl, ⟨rfl, h2, h3, h4, h5, h6, rfl, h7, h9, ?_⟩, h10⟩
  rw [h8]
  exact hrep

/-- A rank-valid context admits a hole one rank higher in the relaxed
insert sense. -/
theorem wavlC_to_ins (ctx : Ctx) (ri : Int) (h : WavlC ctx ri) :
    WavlCIns ctx (ri + 1) := by
  cases ctx with
  | top => trivial
  | left i k v p ctx2 sib =>
    obtain ⟨rj, hp, hd, hs, _, hcx⟩ := h
    exact ⟨rj, hp, by omega, hs, hcx⟩
  | right i k v p sib ctx2 =>
    obtain ⟨rj, hp, hd, hs, _, hcx⟩ := h
    exact ⟨rj, hp, by omega, hs, hcx⟩

/-- Insert-fixup terminal case, focus a left child: single right
rotation at the frame node followed by its demotion restores the rank
rule and yields a valid whole tree. -/
theorem insFixLS (t : Tree) (ctx2 : Ctx) (i n : Nat) (k v kn vn : Int)
    (L R sibA : ATree) (r : Int)
    (hrep : Rep t (ATree.node n kn vn (parityOf r) L R) n i)
    (hcx : RepC t (Ctx.left i k v (parityOf r) ctx2 sibA) n i)
    (hnd : (ATree.idxs (Ctx.plug (Ctx.left i k v (parityOf r) ctx2 sibA)
      (ATree.node n kn vn (parityOf r) L R))).Nodup)
    (h0 : getN t 0 = nilNode)
    (hL : WavlR L (r - 1)) (hR : WavlR R (r - 2)) (hsib : WavlR sibA (r - 2))
    (hwc : WavlC ctx2 r) :
    ∃ a2, Rep (demote (rotateRight t i n) i) a2
        (demote (rotateRight t i n) i).root 0 ∧
      ATree.idxs a2 = ATree.idxs (Ctx.plug (Ctx.left i k v (parityOf r) ctx2 sibA)
        (ATree.node n kn vn (parityOf r) L R)) ∧
      ATree.inordF a2 = ATree.inordF (Ctx.plug
        (Ctx.left i k v (parityOf r) ctx2 sibA)
        (ATree.node n kn vn (parityOf r) L R)) ∧
      (∃ R2, WavlR a2 R2) ∧
      getN (demote (rotateRight t i n) i) 0 = nilNode := by
  have hi0 : i ≠ 0 := hcx.2.1
  obtain ⟨-, hrepP, hcx2⟩ := repC_focus_left t i k v (parityOf r) ctx2 sibA n i
    (ATree.node n kn vn (parityOf r) L R) hcx hrep
  have hndP : (ATree.idxs (Ctx.plug ctx2 (ATree.node i k v (parityOf r)
      (ATree.node n kn vn (parityOf r) L R) sibA))).Nodup := hnd
  obtain ⟨hrep1, hcx1, h01⟩ := rotateRight_rep t ctx2 ((getN t i).parent)
    i n k v (parityOf r) kn vn (parityOf r) L R sibA hrepP hcx2 hndP h0
  have hpar1 : (getN (rotateRight t i n) i).parity = parityOf r := by
    obtain ⟨-, -, -, -, -, -, -, -, -, hInner⟩ := hrep1
    exact hInner.2.2.2.2.2.1
  have hdem : demote (rotateRight t i n) i
      = setParity (rotateRight t i n) i (parityOf (r - 1)) := by
    rw [demote, hpar1, parityOf_flip, parityOf_two]
  have hfresh := plug_head_fresh_left ctx2 i k v (parityOf r)
    (ATree.node n kn vn (parityOf r) L R) sibA hnd
  obtain ⟨hndsub, hout⟩ := plug_nodup_parts ctx2 _ hndP
  simp only [ATree.idxs_node] at hndsub
  have hinotHead : i ∉ ATree.idxs L ++ n :: ATree.idxs R :=
    fun hc => (List.nodup_append.mp hndsub).2.2 hc (by simp)
  have hin : i ≠ n := fun hc => hinotHead (by rw [hc]; simp)
  have hiL : i ∉ ATree.idxs L := fun hc => hinotHead (List.mem_append_left _ hc)
  have hiR : i ∉ ATree.idxs R :=
    fun hc => hinotHead (List.mem_append_right _ (List.mem_cons_of_mem _ hc))
  have hisib : i ∉ ATree.idxs sibA := hfresh.1
  have hrep2 := rep_setParity (rotateRight t i n) i (parityOf (r - 1)) _ _ _ hrep1
  rw [show ATree.pUpd (ATree.node n kn vn (parityOf r) L
      (ATree.node i k v (parityOf r) R sibA)) i (parityOf (r - 1))
      = ATree.node n kn vn (parityOf r) L
        (ATree.node i k v (parityOf (r - 1)) R sibA) by
    simp [ATree.pUpd, show ¬ n = i from fun hc => hin hc.symm,
      pUpd_not_mem L i _ hiL, pUpd_not_mem R i _ hiR,
      pUpd_not_mem sibA i _ hisib]] at hrep2
  have hrc2 : RepC (setParity (rotateRight t i n) i (parityOf (r - 1)))
      ctx2 n ((getN t i).parent) := by
    refine repC_mono (rotateRight t i n) _ ctx2 n _ ?_ (by simp) (by rfl) hcx1
    intro j hj
    refine cell_setParity_ne _ _ _ _ ?_
    intro hc
    subst hc
    rcases List.mem_append.mp hj with h | h
    · exact hfresh.2.1 h
    · exact hfresh.2.2 h
  have hfull := repC_plug _ ctx2 _ n _ hrc2 hrep2
  have hw2 : WavlR (ATree.node n kn vn (parityOf r) L
      (ATree.node i k v (parityOf (r - 1)) R sibA)) r := by
    refine ⟨rfl, Or.inl hL, Or.inl ?_, ?_⟩
    · refine ⟨rfl, Or.inl ?_, Or.inl ?_, ?_⟩
      · rw [show r - 1 - 1 = r - 2 by omega]
        exact hR
      · rw [show r - 1 - 1 = r - 2 by omega]
        exact hsib
      · intro hRnil _
        rw [hRnil] at hR
        have h2 : r - 2 = -1 := hR
        omega
    · intro _ h2
      cases h2
  have hwfull := wavlC_plug ctx2 _ r hw2 hwc
  refine ⟨Ctx.plug ctx2 (ATree.node n kn vn (parityOf r) L
    (ATree.node i k v (parityOf (r - 1)) R sibA)), ?_, ?_, ?_, hwfull, ?_⟩
  · rw [hdem]
    exact hfull
  · rw [plug_idxs, plug_idxs]
    simp [Ctx.pre, Ctx.post]
  · rw [plug_inordF, plug_inordF]
    simp [Ctx.preF, Ctx.postF]
  · rw [hdem]
    rw [cell_setParity_ne _ _ _ _ (Ne.symm hi0)]
    exact h01

end Wavl
